import Mathlib

/-! THCCachingAllocator: a shallow embedding and its verified properties

The development embeds `lib/THC/THCCachingAllocator.cpp` (the stream-aware caching
allocator for device memory) into Lean.

* `Block` objects live in an explicit heap: a pointer `Block*` is an index into a list
  of cells, `none` being the null pointer.  `new Block` takes the next unused index and
  `delete` empties the cell.
* The two `std::set<Block*, Comparison>` pools are lists of block pointers in iteration
  order; an iterator is the suffix of the list that starts at its position, the empty
  suffix being `end()`.
* `std::unordered_map<void*, Block*>` is an association list with unique keys.
* `size_t` is `Nat` with arithmetic taken modulo `2 ^ 64` where the source computes on it.
* The device runtime (`hipGetDevice`, `hipMalloc`, `hipFree`, `hipGetLastError`) is a
  scripted oracle that records every call made to it.
-/

namespace THC

/-! ## Constants and the block record -/

/-- Round up small allocs to 512 bytes (`kRoundSmall`). -/
abbrev kRoundSmall : Nat := 512

/-- Round up large allocs to 128 KiB (`kRoundLarge`). -/
abbrev kRoundLarge : Nat := 131072

/-- Largest "small" allocation is 1 MiB (`kSmallAlloc`). -/
abbrev kSmallAlloc : Nat := 1048576

/-- Number of values of `size_t` (64-bit): arithmetic on sizes is modulo this. -/
abbrev SIZE_T : Nat := 18446744073709551616

/-- Modelled from the spec: the status type of the device runtime, declared in the HIP
headers.  The allocator only ever compares a status with `hipSuccess` and produces
`hipErrorInvalidDevicePointer` itself; every other status is carried through verbatim. -/
inductive hipError_t where
  | hipSuccess
  | hipErrorMemoryAllocation
  | hipErrorInvalidDevicePointer
  | hipErrorUnknown (code : Nat)
  deriving DecidableEq, Repr

open hipError_t

/-- The `Block` struct.  `stream` is the stream handle as the integer the comparator
casts it to, `ptr` the device address (`0` is `NULL`), `prev`/`next` are `Block*`. -/
structure Block where
  device : Int
  stream : Nat
  size : Nat
  ptr : Nat
  allocated : Bool
  prev : Option Nat
  next : Option Nat
  deriving DecidableEq, Repr

instance : Inhabited Block := ⟨⟨0, 0, 0, 0, false, none, none⟩⟩

/-- The constructor `Block(device, stream, size, ptr)`: not allocated, no siblings. -/
def Block.ctor (device : Int) (stream : Nat) (size : Nat) (ptr : Nat) : Block :=
  { device := device, stream := stream, size := size, ptr := ptr,
    allocated := false, prev := none, next := none }

/-- The test `!block->prev && !block->next`: the block has no sibling, it is not split. -/
def Block.root (b : Block) : Prop := b.prev = none ∧ b.next = none

instance (b : Block) : Decidable b.root :=
  inferInstanceAs (Decidable (b.prev = none ∧ b.next = none))

/-- The comparator `BlockComparator(a, b)`: lexicographic on device, stream, size, ptr. -/
def BlockComparator (a b : Block) : Bool :=
  if a.device ≠ b.device then decide (a.device < b.device)
  else if a.stream ≠ b.stream then decide (a.stream < b.stream)
  else if a.size ≠ b.size then decide (a.size < b.size)
  else decide (a.ptr < b.ptr)

/-! ## The heap of blocks -/

/-- The heap of `Block` objects: cell `p` holds the block `p` points to, or `none` once
the block has been deleted. -/
abbrev Heap := List (Option Block)

/-- Read `*p`.  Reading through a pointer to no live block is undefined in C++; the
embedding reads the zero block there. -/
def deref (h : Heap) (p : Nat) : Block :=
  match h[p]? with
  | some (some b) => b
  | _ => default

/-- Write `*p = f(*p)`.  A write through a pointer to no live block changes nothing. -/
def store (h : Heap) (p : Nat) (f : Block → Block) : Heap :=
  match h[p]? with
  | some (some b) => h.set p (some (f b))
  | _ => h

/-- The guarded write `if (p) *p = f(*p)`. -/
def store_opt (h : Heap) (p : Option Nat) (f : Block → Block) : Heap :=
  match p with
  | some q => store h q f
  | none => h

/-- The pointer that the next `new Block` returns. -/
def newPtr (h : Heap) : Nat := h.length

/-- The heap after `new Block(...)` built the block `b`. -/
def newBlock (h : Heap) (b : Block) : Heap := h ++ [some b]

/-- The heap after `delete p`. -/
def deleteBlock (h : Heap) (p : Nat) : Heap := h.set p none

/-! ## The device runtime -/

/-- One call to the device runtime, with its arguments and its answer. -/
inductive HipCall where
  | getDevice (err : hipError_t) (device : Int)
  | malloc (size : Nat) (err : hipError_t) (ptr : Nat)
  | free (ptr : Nat) (err : hipError_t)
  | getLastError
  deriving DecidableEq, Repr

/-- Modelled from the spec: the primitive device runtime of section 6, which is outside
the repository.  `device` is the answer `hipGetDevice` gives, `mallocs` and `frees` are
the answers the coming `hipMalloc` and `hipFree` calls give, in order (once used up,
`hipMalloc` fails with out-of-memory and `hipFree` succeeds), and `calls` records the
calls made so far, the latest first. -/
structure Hip where
  device : hipError_t × Int
  mallocs : List (hipError_t × Nat)
  frees : List hipError_t
  calls : List HipCall
  deriving DecidableEq, Repr

/-- Modelled from the spec: `get_current_device() → (device_id, status)`. -/
def hipGetDevice (hip : Hip) : hipError_t × Int × Hip :=
  (hip.device.1, hip.device.2,
    { hip with calls := HipCall.getDevice hip.device.1 hip.device.2 :: hip.calls })

/-- Modelled from the spec: `primitive_allocate(nbytes) → (address, status)`. -/
def hipMalloc (hip : Hip) (size : Nat) : hipError_t × Nat × Hip :=
  match hip.mallocs with
  | [] => (hipErrorMemoryAllocation, 0,
      { hip with calls := HipCall.malloc size hipErrorMemoryAllocation 0 :: hip.calls })
  | ans :: rest => (ans.1, ans.2,
      { hip with mallocs := rest, calls := HipCall.malloc size ans.1 ans.2 :: hip.calls })

/-- Modelled from the spec: `primitive_free(address) → status`. -/
def hipFree (hip : Hip) (ptr : Nat) : hipError_t × Hip :=
  match hip.frees with
  | [] => (hipSuccess, { hip with calls := HipCall.free ptr hipSuccess :: hip.calls })
  | err :: rest => (err, { hip with frees := rest, calls := HipCall.free ptr err :: hip.calls })

/-- Modelled from the spec: `clear_last_error()`. -/
def hipGetLastError (hip : Hip) : Hip :=
  { hip with calls := HipCall.getLastError :: hip.calls }

/-- The regions `(address, nbytes)` the runtime has handed out and not yet had freed,
read off the record of calls. -/
def hipLive : List HipCall → List (Nat × Nat)
  | [] => []
  | HipCall.malloc n hipSuccess p :: cs => (p, n) :: hipLive cs
  | HipCall.free p hipSuccess :: cs => (hipLive cs).filter (fun r => r.1 ≠ p)
  | _ :: cs => hipLive cs

/-- The primitive allocator behaved: every successful `hipMalloc` returned a non-null
region inside the address space and disjoint from every region live at that moment. -/
def hipSane : List HipCall → Bool
  | [] => true
  | HipCall.malloc n hipSuccess p :: cs =>
      decide (p ≠ 0) && decide (p + n ≤ SIZE_T) &&
      (hipLive cs).all (fun r => decide (p + n ≤ r.1) || decide (r.1 + r.2 ≤ p)) &&
      hipSane cs
  | _ :: cs => hipSane cs

/-! ## The allocator state and the pool operations -/

/-- The fields of `struct THCCachingAllocator` (the mutex apart), with the heap that
holds the `Block` objects they point to. -/
structure THCCachingAllocator where
  heap : Heap
  large_blocks : List Nat
  small_blocks : List Nat
  allocated_blocks : List (Nat × Nat)
  deriving DecidableEq, Repr

/-- The allocator as constructed: no blocks, both pools and the table empty. -/
def THCCachingAllocator.empty : THCCachingAllocator :=
  { heap := [], large_blocks := [], small_blocks := [], allocated_blocks := [] }

/-- The pool the reference `free_blocks = small ? large_blocks : small_blocks` denotes. -/
def getPool (small : Bool) (a : THCCachingAllocator) : List Nat :=
  if small then a.large_blocks else a.small_blocks

/-- Assign through the reference `free_blocks = small ? large_blocks : small_blocks`. -/
def setPool (small : Bool) (a : THCCachingAllocator) (fb : List Nat) : THCCachingAllocator :=
  if small then { a with large_blocks := fb } else { a with small_blocks := fb }

/-- The iterator `free_blocks.lower_bound(&key)`: the suffix starting at the first
element that is not less than `key`. -/
def lower_bound (h : Heap) (key : Block) (fb : List Nat) : List Nat :=
  fb.dropWhile (fun e => BlockComparator (deref h e) key)

/-- The set after `free_blocks.erase(it)` for a dereferenceable iterator `it`. -/
def erase_at (fb : List Nat) (it : List Nat) : List Nat :=
  fb.take (fb.length - it.length) ++ it.tail

/-- The set after `free_blocks.insert(x)`: `x` goes before the first element greater than
it, and is not inserted when an element equivalent to it is met. -/
def set_insert (h : Heap) (x : Nat) : List Nat → List Nat
  | [] => [x]
  | e :: es =>
    if BlockComparator (deref h e) (deref h x) then e :: set_insert h x es
    else if BlockComparator (deref h x) (deref h e) then x :: e :: es
    else e :: es

/-- The set after `free_blocks.erase(src)` by key: the element equivalent to `*src`, if
there is one, is removed. -/
def erase_key (h : Heap) (src : Nat) (fb : List Nat) : List Nat :=
  match lower_bound h (deref h src) fb with
  | [] => fb
  | e :: post =>
    if BlockComparator (deref h src) (deref h e) then fb
    else erase_at fb (e :: post)

/-- The method `round_size`. -/
def round_size (size : Nat) : Nat :=
  if size < kRoundSmall then kRoundSmall
  else if size < kSmallAlloc then
    (size + (kRoundSmall - 1 - (size - 1) % kRoundSmall)) % SIZE_T
  else
    (size + (kRoundLarge - 1 - (size - 1) % kRoundLarge)) % SIZE_T

/-- Subtraction of `size_t` values (wraps around below zero). -/
def sub_size_t (x y : Nat) : Nat := (x + SIZE_T - y) % SIZE_T

/-- Addition of `size_t` values (wraps around at `2 ^ 64`). -/
def add_size_t (x y : Nat) : Nat := (x + y) % SIZE_T

/-- What an allocator operation hands back: its status, the allocator and the runtime
afterwards. -/
structure Outcome where
  err : hipError_t
  alloc : THCCachingAllocator
  hip : Hip
  deriving DecidableEq, Repr

/-- What `malloc` and `hip_malloc_retry` hand back: as `Outcome`, with the address written
to `*devPtr` (`none` when nothing was written). -/
structure MallocOutcome where
  err : hipError_t
  devPtr : Option Nat
  alloc : THCCachingAllocator
  hip : Hip
  deriving DecidableEq, Repr

/-- What `free_blocks` hands back: its status, the heap, the runtime and the set. -/
structure FreeOutcome where
  err : hipError_t
  heap : Heap
  hip : Hip
  blocks : List Nat
  deriving DecidableEq, Repr

/-! ## The methods of the allocator -/

/-- The method `try_merge_blocks(dst, src, free_blocks)`; returns the heap and the set. -/
def try_merge_blocks (h : Heap) (dst : Nat) (src : Option Nat) (fb : List Nat) :
    Heap × List Nat :=
  match src with
  | none => (h, fb)
  | some s =>
    if (deref h s).allocated then (h, fb)
    else
      let h1 :=
        if (deref h dst).prev = some s then
          let ha := store h dst (fun b => { b with ptr := (deref h s).ptr })
          let hb := store ha dst (fun b => { b with prev := (deref ha s).prev })
          store_opt hb (deref hb dst).prev (fun b => { b with next := some dst })
        else
          let ha := store h dst (fun b => { b with next := (deref h s).next })
          store_opt ha (deref ha dst).next (fun b => { b with prev := some dst })
      let h2 := store h1 dst (fun b => { b with size := add_size_t b.size (deref h1 s).size })
      (deleteBlock h2 s, erase_key h2 s fb)

/-- The loop of `free_blocks` over the elements between `it` and `end`: a block with no
sibling is handed to `hipFree`, erased and deleted; the first failing `hipFree` ends the
walk.  `blocks` of the result are the elements of the range that stay in the set. -/
def free_blocks_loop : List Nat → Heap → Hip → FreeOutcome
  | [], h, hip => ⟨hipSuccess, h, hip, []⟩
  | b :: rest, h, hip =>
    if (deref h b).root then
      if (hipFree hip (deref h b).ptr).1 ≠ hipSuccess then
        ⟨(hipFree hip (deref h b).ptr).1, h, (hipFree hip (deref h b).ptr).2, b :: rest⟩
      else
        free_blocks_loop rest (deleteBlock h b) (hipFree hip (deref h b).ptr).2
    else
      let r := free_blocks_loop rest h hip
      { r with blocks := b :: r.blocks }

/-- The method `free_blocks(blocks, it, end)`: the elements before `it` and from `end` on
are not visited. -/
def free_blocks (h : Heap) (hip : Hip) (blocks it endIt : List Nat) : FreeOutcome :=
  let n := it.length - endIt.length
  let r := free_blocks_loop (it.take n) h hip
  { r with blocks := blocks.take (blocks.length - it.length) ++ r.blocks ++ it.drop n }

/-- The method `free_cached_blocks(device)`.  The source adds `device + 1` in `int`; the
sum here is the one of the integers, which is the source's whenever `device + 1 < 2 ^ 31`
(for `device = INT_MAX` the addition in the source overflows and has no defined value). -/
def free_cached_blocks (a : THCCachingAllocator) (hip : Hip) (device : Int) : Outcome :=
  let lower := Block.ctor device 0 0 0
  let upper := Block.ctor (device + 1) 0 0 0
  let r1 := free_blocks a.heap hip a.large_blocks
    (lower_bound a.heap lower a.large_blocks) (lower_bound a.heap upper a.large_blocks)
  if r1.err ≠ hipSuccess then
    ⟨r1.err, { a with heap := r1.heap, large_blocks := r1.blocks }, r1.hip⟩
  else
    let r2 := free_blocks r1.heap r1.hip a.small_blocks
      (lower_bound r1.heap lower a.small_blocks) (lower_bound r1.heap upper a.small_blocks)
    ⟨r2.err, { a with heap := r2.heap, large_blocks := r1.blocks, small_blocks := r2.blocks },
      r2.hip⟩

/-- The method `hip_malloc_retry(device, devPtr, size)`. -/
def hip_malloc_retry (a : THCCachingAllocator) (hip : Hip) (device : Int) (size : Nat) :
    MallocOutcome :=
  let m1 := hipMalloc hip size
  if m1.1 ≠ hipSuccess then
    let r := free_cached_blocks a (hipGetLastError m1.2.2) device
    if r.err ≠ hipSuccess then ⟨r.err, none, r.alloc, r.hip⟩
    else
      let m2 := hipMalloc r.hip size
      if m2.1 ≠ hipSuccess then ⟨m2.1, none, r.alloc, m2.2.2⟩
      else ⟨hipSuccess, some m2.2.1, r.alloc, m2.2.2⟩
  else ⟨hipSuccess, some m1.2.1, a, m1.2.2⟩

/-- The pool lookup of `malloc` (lines 111-114): the block `*it` when the lower bound of
the search key is a block of this device and stream. -/
def malloc_hit (a : THCCachingAllocator) (device : Int) (stream : Nat) (size : Nat) :
    Option Nat :=
  match lower_bound a.heap (Block.ctor device stream size 0)
      (getPool (decide (size ≤ kSmallAlloc)) a) with
  | [] => none
  | e :: _ =>
    if (deref a.heap e).device = device ∧ (deref a.heap e).stream = stream then some e
    else none

/-- The end of `malloc` (lines 141-145): mark the block allocated, enter it in the table
under its address and return that address. -/
def malloc_record (a : THCCachingAllocator) (hip : Hip) (block : Nat) : MallocOutcome :=
  let h := store a.heap block (fun b => { b with allocated := true })
  let p := (deref h block).ptr
  ⟨hipSuccess, some p,
    { a with heap := h,
             allocated_blocks := (p, block) :: a.allocated_blocks.filter (fun kv => kv.1 ≠ p) },
    hip⟩

/-- The heap after the split of `malloc` (lines 126-137): a new block of `size` bytes at the
address of `remaining` is linked in before it, and `remaining` keeps the rest. -/
def malloc_split_heap (h : Heap) (remaining : Nat) (device : Int) (stream : Nat)
    (size : Nat) : Heap :=
  let blk := newPtr h
  let h0 := newBlock h (Block.ctor device stream size (deref h remaining).ptr)
  let h1 := store h0 blk (fun b => { b with prev := (deref h0 remaining).prev })
  let h2 := store_opt h1 (deref h1 blk).prev (fun b => { b with next := some blk })
  let h3 := store h2 blk (fun b => { b with next := some remaining })
  let h4 := store h3 remaining (fun b => { b with prev := some blk })
  let h5 := store h4 remaining (fun b => { b with ptr := b.ptr + size })
  store h5 remaining (fun b => { b with size := sub_size_t b.size size })

/-- The least remainder that is split off: `small ? kRoundSmall : kSmallAlloc + 1`. -/
def split_threshold (size : Nat) : Nat :=
  if size ≤ kSmallAlloc then kRoundSmall else kSmallAlloc + 1

/-- The split decision of `malloc` (lines 125-139) followed by its end, for the chosen
block `block` and the rounded size `size`. -/
def malloc_split (a : THCCachingAllocator) (hip : Hip) (block : Nat) (device : Int)
    (stream : Nat) (size : Nat) : MallocOutcome :=
  if sub_size_t (deref a.heap block).size size ≥ split_threshold size then
    malloc_record
      (setPool (decide (size ≤ kSmallAlloc))
        { a with heap := malloc_split_heap a.heap block device stream size }
        (set_insert (malloc_split_heap a.heap block device stream size) block
          (getPool (decide (size ≤ kSmallAlloc)) a)))
      hip (newPtr a.heap)
  else malloc_record a hip block

/-- The byte count asked of the primitive on a miss: `small ? kSmallAlloc : size`. -/
def alloc_size (size : Nat) : Nat :=
  if size ≤ kSmallAlloc then kSmallAlloc else size

/-- The miss path of `malloc` (lines 116-122) and what follows it: the primitive
allocation with its retry, the new block, then the split decision. -/
def malloc_miss (a : THCCachingAllocator) (hip : Hip) (device : Int) (stream : Nat)
    (size : Nat) : MallocOutcome :=
  let r := hip_malloc_retry a hip device (alloc_size size)
  if r.err ≠ hipSuccess then ⟨r.err, none, r.alloc, r.hip⟩
  else
    malloc_split
      { r.alloc with
        heap := newBlock r.alloc.heap
          (Block.ctor device stream (alloc_size size) (r.devPtr.getD 0)) }
      r.hip (newPtr r.alloc.heap) device stream size

/-- The body of `malloc` after the device query, for the rounded size `size`: the block
found in the pool is erased from it, otherwise the miss path is taken. -/
def malloc_rounded (a : THCCachingAllocator) (hip : Hip) (device : Int) (stream : Nat)
    (size : Nat) : MallocOutcome :=
  match malloc_hit a device stream size with
  | some block =>
    malloc_split
      (setPool (decide (size ≤ kSmallAlloc)) a
        (erase_at (getPool (decide (size ≤ kSmallAlloc)) a)
          (lower_bound a.heap (Block.ctor device stream size 0)
            (getPool (decide (size ≤ kSmallAlloc)) a))))
      hip block device stream size
  | none => malloc_miss a hip device stream size

/-- The method `malloc(devPtr, size, stream)`: allocates a block which is safe to use from
the provided stream. -/
def malloc (a : THCCachingAllocator) (hip : Hip) (size : Nat) (stream : Nat) : MallocOutcome :=
  let dev := hipGetDevice hip
  if dev.1 ≠ hipSuccess then ⟨dev.1, none, a, dev.2.2⟩
  else malloc_rounded a dev.2.2 dev.2.1 stream (round_size size)

/-- The method `free(ptr)`. -/
def free (a : THCCachingAllocator) (hip : Hip) (ptr : Nat) : Outcome :=
  if ptr = 0 then ⟨hipSuccess, a, hip⟩
  else
    match a.allocated_blocks.lookup ptr with
    | none => ⟨hipErrorInvalidDevicePointer, a, hip⟩
    | some block =>
      let table := a.allocated_blocks.filter (fun kv => kv.1 ≠ ptr)
      let small := decide ((deref a.heap block).size ≤ kSmallAlloc)
      let m1 := try_merge_blocks a.heap block (deref a.heap block).prev (getPool small a)
      let m2 := try_merge_blocks m1.1 block (deref m1.1 block).next m1.2
      let h := store m2.1 block (fun b => { b with allocated := false })
      ⟨hipSuccess,
        setPool small { a with heap := h, allocated_blocks := table } (set_insert h block m2.2),
        hip⟩

/-- The method `emptyCache()`: returns cached blocks to the system allocator. -/
def emptyCache (a : THCCachingAllocator) (hip : Hip) : Outcome :=
  let r1 := free_blocks a.heap hip a.large_blocks a.large_blocks []
  if r1.err ≠ hipSuccess then
    ⟨r1.err, { a with heap := r1.heap, large_blocks := r1.blocks }, r1.hip⟩
  else
    let r2 := free_blocks r1.heap r1.hip a.small_blocks a.small_blocks []
    if r2.err ≠ hipSuccess then
      ⟨r2.err, { a with heap := r2.heap, large_blocks := r1.blocks, small_blocks := r2.blocks },
        r2.hip⟩
    else
      ⟨hipSuccess,
        { a with heap := r2.heap, large_blocks := r1.blocks, small_blocks := r2.blocks }, r2.hip⟩

/-! ## Reachable states, the rounding rule of the specification, sample runs -/

/-- The pairs of an allocator state and a runtime that arise from the freshly constructed
allocator by calls of `malloc`, `free` and `emptyCache` with any arguments, whatever
the runtime answers: between two calls the current device and the answers the runtime
is going to give may change freely, the record of its calls is kept. -/
inductive Reachable : THCCachingAllocator → Hip → Prop
  | init (hip : Hip) : hip.calls = [] → Reachable THCCachingAllocator.empty hip
  | answers {a : THCCachingAllocator} {hip : Hip} (device : hipError_t × Int)
      (mallocs : List (hipError_t × Nat)) (frees : List hipError_t) :
      Reachable a hip → Reachable a { hip with device := device, mallocs := mallocs, frees := frees }
  | malloc {a : THCCachingAllocator} {hip : Hip} (size stream : Nat) :
      Reachable a hip → size < SIZE_T →
      Reachable (malloc a hip size stream).alloc (malloc a hip size stream).hip
  | free {a : THCCachingAllocator} {hip : Hip} (ptr : Nat) :
      Reachable a hip → Reachable (free a hip ptr).alloc (free a hip ptr).hip
  | emptyCache {a : THCCachingAllocator} {hip : Hip} :
      Reachable a hip → Reachable (emptyCache a hip).alloc (emptyCache a hip).hip

/-- The block that a `malloc` handed out: the outcome carries an address, the allocated
table of the new state maps it to a block, and that block satisfies `P`. -/
def ReturnedBlock (r : MallocOutcome) (P : Block → Prop) : Prop :=
  ∃ p blk, r.devPtr = some p ∧ r.alloc.allocated_blocks.lookup p = some blk ∧
    P (deref r.alloc.heap blk)

/-- Every live block of the heap satisfies `P`. -/
def HeapAll (P : Block → Prop) (h : Heap) : Prop :=
  ∀ (i : Nat) (b : Block), h[i]? = some (some b) → P b

/-- Two facts about the representation that hold in every reachable state: the size of
every live block is a `size_t` value, and every pointer held in a pool or in the allocated
table points into the heap. -/
structure WellTyped (a : THCCachingAllocator) : Prop where
  sizes : HeapAll (fun b => b.size < SIZE_T) a.heap
  large : ∀ b ∈ a.large_blocks, b < a.heap.length
  small : ∀ b ∈ a.small_blocks, b < a.heap.length
  table : ∀ kv ∈ a.allocated_blocks, kv.2 < a.heap.length

/-- The data-model invariant on the owner of siblings (section 3 of the specification):
a sibling of a live block, before or after it, has the device and the stream of that
block. -/
def SiblingsShareOwner (a : THCCachingAllocator) : Prop :=
  ∀ (b : Nat) (blk : Block), a.heap[b]? = some (some blk) →
    (∀ p, blk.prev = some p →
      (deref a.heap p).device = blk.device ∧ (deref a.heap p).stream = blk.stream) ∧
    (∀ n, blk.next = some n →
      (deref a.heap n).device = blk.device ∧ (deref a.heap n).stream = blk.stream)

/-- The check of `SiblingsShareOwner` for one block of the heap `h`. -/
def siblings_ok (h : Heap) (blk : Block) : Bool :=
  (match blk.prev with
    | none => true
    | some p => decide ((deref h p).device = blk.device ∧ (deref h p).stream = blk.stream)) &&
  (match blk.next with
    | none => true
    | some n => decide ((deref h n).device = blk.device ∧ (deref h n).stream = blk.stream))

/-- The check of `SiblingsShareOwner` by a walk over the heap. -/
def siblings_check (a : THCCachingAllocator) : Bool :=
  a.heap.all (fun c => match c with
    | none => true
    | some blk => siblings_ok a.heap blk)

/-- The rounding helper of the specification: `ceil(x, g) = x + g - 1 - (x-1) mod g`. -/
def spec_ceil (x g : Nat) : Nat := x + g - 1 - (x - 1) % g

/-- The size rounding rule as the specification words it (section 4.1). -/
def spec_round_size (size : Nat) : Nat :=
  if size < 512 then 512
  else if size < 1048576 then spec_ceil size 512
  else spec_ceil size 131072

/-- A runtime on device 0 that has made no call yet and will answer the next two
`hipMalloc` calls with the addresses 4096 and 8388608. -/
def hipTwo : Hip := ⟨(hipSuccess, 0), [(hipSuccess, 4096), (hipSuccess, 8388608)], [], []⟩

/-- The fresh allocator after `malloc(200)` on stream 7: a 512-byte block at 4096 is
allocated, the 1048064-byte remainder at 4608 is cached. -/
def afterFirst : MallocOutcome := malloc THCCachingAllocator.empty hipTwo 200 7

/-- The state after `afterFirst`, a `malloc(100)` on stream 8 (served by a second primitive
block at 8388608) and the `free` of that address: the pool holds the split remainder of
stream 7 and the whole, unsplit block of stream 8. -/
def cachedTwo : Outcome :=
  free (malloc afterFirst.alloc afterFirst.hip 100 8).alloc
    (malloc afterFirst.alloc afterFirst.hip 100 8).hip 8388608

/-- The fresh allocator after `malloc(SIZE_MAX)` on stream 7. -/
def hugeFirst : MallocOutcome :=
  malloc THCCachingAllocator.empty hipTwo 18446744073709551615 7

/-! ## The record of runtime calls, ordered pools, further sample runs -/

/-- The status a call to the runtime returned (`hipGetLastError` only clears a flag). -/
def HipCall.err : HipCall → hipError_t
  | HipCall.getDevice e _ => e
  | HipCall.malloc _ e _ => e
  | HipCall.free _ e => e
  | HipCall.getLastError => hipSuccess

/-- The call is a `hipMalloc`. -/
def HipCall.isMalloc : HipCall → Bool
  | HipCall.malloc _ _ _ => true
  | _ => false

/-- The call is a `hipFree`. -/
def HipCall.isFree : HipCall → Bool
  | HipCall.free _ _ => true
  | _ => false

/-- The call is a `hipGetDevice`. -/
def HipCall.isGetDevice : HipCall → Bool
  | HipCall.getDevice _ _ => true
  | _ => false

/-- The calls of a record (latest first) that failed and are a device query, a `hipFree`,
or a `hipMalloc` that is not the first `hipMalloc` of the record (a retried one). -/
def failed_calls : List HipCall → List HipCall
  | [] => []
  | c :: rest =>
    if c.err ≠ hipSuccess ∧ (c.isGetDevice ∨ c.isFree ∨ (c.isMalloc ∧ rest.any HipCall.isMalloc))
    then c :: failed_calls rest
    else failed_calls rest

/-- The record `fs` of the `hipFree` calls of a walk that returned `err`: when the walk
succeeded all of them did, and when it failed the latest call is the failing one, with
the status returned, and all before it succeeded. -/
def FreeRecord (fs : List HipCall) (err : hipError_t) : Prop :=
  (∀ c ∈ fs, c.isFree = true) ∧
  (err = hipSuccess → ∀ c ∈ fs, c.err = hipSuccess) ∧
  (err ≠ hipSuccess → ∃ c fs', fs = c :: fs' ∧ c.err = err ∧ ∀ c' ∈ fs', c'.err = hipSuccess)

/-- The two pools are ordered sets: each is strictly increasing under `BlockComparator`
(read through the heap), and no block is in both. -/
structure PoolsOrdered (a : THCCachingAllocator) : Prop where
  large_sorted : a.large_blocks.Pairwise
    (fun x y => BlockComparator (deref a.heap x) (deref a.heap y) = true)
  small_sorted : a.small_blocks.Pairwise
    (fun x y => BlockComparator (deref a.heap x) (deref a.heap y) = true)
  disjoint : ∀ x ∈ a.large_blocks, x ∉ a.small_blocks

/-- What `free_cached_blocks(d)` does when the pools are ordered sets and every `hipFree`
succeeds. -/
structure FreedCached (a : THCCachingAllocator) (hip : Hip) (d : Int) (r : Outcome) :
    Prop where
  err : r.err = hipSuccess
  frees : ∀ e ∈ r.hip.frees, e = hipSuccess
  table : r.alloc.allocated_blocks = a.allocated_blocks
  length : r.alloc.heap.length = a.heap.length
  large_sub : ∀ x ∈ r.alloc.large_blocks, x ∈ a.large_blocks
  small_sub : ∀ x ∈ r.alloc.small_blocks, x ∈ a.small_blocks
  gone : ∀ x, x ∈ a.large_blocks ∨ x ∈ a.small_blocks → (deref a.heap x).device = d →
    (deref a.heap x).root →
    x ∉ r.alloc.large_blocks ∧ x ∉ r.alloc.small_blocks ∧
      ∃ fs, r.hip.calls = fs ++ hip.calls ∧ HipCall.free (deref a.heap x).ptr hipSuccess ∈ fs
  cell : ∀ q, ¬ ((q ∈ a.large_blocks ∨ q ∈ a.small_blocks) ∧ (deref a.heap q).device = d ∧
    (deref a.heap q).root) → r.alloc.heap[q]? = a.heap[q]?
  calls : ∃ fs, r.hip.calls = fs ++ hip.calls ∧ FreeRecord fs hipSuccess
  mallocs : r.hip.mallocs = hip.mallocs

/-- A cell holds a block: the pointer points to a block that has not been deleted. -/
def Live (h : Heap) (p : Nat) : Prop := ∃ b, h[p]? = some (some b)

/-- A runtime whose device query fails with the status 5. -/
def hipNoDevice : Hip := ⟨(hipErrorUnknown 5, 0), [(hipSuccess, 4096)], [], []⟩

/-- A runtime on device 0 whose first `hipMalloc` fails with out-of-memory and whose second
`hipMalloc` fails with the status 3. -/
def hipFailTwice : Hip :=
  ⟨(hipSuccess, 0), [(hipErrorMemoryAllocation, 0), (hipErrorUnknown 3, 0)], [], []⟩

/-- Two whole 1 MiB blocks cached on device 0: `malloc(1 MiB)` on stream 7 and on stream 8,
served by the primitive at 4096 and 8388608, both freed again. -/
def twoRoots : Outcome :=
  free
    (free (malloc (malloc THCCachingAllocator.empty hipTwo 1048576 7).alloc
        (malloc THCCachingAllocator.empty hipTwo 1048576 7).hip 1048576 8).alloc
      (malloc (malloc THCCachingAllocator.empty hipTwo 1048576 7).alloc
        (malloc THCCachingAllocator.empty hipTwo 1048576 7).hip 1048576 8).hip 4096).alloc
    (free (malloc (malloc THCCachingAllocator.empty hipTwo 1048576 7).alloc
        (malloc THCCachingAllocator.empty hipTwo 1048576 7).hip 1048576 8).alloc
      (malloc (malloc THCCachingAllocator.empty hipTwo 1048576 7).alloc
        (malloc THCCachingAllocator.empty hipTwo 1048576 7).hip 1048576 8).hip 4096).hip
    8388608

/-- The runtime of `twoRoots`, made to fail the next `hipMalloc` with out-of-memory and to
answer the one after it with the address 16777216. -/
def hipOomOnce : Hip :=
  { twoRoots.hip with
    mallocs := [(hipErrorMemoryAllocation, 0), (hipSuccess, 16777216)], frees := [] }

/-- The state after `hugeFirst` and a `malloc(200)` on the same stream. -/
def wrappedSecond : MallocOutcome := malloc hugeFirst.alloc hugeFirst.hip 200 7

/-- The fresh allocator after `malloc(2 MiB)` on stream 7 and the `free` of its address. -/
def largeFreed : Outcome :=
  free (malloc THCCachingAllocator.empty hipTwo 2097152 7).alloc
    (malloc THCCachingAllocator.empty hipTwo 2097152 7).hip 4096

/-! ## Sibling chains, ordered pools and the regions of the runtime -/

/-- A run of sibling blocks with what it was cut from: the blocks, first to last, the device
and stream of the primitive allocation and the region `base`, `total` it returned. -/
structure Chain where
  device : Int
  stream : Nat
  base : Nat
  total : Nat
  blocks : List Nat
  deriving DecidableEq, Repr

/-- The block `y` is the sibling after `x`: the links agree, `y` starts where `x` ends, and
at least one of the two is allocated. -/
def Adj (h : Heap) (x y : Nat) : Prop :=
  (deref h x).next = some y ∧ (deref h y).prev = some x ∧
  (deref h x).ptr + (deref h x).size = (deref h y).ptr ∧
  ((deref h x).allocated = true ∨ (deref h y).allocated = true)

/-- The block `x` is live and belongs to the chain `c`: it has the device and stream of the
chain, and in a chain cut from more than 1 MiB it is itself larger than 1 MiB. -/
def Owned (h : Heap) (c : Chain) (x : Nat) : Prop :=
  Live h x ∧ (deref h x).device = c.device ∧ (deref h x).stream = c.stream ∧
  (kSmallAlloc < c.total → kSmallAlloc < (deref h x).size)

/-- The chain `c` is laid out in the heap `h`: its blocks are distinct, live, owned alike,
linked in order, and tile the region from `base` to `base + total`. -/
structure ChainOK (h : Heap) (c : Chain) : Prop where
  nodup : c.blocks.Nodup
  each : ∀ x ∈ c.blocks, Owned h c x
  adj : c.blocks.Chain' (Adj h)
  first : ∀ x ∈ c.blocks.head?, (deref h x).prev = none ∧ (deref h x).ptr = c.base
  last : ∀ x ∈ c.blocks.getLast?,
    (deref h x).next = none ∧ (deref h x).ptr + (deref h x).size = c.base + c.total
  total_ge : kSmallAlloc ≤ c.total
  total_lt : c.total < SIZE_T

/-- What the split of `malloc` (lines 126-137) followed by `block->allocated = true` does to
the cells of the heap `h`, giving `h2`: `r` is the block split, `N` the new block of `s`
bytes that is handed out. -/
structure SplitCells (h h2 : Heap) (r N : Nat) (dev : Int) (st s : Nat) : Prop where
  live : ∀ q, Live h2 q ↔ (q = N ∨ Live h q)
  new : deref h2 N = ⟨dev, st, s, (deref h r).ptr, true, (deref h r).prev, some r⟩
  rem : deref h2 r = { deref h r with
    prev := some N, ptr := (deref h r).ptr + s, size := sub_size_t (deref h r).size s }
  before : ∀ p, (deref h r).prev = some p → Live h p →
    deref h2 p = { deref h p with next := some N }
  other : ∀ q, q ≠ N → q ≠ r → (deref h r).prev ≠ some q → deref h2 q = deref h q

/-- The heap after the stores of `try_merge_blocks(dst, src, ...)` (lines 195-207) for a
`src` that is merged, before `delete src`. -/
def merge_heap (h : Heap) (dst s : Nat) : Heap :=
  let h1 :=
    if (deref h dst).prev = some s then
      let ha := store h dst (fun b => { b with ptr := (deref h s).ptr })
      let hb := store ha dst (fun b => { b with prev := (deref ha s).prev })
      store_opt hb (deref hb dst).prev (fun b => { b with next := some dst })
    else
      let ha := store h dst (fun b => { b with next := (deref h s).next })
      store_opt ha (deref ha dst).next (fun b => { b with prev := some dst })
  store h1 dst (fun b => { b with size := add_size_t b.size (deref h1 s).size })

/-- The cells after `try_merge_blocks(d, s, ...)` merged the block `s` before `d` into `d`. -/
structure MergePrevCells (h h2 : Heap) (d s : Nat) : Prop where
  live : ∀ q, Live h2 q ↔ (q ≠ s ∧ Live h q)
  dst : deref h2 d = ⟨(deref h d).device, (deref h d).stream,
    add_size_t (deref h d).size (deref h s).size, (deref h s).ptr, (deref h d).allocated,
    (deref h s).prev, (deref h d).next⟩
  before : ∀ p, (deref h s).prev = some p → Live h p →
    deref h2 p = { deref h p with next := some d }
  other : ∀ q, q ≠ d → q ≠ s → (deref h s).prev ≠ some q → deref h2 q = deref h q

/-- The cells after `try_merge_blocks(d, s, ...)` merged the block `s` after `d` into `d`. -/
structure MergeNextCells (h h2 : Heap) (d s : Nat) : Prop where
  live : ∀ q, Live h2 q ↔ (q ≠ s ∧ Live h q)
  dst : deref h2 d = ⟨(deref h d).device, (deref h d).stream,
    add_size_t (deref h d).size (deref h s).size, (deref h d).ptr, (deref h d).allocated,
    (deref h d).prev, (deref h s).next⟩
  after : ∀ n, (deref h s).next = some n → Live h n →
    deref h2 n = { deref h n with prev := some d }
  other : ∀ q, q ≠ d → q ≠ s → (deref h s).next ≠ some q → deref h2 q = deref h q

/-- The list of block pointers is strictly increasing under `BlockComparator`, read
through the heap: it is the iteration order of a `std::set<Block*, Comparison>`. -/
def Sorted (h : Heap) (l : List Nat) : Prop :=
  l.Pairwise (fun x y => BlockComparator (deref h x) (deref h y) = true)

/-- The set `l` is the pool that `small ? large_blocks : small_blocks` denotes: it is
ordered, and its blocks are live, not allocated and of the size class `small`. -/
structure PoolOK (h : Heap) (small : Bool) (l : List Nat) : Prop where
  sorted : Sorted h l
  mem : ∀ x ∈ l, Live h x ∧ (deref h x).allocated = false ∧
    decide ((deref h x).size ≤ kSmallAlloc) = small

/-- The chains of a heap: every live block lies in its chain, which is laid out in the
heap, and all blocks of a chain have that chain. -/
def Chained (h : Heap) (ch : Nat → Chain) : Prop :=
  ∀ x, Live h x → x ∈ (ch x).blocks ∧ ChainOK h (ch x) ∧ ∀ y ∈ (ch x).blocks, ch y = ch x

/-- The invariant of the allocator, with `ch` telling the chain each live block is part of:
every live block lies in its chain, which is laid out in the heap; both pools are ordered
sets of free blocks of their size class; the allocated table has unique keys and maps an
address to an allocated block at that address. -/
structure Inv (a : THCCachingAllocator) (ch : Nat → Chain) : Prop where
  chain : Chained a.heap ch
  pool : ∀ small, PoolOK a.heap small (getPool small a)
  table_keys : (a.allocated_blocks.map Prod.fst).Nodup
  table_mem : ∀ kv ∈ a.allocated_blocks,
    Live a.heap kv.2 ∧ (deref a.heap kv.2).allocated = true ∧ (deref a.heap kv.2).ptr = kv.1

/-- The block `x` is live in `h2` with the data it has in `h`: only its links may differ. -/
def SameData (h h2 : Heap) (x : Nat) : Prop :=
  Live h2 x ∧ (deref h2 x).device = (deref h x).device ∧
  (deref h2 x).stream = (deref h x).stream ∧ (deref h2 x).size = (deref h x).size ∧
  (deref h2 x).ptr = (deref h x).ptr ∧ (deref h2 x).allocated = (deref h x).allocated

/-- The chain map after the chain `c2` took the place of a chain: the blocks of `c2` are
in `c2`, every other block is where it was. -/
def rechain (ch : Nat → Chain) (c2 : Chain) : Nat → Chain :=
  fun x => if x ∈ c2.blocks then c2 else ch x

/-- The chains against the record of the runtime: the region of every chain is one the
primitive allocator handed out and has not been given back, it does not start at the null
address, and the regions of two chains do not overlap. -/
structure Geom (h : Heap) (ch : Nat → Chain) (calls : List HipCall) : Prop where
  region : ∀ x, Live h x → ((ch x).base, (ch x).total) ∈ hipLive calls
  base_ne : ∀ x, Live h x → (ch x).base ≠ 0
  apart : ∀ x y, Live h x → Live h y → ch x ≠ ch y →
    (ch x).base + (ch x).total ≤ (ch y).base ∨ (ch y).base + (ch y).total ≤ (ch x).base

/-- Every `hipFree` of the record was given an address that the primitive allocator had
handed out and that had not been freed since. -/
def hipFreesValid : List HipCall → Bool
  | [] => true
  | HipCall.free p _ :: cs => (hipLive cs).any (fun r => decide (r.1 = p)) && hipFreesValid cs
  | _ :: cs => hipFreesValid cs

/-- What a walk of `free_blocks` over the blocks `l` keeps, for the chains `ch`. -/
structure Walk (ch : Nat → Chain) (h : Heap) (hip : Hip) (l : List Nat) (r : FreeOutcome) :
    Prop where
  chained : Chained r.heap ch
  sub : r.blocks.Sublist l
  cell : ∀ q, Live r.heap q → Live h q ∧ deref r.heap q = deref h q
  keep : ∀ q, Live h q → q ∉ l → Live r.heap q
  kept : ∀ q ∈ r.blocks, Live r.heap q
  geom : Geom h ch hip.calls → Geom r.heap ch r.hip.calls
  frees : Geom h ch hip.calls → hipFreesValid hip.calls = true →
    hipFreesValid r.hip.calls = true
  sane : hipSane r.hip.calls = hipSane hip.calls

/-- The invariant of the allocator with its runtime, for the chains `ch`: the invariant
of the allocator and, when the record shows that the primitive allocator behaved, the
agreement of the chains with the record. -/
def GoodWith (a : THCCachingAllocator) (hip : Hip) (ch : Nat → Chain) : Prop :=
  Inv a ch ∧
  (hipSane hip.calls = true → Geom a.heap ch hip.calls ∧ hipFreesValid hip.calls = true)

/-- The invariant of the allocator with its runtime. -/
def Good (a : THCCachingAllocator) (hip : Hip) : Prop := ∃ ch, GoodWith a hip ch

/-- One call `try_merge_blocks(b, src, free_blocks)` of `free`, as a step on the state. -/
def merge_step (a : THCCachingAllocator) (sm : Bool) (b : Nat) (src : Option Nat) :
    THCCachingAllocator :=
  setPool sm { a with heap := (try_merge_blocks a.heap b src (getPool sm a)).1 }
    (try_merge_blocks a.heap b src (getPool sm a)).2

/-- The end of `free` (lines 168-169) as a step on the state: the block is marked free
and inserted into the pool. -/
def release (a : THCCachingAllocator) (sm : Bool) (b : Nat) : THCCachingAllocator :=
  setPool sm { a with heap := store a.heap b (fun blk => { blk with allocated := false }) }
    (set_insert (store a.heap b (fun blk => { blk with allocated := false })) b (getPool sm a))

/-- The state after `allocated_blocks.erase(it)` for the entry of `ptr`. -/
def table_erase (a : THCCachingAllocator) (ptr : Nat) : THCCachingAllocator :=
  { a with allocated_blocks := a.allocated_blocks.filter (fun kv => kv.1 ≠ ptr) }

/-- The comparator reads the device, stream, size and address of a block only. -/
def Block.key (b : Block) : Int × Nat × Nat × Nat := (b.device, b.stream, b.size, b.ptr)

/-- The block `b` that `free` is working on: live, still marked allocated, out of the table,
and `sm` is the pool of its size class. -/
structure Detached (a : THCCachingAllocator) (ch : Nat → Chain) (b : Nat) (sm : Bool) :
    Prop where
  live : Live a.heap b
  alloc : (deref a.heap b).allocated = true
  notable : ∀ kv ∈ a.allocated_blocks, kv.2 ≠ b
  cls : decide ((ch b).total ≤ kSmallAlloc) = sm

/-- The blocks `xs` are a whole sibling chain of the heap: live blocks, each the `next` of
the one before, from a block with no `prev` to a block with no `next`. -/
def IsSiblingChain (h : Heap) (xs : List Nat) : Prop :=
  (∀ x ∈ xs, Live h x) ∧ xs.Chain' (fun x y => (deref h x).next = some y) ∧
  (∀ x ∈ xs.head?, (deref h x).prev = none) ∧ (∀ x ∈ xs.getLast?, (deref h x).next = none)

instance (h : Heap) (p : Nat) : Decidable (Live h p) :=
  match hc : h[p]? with
  | some (some b) => isTrue ⟨b, hc⟩
  | some none => isFalse (by rintro ⟨b, hb⟩; rw [hc] at hb; cases hb)
  | none => isFalse (by rintro ⟨b, hb⟩; rw [hc] at hb; cases hb)

/-- The state after `cachedTwo` and an `emptyCache`: the whole block of stream 8 went back
to the primitive allocator, the split block of stream 7 stayed. -/
def emptiedTwo : Outcome := emptyCache cachedTwo.alloc cachedTwo.hip

/-! ## The walks of `free_blocks` in full, further sample runs -/

/-- The blocks of `l` with no sibling, read in `h`: those that `free_blocks` hands to
`hipFree`. -/
def roots (h : Heap) (l : List Nat) : List Nat := l.filter (fun x => decide (deref h x).root)

/-- The blocks of `l` with a sibling, read in `h`: those that `free_blocks` steps over. -/
def splits (h : Heap) (l : List Nat) : List Nat :=
  l.filter (fun x => decide (¬ (deref h x).root))

/-- The record of the successful `hipFree` calls for the unsplit blocks of `l`, the latest
first. -/
def freed_calls (h : Heap) (l : List Nat) : List HipCall :=
  ((roots h l).map (fun x => HipCall.free (deref h x).ptr hipSuccess)).reverse

/-- What a walk of `free_blocks` has done when it went over `done` and stopped before
`tail`: the unsplit blocks of `done` were freed and deleted and nothing else changed; the
walk ended well with nothing left, or a failing `hipFree` on the first block of `tail`
ended it with that status. -/
structure Trace (h : Heap) (hip : Hip) (done tail : List Nat) (r : FreeOutcome) : Prop where
  gone : ∀ q ∈ roots h done, q < h.length → r.heap[q]? = some none
  cell : ∀ q, q ∉ roots h done → r.heap[q]? = h[q]?
  ok : r.err = hipSuccess → tail = [] ∧ r.hip.calls = freed_calls h done ++ hip.calls
  failed : r.err ≠ hipSuccess → ∃ b rest, tail = b :: rest ∧ (deref h b).root ∧
    r.hip.calls = HipCall.free (deref h b).ptr r.err :: (freed_calls h done ++ hip.calls)

/-- The range of `pool` that `free_cached_blocks(d)` walks: from the lower bound of the key
`(d, NULL, 0)` to the lower bound of the key `(d + 1, NULL, 0)`. -/
def device_range (h : Heap) (d : Int) (pool : List Nat) : List Nat :=
  (lower_bound h (Block.ctor d 0 0 0) pool).take
    ((lower_bound h (Block.ctor d 0 0 0) pool).length -
      (lower_bound h (Block.ctor (d + 1) 0 0 0) pool).length)

/-- What `emptyCache` or `free_cached_blocks` has done when its walks went over `done` and
stopped before `tail`: the unsplit blocks of `done` were passed to `hipFree`, left their
pool and were deleted, and nothing else changed; either all went well and nothing is left
to visit, or a `hipFree` failed on the first block of `tail`, that status is returned and
that call is the last one made. -/
structure Swept (a : THCCachingAllocator) (hip : Hip) (done tail : List Nat) (r : Outcome) :
    Prop where
  large : r.alloc.large_blocks =
    a.large_blocks.filter (fun x => decide (x ∉ roots a.heap done))
  small : r.alloc.small_blocks =
    a.small_blocks.filter (fun x => decide (x ∉ roots a.heap done))
  table : r.alloc.allocated_blocks = a.allocated_blocks
  gone : ∀ q ∈ roots a.heap done, r.alloc.heap[q]? = some none
  cell : ∀ q, q ∉ roots a.heap done → r.alloc.heap[q]? = a.heap[q]?
  apart : ∀ q ∈ tail, q ∉ done
  ok : r.err = hipSuccess → tail = [] ∧ r.hip.calls = freed_calls a.heap done ++ hip.calls
  failed : r.err ≠ hipSuccess → ∃ b rest, tail = b :: rest ∧ (deref a.heap b).root ∧
    r.hip.calls =
      HipCall.free (deref a.heap b).ptr r.err :: (freed_calls a.heap done ++ hip.calls) ∧
    (b ∈ a.large_blocks → r.alloc.small_blocks = a.small_blocks)

/-- The pools are sets of pointers into the heap with no block in both. -/
structure PoolsApart (a : THCCachingAllocator) : Prop where
  large_nodup : a.large_blocks.Nodup
  small_nodup : a.small_blocks.Nodup
  disjoint : ∀ x ∈ a.large_blocks, x ∉ a.small_blocks
  large_lt : ∀ x ∈ a.large_blocks, x < a.heap.length
  small_lt : ∀ x ∈ a.small_blocks, x < a.heap.length

/-- The runtime of `twoRoots` with the answers of the coming `hipFree` calls set: the first
succeeds, the second fails. -/
def hipFreeFails : Hip :=
  { twoRoots.hip with
    device := twoRoots.hip.device, mallocs := twoRoots.hip.mallocs,
    frees := [hipSuccess, hipErrorUnknown 5] }

/-- Slice A: the fresh allocator after `malloc(512)` on stream 7, served at 4096 from a
1 MiB block of the primitive. -/
def sliceA : MallocOutcome := malloc THCCachingAllocator.empty hipTwo 512 7

/-- Slice B: a second `malloc(512)` on stream 7, served at 4608 from the same block. -/
def sliceB : MallocOutcome := malloc sliceA.alloc sliceA.hip 512 7

/-- Slice C: a third `malloc(512)` on stream 7, served at 5120 from the same block. -/
def sliceC : MallocOutcome := malloc sliceB.alloc sliceB.hip 512 7

/-- The state after the three slices and `free` of A (4096). -/
def freedA : Outcome := free sliceC.alloc sliceC.hip 4096

/-- The state after the three slices and `free` of A (4096), then of C (5120): the chain is
A (free), B (allocated), C merged with the remainder (free). -/
def freedAC : Outcome := free freedA.alloc freedA.hip 5120

/-- The state after `afterFirst` and a `malloc(SIZE_MAX)` on stream 7: the rounded size
wraps to 0, a block of 0 bytes at 4608 is handed out. -/
def zeroSecond : MallocOutcome := malloc afterFirst.alloc afterFirst.hip 18446744073709551615 7

/-- The state after `zeroSecond` and a `malloc(200)` on stream 7: 4608 is handed out again
and the table entry of the 0-byte block is overwritten. -/
def zeroThird : MallocOutcome := malloc zeroSecond.alloc zeroSecond.hip 200 7

/-- The state after `zeroThird` and `free(4096)`. -/
def zeroFreed : Outcome := free zeroThird.alloc zeroThird.hip 4096

/-- The state after `zeroFreed` and `free(4608)`: the 0-byte block, still marked allocated
and never freed, lies between two free blocks. -/
def lostMiddle : Outcome := free zeroFreed.alloc zeroFreed.hip 4608

/-! ## A client that allocates and frees in turn -/

/-- A client that runs `n` times `malloc(&p, size, stream); free(p)` on the allocator; the
run stops at a `malloc` that writes no address.  Returns the allocator and the runtime. -/
def alloc_free_pairs (size stream : Nat) : Nat → THCCachingAllocator → Hip →
    THCCachingAllocator × Hip
  | 0, a, hip => (a, hip)
  | n + 1, a, hip =>
    match (malloc a hip size stream).devPtr with
    | some p =>
      alloc_free_pairs size stream n
        (free (malloc a hip size stream).alloc (malloc a hip size stream).hip p).alloc
        (free (malloc a hip size stream).alloc (malloc a hip size stream).hip p).hip
    | none => ((malloc a hip size stream).alloc, (malloc a hip size stream).hip)

/-- The pool of the size class of `r` holds a block of device `d` and stream `st` with at
least `r` bytes. -/
def Cached (a : THCCachingAllocator) (d : Int) (st r : Nat) : Prop :=
  ∃ x ∈ getPool (decide (r ≤ kSmallAlloc)) a,
    (deref a.heap x).device = d ∧ (deref a.heap x).stream = st ∧ r ≤ (deref a.heap x).size

/-! ## The blocks a sweep frees, the frame of `free` -/

/-- The fresh allocator after `malloc(200)` and `malloc(100)` on stream 7: the second request
is served from the remainder of the first. -/
def afterSecondHit : MallocOutcome := malloc afterFirst.alloc afterFirst.hip 100 7

/-- The blocks that `free_cached_blocks(d)` hands to `hipFree`: the blocks with no sibling in
the ranges it walks, those of the pool `large_blocks` first. -/
def cached_roots (a : THCCachingAllocator) (d : Int) : List Nat :=
  roots a.heap (device_range a.heap d a.large_blocks ++ device_range a.heap d a.small_blocks)

/-- What the work of `free` on the block `b`, whose siblings were `p` and `n`, may do to
the heap: `b` stays, no block appears, a block that disappears was free and was `p` or
`n`, and any other block keeps its data, with each link either kept or set to `b`. -/
def FreeFrame (h h2 : Heap) (b : Nat) (p n : Option Nat) : Prop :=
  Live h2 b ∧ (∀ q, Live h2 q → Live h q) ∧
  (∀ q, Live h q → ¬ Live h2 q → (deref h q).allocated = false ∧ (p = some q ∨ n = some q)) ∧
  (∀ q, q ≠ b → Live h2 q → SameData h h2 q ∧
    ((deref h2 q).prev = (deref h q).prev ∨ (deref h2 q).prev = some b) ∧
    ((deref h2 q).next = (deref h q).next ∨ (deref h2 q).next = some b))

/-! ## Aligned sizes, blocks that are not lost, the steps of `malloc` and `free` -/

/-- The sizes that the rounding of `round_size` yields: a multiple of 512, and above 1 MiB a
multiple of 128 KiB. -/
def Aligned (n : Nat) : Prop := kRoundSmall ∣ n ∧ (kSmallAlloc < n → kRoundLarge ∣ n)

/-- Facts about the sizes of blocks that hold in every reachable state: the size of every
live block is aligned, every live block that is not allocated has a positive size, and a
block of the allocated table with 0 bytes is followed by a sibling that is not allocated. -/
structure Tidy (a : THCCachingAllocator) : Prop where
  aligned : ∀ x, Live a.heap x → Aligned (deref a.heap x).size
  pos : ∀ x, Live a.heap x → (deref a.heap x).allocated = false → 0 < (deref a.heap x).size
  zero_next : ∀ kv ∈ a.allocated_blocks, (deref a.heap kv.2).size = 0 →
    ∃ n, (deref a.heap kv.2).next = some n ∧ (deref a.heap n).allocated = false

/-- The facts `Tidy` while `free` works on the block `b`, which has left the allocated table
and is still marked allocated: the sibling after a table block of 0 bytes may be `b`, and
`b` itself, when it has 0 bytes, is followed by a sibling that is not allocated. -/
structure TidyD (a : THCCachingAllocator) (b : Nat) : Prop where
  aligned : ∀ x, Live a.heap x → Aligned (deref a.heap x).size
  pos : ∀ x, Live a.heap x → (deref a.heap x).allocated = false → 0 < (deref a.heap x).size
  zero_next : ∀ kv ∈ a.allocated_blocks, (deref a.heap kv.2).size = 0 →
    ∃ n, (deref a.heap kv.2).next = some n ∧ ((deref a.heap n).allocated = false ∨ n = b)
  self_next : (deref a.heap b).size = 0 →
    ∃ n, (deref a.heap b).next = some n ∧ (deref a.heap n).allocated = false

/-- No block is lost: every live block that is not allocated is in the pool of its size
class. -/
def Complete (a : THCCachingAllocator) : Prop :=
  ∀ x, Live a.heap x → (deref a.heap x).allocated = false →
    x ∈ getPool (decide ((deref a.heap x).size ≤ kSmallAlloc)) a

/-- The state of `malloc` after `free_blocks.erase(it)` (line 115) took the block found out
of the pool. -/
def malloc_erase (a : THCCachingAllocator) (device : Int) (stream size : Nat) :
    THCCachingAllocator :=
  setPool (decide (size ≤ kSmallAlloc)) a
    (erase_at (getPool (decide (size ≤ kSmallAlloc)) a)
      (lower_bound a.heap (Block.ctor device stream size 0)
        (getPool (decide (size ≤ kSmallAlloc)) a)))

/-- Two distinct live blocks at one address: one of them has 0 bytes. -/
def NoTwin (h : Heap) : Prop :=
  ∀ x y, Live h x → Live h y → x ≠ y → (deref h x).ptr = (deref h y).ptr →
    (deref h x).size = 0 ∨ (deref h y).size = 0

/-- The state of `free` after the two calls of `try_merge_blocks` (lines 165-166), before
the block is marked free and inserted (lines 168-169). -/
def free_merged (a : THCCachingAllocator) (ptr b : Nat) : THCCachingAllocator :=
  merge_step
    (merge_step (table_erase a ptr) (decide ((deref a.heap b).size ≤ kSmallAlloc)) b
      (deref a.heap b).prev)
    (decide ((deref a.heap b).size ≤ kSmallAlloc)) b
    (deref (merge_step (table_erase a ptr) (decide ((deref a.heap b).size ≤ kSmallAlloc)) b
      (deref a.heap b).prev).heap b).next

/-- The allocator of `afterFirst` at the moment of its split decision: the miss has built the
new block of 1048576 bytes at 4096, which is in no pool yet. -/
def freshRoot : THCCachingAllocator :=
  { heap := newBlock [] (Block.ctor 0 7 1048576 4096), large_blocks := [], small_blocks := [],
    allocated_blocks := [] }

/-! ## Descriptions of cached blocks, further sample runs -/

/-- What a client can tell of a cached block: its device, stream, size and address, and
whether it has a sibling before it and after it. -/
def Block.descr (b : Block) : Int × Nat × Nat × Nat × Bool × Bool :=
  (b.device, b.stream, b.size, b.ptr, b.prev.isSome, b.next.isSome)

/-- The descriptions of the blocks of the pool `small ? large_blocks : small_blocks`, in the
order of the pool. -/
def pool_descr (a : THCCachingAllocator) (small : Bool) :
    List (Int × Nat × Nat × Nat × Bool × Bool) :=
  (getPool small a).map (fun x => (deref a.heap x).descr)

/-- The state after `zeroThird` (a pool hit on the state of `zeroSecond`) and the `free` of
the address 4608 that it returned. -/
def zeroThirdFreed : Outcome := free zeroThird.alloc zeroThird.hip 4608

/-- The runtime of `twoRoots` with no answers left: the coming `hipMalloc` calls fail with
out-of-memory and the coming `hipFree` calls succeed. -/
def hipDry : Hip :=
  { twoRoots.hip with device := (hipSuccess, 0), mallocs := [], frees := [] }

/-! ## Reading and writing the heap -/

theorem deref_of_live {h : Heap} {p : Nat} {b : Block} (hb : h[p]? = some (some b)) :
    deref h p = b := by
  simp [deref, hb]

theorem store_length (h : Heap) (p : Nat) (f : Block → Block) :
    (store h p f).length = h.length := by
  unfold store
  split <;> simp

theorem store_getElem_ne (h : Heap) (p q : Nat) (f : Block → Block) (hq : q ≠ p) :
    (store h p f)[q]? = h[q]? := by
  unfold store
  split
  · rw [List.getElem?_set_ne (Ne.symm hq)]
  · rfl

theorem store_getElem_self {h : Heap} {p : Nat} {b : Block} (f : Block → Block)
    (hb : h[p]? = some (some b)) : (store h p f)[p]? = some (some (f b)) := by
  have hlt : p < h.length := by
    by_contra hc
    rw [List.getElem?_eq_none (by omega)] at hb
    cases hb
  simp [store, hb, List.getElem?_set_self, hlt]

theorem store_dead {h : Heap} {p : Nat} (f : Block → Block)
    (hb : ∀ b, h[p]? ≠ some (some b)) : store h p f = h := by
  unfold store
  split
  · rename_i b hb2
    exact absurd hb2 (hb b)
  · rfl

theorem deref_store_ne (h : Heap) (p q : Nat) (f : Block → Block) (hq : q ≠ p) :
    deref (store h p f) q = deref h q := by
  simp [deref, store_getElem_ne h p q f hq]

/-- Reading after a write: either the cell read is unaffected, or it is the cell written
and holds the updated block. -/
theorem deref_store_cases (h : Heap) (p q : Nat) (f : Block → Block) :
    deref (store h p f) q = deref h q ∨
      (q = p ∧ deref (store h p f) q = f (deref h q)) := by
  by_cases hq : q = p
  · subst hq
    by_cases hl : ∃ b, h[q]? = some (some b)
    · obtain ⟨b, hb⟩ := hl
      right
      refine ⟨rfl, ?_⟩
      rw [deref_of_live (store_getElem_self f hb), deref_of_live hb]
    · left
      rw [store_dead f (fun b hb => hl ⟨b, hb⟩)]
  · left
    exact deref_store_ne h p q f hq

theorem newBlock_length (h : Heap) (b : Block) : (newBlock h b).length = h.length + 1 := by
  simp [newBlock]

theorem deref_newBlock_self (h : Heap) (b : Block) : deref (newBlock h b) (newPtr h) = b := by
  simp [deref, newBlock, newPtr]

theorem newBlock_getElem_old (h : Heap) (b : Block) {q : Nat} (hq : q < h.length) :
    (newBlock h b)[q]? = h[q]? := by
  simp [newBlock, List.getElem?_append_left hq]

theorem deleteBlock_length (h : Heap) (p : Nat) : (deleteBlock h p).length = h.length := by
  simp [deleteBlock]

theorem deleteBlock_getElem_ne (h : Heap) {p q : Nat} (hq : q ≠ p) :
    (deleteBlock h p)[q]? = h[q]? := by
  simp [deleteBlock, List.getElem?_set_ne (Ne.symm hq)]


/-! ## Size rounding -/

theorem round_size_lt (s : Nat) : round_size s < SIZE_T := by
  unfold round_size
  split
  · decide
  · split <;> exact Nat.mod_lt _ (by decide)

/-- C8: for every size `s` with `s + 131071` representable in `size_t`, `round_size s` is
the rounding formula of the specification; it is 512 below 512, the least multiple of 512
that is at least `s` from 512 up to (not including) 1048576, and the least multiple of
131072 that is at least `s` from 1048576 on. -/
theorem round_size_spec (s : Nat) (hs : s + 131071 < SIZE_T) :
    round_size s = spec_round_size s ∧
    (s < 512 → round_size s = 512) ∧
    (512 ≤ s → s < 1048576 →
      512 ∣ round_size s ∧ s ≤ round_size s ∧ ∀ m, 512 ∣ m → s ≤ m → round_size s ≤ m) ∧
    (1048576 ≤ s →
      131072 ∣ round_size s ∧ s ≤ round_size s ∧
        ∀ m, 131072 ∣ m → s ≤ m → round_size s ≤ m) := by
  unfold round_size spec_round_size spec_ceil
  simp only [kRoundSmall, kSmallAlloc, kRoundLarge, SIZE_T] at *
  refine ⟨?_, ?_, ?_, ?_⟩
  · split
    · rfl
    · split <;> omega
  · intro h
    simp [h]
  · intro h1 h2
    rw [if_neg (by omega), if_pos h2]
    refine ⟨?_, ?_, ?_⟩
    · omega
    · omega
    · intro m hm hsm
      omega
  · intro h1
    rw [if_neg (by omega), if_neg (by omega)]
    refine ⟨?_, ?_, ?_⟩
    · omega
    · omega
    · intro m hm hsm
      omega

theorem round_size_spec_witness :
    1000 + 131071 < SIZE_T ∧ round_size 1000 = spec_round_size 1000 :=
  ⟨by decide, (round_size_spec 1000 (by decide)).1⟩


/-! ## The owner of the block handed out -/

/-- A write that keeps a field keeps it in every cell. -/
theorem deref_store_proj {α : Type} (g : Block → α) (h : Heap) (p q : Nat) (f : Block → Block)
    (hf : ∀ b, g (f b) = g b) : g (deref (store h p f) q) = g (deref h q) := by
  rcases deref_store_cases h p q f with h1 | ⟨_, h1⟩
  · rw [h1]
  · rw [h1, hf]

theorem deref_store_opt_proj {α : Type} (g : Block → α) (h : Heap) (p : Option Nat) (q : Nat)
    (f : Block → Block) (hf : ∀ b, g (f b) = g b) :
    g (deref (store_opt h p f) q) = g (deref h q) := by
  cases p with
  | none => rfl
  | some p => exact deref_store_proj g h p q f hf

theorem setPool_heap (small : Bool) (a : THCCachingAllocator) (fb : List Nat) :
    (setPool small a fb).heap = a.heap := by
  unfold setPool
  split <;> rfl

theorem setPool_allocated_blocks (small : Bool) (a : THCCachingAllocator) (fb : List Nat) :
    (setPool small a fb).allocated_blocks = a.allocated_blocks := by
  unfold setPool
  split <;> rfl

theorem lookup_cons_self (p v : Nat) (l : List (Nat × Nat)) :
    List.lookup p ((p, v) :: l) = some v := by
  simp [List.lookup]

theorem malloc_record_err (a : THCCachingAllocator) (hip : Hip) (block : Nat) :
    (malloc_record a hip block).err = hipSuccess := rfl

theorem malloc_record_returned (a : THCCachingAllocator) (hip : Hip) (block : Nat)
    (P : Block → Prop)
    (hP : P (deref (store a.heap block (fun b => { b with allocated := true })) block)) :
    ReturnedBlock (malloc_record a hip block) P :=
  ⟨_, block, rfl, lookup_cons_self _ _ _, hP⟩

/-- Any field that the split does not write is, in the new block, as the block's
constructor set it. -/
theorem malloc_split_heap_proj {α : Type} (g : Block → α) (h : Heap) (remaining : Nat)
    (device : Int) (stream size : Nat)
    (hprev : ∀ b x, g { b with prev := x } = g b)
    (hnext : ∀ b x, g { b with next := x } = g b)
    (hptr : ∀ b x, g { b with ptr := x } = g b)
    (hsize : ∀ b x, g { b with size := x } = g b) :
    g (deref (malloc_split_heap h remaining device stream size) (newPtr h)) =
      g (Block.ctor device stream size (deref h remaining).ptr) := by
  unfold malloc_split_heap
  dsimp only
  rw [deref_store_proj g _ _ _ _ (fun b => hsize b _),
    deref_store_proj g _ _ _ _ (fun b => hptr b _),
    deref_store_proj g _ _ _ _ (fun b => hprev b _),
    deref_store_proj g _ _ _ _ (fun b => hnext b _),
    deref_store_opt_proj g _ _ _ _ (fun b => hnext b _),
    deref_store_proj g _ _ _ _ (fun b => hprev b _), deref_newBlock_self]

theorem malloc_split_owner (a : THCCachingAllocator) (hip : Hip) (block : Nat) (device : Int)
    (stream size : Nat) (hd : (deref a.heap block).device = device)
    (hs : (deref a.heap block).stream = stream) :
    ReturnedBlock (malloc_split a hip block device stream size)
      (fun b => b.device = device ∧ b.stream = stream) := by
  unfold malloc_split
  split
  · apply malloc_record_returned
    simp only [setPool_heap]
    constructor
    · rw [deref_store_proj Block.device]
      · rw [malloc_split_heap_proj Block.device _ _ _ _ _ (fun _ _ => rfl) (fun _ _ => rfl)
          (fun _ _ => rfl) (fun _ _ => rfl)]
        rfl
      · intro b
        rfl
    · rw [deref_store_proj Block.stream]
      · rw [malloc_split_heap_proj Block.stream _ _ _ _ _ (fun _ _ => rfl) (fun _ _ => rfl)
          (fun _ _ => rfl) (fun _ _ => rfl)]
        rfl
      · intro b
        rfl
  · apply malloc_record_returned
    constructor
    · rw [deref_store_proj Block.device]
      · exact hd
      · intro b
        rfl
    · rw [deref_store_proj Block.stream]
      · exact hs
      · intro b
        rfl

theorem malloc_hit_owner {a : THCCachingAllocator} {device : Int} {stream size block : Nat}
    (h : malloc_hit a device stream size = some block) :
    (deref a.heap block).device = device ∧ (deref a.heap block).stream = stream := by
  unfold malloc_hit at h
  split at h
  · cases h
  · split at h
    · rename_i hc
      cases h
      exact hc
    · cases h

theorem malloc_miss_of_err {a : THCCachingAllocator} {hip : Hip} {device : Int}
    {stream size : Nat}
    (h : (hip_malloc_retry a hip device (alloc_size size)).err ≠ hipSuccess) :
    malloc_miss a hip device stream size =
      ⟨(hip_malloc_retry a hip device (alloc_size size)).err, none,
        (hip_malloc_retry a hip device (alloc_size size)).alloc,
        (hip_malloc_retry a hip device (alloc_size size)).hip⟩ := by
  unfold malloc_miss
  dsimp only
  rw [if_pos h]

theorem malloc_miss_of_ok {a : THCCachingAllocator} {hip : Hip} {device : Int}
    {stream size : Nat}
    (h : (hip_malloc_retry a hip device (alloc_size size)).err = hipSuccess) :
    malloc_miss a hip device stream size =
      malloc_split
        { (hip_malloc_retry a hip device (alloc_size size)).alloc with
          heap := newBlock (hip_malloc_retry a hip device (alloc_size size)).alloc.heap
            (Block.ctor device stream (alloc_size size)
              ((hip_malloc_retry a hip device (alloc_size size)).devPtr.getD 0)) }
        (hip_malloc_retry a hip device (alloc_size size)).hip
        (newPtr (hip_malloc_retry a hip device (alloc_size size)).alloc.heap)
        device stream size := by
  unfold malloc_miss
  dsimp only
  rw [if_neg (by simp [h])]

theorem malloc_of_device_err {a : THCCachingAllocator} {hip : Hip} {size stream : Nat}
    (h : hip.device.1 ≠ hipSuccess) :
    malloc a hip size stream = ⟨hip.device.1, none, a, (hipGetDevice hip).2.2⟩ := by
  unfold malloc
  dsimp only
  rw [if_pos (by simpa [hipGetDevice] using h)]
  rfl

theorem malloc_of_device_ok {a : THCCachingAllocator} {hip : Hip} {size stream : Nat}
    (h : hip.device.1 = hipSuccess) :
    malloc a hip size stream =
      malloc_rounded a (hipGetDevice hip).2.2 hip.device.2 stream (round_size size) := by
  unfold malloc
  dsimp only
  rw [if_neg (by simp [hipGetDevice, h])]
  rfl

/-- A successful `malloc` enters the block it hands out in the allocated table, and that
block belongs to the current device and the requested stream. -/
theorem malloc_returned_owner (a : THCCachingAllocator) (hip : Hip) (size stream : Nat)
    (hok : (malloc a hip size stream).err = hipSuccess) :
    ReturnedBlock (malloc a hip size stream)
      (fun b => b.device = hip.device.2 ∧ b.stream = stream) := by
  by_cases hdev : hip.device.1 = hipSuccess
  · rw [malloc_of_device_ok hdev] at hok ⊢
    unfold malloc_rounded at hok ⊢
    split
    · rename_i block hhit
      obtain ⟨hd, hs⟩ := malloc_hit_owner hhit
      apply malloc_split_owner
      · simpa [setPool_heap] using hd
      · simpa [setPool_heap] using hs
    · rename_i hmiss
      simp only [hmiss] at hok
      by_cases herr : (hip_malloc_retry a (hipGetDevice hip).2.2 hip.device.2
          (alloc_size (round_size size))).err = hipSuccess
      · rw [malloc_miss_of_ok herr]
        apply malloc_split_owner
        · exact congrArg Block.device (deref_newBlock_self _ _)
        · exact congrArg Block.stream (deref_newBlock_self _ _)
      · rw [malloc_miss_of_err herr] at hok
        exact absurd hok herr
  · rw [malloc_of_device_err hdev] at hok
    exact absurd hok hdev

/-- C1: whenever `malloc(size, stream)` succeeds while the runtime reports the current
device `d`, the block recorded in the allocated table under the returned address has
device `d` and stream `stream`, whether it came from the pool, from a fresh primitive
allocation or from a split. -/
theorem malloc_owner (a : THCCachingAllocator) (hip : Hip) (size stream : Nat)
    (hok : (malloc a hip size stream).err = hipSuccess) :
    ReturnedBlock (malloc a hip size stream)
      (fun b => b.device = hip.device.2 ∧ b.stream = stream) :=
  malloc_returned_owner a hip size stream hok

theorem malloc_owner_witness :
    (malloc THCCachingAllocator.empty hipTwo 200 7).err = hipSuccess ∧
      ReturnedBlock (malloc THCCachingAllocator.empty hipTwo 200 7)
        (fun b => b.device = hipTwo.device.2 ∧ b.stream = 7) :=
  ⟨by decide, malloc_owner THCCachingAllocator.empty hipTwo 200 7 (by decide)⟩


/-! ## Requests of zero bytes, and `free` of addresses that are not allocated -/

theorem round_size_le_small {s : Nat} (hs : s ≤ 512) : round_size s = 512 := by
  unfold round_size
  simp only [kRoundSmall, kSmallAlloc, SIZE_T]
  split
  · rfl
  · have h512 : s = 512 := by omega
    subst h512
    decide

/-- C3, as the code has it: `malloc(0, stream)` is not a special case.  The size is rounded
up to 512, so the call is the call `malloc(s, stream)` for every `s ≤ 512`, with the same
device query, pool lookup and primitive allocation, and on success the address it returns
is that of a block of the current device and the stream entered in the allocated table. -/
theorem malloc_zero_is_small (a : THCCachingAllocator) (hip : Hip) (stream s : Nat)
    (hs : s ≤ 512) :
    malloc a hip 0 stream = malloc a hip s stream ∧
    ((malloc a hip 0 stream).err = hipSuccess →
      ReturnedBlock (malloc a hip 0 stream)
        (fun b => b.device = hip.device.2 ∧ b.stream = stream)) := by
  refine ⟨?_, malloc_returned_owner a hip 0 stream⟩
  unfold malloc
  rw [round_size_le_small hs, round_size_le_small (Nat.zero_le 512)]

theorem malloc_zero_is_small_witness :
    200 ≤ 512 ∧
    malloc THCCachingAllocator.empty hipTwo 0 7 = malloc THCCachingAllocator.empty hipTwo 200 7 ∧
    ((malloc THCCachingAllocator.empty hipTwo 0 7).err = hipSuccess →
      ReturnedBlock (malloc THCCachingAllocator.empty hipTwo 0 7)
        (fun b => b.device = hipTwo.device.2 ∧ b.stream = 7)) :=
  ⟨by decide, malloc_zero_is_small THCCachingAllocator.empty hipTwo 7 200 (by decide)⟩

/-- C3 fails on the code: on the fresh allocator `malloc(0)` on stream 7 returns the
non-null address 4096, after asking the primitive allocator for 1048576 bytes, and leaves
an entry in the allocated table and a remainder in a pool. -/
theorem malloc_zero_counterexample :
    (malloc THCCachingAllocator.empty hipTwo 0 7).err = hipSuccess ∧
    (malloc THCCachingAllocator.empty hipTwo 0 7).devPtr = some 4096 ∧
    (malloc THCCachingAllocator.empty hipTwo 0 7).alloc.allocated_blocks = [(4096, 1)] ∧
    (malloc THCCachingAllocator.empty hipTwo 0 7).alloc.large_blocks = [0] ∧
    (malloc THCCachingAllocator.empty hipTwo 0 7).hip.calls =
      [HipCall.malloc 1048576 hipSuccess 4096, HipCall.getDevice hipSuccess 0] := by
  decide

theorem lookup_filter_ne (p : Nat) (l : List (Nat × Nat)) :
    List.lookup p (l.filter (fun kv => kv.1 ≠ p)) = none := by
  induction l with
  | nil => rfl
  | cons kv l ih =>
    obtain ⟨k, v⟩ := kv
    by_cases hk : k = p
    · rw [List.filter_cons_of_neg (by simp [hk])]
      exact ih
    · rw [List.filter_cons_of_pos (by simp [hk])]
      have hne : (p == k) = false := by
        rw [beq_eq_false_iff_ne]
        exact fun hc => hk hc.symm
      simp only [List.lookup, hne]
      exact ih

theorem free_of_not_allocated {a : THCCachingAllocator} {hip : Hip} {p : Nat} (hp : p ≠ 0)
    (hk : a.allocated_blocks.lookup p = none) :
    free a hip p = ⟨hipErrorInvalidDevicePointer, a, hip⟩ := by
  unfold free
  rw [if_neg hp, hk]

theorem free_of_allocated {a : THCCachingAllocator} (hip : Hip) {p block : Nat} (hp : p ≠ 0)
    (hk : a.allocated_blocks.lookup p = some block) :
    (free a hip p).err = hipSuccess ∧ (free a hip p).hip = hip ∧
      (free a hip p).alloc.allocated_blocks =
        a.allocated_blocks.filter (fun kv => kv.1 ≠ p) := by
  unfold free
  rw [if_neg hp, hk]
  exact ⟨rfl, rfl, setPool_allocated_blocks _ _ _⟩

/-- C5: `free(NULL)` returns success, leaves the pools, the allocated table and every
block as they were, and makes no call to the device runtime. -/
theorem free_null (a : THCCachingAllocator) (hip : Hip) :
    free a hip 0 = ⟨hipSuccess, a, hip⟩ := by
  unfold free
  rw [if_pos rfl]

/-- C4: `free` of a non-null address that is not a key of the allocated table returns
`hipErrorInvalidDevicePointer` and changes neither the allocator nor the runtime.  In
particular, when a successful `malloc` returned the (non-null) address `p`, the first
`free(p)` succeeds and the second returns `hipErrorInvalidDevicePointer` and changes
nothing. -/
theorem free_invalid_pointer (a : THCCachingAllocator) (hip : Hip) :
    (∀ p, p ≠ 0 → a.allocated_blocks.lookup p = none →
      free a hip p = ⟨hipErrorInvalidDevicePointer, a, hip⟩) ∧
    (∀ size stream p, (malloc a hip size stream).err = hipSuccess →
      (malloc a hip size stream).devPtr = some p → p ≠ 0 →
      (free (malloc a hip size stream).alloc (malloc a hip size stream).hip p).err
          = hipSuccess ∧
      free (free (malloc a hip size stream).alloc (malloc a hip size stream).hip p).alloc
          (free (malloc a hip size stream).alloc (malloc a hip size stream).hip p).hip p =
        ⟨hipErrorInvalidDevicePointer,
          (free (malloc a hip size stream).alloc (malloc a hip size stream).hip p).alloc,
          (free (malloc a hip size stream).alloc (malloc a hip size stream).hip p).hip⟩) := by
  refine ⟨fun p hp hk => free_of_not_allocated hp hk, ?_⟩
  intro size stream p hok hptr hp
  obtain ⟨q, blk, hq, hlook, _⟩ := malloc_returned_owner a hip size stream hok
  rw [hptr] at hq
  cases hq
  obtain ⟨h1, _, h3⟩ := free_of_allocated (malloc a hip size stream).hip hp hlook
  refine ⟨h1, free_of_not_allocated hp ?_⟩
  rw [h3]
  exact lookup_filter_ne p _

theorem free_invalid_pointer_witness :
    (12345 ≠ 0 ∧ THCCachingAllocator.empty.allocated_blocks.lookup 12345 = none ∧
      free THCCachingAllocator.empty hipTwo 12345 =
        ⟨hipErrorInvalidDevicePointer, THCCachingAllocator.empty, hipTwo⟩) ∧
    ((malloc THCCachingAllocator.empty hipTwo 200 7).err = hipSuccess ∧
      (malloc THCCachingAllocator.empty hipTwo 200 7).devPtr = some 4096 ∧ 4096 ≠ 0 ∧
      (free afterFirst.alloc afterFirst.hip 4096).err = hipSuccess ∧
      (free (free afterFirst.alloc afterFirst.hip 4096).alloc
          (free afterFirst.alloc afterFirst.hip 4096).hip 4096).err
        = hipErrorInvalidDevicePointer) :=
  ⟨⟨by decide, by decide,
      (free_invalid_pointer THCCachingAllocator.empty hipTwo).1 12345 (by decide) (by decide)⟩,
    by decide, by decide, by decide,
    ((free_invalid_pointer THCCachingAllocator.empty hipTwo).2 200 7 4096
      (by decide) (by decide) (by decide)).1,
    congrArg Outcome.err ((free_invalid_pointer THCCachingAllocator.empty hipTwo).2 200 7 4096
      (by decide) (by decide) (by decide)).2⟩


/-! ## `emptyCache` -/

theorem deref_default_root (h : Heap) (p : Nat) (hd : ∀ b, h[p]? ≠ some (some b)) :
    (deref h p).root := by
  unfold deref
  split
  · rename_i b hb
    exact absurd hb (hd b)
  · exact ⟨rfl, rfl⟩

theorem deref_congr {h1 h2 : Heap} {p : Nat} (hc : h1[p]? = h2[p]?) :
    deref h1 p = deref h2 p := by
  unfold deref
  rw [hc]

theorem free_blocks_whole (h : Heap) (hip : Hip) (blocks : List Nat) :
    free_blocks h hip blocks blocks [] = free_blocks_loop blocks h hip := by
  unfold free_blocks
  simp

/-- The walk of `free_blocks` only deletes cells that read as unsplit blocks: every cell
holding a split block is left as it was. -/
theorem free_blocks_loop_frame (l : List Nat) :
    ∀ (h : Heap) (hip : Hip) (q : Nat), ¬ (deref h q).root →
      (free_blocks_loop l h hip).heap[q]? = h[q]? := by
  induction l with
  | nil => intro h hip q _; rfl
  | cons b rest ih =>
    intro h hip q hq
    unfold free_blocks_loop
    split
    · rename_i hroot
      split
      · rfl
      · have hne : q ≠ b := fun hc => hq (hc ▸ hroot)
        have hcell : (deleteBlock h b)[q]? = h[q]? := deleteBlock_getElem_ne h hne
        rw [ih (deleteBlock h b) _ q (by rw [deref_congr hcell]; exact hq), hcell]
    · exact ih h hip q hq

/-- The walk of `free_blocks` keeps every split block of the range in the set. -/
theorem free_blocks_loop_keeps (l : List Nat) :
    ∀ (h : Heap) (hip : Hip) (q : Nat), q ∈ l → ¬ (deref h q).root →
      q ∈ (free_blocks_loop l h hip).blocks := by
  induction l with
  | nil => intro h hip q hq; cases hq
  | cons b rest ih =>
    intro h hip q hq hnr
    unfold free_blocks_loop
    split
    · rename_i hroot
      have hne : q ≠ b := fun hc => hnr (hc ▸ hroot)
      have hmem : q ∈ rest := by
        rcases List.mem_cons.1 hq with hc | hc
        · exact absurd hc hne
        · exact hc
      split
      · exact hq
      · have hcell : (deleteBlock h b)[q]? = h[q]? := deleteBlock_getElem_ne h hne
        exact ih (deleteBlock h b) _ q hmem (by rw [deref_congr hcell]; exact hnr)
    · rcases List.mem_cons.1 hq with hc | hc
      · exact List.mem_cons.2 (Or.inl hc)
      · exact List.mem_cons.2 (Or.inr (ih h hip q hc hnr))

/-- After a walk of `free_blocks` that ended in success no unsplit block is left in the
range. -/
theorem free_blocks_loop_no_root (l : List Nat) :
    ∀ (h : Heap) (hip : Hip), (free_blocks_loop l h hip).err = hipSuccess →
      ∀ q ∈ (free_blocks_loop l h hip).blocks,
        ¬ (deref (free_blocks_loop l h hip).heap q).root := by
  induction l with
  | nil => intro h hip _ q hq; cases hq
  | cons b rest ih =>
    intro h hip hok q hq
    unfold free_blocks_loop at hok hq ⊢
    split at hok
    · rename_i hroot
      rw [if_pos hroot] at hq ⊢
      split at hok
      · rename_i herr
        exact absurd hok herr
      · rename_i herr
        rw [if_neg herr] at hq ⊢
        exact ih _ _ hok q hq
    · rename_i hnr
      rw [if_neg hnr] at hq ⊢
      rcases List.mem_cons.1 hq with hc | hc
      · subst hc
        have hcell := free_blocks_loop_frame rest h hip q hnr
        show ¬ (deref (free_blocks_loop rest h hip).heap q).root
        rw [deref_congr hcell]
        exact hnr
      · exact ih h hip hok q hc

/-- A walk of `free_blocks` over a range without unsplit blocks does nothing: no call to
the runtime, the heap and the set as before. -/
theorem free_blocks_loop_idle (l : List Nat) (h : Heap) (hip : Hip)
    (hl : ∀ q ∈ l, ¬ (deref h q).root) : free_blocks_loop l h hip = ⟨hipSuccess, h, hip, l⟩ := by
  induction l with
  | nil => rfl
  | cons b rest ih =>
    unfold free_blocks_loop
    rw [if_neg (hl b (List.mem_cons_self _ _))]
    rw [ih (fun q hq => hl q (List.mem_cons_of_mem _ hq))]

theorem hipFree_frees (hip : Hip) (p : Nat) (hf : ∀ e ∈ hip.frees, e = hipSuccess) :
    (hipFree hip p).1 = hipSuccess ∧ ∀ e ∈ (hipFree hip p).2.frees, e = hipSuccess := by
  unfold hipFree
  split
  · rename_i hnil
    exact ⟨rfl, by simp [hnil]⟩
  · rename_i err rest hcons
    rw [hcons] at hf
    exact ⟨hf err (List.mem_cons_self _ _), fun e he => hf e (List.mem_cons_of_mem _ he)⟩

/-- When every `hipFree` succeeds the walk of `free_blocks` ends in success, and every
later `hipFree` still succeeds. -/
theorem free_blocks_loop_ok (l : List Nat) :
    ∀ (h : Heap) (hip : Hip), (∀ e ∈ hip.frees, e = hipSuccess) →
      (free_blocks_loop l h hip).err = hipSuccess ∧
        ∀ e ∈ (free_blocks_loop l h hip).hip.frees, e = hipSuccess := by
  induction l with
  | nil => intro h hip hf; exact ⟨rfl, hf⟩
  | cons b rest ih =>
    intro h hip hf
    unfold free_blocks_loop
    split
    · obtain ⟨h1, h2⟩ := hipFree_frees hip (deref h b).ptr hf
      rw [if_neg (by simp [h1])]
      exact ih _ _ h2
    · exact ih h hip hf


/-- A successful `emptyCache` is the two walks over the whole of `large_blocks` and then
of `small_blocks`, both ending in success. -/
theorem emptyCache_of_ok {a : THCCachingAllocator} {hip : Hip}
    (hok : (emptyCache a hip).err = hipSuccess) :
    (free_blocks_loop a.large_blocks a.heap hip).err = hipSuccess ∧
    (free_blocks_loop a.small_blocks (free_blocks_loop a.large_blocks a.heap hip).heap
      (free_blocks_loop a.large_blocks a.heap hip).hip).err = hipSuccess ∧
    emptyCache a hip =
      ⟨hipSuccess,
        { a with
          heap := (free_blocks_loop a.small_blocks
            (free_blocks_loop a.large_blocks a.heap hip).heap
            (free_blocks_loop a.large_blocks a.heap hip).hip).heap,
          large_blocks := (free_blocks_loop a.large_blocks a.heap hip).blocks,
          small_blocks := (free_blocks_loop a.small_blocks
            (free_blocks_loop a.large_blocks a.heap hip).heap
            (free_blocks_loop a.large_blocks a.heap hip).hip).blocks },
        (free_blocks_loop a.small_blocks (free_blocks_loop a.large_blocks a.heap hip).heap
          (free_blocks_loop a.large_blocks a.heap hip).hip).hip⟩ := by
  unfold emptyCache at hok ⊢
  simp only [free_blocks_whole] at hok ⊢
  by_cases h1 : (free_blocks_loop a.large_blocks a.heap hip).err = hipSuccess
  · rw [if_neg (by simp [h1])] at hok ⊢
    by_cases h2 : (free_blocks_loop a.small_blocks
        (free_blocks_loop a.large_blocks a.heap hip).heap
        (free_blocks_loop a.large_blocks a.heap hip).hip).err = hipSuccess
    · rw [if_neg (by simp [h2])]
      exact ⟨h1, h2, rfl⟩
    · rw [if_pos h2] at hok
      exact absurd hok h2
  · rw [if_pos h1] at hok
    exact absurd hok h1

theorem emptyCache_ok_of_frees (a : THCCachingAllocator) (hip : Hip)
    (hf : ∀ e ∈ hip.frees, e = hipSuccess) : (emptyCache a hip).err = hipSuccess := by
  obtain ⟨h1, hf1⟩ := free_blocks_loop_ok a.large_blocks a.heap hip hf
  obtain ⟨h2, _⟩ := free_blocks_loop_ok a.small_blocks
    (free_blocks_loop a.large_blocks a.heap hip).heap _ hf1
  unfold emptyCache
  simp only [free_blocks_whole]
  rw [if_neg (by simp [h1]), if_neg (by simp [h2])]

/-- After a successful `emptyCache` neither pool holds an unsplit block. -/
theorem emptyCache_pools_split {a : THCCachingAllocator} {hip : Hip}
    (hok : (emptyCache a hip).err = hipSuccess) :
    (∀ b ∈ (emptyCache a hip).alloc.large_blocks,
      ¬ (deref (emptyCache a hip).alloc.heap b).root) ∧
    (∀ b ∈ (emptyCache a hip).alloc.small_blocks,
      ¬ (deref (emptyCache a hip).alloc.heap b).root) := by
  obtain ⟨h1, h2, heq⟩ := emptyCache_of_ok hok
  rw [heq]
  constructor
  · intro b hb
    have hnr := free_blocks_loop_no_root a.large_blocks a.heap hip h1 b hb
    have hcell := free_blocks_loop_frame a.small_blocks _
      (free_blocks_loop a.large_blocks a.heap hip).hip b hnr
    show ¬ (deref (free_blocks_loop a.small_blocks _ _).heap b).root
    rw [deref_congr hcell]
    exact hnr
  · intro b hb
    exact free_blocks_loop_no_root a.small_blocks _ _ h2 b hb

/-- A successful `emptyCache` leaves every split block of a pool in that pool, and its
cell in the heap as it was. -/
theorem emptyCache_keeps_split {a : THCCachingAllocator} {hip : Hip}
    (hok : (emptyCache a hip).err = hipSuccess) :
    (∀ b ∈ a.large_blocks, ¬ (deref a.heap b).root →
      b ∈ (emptyCache a hip).alloc.large_blocks ∧
        (emptyCache a hip).alloc.heap[b]? = a.heap[b]?) ∧
    (∀ b ∈ a.small_blocks, ¬ (deref a.heap b).root →
      b ∈ (emptyCache a hip).alloc.small_blocks ∧
        (emptyCache a hip).alloc.heap[b]? = a.heap[b]?) := by
  obtain ⟨_, _, heq⟩ := emptyCache_of_ok hok
  rw [heq]
  have hframe : ∀ b, ¬ (deref a.heap b).root →
      ¬ (deref (free_blocks_loop a.large_blocks a.heap hip).heap b).root ∧
      (free_blocks_loop a.small_blocks (free_blocks_loop a.large_blocks a.heap hip).heap
        (free_blocks_loop a.large_blocks a.heap hip).hip).heap[b]? = a.heap[b]? := by
    intro b hnr
    have hc1 := free_blocks_loop_frame a.large_blocks a.heap hip b hnr
    have hnr1 : ¬ (deref (free_blocks_loop a.large_blocks a.heap hip).heap b).root := by
      rw [deref_congr hc1]
      exact hnr
    exact ⟨hnr1, (free_blocks_loop_frame a.small_blocks _ _ b hnr1).trans hc1⟩
  constructor
  · intro b hb hnr
    exact ⟨free_blocks_loop_keeps a.large_blocks a.heap hip b hb hnr, (hframe b hnr).2⟩
  · intro b hb hnr
    exact ⟨free_blocks_loop_keeps a.small_blocks _ _ b hb (hframe b hnr).1, (hframe b hnr).2⟩

theorem emptyCache_allocated_blocks (a : THCCachingAllocator) (hip : Hip) :
    (emptyCache a hip).alloc.allocated_blocks = a.allocated_blocks := by
  unfold emptyCache
  dsimp only
  split
  · rfl
  · split <;> rfl

/-- An `emptyCache` on an allocator whose pools hold no unsplit block does nothing. -/
theorem emptyCache_idle (a : THCCachingAllocator) (hip : Hip)
    (hl : ∀ b ∈ a.large_blocks, ¬ (deref a.heap b).root)
    (hs : ∀ b ∈ a.small_blocks, ¬ (deref a.heap b).root) :
    emptyCache a hip = ⟨hipSuccess, a, hip⟩ := by
  unfold emptyCache
  simp only [free_blocks_whole]
  rw [free_blocks_loop_idle a.large_blocks a.heap hip hl]
  dsimp only
  rw [free_blocks_loop_idle a.small_blocks a.heap hip hs]
  simp

/-- C9: when every `hipFree` succeeds `emptyCache` returns success; and after an
`emptyCache` that returned success, in any state of the allocator (so in every reachable
one), neither pool holds a block whose `prev` and `next` are both null, every block of a
pool that has a sibling is still in that pool with all its fields (size, address and
links among them) as before, and the allocated table is unchanged. -/
theorem emptyCache_frees_roots (a : THCCachingAllocator) (hip : Hip) :
    ((∀ e ∈ hip.frees, e = hipSuccess) → (emptyCache a hip).err = hipSuccess) ∧
    ((emptyCache a hip).err = hipSuccess →
      (∀ b ∈ (emptyCache a hip).alloc.large_blocks ++ (emptyCache a hip).alloc.small_blocks,
        ¬ ((deref (emptyCache a hip).alloc.heap b).prev = none ∧
            (deref (emptyCache a hip).alloc.heap b).next = none)) ∧
      (∀ b ∈ a.large_blocks, ¬ (deref a.heap b).root →
        b ∈ (emptyCache a hip).alloc.large_blocks ∧
          deref (emptyCache a hip).alloc.heap b = deref a.heap b) ∧
      (∀ b ∈ a.small_blocks, ¬ (deref a.heap b).root →
        b ∈ (emptyCache a hip).alloc.small_blocks ∧
          deref (emptyCache a hip).alloc.heap b = deref a.heap b) ∧
      (emptyCache a hip).alloc.allocated_blocks = a.allocated_blocks) := by
  refine ⟨emptyCache_ok_of_frees a hip, fun hok => ⟨?_, ?_, ?_, ?_⟩⟩
  · intro b hb
    rcases List.mem_append.1 hb with hc | hc
    · exact (emptyCache_pools_split hok).1 b hc
    · exact (emptyCache_pools_split hok).2 b hc
  · intro b hb hnr
    obtain ⟨hm, hc⟩ := (emptyCache_keeps_split hok).1 b hb hnr
    exact ⟨hm, deref_congr hc⟩
  · intro b hb hnr
    obtain ⟨hm, hc⟩ := (emptyCache_keeps_split hok).2 b hb hnr
    exact ⟨hm, deref_congr hc⟩
  · exact emptyCache_allocated_blocks a hip

theorem emptyCache_frees_roots_witness :
    (∀ e ∈ cachedTwo.hip.frees, e = hipSuccess) ∧
    (emptyCache cachedTwo.alloc cachedTwo.hip).err = hipSuccess ∧
    cachedTwo.alloc.large_blocks = [0, 3] ∧
    (emptyCache cachedTwo.alloc cachedTwo.hip).alloc.large_blocks = [0] ∧
    (∀ b ∈ (emptyCache cachedTwo.alloc cachedTwo.hip).alloc.large_blocks ++
        (emptyCache cachedTwo.alloc cachedTwo.hip).alloc.small_blocks,
      ¬ ((deref (emptyCache cachedTwo.alloc cachedTwo.hip).alloc.heap b).prev = none ∧
          (deref (emptyCache cachedTwo.alloc cachedTwo.hip).alloc.heap b).next = none)) :=
  ⟨by decide, (emptyCache_frees_roots cachedTwo.alloc cachedTwo.hip).1 (by decide), by decide,
    by decide, ((emptyCache_frees_roots cachedTwo.alloc cachedTwo.hip).2 (by decide)).1⟩

/-- C10: if `emptyCache` returned success, then an `emptyCache` that follows it directly,
whatever the runtime would answer, makes no call to the runtime (no `hipFree` in
particular), returns success and leaves the heap, the pools and the allocated table
exactly as the first call left them. -/
theorem emptyCache_idempotent (a : THCCachingAllocator) (hip : Hip)
    (hok : (emptyCache a hip).err = hipSuccess) (hip2 : Hip) :
    emptyCache (emptyCache a hip).alloc hip2 = ⟨hipSuccess, (emptyCache a hip).alloc, hip2⟩ :=
  emptyCache_idle _ hip2 (emptyCache_pools_split hok).1 (emptyCache_pools_split hok).2


/-! ## Facts of the representation kept by every operation -/

theorem HeapAll_store {P : Block → Prop} {h : Heap} (hP : HeapAll P h) (p : Nat)
    (f : Block → Block) (hf : ∀ b, P b → P (f b)) : HeapAll P (store h p f) := by
  intro i b hi
  by_cases hip : i = p
  · subst hip
    by_cases hl : ∃ b0, h[i]? = some (some b0)
    · obtain ⟨b0, hb0⟩ := hl
      rw [store_getElem_self f hb0] at hi
      cases hi
      exact hf b0 (hP i b0 hb0)
    · rw [store_dead f (fun b0 hb0 => hl ⟨b0, hb0⟩)] at hi
      exact hP i b hi
  · rw [store_getElem_ne h p i f hip] at hi
    exact hP i b hi

theorem HeapAll_store_opt {P : Block → Prop} {h : Heap} (hP : HeapAll P h) (p : Option Nat)
    (f : Block → Block) (hf : ∀ b, P b → P (f b)) : HeapAll P (store_opt h p f) := by
  cases p with
  | none => exact hP
  | some p => exact HeapAll_store hP p f hf

theorem HeapAll_newBlock {P : Block → Prop} {h : Heap} (hP : HeapAll P h) (b : Block)
    (hb : P b) : HeapAll P (newBlock h b) := by
  intro i c hi
  unfold newBlock at hi
  by_cases hlt : i < h.length
  · rw [List.getElem?_append_left hlt] at hi
    exact hP i c hi
  · rw [List.getElem?_append_right (by omega)] at hi
    by_cases h0 : i - h.length = 0
    · rw [h0] at hi
      simp at hi
      rw [← hi]
      exact hb
    · rw [List.getElem?_eq_none (by simp; omega)] at hi
      cases hi

theorem HeapAll_deleteBlock {P : Block → Prop} {h : Heap} (hP : HeapAll P h) (p : Nat) :
    HeapAll P (deleteBlock h p) := by
  intro i b hi
  by_cases hip : i = p
  · subst hip
    unfold deleteBlock at hi
    by_cases hlt : i < h.length
    · rw [List.getElem?_set_self hlt] at hi
      cases hi
    · rw [List.getElem?_eq_none (by simp; omega)] at hi
      cases hi
  · rw [deleteBlock_getElem_ne h hip] at hi
    exact hP i b hi

theorem deref_HeapAll {P : Block → Prop} {h : Heap} (hP : HeapAll P h) (hd : P default)
    (p : Nat) : P (deref h p) := by
  unfold deref
  split
  · rename_i b hb
    exact hP p b hb
  · exact hd

theorem store_opt_length (h : Heap) (p : Option Nat) (f : Block → Block) :
    (store_opt h p f).length = h.length := by
  cases p with
  | none => rfl
  | some p => exact store_length h p f

theorem mem_set_insert {h : Heap} {x y : Nat} {l : List Nat} (hy : y ∈ set_insert h x l) :
    y = x ∨ y ∈ l := by
  induction l with
  | nil =>
    simp only [set_insert, List.mem_singleton] at hy
    exact Or.inl hy
  | cons e es ih =>
    unfold set_insert at hy
    split at hy
    · rcases List.mem_cons.1 hy with hc | hc
      · exact Or.inr (List.mem_cons.2 (Or.inl hc))
      · rcases ih hc with h1 | h1
        · exact Or.inl h1
        · exact Or.inr (List.mem_cons_of_mem _ h1)
    · split at hy
      · rcases List.mem_cons.1 hy with hc | hc
        · exact Or.inl hc
        · exact Or.inr hc
      · exact Or.inr hy

theorem mem_of_mem_set_insert_old {h : Heap} {x y : Nat} {l : List Nat} (hy : y ∈ l) :
    y ∈ set_insert h x l := by
  induction l with
  | nil => cases hy
  | cons e es ih =>
    unfold set_insert
    split
    · rcases List.mem_cons.1 hy with hc | hc
      · exact List.mem_cons.2 (Or.inl hc)
      · exact List.mem_cons_of_mem _ (ih hc)
    · split
      · exact List.mem_cons_of_mem _ hy
      · exact hy

theorem mem_lower_bound {h : Heap} {key : Block} {fb : List Nat} {y : Nat}
    (hy : y ∈ lower_bound h key fb) : y ∈ fb :=
  (List.dropWhile_suffix _).subset hy

theorem mem_erase_at {fb it : List Nat} {y : Nat} (hit : ∀ z ∈ it, z ∈ fb)
    (hy : y ∈ erase_at fb it) : y ∈ fb := by
  unfold erase_at at hy
  rcases List.mem_append.1 hy with hc | hc
  · exact List.mem_of_mem_take hc
  · exact hit y (List.mem_of_mem_tail hc)

theorem mem_erase_key {h : Heap} {src : Nat} {fb : List Nat} {y : Nat}
    (hy : y ∈ erase_key h src fb) : y ∈ fb := by
  unfold erase_key at hy
  split at hy
  · exact hy
  · rename_i e post hlb
    split at hy
    · exact hy
    · refine mem_erase_at (fun z hz => ?_) hy
      rw [← hlb] at hz
      exact mem_lower_bound hz


theorem add_size_t_lt (x y : Nat) : add_size_t x y < SIZE_T :=
  Nat.mod_lt _ (by decide)

theorem sub_size_t_lt (x y : Nat) : sub_size_t x y < SIZE_T :=
  Nat.mod_lt _ (by decide)

theorem sub_size_t_of_le {x y : Nat} (hxy : y ≤ x) (hx : x < SIZE_T) :
    sub_size_t x y = x - y := by
  unfold sub_size_t
  simp only [SIZE_T] at *
  omega

theorem free_blocks_loop_length (l : List Nat) :
    ∀ (h : Heap) (hip : Hip), (free_blocks_loop l h hip).heap.length = h.length := by
  induction l with
  | nil => intro h hip; rfl
  | cons b rest ih =>
    intro h hip
    unfold free_blocks_loop
    split
    · split
      · rfl
      · rw [ih, deleteBlock_length]
    · exact ih h hip

theorem free_blocks_loop_all {P : Block → Prop} (l : List Nat) :
    ∀ (h : Heap) (hip : Hip), HeapAll P h → HeapAll P (free_blocks_loop l h hip).heap := by
  induction l with
  | nil => intro h hip hP; exact hP
  | cons b rest ih =>
    intro h hip hP
    unfold free_blocks_loop
    split
    · split
      · exact hP
      · exact ih _ _ (HeapAll_deleteBlock hP b)
    · exact ih h hip hP

theorem free_blocks_loop_subset (l : List Nat) :
    ∀ (h : Heap) (hip : Hip) (q : Nat), q ∈ (free_blocks_loop l h hip).blocks → q ∈ l := by
  induction l with
  | nil => intro h hip q hq; exact hq
  | cons b rest ih =>
    intro h hip q hq
    unfold free_blocks_loop at hq
    split at hq
    · split at hq
      · exact hq
      · exact List.mem_cons_of_mem _ (ih _ _ q hq)
    · rcases List.mem_cons.1 hq with hc | hc
      · exact List.mem_cons.2 (Or.inl hc)
      · exact List.mem_cons_of_mem _ (ih h hip q hc)

theorem free_blocks_length (h : Heap) (hip : Hip) (blocks it endIt : List Nat) :
    (free_blocks h hip blocks it endIt).heap.length = h.length :=
  free_blocks_loop_length _ h hip

theorem free_blocks_all {P : Block → Prop} (h : Heap) (hip : Hip) (blocks it endIt : List Nat)
    (hP : HeapAll P h) : HeapAll P (free_blocks h hip blocks it endIt).heap :=
  free_blocks_loop_all _ h hip hP

theorem free_blocks_subset (h : Heap) (hip : Hip) (blocks it endIt : List Nat)
    (hit : ∀ z ∈ it, z ∈ blocks) (q : Nat)
    (hq : q ∈ (free_blocks h hip blocks it endIt).blocks) : q ∈ blocks := by
  unfold free_blocks at hq
  dsimp only at hq
  rcases List.mem_append.1 hq with hc | hc
  · rcases List.mem_append.1 hc with hc1 | hc1
    · exact List.mem_of_mem_take hc1
    · exact hit q (List.mem_of_mem_take (free_blocks_loop_subset _ h hip q hc1))
  · exact hit q (List.mem_of_mem_drop hc)

/-- The two facts carry over to a state whose heap is no shorter and has bounded sizes,
whose pools hold no new pointer and whose table has no new entry. -/
theorem WellTyped_of_shrink {a : THCCachingAllocator} (b : THCCachingAllocator)
    (hw : WellTyped a)
    (hs : HeapAll (fun c => c.size < SIZE_T) b.heap) (hlen : a.heap.length ≤ b.heap.length)
    (hl : ∀ q ∈ b.large_blocks, q ∈ a.large_blocks)
    (hsm : ∀ q ∈ b.small_blocks, q ∈ a.small_blocks)
    (ht : ∀ kv ∈ b.allocated_blocks, kv ∈ a.allocated_blocks) : WellTyped b :=
  ⟨hs, fun q hq => Nat.lt_of_lt_of_le (hw.large q (hl q hq)) hlen,
    fun q hq => Nat.lt_of_lt_of_le (hw.small q (hsm q hq)) hlen,
    fun kv hkv => Nat.lt_of_lt_of_le (hw.table kv (ht kv hkv)) hlen⟩

theorem free_cached_blocks_wellTyped {a : THCCachingAllocator} (hip : Hip) (device : Int)
    (hw : WellTyped a) : WellTyped (free_cached_blocks a hip device).alloc := by
  unfold free_cached_blocks
  dsimp only
  split
  · exact WellTyped_of_shrink _ hw (free_blocks_all a.heap _ a.large_blocks _ _ hw.sizes)
      (free_blocks_length a.heap _ a.large_blocks _ _).ge
      (fun q hq => free_blocks_subset a.heap _ a.large_blocks _ _
        (fun z hz => mem_lower_bound hz) q hq)
      (fun q hq => hq) (fun kv hkv => hkv)
  · exact WellTyped_of_shrink _ hw
      (free_blocks_all _ _ a.small_blocks _ _
        (free_blocks_all a.heap _ a.large_blocks _ _ hw.sizes))
      ((free_blocks_length _ _ a.small_blocks _ _).trans
        (free_blocks_length a.heap _ a.large_blocks _ _)).ge
      (fun q hq => free_blocks_subset a.heap _ a.large_blocks _ _
        (fun z hz => mem_lower_bound hz) q hq)
      (fun q hq => free_blocks_subset _ _ a.small_blocks _ _
        (fun z hz => mem_lower_bound hz) q hq)
      (fun kv hkv => hkv)

theorem hip_malloc_retry_wellTyped {a : THCCachingAllocator} (hip : Hip) (device : Int)
    (size : Nat) (hw : WellTyped a) : WellTyped (hip_malloc_retry a hip device size).alloc := by
  unfold hip_malloc_retry
  dsimp only
  split
  · split
    · exact free_cached_blocks_wellTyped _ device hw
    · split
      · exact free_cached_blocks_wellTyped _ device hw
      · exact free_cached_blocks_wellTyped _ device hw
  · exact hw

theorem emptyCache_wellTyped {a : THCCachingAllocator} (hip : Hip) (hw : WellTyped a) :
    WellTyped (emptyCache a hip).alloc := by
  have hall : WellTyped
      { a with
        heap := (free_blocks (free_blocks a.heap hip a.large_blocks a.large_blocks []).heap
          (free_blocks a.heap hip a.large_blocks a.large_blocks []).hip
          a.small_blocks a.small_blocks []).heap,
        large_blocks := (free_blocks a.heap hip a.large_blocks a.large_blocks []).blocks,
        small_blocks :=
          (free_blocks (free_blocks a.heap hip a.large_blocks a.large_blocks []).heap
            (free_blocks a.heap hip a.large_blocks a.large_blocks []).hip
            a.small_blocks a.small_blocks []).blocks } :=
    WellTyped_of_shrink _ hw
      (free_blocks_all _ _ a.small_blocks _ _
        (free_blocks_all a.heap _ a.large_blocks _ _ hw.sizes))
      ((free_blocks_length _ _ a.small_blocks _ _).trans
        (free_blocks_length a.heap _ a.large_blocks _ _)).ge
      (fun q hq => free_blocks_subset a.heap _ a.large_blocks _ _ (fun z hz => hz) q hq)
      (fun q hq => free_blocks_subset _ _ a.small_blocks _ _ (fun z hz => hz) q hq)
      (fun kv hkv => hkv)
  unfold emptyCache
  dsimp only
  split
  · exact WellTyped_of_shrink _ hw (free_blocks_all a.heap _ a.large_blocks _ _ hw.sizes)
      (free_blocks_length a.heap _ a.large_blocks _ _).ge
      (fun q hq => free_blocks_subset a.heap _ a.large_blocks _ _ (fun z hz => hz) q hq)
      (fun q hq => hq) (fun kv hkv => hkv)
  · split
    · exact hall
    · exact hall


theorem getPool_lt {a : THCCachingAllocator} (hw : WellTyped a) (small : Bool) :
    ∀ b ∈ getPool small a, b < a.heap.length := by
  unfold getPool
  split
  · exact hw.large
  · exact hw.small

theorem setPool_wellTyped {a : THCCachingAllocator} (hw : WellTyped a) (small : Bool)
    (fb : List Nat) (hfb : ∀ b ∈ fb, b < a.heap.length) : WellTyped (setPool small a fb) := by
  unfold setPool
  split
  · exact ⟨hw.sizes, hfb, hw.small, hw.table⟩
  · exact ⟨hw.sizes, hw.large, hfb, hw.table⟩

theorem mem_of_lookup {p v : Nat} {l : List (Nat × Nat)} (h : l.lookup p = some v) :
    (p, v) ∈ l := by
  induction l with
  | nil => cases h
  | cons kv l ih =>
    obtain ⟨k, w⟩ := kv
    simp only [List.lookup] at h
    split at h
    · rename_i heq
      cases h
      have hk : p = k := by simpa using heq
      rw [hk]
      exact List.mem_cons_self _ _
    · exact List.mem_cons_of_mem _ (ih h)

theorem try_merge_blocks_length (h : Heap) (dst : Nat) (src : Option Nat) (fb : List Nat) :
    (try_merge_blocks h dst src fb).1.length = h.length := by
  unfold try_merge_blocks
  split
  · rfl
  · split
    · rfl
    · dsimp only
      rw [deleteBlock_length, store_length]
      split
      · rw [store_opt_length, store_length, store_length]
      · rw [store_opt_length, store_length]

theorem try_merge_blocks_sizes (h : Heap) (dst : Nat) (src : Option Nat) (fb : List Nat)
    (hs : HeapAll (fun b => b.size < SIZE_T) h) :
    HeapAll (fun b => b.size < SIZE_T) (try_merge_blocks h dst src fb).1 := by
  unfold try_merge_blocks
  split
  · exact hs
  · split
    · exact hs
    · dsimp only
      apply HeapAll_deleteBlock
      apply HeapAll_store
      · split
        · apply HeapAll_store_opt
          · apply HeapAll_store
            · apply HeapAll_store
              · exact hs
              · exact fun b hb => hb
            · exact fun b hb => hb
          · exact fun b hb => hb
        · apply HeapAll_store_opt
          · apply HeapAll_store
            · exact hs
            · exact fun b hb => hb
          · exact fun b hb => hb
      · exact fun b _ => add_size_t_lt _ _

theorem try_merge_blocks_subset (h : Heap) (dst : Nat) (src : Option Nat) (fb : List Nat) :
    ∀ q ∈ (try_merge_blocks h dst src fb).2, q ∈ fb := by
  intro q hq
  unfold try_merge_blocks at hq
  split at hq
  · exact hq
  · split at hq
    · exact hq
    · exact mem_erase_key hq

theorem free_wellTyped {a : THCCachingAllocator} (hip : Hip) (ptr : Nat) (hw : WellTyped a) :
    WellTyped (free a hip ptr).alloc := by
  unfold free
  split
  · exact hw
  · split
    · exact hw
    · rename_i block hlook
      have hblock : block < a.heap.length := hw.table (ptr, block) (mem_of_lookup hlook)
      dsimp only
      have hlen : (store (try_merge_blocks (try_merge_blocks a.heap block
          (deref a.heap block).prev
          (getPool (decide ((deref a.heap block).size ≤ kSmallAlloc)) a)).1 block
          (deref (try_merge_blocks a.heap block (deref a.heap block).prev
            (getPool (decide ((deref a.heap block).size ≤ kSmallAlloc)) a)).1 block).next
          (try_merge_blocks a.heap block (deref a.heap block).prev
            (getPool (decide ((deref a.heap block).size ≤ kSmallAlloc)) a)).2).1 block
          (fun b => { b with allocated := false })).length = a.heap.length := by
        rw [store_length, try_merge_blocks_length, try_merge_blocks_length]
      apply setPool_wellTyped
      · refine WellTyped_of_shrink _ hw ?_ hlen.ge (fun q hq => hq) (fun q hq => hq)
          (fun kv hkv => List.mem_of_mem_filter hkv)
        apply HeapAll_store
        · exact try_merge_blocks_sizes _ _ _ _ (try_merge_blocks_sizes _ _ _ _ hw.sizes)
        · exact fun b hb => hb
      · intro b hb
        show b < (store _ _ _).length
        rw [hlen]
        rcases mem_set_insert hb with hc | hc
        · rw [hc]
          exact hblock
        · exact getPool_lt hw _ b
            (try_merge_blocks_subset _ _ _ _ b (try_merge_blocks_subset _ _ _ _ b hc))


theorem malloc_record_wellTyped {a : THCCachingAllocator} (hip : Hip) {block : Nat}
    (hw : WellTyped a) (hb : block < a.heap.length) :
    WellTyped (malloc_record a hip block).alloc := by
  unfold malloc_record
  dsimp only
  refine ⟨HeapAll_store hw.sizes _ _ (fun b hb => hb), ?_, ?_, ?_⟩
  · intro q hq
    rw [store_length]
    exact hw.large q hq
  · intro q hq
    rw [store_length]
    exact hw.small q hq
  · intro kv hkv
    rw [store_length]
    rcases List.mem_cons.1 hkv with hc | hc
    · rw [hc]
      exact hb
    · exact hw.table kv (List.mem_of_mem_filter hc)

theorem malloc_split_heap_length (h : Heap) (remaining : Nat) (device : Int)
    (stream size : Nat) :
    (malloc_split_heap h remaining device stream size).length = h.length + 1 := by
  unfold malloc_split_heap
  dsimp only
  rw [store_length, store_length, store_length, store_length, store_opt_length, store_length,
    newBlock_length]

theorem malloc_split_heap_sizes {h : Heap} (remaining : Nat) (device : Int)
    (stream : Nat) {size : Nat} (hs : HeapAll (fun b => b.size < SIZE_T) h)
    (hsz : size < SIZE_T) :
    HeapAll (fun b => b.size < SIZE_T) (malloc_split_heap h remaining device stream size) := by
  unfold malloc_split_heap
  dsimp only
  apply HeapAll_store
  · apply HeapAll_store
    · apply HeapAll_store
      · apply HeapAll_store
        · apply HeapAll_store_opt
          · apply HeapAll_store
            · exact HeapAll_newBlock hs _ hsz
            · exact fun b hb => hb
          · exact fun b hb => hb
        · exact fun b hb => hb
      · exact fun b hb => hb
    · exact fun b hb => hb
  · exact fun b _ => sub_size_t_lt _ _

theorem malloc_split_wellTyped {a : THCCachingAllocator} (hip : Hip) {block : Nat}
    (device : Int) (stream : Nat) {size : Nat} (hw : WellTyped a)
    (hb : block < a.heap.length) (hsz : size < SIZE_T) :
    WellTyped (malloc_split a hip block device stream size).alloc := by
  have hlen := malloc_split_heap_length a.heap block device stream size
  have hle : a.heap.length ≤ (malloc_split_heap a.heap block device stream size).length := by
    rw [hlen]
    exact Nat.le_succ _
  have hnew : newPtr a.heap < (malloc_split_heap a.heap block device stream size).length := by
    rw [hlen]
    exact Nat.lt_succ_self _
  have hbase :
      WellTyped { a with heap := malloc_split_heap a.heap block device stream size } := by
    refine WellTyped_of_shrink _ hw ?_ ?_ (fun q hq => hq) (fun q hq => hq)
      (fun kv hkv => hkv)
    · exact malloc_split_heap_sizes block device stream hw.sizes hsz
    · dsimp only
      exact hle
  unfold malloc_split
  split
  · apply malloc_record_wellTyped
    · apply setPool_wellTyped hbase
      intro q hq
      have hq2 : q < a.heap.length := by
        rcases mem_set_insert hq with hc | hc
        · rw [hc]
          exact hb
        · exact getPool_lt hw _ q hc
      dsimp only
      exact Nat.lt_of_lt_of_le hq2 hle
    · rw [setPool_heap]
      dsimp only
      exact hnew
  · exact malloc_record_wellTyped hip hw hb

theorem malloc_hit_mem {a : THCCachingAllocator} {device : Int} {stream size block : Nat}
    (h : malloc_hit a device stream size = some block) :
    block ∈ getPool (decide (size ≤ kSmallAlloc)) a := by
  unfold malloc_hit at h
  split at h
  · cases h
  · rename_i e post hlb
    split at h
    · cases h
      have hmem : block ∈ lower_bound a.heap (Block.ctor device stream size 0)
          (getPool (decide (size ≤ kSmallAlloc)) a) := by
        rw [hlb]
        exact List.mem_cons_self _ _
      exact mem_lower_bound hmem
    · cases h

theorem newPtr_lt_newBlock (h : Heap) (b : Block) : newPtr h < (newBlock h b).length := by
  rw [newBlock_length]
  exact Nat.lt_succ_self _

theorem alloc_size_lt {size : Nat} (hsz : size < SIZE_T) : alloc_size size < SIZE_T := by
  unfold alloc_size
  split
  · decide
  · exact hsz

theorem malloc_miss_wellTyped {a : THCCachingAllocator} (hip : Hip) (device : Int)
    (stream : Nat) {size : Nat} (hw : WellTyped a) (hsz : size < SIZE_T) :
    WellTyped (malloc_miss a hip device stream size).alloc := by
  have hr := hip_malloc_retry_wellTyped hip device (alloc_size size) hw
  by_cases herr : (hip_malloc_retry a hip device (alloc_size size)).err = hipSuccess
  · rw [malloc_miss_of_ok herr]
    apply malloc_split_wellTyped
    · refine WellTyped_of_shrink _ hr ?_ ?_ (fun q hq => hq) (fun q hq => hq)
        (fun kv hkv => hkv)
      · exact HeapAll_newBlock hr.sizes _ (alloc_size_lt hsz)
      · dsimp only
        exact Nat.le_of_lt (newPtr_lt_newBlock _ _)
    · dsimp only
      exact newPtr_lt_newBlock _ _
    · exact hsz
  · rw [malloc_miss_of_err herr]
    exact hr

theorem malloc_rounded_wellTyped {a : THCCachingAllocator} (hip : Hip) (device : Int)
    (stream : Nat) {size : Nat} (hw : WellTyped a) (hsz : size < SIZE_T) :
    WellTyped (malloc_rounded a hip device stream size).alloc := by
  unfold malloc_rounded
  split
  · rename_i block hhit
    apply malloc_split_wellTyped
    · apply setPool_wellTyped hw
      intro q hq
      exact getPool_lt hw _ q (mem_erase_at (fun z hz => mem_lower_bound hz) hq)
    · rw [setPool_heap]
      exact getPool_lt hw _ block (malloc_hit_mem hhit)
    · exact hsz
  · exact malloc_miss_wellTyped hip device stream hw hsz

theorem malloc_wellTyped {a : THCCachingAllocator} (hip : Hip) (size stream : Nat)
    (hw : WellTyped a) : WellTyped (malloc a hip size stream).alloc := by
  by_cases hdev : hip.device.1 = hipSuccess
  · rw [malloc_of_device_ok hdev]
    exact malloc_rounded_wellTyped _ _ stream hw (round_size_lt size)
  · rw [malloc_of_device_err hdev]
    exact hw

/-- Every reachable state has sizes that are `size_t` values and pointers into the heap. -/
theorem Reachable.wellTyped {a : THCCachingAllocator} {hip : Hip} (hr : Reachable a hip) :
    WellTyped a := by
  induction hr with
  | init hip _ =>
    refine ⟨?_, ?_, ?_, ?_⟩
    · intro i b hi
      simp [THCCachingAllocator.empty] at hi
    · intro b hb
      cases hb
    · intro b hb
      cases hb
    · intro kv hkv
      cases hkv
  | answers _ _ _ _ ih => exact ih
  | malloc size stream _ _ ih => exact malloc_wellTyped _ size stream ih
  | free ptr _ ih => exact free_wellTyped _ ptr ih
  | emptyCache _ ih => exact emptyCache_wellTyped _ ih


/-! ## The size of the block handed out -/

theorem dropWhile_head_false {α : Type} (p : α → Bool) :
    ∀ (l : List α) (e : α) (post : List α), l.dropWhile p = e :: post → p e = false := by
  intro l
  induction l with
  | nil => intro e post h; cases h
  | cons x xs ih =>
    intro e post h
    by_cases hx : p x = true
    · rw [List.dropWhile_cons_of_pos hx] at h
      exact ih e post h
    · rw [List.dropWhile_cons_of_neg hx] at h
      cases h
      simpa using hx

/-- A block taken from the pool is at least as large as the rounded request. -/
theorem malloc_hit_size {a : THCCachingAllocator} {device : Int} {stream size block : Nat}
    (h : malloc_hit a device stream size = some block) : size ≤ (deref a.heap block).size := by
  unfold malloc_hit at h
  split at h
  · cases h
  · rename_i e post hlb
    split at h
    · rename_i hown
      cases h
      have hcmp := dropWhile_head_false _ _ _ _ hlb
      unfold BlockComparator at hcmp
      simp only [Block.ctor, hown.1, hown.2, ne_eq, not_true_eq_false, if_false] at hcmp
      by_cases hsz : (deref a.heap block).size = size
      · exact hsz.ge
      · rw [if_pos hsz] at hcmp
        simpa using hcmp
    · cases h

theorem malloc_split_heap_new_size (h : Heap) (remaining : Nat) (device : Int)
    (stream size : Nat) (hne : newPtr h ≠ remaining) :
    (deref (malloc_split_heap h remaining device stream size) (newPtr h)).size = size := by
  unfold malloc_split_heap
  dsimp only
  rw [deref_store_ne _ _ _ _ hne, deref_store_ne _ _ _ _ hne, deref_store_ne _ _ _ _ hne,
    deref_store_proj Block.size, deref_store_opt_proj Block.size, deref_store_proj Block.size,
    deref_newBlock_self]
  · rfl
  all_goals
    intro b
    rfl

theorem deref_store_allocated_size (h : Heap) (p q : Nat) (v : Bool) :
    (deref (store h p (fun b => { b with allocated := v })) q).size = (deref h q).size :=
  deref_store_proj Block.size h p q _ (fun _ => rfl)

theorem split_threshold_pos (size : Nat) : 0 < split_threshold size := by
  unfold split_threshold
  split <;> decide

/-- The block that the split decision hands out, for a chosen block that is at least as
large as the rounded request: its size is the request when it was split off, and the whole
chosen block, less than a split threshold larger, when it was not. -/
theorem malloc_split_size {a : THCCachingAllocator} (hip : Hip) {block : Nat} (device : Int)
    (stream : Nat) {size : Nat} (hb : block < a.heap.length)
    (hge : size ≤ (deref a.heap block).size) (hlt : (deref a.heap block).size < SIZE_T) :
    ReturnedBlock (malloc_split a hip block device stream size)
      (fun b => size ≤ b.size ∧ b.size < size + split_threshold size) := by
  unfold malloc_split
  split
  · apply malloc_record_returned
    rw [setPool_heap]
    dsimp only
    rw [deref_store_allocated_size,
      malloc_split_heap_new_size _ _ _ _ _ (Nat.ne_of_gt hb)]
    exact ⟨Nat.le_refl _, Nat.lt_add_of_pos_right (split_threshold_pos size)⟩
  · rename_i hns
    apply malloc_record_returned
    rw [deref_store_allocated_size]
    rw [sub_size_t_of_le hge hlt] at hns
    refine ⟨hge, ?_⟩
    omega

/-- In a state with `size_t` sizes and pointers into the heap, a successful `malloc` hands
out a block whose size is at least the rounded request and less than a split threshold
above it. -/
theorem malloc_rounded_size {a : THCCachingAllocator} (hip : Hip) (device : Int)
    (stream : Nat) {size : Nat} (hw : WellTyped a) (hsz : size < SIZE_T)
    (hok : (malloc_rounded a hip device stream size).err = hipSuccess) :
    ReturnedBlock (malloc_rounded a hip device stream size)
      (fun b => size ≤ b.size ∧ b.size < size + split_threshold size) := by
  unfold malloc_rounded at hok ⊢
  split
  · rename_i block hhit
    apply malloc_split_size
    · rw [setPool_heap]
      exact getPool_lt hw _ block (malloc_hit_mem hhit)
    · rw [setPool_heap]
      exact malloc_hit_size hhit
    · rw [setPool_heap]
      exact deref_HeapAll hw.sizes (by decide) block
  · rename_i hmiss
    simp only [hmiss] at hok
    by_cases herr : (hip_malloc_retry a hip device (alloc_size size)).err = hipSuccess
    · rw [malloc_miss_of_ok herr]
      apply malloc_split_size
      · dsimp only
        exact newPtr_lt_newBlock _ _
      · dsimp only
        rw [deref_newBlock_self]
        show size ≤ alloc_size size
        unfold alloc_size
        split
        · assumption
        · exact Nat.le_refl _
      · dsimp only
        rw [deref_newBlock_self]
        exact alloc_size_lt hsz
    · rw [malloc_miss_of_err herr] at hok
      exact absurd hok herr


/-- C6: in every reachable state, a successful `malloc` of `size` bytes hands out a block
whose size is at least `r = round_size size` and less than `r + T`, where `T = 512` if
`r ≤ 1048576` and `T = 1048577` otherwise. -/
theorem malloc_size_bounds (a : THCCachingAllocator) (hip : Hip) (hr : Reachable a hip)
    (size stream : Nat) (hok : (malloc a hip size stream).err = hipSuccess) :
    ReturnedBlock (malloc a hip size stream)
      (fun b => round_size size ≤ b.size ∧
        b.size < round_size size + (if round_size size ≤ 1048576 then 512 else 1048577)) := by
  by_cases hdev : hip.device.1 = hipSuccess
  · rw [malloc_of_device_ok hdev] at hok ⊢
    exact malloc_rounded_size _ _ stream hr.wellTyped (round_size_lt size) hok
  · rw [malloc_of_device_err hdev] at hok
    exact absurd hok hdev

theorem malloc_size_bounds_witness :
    Reachable afterFirst.alloc afterFirst.hip ∧
    (malloc afterFirst.alloc afterFirst.hip 100 7).err = hipSuccess ∧
    ReturnedBlock (malloc afterFirst.alloc afterFirst.hip 100 7)
      (fun b => round_size 100 ≤ b.size ∧
        b.size < round_size 100 + (if round_size 100 ≤ 1048576 then 512 else 1048577)) :=
  ⟨Reachable.malloc 200 7 (Reachable.init hipTwo rfl) (by decide), by decide,
    malloc_size_bounds afterFirst.alloc afterFirst.hip
      (Reachable.malloc 200 7 (Reachable.init hipTwo rfl) (by decide)) 100 7 (by decide)⟩


/-! ## What `malloc` leaves alone -/

theorem lt_length_of_live {h : Heap} {q : Nat} {b : Block} (hb : h[q]? = some (some b)) :
    q < h.length := by
  by_contra hc
  rw [List.getElem?_eq_none (by omega)] at hb
  cases hb

theorem store_opt_getElem_ne (h : Heap) (o : Option Nat) (q : Nat) (f : Block → Block)
    (ho : o ≠ some q) : (store_opt h o f)[q]? = h[q]? := by
  cases o with
  | none => rfl
  | some p =>
    exact store_getElem_ne h p q f (fun hc => ho (by rw [hc]))

theorem newBlock_getElem_new (h : Heap) (b : Block) :
    (newBlock h b)[newPtr h]? = some (some b) := by
  simp [newBlock, newPtr]

theorem deref_newBlock_prev (h : Heap) (device : Int) (stream size ptr remaining : Nat) :
    (deref (newBlock h (Block.ctor device stream size ptr)) remaining).prev =
      (deref h remaining).prev := by
  by_cases hlt : remaining < h.length
  · rw [deref_congr (newBlock_getElem_old h _ hlt)]
  · have hdead : ∀ b, h[remaining]? ≠ some (some b) := by
      intro b hb
      exact hlt (lt_length_of_live hb)
    rw [(deref_default_root h remaining hdead).1]
    by_cases heq : remaining = newPtr h
    · rw [heq, deref_newBlock_self]
      rfl
    · refine (deref_default_root _ remaining ?_).1
      intro b hb
      have h1 := lt_length_of_live hb
      rw [newBlock_length] at h1
      unfold newPtr at heq
      omega

/-- The split of `malloc` writes to the new block, to the block split and to the block
before it, and to no other cell. -/
theorem malloc_split_heap_frame (h : Heap) (remaining : Nat) (device : Int)
    (stream size q : Nat) (hq : q < h.length) (hne : q ≠ remaining)
    (hprev : (deref h remaining).prev ≠ some q) :
    (malloc_split_heap h remaining device stream size)[q]? = h[q]? := by
  have hnew : q ≠ newPtr h := Nat.ne_of_lt hq
  unfold malloc_split_heap
  dsimp only
  rw [store_getElem_ne _ _ _ _ hne, store_getElem_ne _ _ _ _ hne, store_getElem_ne _ _ _ _ hne,
    store_getElem_ne _ _ _ _ hnew, store_opt_getElem_ne, store_getElem_ne _ _ _ _ hnew,
    newBlock_getElem_old h _ hq]
  rw [deref_of_live (store_getElem_self _ (newBlock_getElem_new h _))]
  dsimp only
  rw [deref_newBlock_prev]
  exact hprev

theorem erase_at_lower_bound_keeps {h : Heap} {key : Block} {fb : List Nat} {e q : Nat}
    {post : List Nat} (hlb : lower_bound h key fb = e :: post) (hq : q ∈ fb) (hne : q ≠ e) :
    q ∈ erase_at fb (lower_bound h key fb) := by
  obtain ⟨pre, hpre⟩ : lower_bound h key fb <:+ fb := List.dropWhile_suffix _
  rw [hlb] at hpre ⊢
  unfold erase_at
  have hlen : fb.length - (e :: post).length = pre.length := by
    rw [← hpre]
    simp
  rw [hlen, ← hpre, List.take_left']
  · rw [← hpre] at hq
    rcases List.mem_append.1 hq with hc | hc
    · exact List.mem_append.2 (Or.inl hc)
    · rcases List.mem_cons.1 hc with hc1 | hc1
      · exact absurd hc1 hne
      · exact List.mem_append.2 (Or.inr hc1)
  · rfl

theorem getPool_setPool_same (small : Bool) (a : THCCachingAllocator) (fb : List Nat) :
    getPool small (setPool small a fb) = fb := by
  cases small <;> rfl

theorem setPool_false_large (a : THCCachingAllocator) (fb : List Nat) :
    (setPool false a fb).large_blocks = a.large_blocks := rfl

theorem setPool_false_small (a : THCCachingAllocator) (fb : List Nat) :
    (setPool false a fb).small_blocks = fb := rfl

theorem setPool_true_large (a : THCCachingAllocator) (fb : List Nat) :
    (setPool true a fb).large_blocks = fb := rfl

theorem setPool_true_small (a : THCCachingAllocator) (fb : List Nat) :
    (setPool true a fb).small_blocks = a.small_blocks := rfl

theorem getPool_true (a : THCCachingAllocator) : getPool true a = a.large_blocks := rfl

theorem getPool_false (a : THCCachingAllocator) : getPool false a = a.small_blocks := rfl

theorem malloc_record_frame (a : THCCachingAllocator) (hip : Hip) (block q : Nat)
    (hne : q ≠ block) :
    (malloc_record a hip block).alloc.heap[q]? = a.heap[q]? ∧
    (malloc_record a hip block).alloc.large_blocks = a.large_blocks ∧
    (malloc_record a hip block).alloc.small_blocks = a.small_blocks :=
  ⟨store_getElem_ne _ _ _ _ hne, rfl, rfl⟩

/-- The split decision and the end of `malloc` leave alone every live block other than
the chosen one and the one before it, and leave it in its pool. -/
theorem malloc_split_frame (a : THCCachingAllocator) (hip : Hip) (block : Nat) (device : Int)
    (stream size q : Nat) (hq : q < a.heap.length) (hne : q ≠ block)
    (hprev : (deref a.heap block).prev ≠ some q) :
    (malloc_split a hip block device stream size).alloc.heap[q]? = a.heap[q]? ∧
    (q ∈ a.large_blocks → q ∈ (malloc_split a hip block device stream size).alloc.large_blocks) ∧
    (q ∈ a.small_blocks →
      q ∈ (malloc_split a hip block device stream size).alloc.small_blocks) := by
  unfold malloc_split
  split
  · obtain ⟨h1, h2, h3⟩ := malloc_record_frame
      (setPool (decide (size ≤ kSmallAlloc))
        { a with heap := malloc_split_heap a.heap block device stream size }
        (set_insert (malloc_split_heap a.heap block device stream size) block
          (getPool (decide (size ≤ kSmallAlloc)) a)))
      hip (newPtr a.heap) q (Nat.ne_of_lt hq)
    rw [h1, h2, h3, setPool_heap]
    refine ⟨malloc_split_heap_frame _ _ _ _ _ _ hq hne hprev, ?_, ?_⟩
    · intro hmem
      cases decide (size ≤ kSmallAlloc)
      · rw [setPool_false_large]
        exact hmem
      · rw [setPool_true_large]
        exact mem_of_mem_set_insert_old hmem
    · intro hmem
      cases decide (size ≤ kSmallAlloc)
      · rw [setPool_false_small]
        exact mem_of_mem_set_insert_old hmem
      · rw [setPool_true_small]
        exact hmem
  · obtain ⟨h1, h2, h3⟩ := malloc_record_frame a hip block q hne
    rw [h1, h2, h3]
    exact ⟨rfl, fun hm => hm, fun hm => hm⟩


theorem malloc_hit_lower_bound {a : THCCachingAllocator} {device : Int}
    {stream size block : Nat} (h : malloc_hit a device stream size = some block) :
    ∃ post, lower_bound a.heap (Block.ctor device stream size 0)
      (getPool (decide (size ≤ kSmallAlloc)) a) = block :: post := by
  unfold malloc_hit at h
  split at h
  · cases h
  · rename_i e post hlb
    split at h
    · cases h
      exact ⟨post, hlb⟩
    · cases h

theorem malloc_split_err (a : THCCachingAllocator) (hip : Hip) (block : Nat) (device : Int)
    (stream size : Nat) : (malloc_split a hip block device stream size).err = hipSuccess := by
  unfold malloc_split
  split <;> rfl

theorem hip_malloc_retry_first_ok (a : THCCachingAllocator) {hip : Hip} (device : Int)
    (size : Nat) {ans : hipError_t × Nat} {rest : List (hipError_t × Nat)}
    (hm : hip.mallocs = ans :: rest) (hok : ans.1 = hipSuccess) :
    (hip_malloc_retry a hip device size).err = hipSuccess ∧
      (hip_malloc_retry a hip device size).alloc = a := by
  unfold hip_malloc_retry
  simp only [hipMalloc, hm, hok, ne_eq, not_true_eq_false, if_false, and_self]

/-- A live block that belongs to another device or stream than the block `block` is
neither `block` nor the block before it, when siblings share their owner. -/
theorem other_owner_apart {a : THCCachingAllocator} (hinv : SiblingsShareOwner a)
    {block q : Nat} {blk : Block} {device : Int} {stream : Nat}
    (hlive : a.heap[q]? = some (some blk))
    (hown : ¬ (blk.device = device ∧ blk.stream = stream))
    (hb : (deref a.heap block).device = device ∧ (deref a.heap block).stream = stream) :
    q ≠ block ∧ (deref a.heap block).prev ≠ some q := by
  constructor
  · intro hc
    rw [← hc, deref_of_live hlive] at hb
    exact hown hb
  · intro hc
    by_cases hl : ∃ bb, a.heap[block]? = some (some bb)
    · obtain ⟨bb, hbb⟩ := hl
      rw [deref_of_live hbb] at hb hc
      have hsib := (hinv block bb hbb).1 q hc
      rw [deref_of_live hlive] at hsib
      exact hown ⟨hsib.1.trans hb.1, hsib.2.trans hb.2⟩
    · rw [(deref_default_root a.heap block (fun bb hbb => hl ⟨bb, hbb⟩)).1] at hc
      cases hc

/-- The frame of a `malloc` that is served from the pool or by the first primitive
allocation: the call succeeds, and a live block of another device or stream keeps its
cell and its place in either pool. -/
theorem malloc_rounded_frame (a : THCCachingAllocator) (hip : Hip) (device : Int)
    (stream size : Nat) (hinv : SiblingsShareOwner a)
    (hpath : (malloc_hit a device stream size).isSome ∨
      ∃ ans rest, hip.mallocs = ans :: rest ∧ ans.1 = hipSuccess)
    (q : Nat) (blk : Block) (hlive : a.heap[q]? = some (some blk))
    (hown : ¬ (blk.device = device ∧ blk.stream = stream)) :
    (malloc_rounded a hip device stream size).err = hipSuccess ∧
    (q ∈ a.large_blocks → q ∈ (malloc_rounded a hip device stream size).alloc.large_blocks) ∧
    (q ∈ a.small_blocks → q ∈ (malloc_rounded a hip device stream size).alloc.small_blocks) ∧
    (malloc_rounded a hip device stream size).alloc.heap[q]? = some (some blk) := by
  have hq : q < a.heap.length := lt_length_of_live hlive
  unfold malloc_rounded
  split
  · rename_i block hhit
    obtain ⟨hne, hprev⟩ := other_owner_apart hinv hlive hown (malloc_hit_owner hhit)
    obtain ⟨post, hlb⟩ := malloc_hit_lower_bound hhit
    obtain ⟨h1, h2, h3⟩ := malloc_split_frame
      (setPool (decide (size ≤ kSmallAlloc)) a
        (erase_at (getPool (decide (size ≤ kSmallAlloc)) a)
          (lower_bound a.heap (Block.ctor device stream size 0)
            (getPool (decide (size ≤ kSmallAlloc)) a))))
      hip block device stream size q (by rw [setPool_heap]; exact hq) hne
      (by rw [setPool_heap]; exact hprev)
    rw [setPool_heap] at h1
    refine ⟨malloc_split_err _ _ _ _ _ _, ?_, ?_, h1.trans hlive⟩
    · intro hmem
      apply h2
      revert hlb
      cases decide (size ≤ kSmallAlloc)
      · intro _
        rw [setPool_false_large]
        exact hmem
      · intro hlb
        rw [setPool_true_large]
        exact erase_at_lower_bound_keeps hlb hmem hne
    · intro hmem
      apply h3
      revert hlb
      cases decide (size ≤ kSmallAlloc)
      · intro hlb
        rw [setPool_false_small]
        exact erase_at_lower_bound_keeps hlb hmem hne
      · intro _
        rw [setPool_true_small]
        exact hmem
  · rename_i hmiss
    rw [hmiss] at hpath
    rcases hpath with hc | ⟨ans, rest, hm, hans⟩
    · cases hc
    · obtain ⟨herr, halloc⟩ :=
        hip_malloc_retry_first_ok a device (alloc_size size) hm hans
      rw [malloc_miss_of_ok herr, halloc]
      obtain ⟨h1, h2, h3⟩ := malloc_split_frame
        { a with heap := newBlock a.heap (Block.ctor device stream (alloc_size size)
            ((hip_malloc_retry a hip device (alloc_size size)).devPtr.getD 0)) }
        (hip_malloc_retry a hip device (alloc_size size)).hip (newPtr a.heap) device stream
        size q
        (by
          dsimp only
          rw [newBlock_length]
          exact Nat.lt_succ_of_lt hq)
        (Nat.ne_of_lt hq)
        (by
          dsimp only
          rw [deref_newBlock_self]
          intro hc
          cases hc)
      dsimp only at h1 h2 h3
      rw [newBlock_getElem_old a.heap _ hq] at h1
      exact ⟨malloc_split_err _ _ _ _ _ _, h2, h3, h1.trans hlive⟩


theorem siblings_check_sound {a : THCCachingAllocator} (h : siblings_check a = true) :
    SiblingsShareOwner a := by
  intro b blk hb
  have hmem : some blk ∈ a.heap := List.getElem?_mem hb
  have hok : siblings_ok a.heap blk = true := by
    have := List.all_eq_true.1 h (some blk) hmem
    simpa using this
  unfold siblings_ok at hok
  rw [Bool.and_eq_true] at hok
  constructor
  · intro p hp
    have h1 := hok.1
    rw [hp] at h1
    simpa using h1
  · intro n hn
    have h2 := hok.2
    rw [hn] at h2
    simpa using h2

/-- C2: in a state where siblings share their owner (a data-model invariant), a
`malloc(size, stream)` on device `d` that hits the pool, or whose first primitive
allocation succeeds, succeeds and leaves every live block whose device or stream differs
from `(d, stream)` in the pool it was in, with every field (size, address and sibling
links among them) unchanged; such a block is not the block handed out. -/
theorem malloc_other_owner_untouched (a : THCCachingAllocator) (hip : Hip)
    (size stream : Nat) (hinv : SiblingsShareOwner a) (hdev : hip.device.1 = hipSuccess)
    (hpath : (malloc_hit a hip.device.2 stream (round_size size)).isSome ∨
      ∃ ans rest, hip.mallocs = ans :: rest ∧ ans.1 = hipSuccess)
    (q : Nat) (blk : Block) (hlive : a.heap[q]? = some (some blk))
    (hown : ¬ (blk.device = hip.device.2 ∧ blk.stream = stream)) :
    (malloc a hip size stream).err = hipSuccess ∧
    (q ∈ a.large_blocks → q ∈ (malloc a hip size stream).alloc.large_blocks) ∧
    (q ∈ a.small_blocks → q ∈ (malloc a hip size stream).alloc.small_blocks) ∧
    (malloc a hip size stream).alloc.heap[q]? = some (some blk) ∧
    (∀ p, (malloc a hip size stream).devPtr = some p →
      (malloc a hip size stream).alloc.allocated_blocks.lookup p ≠ some q) := by
  have hframe := malloc_rounded_frame a (hipGetDevice hip).2.2 hip.device.2 stream
    (round_size size) hinv hpath q blk hlive hown
  rw [← malloc_of_device_ok hdev] at hframe
  obtain ⟨herr, hl, hs, hcell⟩ := hframe
  refine ⟨herr, hl, hs, hcell, ?_⟩
  intro p hp hlook
  obtain ⟨p0, b0, hp0, hlook0, hown0⟩ := malloc_returned_owner a hip size stream herr
  rw [hp] at hp0
  cases hp0
  rw [hlook] at hlook0
  cases hlook0
  rw [deref_of_live hcell] at hown0
  exact hown hown0

theorem malloc_other_owner_untouched_witness :
    SiblingsShareOwner afterFirst.alloc ∧
    0 ∈ afterFirst.alloc.large_blocks ∧
    afterFirst.alloc.heap[0]? = some (some ⟨0, 7, 1048064, 4608, false, some 1, none⟩) ∧
    (malloc afterFirst.alloc afterFirst.hip 100 8).hip.calls.head? =
      some (HipCall.malloc 1048576 hipSuccess 8388608) ∧
    0 ∈ (malloc afterFirst.alloc afterFirst.hip 100 8).alloc.large_blocks ∧
    (malloc afterFirst.alloc afterFirst.hip 100 8).alloc.heap[0]? =
      some (some ⟨0, 7, 1048064, 4608, false, some 1, none⟩) :=
  ⟨siblings_check_sound (by decide), by decide, by decide, by decide,
    (malloc_other_owner_untouched afterFirst.alloc afterFirst.hip 100 8
      (siblings_check_sound (by decide)) (by decide)
      (Or.inr ⟨(hipSuccess, 8388608), [], by decide, by decide⟩) 0
      ⟨0, 7, 1048064, 4608, false, some 1, none⟩ (by decide) (by decide)).2.1 (by decide),
    (malloc_other_owner_untouched afterFirst.alloc afterFirst.hip 100 8
      (siblings_check_sound (by decide)) (by decide)
      (Or.inr ⟨(hipSuccess, 8388608), [], by decide, by decide⟩) 0
      ⟨0, 7, 1048064, 4608, false, some 1, none⟩ (by decide) (by decide)).2.2.2.1⟩


theorem emptyCache_idempotent_witness :
    (emptyCache cachedTwo.alloc cachedTwo.hip).err = hipSuccess ∧
    emptyCache (emptyCache cachedTwo.alloc cachedTwo.hip).alloc
        (emptyCache cachedTwo.alloc cachedTwo.hip).hip =
      ⟨hipSuccess, (emptyCache cachedTwo.alloc cachedTwo.hip).alloc,
        (emptyCache cachedTwo.alloc cachedTwo.hip).hip⟩ :=
  ⟨by decide, emptyCache_idempotent cachedTwo.alloc cachedTwo.hip (by decide)
    (emptyCache cachedTwo.alloc cachedTwo.hip).hip⟩

/-! ## A request whose rounding wraps around -/

/-- C7 on the code: `malloc(SIZE_MAX)` on the fresh allocator succeeds, because
`round_size` wraps to 0: it returns the address 4096 for a block of 0 bytes and puts the
whole 1 MiB block, at the same address, back into the pool.  The `malloc(200)` that
follows on the same stream returns 4096 again, while 4096 is a key of the allocated
table, and overwrites that entry.  The primitive allocator was called once and behaved. -/
theorem malloc_wrapped_address_reused :
    round_size 18446744073709551615 = 0 ∧
    Reachable hugeFirst.alloc hugeFirst.hip ∧
    hugeFirst.err = hipSuccess ∧ hugeFirst.devPtr = some 4096 ∧
    hugeFirst.alloc.allocated_blocks = [(4096, 1)] ∧
    (deref hugeFirst.alloc.heap 1).size = 0 ∧
    (malloc hugeFirst.alloc hugeFirst.hip 200 7).err = hipSuccess ∧
    (malloc hugeFirst.alloc hugeFirst.hip 200 7).devPtr = some 4096 ∧
    (malloc hugeFirst.alloc hugeFirst.hip 200 7).alloc.allocated_blocks = [(4096, 2)] ∧
    (deref (malloc hugeFirst.alloc hugeFirst.hip 200 7).alloc.heap 1).allocated = true ∧
    (malloc hugeFirst.alloc hugeFirst.hip 200 7).hip.calls =
      [HipCall.getDevice hipSuccess 0, HipCall.malloc 1048576 hipSuccess 4096,
        HipCall.getDevice hipSuccess 0] ∧
    hipSane (malloc hugeFirst.alloc hugeFirst.hip 200 7).hip.calls = true :=
  ⟨by decide, Reachable.malloc 18446744073709551615 7 (Reachable.init hipTwo rfl) (by decide),
    by decide, by decide, by decide, by decide, by decide, by decide, by decide, by decide,
    by decide, by decide⟩

/-! ## The status of `malloc`, the recovery from a failed `hipMalloc`, the pool chosen -/

/-- The walk of `free_blocks` records only `hipFree` calls; when it ends in success all of
them succeeded, and when it fails the latest is the failing one, with the status returned,
and all before it succeeded. -/
theorem free_blocks_loop_calls (l : List Nat) :
    ∀ (h : Heap) (hip : Hip), ∃ fs,
      (free_blocks_loop l h hip).hip.calls = fs ++ hip.calls ∧
      FreeRecord fs (free_blocks_loop l h hip).err := by
  unfold FreeRecord
  induction l with
  | nil =>
    intro h hip
    exact ⟨[], rfl, by simp, by simp, fun hc => absurd rfl hc⟩
  | cons b rest ih =>
    intro h hip
    unfold free_blocks_loop
    split
    · split
      · rename_i herr
        refine ⟨[HipCall.free (deref h b).ptr (hipFree hip (deref h b).ptr).1], ?_, ?_, ?_, ?_⟩
        · unfold hipFree
          split <;> rfl
        · intro c hc
          rw [List.mem_singleton] at hc
          rw [hc]
          rfl
        · intro hc
          exact absurd hc herr
        · intro _
          exact ⟨_, [], rfl, rfl, by simp⟩
      · rename_i herr
        have hok : (hipFree hip (deref h b).ptr).1 = hipSuccess := by
          by_contra hc
          exact herr hc
        obtain ⟨fs, h1, h2, h3, h4⟩ := ih (deleteBlock h b) (hipFree hip (deref h b).ptr).2
        have hcalls : (hipFree hip (deref h b).ptr).2.calls =
            HipCall.free (deref h b).ptr (hipFree hip (deref h b).ptr).1 :: hip.calls := by
          unfold hipFree
          split <;> rfl
        refine ⟨fs ++ [HipCall.free (deref h b).ptr (hipFree hip (deref h b).ptr).1],
          ?_, ?_, ?_, ?_⟩
        · rw [h1, hcalls]
          simp
        · intro c hc
          rcases List.mem_append.1 hc with hc1 | hc1
          · exact h2 c hc1
          · rw [List.mem_singleton] at hc1
            rw [hc1]
            rfl
        · intro hs c hc
          rcases List.mem_append.1 hc with hc1 | hc1
          · exact h3 hs c hc1
          · rw [List.mem_singleton] at hc1
            rw [hc1]
            exact hok
        · intro hs
          obtain ⟨c, fs', hfs, hce, hrest⟩ := h4 hs
          refine ⟨c, fs' ++ [HipCall.free (deref h b).ptr (hipFree hip (deref h b).ptr).1],
            by rw [hfs]; rfl, hce, ?_⟩
          intro c' hc'
          rcases List.mem_append.1 hc' with hc1 | hc1
          · exact hrest c' hc1
          · rw [List.mem_singleton] at hc1
            rw [hc1]
            exact hok
    · exact ih h hip

theorem free_blocks_calls (h : Heap) (hip : Hip) (blocks it endIt : List Nat) :
    ∃ fs, (free_blocks h hip blocks it endIt).hip.calls = fs ++ hip.calls ∧
      FreeRecord fs (free_blocks h hip blocks it endIt).err :=
  free_blocks_loop_calls _ h hip

theorem FreeRecord_append {fs1 fs2 : List HipCall} {err : hipError_t}
    (h1 : FreeRecord fs1 hipSuccess) (h2 : FreeRecord fs2 err) : FreeRecord (fs2 ++ fs1) err := by
  refine ⟨?_, ?_, ?_⟩
  · intro c hc
    rcases List.mem_append.1 hc with hc1 | hc1
    · exact h2.1 c hc1
    · exact h1.1 c hc1
  · intro he c hc
    rcases List.mem_append.1 hc with hc1 | hc1
    · exact h2.2.1 he c hc1
    · exact h1.2.1 rfl c hc1
  · intro he
    obtain ⟨c, fs', hfs, hce, hrest⟩ := h2.2.2 he
    refine ⟨c, fs' ++ fs1, by rw [hfs]; rfl, hce, ?_⟩
    intro c' hc'
    rcases List.mem_append.1 hc' with hc1 | hc1
    · exact hrest c' hc1
    · exact h1.2.1 rfl c' hc1

/-- The record of `free_cached_blocks`: the calls of the walk over `large_blocks`, then
those of the walk over `small_blocks`. -/
theorem free_cached_blocks_calls (a : THCCachingAllocator) (hip : Hip) (device : Int) :
    ∃ fs, (free_cached_blocks a hip device).hip.calls = fs ++ hip.calls ∧
      FreeRecord fs (free_cached_blocks a hip device).err := by
  obtain ⟨fs1, hc1, hr1⟩ := free_blocks_calls a.heap hip a.large_blocks
    (lower_bound a.heap (Block.ctor device 0 0 0) a.large_blocks)
    (lower_bound a.heap (Block.ctor (device + 1) 0 0 0) a.large_blocks)
  unfold free_cached_blocks
  dsimp only
  split
  · exact ⟨fs1, hc1, hr1⟩
  · rename_i hok
    have hok1 : (free_blocks a.heap hip a.large_blocks
        (lower_bound a.heap (Block.ctor device 0 0 0) a.large_blocks)
        (lower_bound a.heap (Block.ctor (device + 1) 0 0 0) a.large_blocks)).err
          = hipSuccess := by
      by_contra hc
      exact hok hc
    rw [hok1] at hr1
    obtain ⟨fs2, hc2, hr2⟩ := free_blocks_calls
      (free_blocks a.heap hip a.large_blocks
        (lower_bound a.heap (Block.ctor device 0 0 0) a.large_blocks)
        (lower_bound a.heap (Block.ctor (device + 1) 0 0 0) a.large_blocks)).heap
      (free_blocks a.heap hip a.large_blocks
        (lower_bound a.heap (Block.ctor device 0 0 0) a.large_blocks)
        (lower_bound a.heap (Block.ctor (device + 1) 0 0 0) a.large_blocks)).hip
      a.small_blocks
      (lower_bound (free_blocks a.heap hip a.large_blocks
        (lower_bound a.heap (Block.ctor device 0 0 0) a.large_blocks)
        (lower_bound a.heap (Block.ctor (device + 1) 0 0 0) a.large_blocks)).heap
        (Block.ctor device 0 0 0) a.small_blocks)
      (lower_bound (free_blocks a.heap hip a.large_blocks
        (lower_bound a.heap (Block.ctor device 0 0 0) a.large_blocks)
        (lower_bound a.heap (Block.ctor (device + 1) 0 0 0) a.large_blocks)).heap
        (Block.ctor (device + 1) 0 0 0) a.small_blocks)
    refine ⟨fs2 ++ fs1, ?_, FreeRecord_append hr1 hr2⟩
    rw [hc2, hc1, List.append_assoc]

theorem failed_calls_cons (c : HipCall) (rest : List HipCall) :
    failed_calls (c :: rest) =
      if c.err ≠ hipSuccess ∧
          (c.isGetDevice ∨ c.isFree ∨ (c.isMalloc ∧ rest.any HipCall.isMalloc))
      then c :: failed_calls rest
      else failed_calls rest := rfl

theorem failed_calls_free_append {fs : List HipCall} (hfs : ∀ c ∈ fs, c.isFree = true)
    (rest : List HipCall) :
    failed_calls (fs ++ rest) = fs.filter (fun c => c.err ≠ hipSuccess) ++ failed_calls rest := by
  induction fs with
  | nil => rfl
  | cons c fs ih =>
    have hc : c.isFree = true := hfs c (List.mem_cons_self _ _)
    have ih' := ih (fun c' hc' => hfs c' (List.mem_cons_of_mem _ hc'))
    by_cases he : c.err = hipSuccess
    · rw [List.filter_cons_of_neg (by simp [he])]
      rw [List.cons_append, failed_calls_cons, if_neg (by simp [he])]
      exact ih'
    · rw [List.filter_cons_of_pos (by simp [he])]
      rw [List.cons_append, failed_calls_cons, if_pos ⟨he, Or.inr (Or.inl hc)⟩, ih']
      rfl

theorem FreeRecord_failed {fs : List HipCall} {err : hipError_t} (h : FreeRecord fs err) :
    (err = hipSuccess → fs.filter (fun c => c.err ≠ hipSuccess) = []) ∧
    (err ≠ hipSuccess → ∃ c, fs.filter (fun c => c.err ≠ hipSuccess) = [c] ∧ c.err = err) := by
  constructor
  · intro he
    rw [List.filter_eq_nil_iff]
    intro c hc
    simp [h.2.1 he c hc]
  · intro he
    obtain ⟨c, fs', hfs, hce, hrest⟩ := h.2.2 he
    refine ⟨c, ?_, hce⟩
    rw [hfs, List.filter_cons_of_pos (by simp [hce, he])]
    congr 1
    rw [List.filter_eq_nil_iff]
    intro c' hc'
    simp [hrest c' hc']

theorem hipMalloc_calls (hip : Hip) (n : Nat) :
    (hipMalloc hip n).2.2.calls =
      HipCall.malloc n (hipMalloc hip n).1 (hipMalloc hip n).2.1 :: hip.calls := by
  unfold hipMalloc
  split <;> rfl

theorem malloc_split_hip (a : THCCachingAllocator) (hip : Hip) (block : Nat) (device : Int)
    (stream size : Nat) : (malloc_split a hip block device stream size).hip = hip := by
  unfold malloc_split
  split <;> rfl

/-- The calls `hip_malloc_retry` makes, as they stand on top of a device query that
succeeded: the failed calls among them are none when it succeeds, and when it fails the
one call whose status it returns. -/
theorem hip_malloc_retry_failed_calls (a : THCCachingAllocator) (hip : Hip) (device : Int)
    (n : Nat) (d : Int) :
    ∃ new, (hip_malloc_retry a hip device n).hip.calls = new ++ hip.calls ∧
      ((hip_malloc_retry a hip device n).err = hipSuccess →
        failed_calls (new ++ [HipCall.getDevice hipSuccess d]) = []) ∧
      ((hip_malloc_retry a hip device n).err ≠ hipSuccess →
        ∃ c, failed_calls (new ++ [HipCall.getDevice hipSuccess d]) = [c] ∧
          c.err = (hip_malloc_retry a hip device n).err) := by
  have hT : failed_calls [HipCall.getDevice hipSuccess d] = [] := by
    rw [failed_calls_cons, if_neg (by simp [HipCall.err])]
    rfl
  unfold hip_malloc_retry
  dsimp only
  split
  · rename_i hfail
    have hT2 : failed_calls [HipCall.getLastError,
        HipCall.malloc n (hipMalloc hip n).1 (hipMalloc hip n).2.1,
        HipCall.getDevice hipSuccess d] = [] := by
      rw [failed_calls_cons, if_neg (by simp [HipCall.err]), failed_calls_cons,
        if_neg (by simp [HipCall.isGetDevice, HipCall.isFree, HipCall.isMalloc]), hT]
    obtain ⟨fs, hc, hr⟩ := free_cached_blocks_calls a (hipGetLastError (hipMalloc hip n).2.2)
      device
    have hbase : (hipGetLastError (hipMalloc hip n).2.2).calls =
        [HipCall.getLastError, HipCall.malloc n (hipMalloc hip n).1 (hipMalloc hip n).2.1]
          ++ hip.calls := by
      unfold hipGetLastError
      dsimp only
      rw [hipMalloc_calls]
      rfl
    split
    · rename_i hferr
      refine ⟨fs ++ [HipCall.getLastError,
        HipCall.malloc n (hipMalloc hip n).1 (hipMalloc hip n).2.1], ?_, ?_, ?_⟩
      · dsimp only
        rw [hc, hbase, List.append_assoc]
      · intro he
        exact absurd he hferr
      · intro _
        obtain ⟨c, hflt, hce⟩ := (FreeRecord_failed hr).2 hferr
        refine ⟨c, ?_, hce⟩
        rw [List.append_assoc, failed_calls_free_append hr.1, hflt]
        show [c] ++ failed_calls [HipCall.getLastError,
          HipCall.malloc n (hipMalloc hip n).1 (hipMalloc hip n).2.1,
          HipCall.getDevice hipSuccess d] = [c]
        rw [hT2]
        rfl
    · rename_i hfok
      have hfok1 : (free_cached_blocks a (hipGetLastError (hipMalloc hip n).2.2) device).err
          = hipSuccess := by
        by_contra hcc
        exact hfok hcc
      have hflt := (FreeRecord_failed hr).1 hfok1
      have hrest : failed_calls (fs ++ [HipCall.getLastError,
          HipCall.malloc n (hipMalloc hip n).1 (hipMalloc hip n).2.1,
          HipCall.getDevice hipSuccess d]) = [] := by
        rw [failed_calls_free_append hr.1, hflt, hT2]
        rfl
      have hany : (fs ++ [HipCall.getLastError,
          HipCall.malloc n (hipMalloc hip n).1 (hipMalloc hip n).2.1,
          HipCall.getDevice hipSuccess d]).any HipCall.isMalloc = true := by
        rw [List.any_append]
        simp [HipCall.isMalloc]
      have hcalls2 : (hipMalloc (free_cached_blocks a (hipGetLastError (hipMalloc hip n).2.2)
          device).hip n).2.2.calls =
          (HipCall.malloc n
            (hipMalloc (free_cached_blocks a (hipGetLastError (hipMalloc hip n).2.2)
              device).hip n).1
            (hipMalloc (free_cached_blocks a (hipGetLastError (hipMalloc hip n).2.2)
              device).hip n).2.1 :: fs ++ [HipCall.getLastError,
              HipCall.malloc n (hipMalloc hip n).1 (hipMalloc hip n).2.1]) ++ hip.calls := by
        rw [hipMalloc_calls, hc, hbase]
        simp
      split
      · rename_i hm2
        refine ⟨_, hcalls2, ?_, ?_⟩
        · intro he
          exact absurd he hm2
        · intro _
          refine ⟨HipCall.malloc n
            (hipMalloc (free_cached_blocks a (hipGetLastError (hipMalloc hip n).2.2)
              device).hip n).1
            (hipMalloc (free_cached_blocks a (hipGetLastError (hipMalloc hip n).2.2)
              device).hip n).2.1, ?_, rfl⟩
          rw [List.cons_append, List.cons_append, failed_calls_cons, List.append_assoc,
            if_pos ⟨hm2, Or.inr (Or.inr ⟨rfl, hany⟩)⟩]
          show _ :: failed_calls (fs ++ [HipCall.getLastError,
            HipCall.malloc n (hipMalloc hip n).1 (hipMalloc hip n).2.1,
            HipCall.getDevice hipSuccess d]) = _
          rw [hrest]
      · rename_i hm2
        have hm2' : (hipMalloc (free_cached_blocks a (hipGetLastError (hipMalloc hip n).2.2)
            device).hip n).1 = hipSuccess := by
          by_contra hcc
          exact hm2 hcc
        refine ⟨_, hcalls2, ?_, ?_⟩
        · intro _
          rw [List.cons_append, List.cons_append, failed_calls_cons, List.append_assoc,
            if_neg (by simp [HipCall.err, hm2'])]
          exact hrest
        · intro he
          exact absurd rfl he
  · rename_i hok
    have hok1 : (hipMalloc hip n).1 = hipSuccess := by
      by_contra hcc
      exact hok hcc
    refine ⟨[HipCall.malloc n (hipMalloc hip n).1 (hipMalloc hip n).2.1], ?_, ?_, ?_⟩
    · exact hipMalloc_calls hip n
    · intro _
      rw [List.cons_append, failed_calls_cons, if_neg (by simp [HipCall.err, hok1])]
      exact hT
    · intro he
      exact absurd rfl he

/-- The calls of a `malloc` and its status: the failed calls among them (device query,
`hipFree`, retried `hipMalloc`) are none exactly when it succeeds, and each has the status
returned. -/
theorem malloc_failed_calls (a : THCCachingAllocator) (hip : Hip) (size stream : Nat) :
    ∃ new, (malloc a hip size stream).hip.calls = new ++ hip.calls ∧
      ((malloc a hip size stream).err ≠ hipSuccess ↔ failed_calls new ≠ []) ∧
      (∀ c ∈ failed_calls new, c.err = (malloc a hip size stream).err) ∧
      (failed_calls new).length ≤ 1 ∧
      (hip.device.1 ≠ hipSuccess →
        new = [HipCall.getDevice hip.device.1 hip.device.2] ∧
        (malloc a hip size stream).alloc = a ∧ (malloc a hip size stream).devPtr = none) := by
  by_cases hdev : hip.device.1 = hipSuccess
  · rw [malloc_of_device_ok hdev]
    have hcalls : (hipGetDevice hip).2.2.calls =
        [HipCall.getDevice hipSuccess hip.device.2] ++ hip.calls := by
      unfold hipGetDevice
      rw [hdev]
      rfl
    have hT : failed_calls [HipCall.getDevice hipSuccess hip.device.2] = [] := by
      rw [failed_calls_cons, if_neg (by simp [HipCall.err])]
      rfl
    unfold malloc_rounded
    split
    · refine ⟨[HipCall.getDevice hipSuccess hip.device.2], ?_, ?_, ?_, ?_, ?_⟩
      · rw [malloc_split_hip, hcalls]
      · rw [malloc_split_err, hT]
        simp
      · intro c hc
        rw [hT] at hc
        cases hc
      · rw [hT]
        exact Nat.zero_le _
      · intro hc
        exact absurd hdev hc
    · obtain ⟨new, hn, hok, hfail⟩ := hip_malloc_retry_failed_calls a (hipGetDevice hip).2.2
        hip.device.2 (alloc_size (round_size size)) hip.device.2
      by_cases herr : (hip_malloc_retry a (hipGetDevice hip).2.2 hip.device.2
          (alloc_size (round_size size))).err = hipSuccess
      · rw [malloc_miss_of_ok herr, malloc_split_hip, malloc_split_err]
        refine ⟨new ++ [HipCall.getDevice hipSuccess hip.device.2], ?_, ?_, ?_, ?_, ?_⟩
        · rw [hn, hcalls, List.append_assoc]
        · rw [hok herr]
          simp
        · intro c hc
          rw [hok herr] at hc
          cases hc
        · rw [hok herr]
          exact Nat.zero_le _
        · intro hc
          exact absurd hdev hc
      · rw [malloc_miss_of_err herr]
        obtain ⟨c, hfc, hce⟩ := hfail herr
        refine ⟨new ++ [HipCall.getDevice hipSuccess hip.device.2], ?_, ?_, ?_, ?_, ?_⟩
        · dsimp only
          rw [hn, hcalls, List.append_assoc]
        · rw [hfc]
          dsimp only
          simp [herr]
        · intro c' hc'
          rw [hfc, List.mem_singleton] at hc'
          rw [hc']
          exact hce
        · rw [hfc]
          exact Nat.le_refl _
        · intro hc
          exact absurd hdev hc
  · rw [malloc_of_device_err hdev]
    refine ⟨[HipCall.getDevice hip.device.1 hip.device.2], rfl, ?_, ?_, ?_, ?_⟩
    · rw [failed_calls_cons, if_pos ⟨hdev, Or.inl rfl⟩]
      dsimp only
      simp [hdev]
    · intro c hc
      rw [failed_calls_cons, if_pos ⟨hdev, Or.inl rfl⟩] at hc
      rcases List.mem_cons.1 hc with h1 | h1
      · rw [h1]
        rfl
      · cases h1
    · rw [failed_calls_cons, if_pos ⟨hdev, Or.inl rfl⟩]
      exact Nat.le_refl _
    · intro _
      exact ⟨rfl, rfl, rfl⟩

/-! ## The comparator -/

theorem BlockComparator_irrefl (b : Block) : BlockComparator b b = false := by
  simp [BlockComparator]

theorem BlockComparator_device_le {x y : Block} (h : BlockComparator x y = true) :
    x.device ≤ y.device := by
  unfold BlockComparator at h
  split at h
  · exact Int.le_of_lt (by simpa using h)
  · rename_i he
    simp only [ne_eq, not_not] at he
    exact Int.le_of_eq he

/-- Against the key `(device, NULL, 0, 0)` the comparator only compares devices. -/
theorem BlockComparator_device_key (b : Block) (d : Int) :
    BlockComparator b (Block.ctor d 0 0 0) = decide (b.device < d) := by
  unfold BlockComparator Block.ctor
  dsimp only
  split
  · rfl
  · rename_i he
    simp only [ne_eq, not_not] at he
    have hlt : ¬ (b.device < d) := by
      rw [he]
      exact Int.lt_irrefl d
    rw [decide_eq_false hlt]
    split
    · simp
    · split <;> simp

theorem lower_bound_device (h : Heap) (d : Int) (fb : List Nat) :
    lower_bound h (Block.ctor d 0 0 0) fb =
      fb.dropWhile (fun e => decide ((deref h e).device < d)) := by
  unfold lower_bound
  congr 1
  funext e
  exact BlockComparator_device_key _ d

/-! ## The range that `free_cached_blocks` walks -/

theorem dropWhile_dropWhile_of_imp {α : Type} (p q : α → Bool) (hpq : ∀ x, p x = true → q x = true)
    (l : List α) : (l.dropWhile p).dropWhile q = l.dropWhile q := by
  induction l with
  | nil => rfl
  | cons x xs ih =>
    by_cases hp : p x = true
    · rw [List.dropWhile_cons_of_pos hp, List.dropWhile_cons_of_pos (hpq x hp)]
      exact ih
    · rw [List.dropWhile_cons_of_neg hp]

theorem take_drop_of_append {α : Type} {l A B : List α} (h : A ++ B = l) :
    l.take (l.length - B.length) = A ∧ l.drop (l.length - B.length) = B := by
  subst h
  have hl : (A ++ B).length - B.length = A.length := by
    rw [List.length_append]
    omega
  rw [hl]
  exact ⟨List.take_left' rfl, List.drop_left' rfl⟩

/-- The three parts of a set for `free_blocks(blocks, lower_bound(lo), lower_bound(hi))`:
the elements before the range, the range, the elements after it. -/
theorem range_split {α : Type} (p q : α → Bool) (hpq : ∀ x, p x = true → q x = true)
    (l : List α) :
    l.take (l.length - (l.dropWhile p).length) = l.takeWhile p ∧
    (l.dropWhile p).take ((l.dropWhile p).length - (l.dropWhile q).length) =
      (l.dropWhile p).takeWhile q ∧
    (l.dropWhile p).drop ((l.dropWhile p).length - (l.dropWhile q).length) = l.dropWhile q := by
  have h1 : l.takeWhile p ++ l.dropWhile p = l := List.takeWhile_append_dropWhile p l
  have h2 : (l.dropWhile p).takeWhile q ++ l.dropWhile q = l.dropWhile p := by
    have := List.takeWhile_append_dropWhile q (l.dropWhile p)
    rw [dropWhile_dropWhile_of_imp p q hpq] at this
    exact this
  exact ⟨(take_drop_of_append h1).1, (take_drop_of_append h2).1, (take_drop_of_append h2).2⟩

/-! ## The walk of `free_blocks` when every `hipFree` succeeds -/

theorem free_blocks_loop_frame_notin (l : List Nat) :
    ∀ (h : Heap) (hip : Hip) (q : Nat), q ∉ l →
      (free_blocks_loop l h hip).heap[q]? = h[q]? := by
  induction l with
  | nil => intro h hip q _; rfl
  | cons b rest ih =>
    intro h hip q hq
    have hne : q ≠ b := fun hc => hq (hc ▸ List.mem_cons_self _ _)
    have hrest : q ∉ rest := fun hc => hq (List.mem_cons_of_mem _ hc)
    unfold free_blocks_loop
    split
    · split
      · rfl
      · rw [ih _ _ q hrest, deleteBlock_getElem_ne h hne]
    · exact ih h hip q hrest

theorem hipFree_calls (hip : Hip) (p : Nat) :
    (hipFree hip p).2.calls = HipCall.free p (hipFree hip p).1 :: hip.calls := by
  unfold hipFree
  split <;> rfl

theorem free_blocks_loop_calls_mono (l : List Nat) (h : Heap) (hip : Hip) (c : HipCall)
    (hc : c ∈ hip.calls) : c ∈ (free_blocks_loop l h hip).hip.calls := by
  obtain ⟨fs, hfs, _⟩ := free_blocks_loop_calls l h hip
  rw [hfs]
  exact List.mem_append_right _ hc

/-- When every `hipFree` succeeds, the walk hands every unsplit block of a duplicate-free
range to `hipFree` and removes it from the set. -/
theorem free_blocks_loop_roots (l : List Nat) :
    ∀ (h : Heap) (hip : Hip), l.Nodup → (∀ e ∈ hip.frees, e = hipSuccess) →
      ∀ x ∈ l, (deref h x).root →
        x ∉ (free_blocks_loop l h hip).blocks ∧
        ∃ fs, (free_blocks_loop l h hip).hip.calls = fs ++ hip.calls ∧
          HipCall.free (deref h x).ptr hipSuccess ∈ fs := by
  induction l with
  | nil => intro h hip _ _ x hx; cases hx
  | cons b rest ih =>
    intro h hip hnd hf x hx hroot
    have hbrest : b ∉ rest := (List.nodup_cons.1 hnd).1
    have hndrest : rest.Nodup := (List.nodup_cons.1 hnd).2
    unfold free_blocks_loop
    split
    · rename_i hb
      obtain ⟨hok, hf2⟩ := hipFree_frees hip (deref h b).ptr hf
      rw [if_neg (by simp [hok])]
      rcases List.mem_cons.1 hx with hxb | hxr
      · subst hxb
        constructor
        · intro hc
          exact hbrest (free_blocks_loop_subset rest _ _ x hc)
        · obtain ⟨fs, hfs, _⟩ := free_blocks_loop_calls rest (deleteBlock h x)
            (hipFree hip (deref h x).ptr).2
          refine ⟨fs ++ [HipCall.free (deref h x).ptr hipSuccess], ?_, by simp⟩
          rw [hfs, hipFree_calls, hok]
          simp
      · have hne : x ≠ b := fun hc => hbrest (hc ▸ hxr)
        have hcell : deref (deleteBlock h b) x = deref h x :=
          deref_congr (deleteBlock_getElem_ne h hne)
        obtain ⟨h1, fs, hfs, hmem⟩ := ih (deleteBlock h b) (hipFree hip (deref h b).ptr).2
          hndrest hf2 x hxr (by rw [hcell]; exact hroot)
        rw [hcell] at hmem
        refine ⟨h1, fs ++ [HipCall.free (deref h b).ptr hipSuccess], ?_,
          List.mem_append_left _ hmem⟩
        rw [hfs, hipFree_calls, hok]
        simp
    · rename_i hb
      have hne : x ≠ b := fun hc => hb (hc ▸ hroot)
      have hxr : x ∈ rest := by
        rcases List.mem_cons.1 hx with hc | hc
        · exact absurd hc hne
        · exact hc
      obtain ⟨h1, h2⟩ := ih h hip hndrest hf x hxr hroot
      refine ⟨?_, h2⟩
      intro hc
      rcases List.mem_cons.1 hc with hc1 | hc1
      · exact hne hc1
      · exact h1 hc1

/-- The walk leaves a cell as it was unless it is that of an unsplit block of the range. -/
theorem free_blocks_loop_cell (l : List Nat) (h : Heap) (hip : Hip) (q : Nat)
    (hq : q ∉ l ∨ ¬ (deref h q).root) : (free_blocks_loop l h hip).heap[q]? = h[q]? := by
  rcases hq with hq | hq
  · exact free_blocks_loop_frame_notin l h hip q hq
  · exact free_blocks_loop_frame l h hip q hq

theorem sorted_nodup {h : Heap} {l : List Nat}
    (hs : l.Pairwise (fun x y => BlockComparator (deref h x) (deref h y) = true)) :
    l.Nodup := by
  refine List.Pairwise.imp ?_ hs
  intro x y hxy hc
  rw [hc, BlockComparator_irrefl] at hxy
  cases hxy

theorem sorted_device {h : Heap} {l : List Nat}
    (hs : l.Pairwise (fun x y => BlockComparator (deref h x) (deref h y) = true)) :
    l.Pairwise (fun x y => (deref h x).device ≤ (deref h y).device) :=
  List.Pairwise.imp (fun hxy => BlockComparator_device_le hxy) hs

theorem dropWhile_device_ge (h : Heap) (d : Int) (l : List Nat)
    (hs : l.Pairwise (fun x y => (deref h x).device ≤ (deref h y).device)) :
    ∀ y ∈ l.dropWhile (fun e => decide ((deref h e).device < d)), d ≤ (deref h y).device := by
  induction l with
  | nil => intro y hy; cases hy
  | cons m ms ih =>
    intro y hy
    by_cases hm : (deref h m).device < d
    · rw [List.dropWhile_cons_of_pos (by simpa using hm)] at hy
      exact ih (List.Pairwise.of_cons hs) y hy
    · rw [List.dropWhile_cons_of_neg (by simpa using hm)] at hy
      rcases List.mem_cons.1 hy with hc | hc
      · rw [hc]
        exact Int.not_lt.1 hm
      · exact Int.le_trans (Int.not_lt.1 hm) (List.rel_of_pairwise_cons hs hc)

/-- One walk of `free_cached_blocks(device)` over a sorted pool, every `hipFree`
succeeding: it succeeds, hands every unsplit block of the device to `hipFree` and erases
it, and leaves the cell of every block that is not an unsplit block of the device in the
pool as it was. -/
theorem free_blocks_device (h : Heap) (hip : Hip) (d : Int) (l : List Nat)
    (hs : l.Pairwise (fun x y => BlockComparator (deref h x) (deref h y) = true))
    (hf : ∀ e ∈ hip.frees, e = hipSuccess) :
    (free_blocks h hip l (lower_bound h (Block.ctor d 0 0 0) l)
      (lower_bound h (Block.ctor (d + 1) 0 0 0) l)).err = hipSuccess ∧
    (∀ e ∈ (free_blocks h hip l (lower_bound h (Block.ctor d 0 0 0) l)
      (lower_bound h (Block.ctor (d + 1) 0 0 0) l)).hip.frees, e = hipSuccess) ∧
    (∀ x ∈ l, (deref h x).device = d → (deref h x).root →
      x ∉ (free_blocks h hip l (lower_bound h (Block.ctor d 0 0 0) l)
        (lower_bound h (Block.ctor (d + 1) 0 0 0) l)).blocks ∧
      ∃ fs, (free_blocks h hip l (lower_bound h (Block.ctor d 0 0 0) l)
          (lower_bound h (Block.ctor (d + 1) 0 0 0) l)).hip.calls = fs ++ hip.calls ∧
        HipCall.free (deref h x).ptr hipSuccess ∈ fs) ∧
    (∀ q, ¬ (q ∈ l ∧ (deref h q).device = d ∧ (deref h q).root) →
      (free_blocks h hip l (lower_bound h (Block.ctor d 0 0 0) l)
        (lower_bound h (Block.ctor (d + 1) 0 0 0) l)).heap[q]? = h[q]?) := by
  have hpq : ∀ x : Nat, decide ((deref h x).device < d) = true →
      decide ((deref h x).device < d + 1) = true := by
    intro x hx
    simp only [decide_eq_true_eq] at hx ⊢
    omega
  obtain ⟨hA, hB, hC⟩ := range_split (fun e => decide ((deref h e).device < d))
    (fun e => decide ((deref h e).device < d + 1)) hpq l
  have hnd : l.Nodup := sorted_nodup hs
  have hBsub : ∀ x ∈ (l.dropWhile (fun e => decide ((deref h e).device < d))).takeWhile
      (fun e => decide ((deref h e).device < d + 1)), x ∈ l := fun x hx =>
    (List.dropWhile_suffix _).subset ((List.takeWhile_prefix _).subset hx)
  have hBnd : ((l.dropWhile (fun e => decide ((deref h e).device < d))).takeWhile
      (fun e => decide ((deref h e).device < d + 1))).Nodup :=
    List.Nodup.sublist
      ((List.takeWhile_prefix _).sublist.trans (List.dropWhile_suffix _).sublist) hnd
  unfold free_blocks
  dsimp only
  rw [lower_bound_device, lower_bound_device, hA, hB, hC]
  obtain ⟨hok, hfr⟩ := free_blocks_loop_ok
    ((l.dropWhile (fun e => decide ((deref h e).device < d))).takeWhile
      (fun e => decide ((deref h e).device < d + 1))) h hip hf
  refine ⟨hok, hfr, ?_, ?_⟩
  · intro x hx hdev hroot
    have hxA : x ∉ l.takeWhile (fun e => decide ((deref h e).device < d)) := by
      intro hc
      have := List.mem_takeWhile_imp hc
      simp only [decide_eq_true_eq] at this
      omega
    have hxC : x ∉ l.dropWhile (fun e => decide ((deref h e).device < d + 1)) := by
      intro hc
      have := dropWhile_device_ge h (d + 1) l (sorted_device hs) x hc
      omega
    have hxB : x ∈ (l.dropWhile (fun e => decide ((deref h e).device < d))).takeWhile
        (fun e => decide ((deref h e).device < d + 1)) := by
      have h1 : l.takeWhile (fun e => decide ((deref h e).device < d)) ++
          l.dropWhile (fun e => decide ((deref h e).device < d)) = l :=
        List.takeWhile_append_dropWhile _ l
      have h2 := List.takeWhile_append_dropWhile (fun e => decide ((deref h e).device < d + 1))
        (l.dropWhile (fun e => decide ((deref h e).device < d)))
      rw [dropWhile_dropWhile_of_imp _ _ hpq] at h2
      rw [← h1] at hx
      rcases List.mem_append.1 hx with hc | hc
      · exact absurd hc hxA
      · rw [← h2] at hc
        rcases List.mem_append.1 hc with hc1 | hc1
        · exact hc1
        · exact absurd hc1 hxC
    obtain ⟨h1, h2⟩ := free_blocks_loop_roots _ h hip hBnd hf x hxB hroot
    refine ⟨?_, h2⟩
    intro hc
    rcases List.mem_append.1 hc with hc1 | hc1
    · rcases List.mem_append.1 hc1 with hc2 | hc2
      · exact hxA hc2
      · exact h1 hc2
    · exact hxC hc1
  · intro q hq
    apply free_blocks_loop_cell
    by_cases hqB : q ∈ (l.dropWhile (fun e => decide ((deref h e).device < d))).takeWhile
        (fun e => decide ((deref h e).device < d + 1))
    · right
      intro hroot
      have h1 := List.mem_takeWhile_imp hqB
      have h2 := dropWhile_device_ge h d l (sorted_device hs) q
        ((List.takeWhile_prefix _).subset hqB)
      simp only [decide_eq_true_eq] at h1
      exact hq ⟨hBsub q hqB, by omega, hroot⟩
    · exact Or.inl hqB

theorem free_blocks_calls_mono (h : Heap) (hip : Hip) (blocks it endIt : List Nat)
    (c : HipCall) (hc : c ∈ hip.calls) : c ∈ (free_blocks h hip blocks it endIt).hip.calls :=
  free_blocks_loop_calls_mono _ h hip c hc

theorem sorted_congr {h1 h2 : Heap} {l : List Nat} (hc : ∀ x ∈ l, h2[x]? = h1[x]?)
    (hs : l.Pairwise (fun x y => BlockComparator (deref h1 x) (deref h1 y) = true)) :
    l.Pairwise (fun x y => BlockComparator (deref h2 x) (deref h2 y) = true) := by
  induction l with
  | nil => exact List.Pairwise.nil
  | cons m ms ih =>
    rw [List.pairwise_cons] at hs ⊢
    refine ⟨?_, ih (fun x hx => hc x (List.mem_cons_of_mem _ hx)) hs.2⟩
    intro y hy
    rw [deref_congr (hc m (List.mem_cons_self _ _)), deref_congr (hc y (List.mem_cons_of_mem _ hy))]
    exact hs.1 y hy

theorem free_blocks_loop_mallocs (l : List Nat) :
    ∀ (h : Heap) (hip : Hip), (free_blocks_loop l h hip).hip.mallocs = hip.mallocs := by
  induction l with
  | nil => intro h hip; rfl
  | cons b rest ih =>
    intro h hip
    have hm : (hipFree hip (deref h b).ptr).2.mallocs = hip.mallocs := by
      unfold hipFree
      split <;> rfl
    unfold free_blocks_loop
    split
    · split
      · exact hm
      · rw [ih, hm]
    · exact ih h hip

theorem free_blocks_mallocs (h : Heap) (hip : Hip) (blocks it endIt : List Nat) :
    (free_blocks h hip blocks it endIt).hip.mallocs = hip.mallocs :=
  free_blocks_loop_mallocs _ h hip

theorem free_cached_blocks_ordered (a : THCCachingAllocator) (hip : Hip) (d : Int)
    (hord : PoolsOrdered a) (hf : ∀ e ∈ hip.frees, e = hipSuccess) :
    FreedCached a hip d (free_cached_blocks a hip d) := by
  obtain ⟨h1ok, h1f, h1gone, h1cell⟩ :=
    free_blocks_device a.heap hip d a.large_blocks hord.large_sorted hf
  obtain ⟨fs1, hc1, hr1⟩ := free_blocks_calls a.heap hip a.large_blocks
    (lower_bound a.heap (Block.ctor d 0 0 0) a.large_blocks)
    (lower_bound a.heap (Block.ctor (d + 1) 0 0 0) a.large_blocks)
  rw [h1ok] at hr1
  -- the heap and the runtime after the first walk
  generalize hr1def : free_blocks a.heap hip a.large_blocks
    (lower_bound a.heap (Block.ctor d 0 0 0) a.large_blocks)
    (lower_bound a.heap (Block.ctor (d + 1) 0 0 0) a.large_blocks) = r1
    at h1ok h1f h1gone h1cell hc1
  have hsmall_cell : ∀ x ∈ a.small_blocks, r1.heap[x]? = a.heap[x]? := by
    intro x hx
    apply h1cell
    rintro ⟨hmem, -, -⟩
    exact hord.disjoint x hmem hx
  have hs2 : a.small_blocks.Pairwise
      (fun x y => BlockComparator (deref r1.heap x) (deref r1.heap y) = true) :=
    sorted_congr hsmall_cell hord.small_sorted
  obtain ⟨h2ok, h2f, h2gone, h2cell⟩ :=
    free_blocks_device r1.heap r1.hip d a.small_blocks hs2 h1f
  obtain ⟨fs2, hc2, hr2⟩ := free_blocks_calls r1.heap r1.hip a.small_blocks
    (lower_bound r1.heap (Block.ctor d 0 0 0) a.small_blocks)
    (lower_bound r1.heap (Block.ctor (d + 1) 0 0 0) a.small_blocks)
  rw [h2ok] at hr2
  have hm1 : r1.hip.mallocs = hip.mallocs := by
    rw [← hr1def]
    exact free_blocks_mallocs _ _ _ _ _
  have hlen1 : r1.heap.length = a.heap.length := by
    rw [← hr1def]
    exact free_blocks_length _ _ _ _ _
  have hsub1 : ∀ x ∈ r1.blocks, x ∈ a.large_blocks := by
    intro x hx
    rw [← hr1def] at hx
    exact free_blocks_subset _ _ _ _ _ (fun z hz => mem_lower_bound hz) x hx
  have hm2 := free_blocks_mallocs r1.heap r1.hip a.small_blocks
    (lower_bound r1.heap (Block.ctor d 0 0 0) a.small_blocks)
    (lower_bound r1.heap (Block.ctor (d + 1) 0 0 0) a.small_blocks)
  have hlen2 := free_blocks_length r1.heap r1.hip a.small_blocks
    (lower_bound r1.heap (Block.ctor d 0 0 0) a.small_blocks)
    (lower_bound r1.heap (Block.ctor (d + 1) 0 0 0) a.small_blocks)
  have hsub2 : ∀ x ∈ (free_blocks r1.heap r1.hip a.small_blocks
      (lower_bound r1.heap (Block.ctor d 0 0 0) a.small_blocks)
      (lower_bound r1.heap (Block.ctor (d + 1) 0 0 0) a.small_blocks)).blocks,
      x ∈ a.small_blocks :=
    fun x hx => free_blocks_subset _ _ _ _ _ (fun z hz => mem_lower_bound hz) x hx
  generalize hr2def : free_blocks r1.heap r1.hip a.small_blocks
    (lower_bound r1.heap (Block.ctor d 0 0 0) a.small_blocks)
    (lower_bound r1.heap (Block.ctor (d + 1) 0 0 0) a.small_blocks) = r2
    at h2ok h2f h2gone h2cell hc2 hm2 hlen2 hsub2
  have heq : free_cached_blocks a hip d =
      ⟨r2.err, { a with heap := r2.heap, large_blocks := r1.blocks, small_blocks := r2.blocks },
        r2.hip⟩ := by
    unfold free_cached_blocks
    dsimp only
    rw [hr1def, if_neg (by simp [h1ok]), hr2def]
  rw [heq]
  refine ⟨h2ok, h2f, rfl, ?_, hsub1, hsub2, ?_, ?_, ?_, ?_⟩
  · dsimp only
    rw [hlen2, hlen1]
  · intro x hx hdev hroot
    dsimp only
    rcases hx with hx | hx
    · obtain ⟨g1, gs, hgs, g2⟩ := h1gone x hx hdev hroot
      refine ⟨g1, fun hc => hord.disjoint x hx (hsub2 x hc), fs2 ++ gs, ?_,
        List.mem_append_right _ g2⟩
      rw [hc2, hgs, List.append_assoc]
    · have hcx := deref_congr (hsmall_cell x hx)
      obtain ⟨g1, gs, hgs, g2⟩ :=
        h2gone x hx (by rw [hcx]; exact hdev) (by rw [hcx]; exact hroot)
      rw [hcx] at g2
      refine ⟨fun hc => hord.disjoint x (hsub1 x hc) hx, g1, gs ++ fs1, ?_,
        List.mem_append_left _ g2⟩
      rw [hgs, hc1, List.append_assoc]
  · intro q hq
    dsimp only
    have hq1 : r1.heap[q]? = a.heap[q]? := by
      apply h1cell
      rintro ⟨hm, hd, hr⟩
      exact hq ⟨Or.inl hm, hd, hr⟩
    rw [← hq1]
    apply h2cell
    rintro ⟨hm, hd, hr⟩
    rw [deref_congr hq1] at hd hr
    exact hq ⟨Or.inr hm, hd, hr⟩
  · refine ⟨fs2 ++ fs1, ?_, FreeRecord_append hr1 hr2⟩
    dsimp only
    rw [hc2, hc1, List.append_assoc]
  · dsimp only
    rw [hm2, hm1]

/-- After a `free_cached_blocks(d)` that found the pools ordered and every `hipFree`
succeeding, neither pool holds an unsplit block of device `d`. -/
theorem FreedCached.no_root {a : THCCachingAllocator} {hip : Hip} {d : Int} {r : Outcome}
    (hfc : FreedCached a hip d r) (x : Nat)
    (hx : x ∈ r.alloc.large_blocks ∨ x ∈ r.alloc.small_blocks)
    (hdev : (deref r.alloc.heap x).device = d) : ¬ (deref r.alloc.heap x).root := by
  intro hroot
  have hold : x ∈ a.large_blocks ∨ x ∈ a.small_blocks := by
    rcases hx with hx | hx
    · exact Or.inl (hfc.large_sub x hx)
    · exact Or.inr (hfc.small_sub x hx)
  by_cases hP : (deref a.heap x).device = d ∧ (deref a.heap x).root
  · obtain ⟨g1, g2, _⟩ := hfc.gone x hold hP.1 hP.2
    rcases hx with hx | hx
    · exact g1 hx
    · exact g2 hx
  · have hcell := deref_congr (hfc.cell x (fun hc => hP hc.2))
    rw [hcell] at hdev hroot
    exact hP ⟨hdev, hroot⟩

/-! ## Cells after a write -/

theorem store_getElem (h : Heap) (p q : Nat) (f : Block → Block) :
    (store h p f)[q]? = if q = p then (h[q]?).map (Option.map f) else h[q]? := by
  by_cases hq : q = p
  · subst hq
    rw [if_pos rfl]
    unfold store
    split
    · rename_i b hb
      have hlt := lt_length_of_live hb
      rw [List.getElem?_set_self hlt, hb]
      rfl
    · rename_i hb
      cases hc : h[q]? with
      | none => rfl
      | some c =>
        cases c with
        | none => rfl
        | some b => exact absurd hc (hb b)
  · rw [if_neg hq]
    exact store_getElem_ne h p q f hq

theorem deleteBlock_getElem (h : Heap) (p q : Nat) :
    (deleteBlock h p)[q]? = if q = p then (h[q]?).map (fun _ => none) else h[q]? := by
  by_cases hq : q = p
  · subst hq
    rw [if_pos rfl]
    unfold deleteBlock
    by_cases hlt : q < h.length
    · rw [List.getElem?_set_self hlt, List.getElem?_eq_getElem hlt]
      rfl
    · rw [List.getElem?_eq_none (by simpa using hlt), List.getElem?_eq_none (by simpa using hlt)]
      rfl
  · rw [if_neg hq]
    exact deleteBlock_getElem_ne h hq

theorem newBlock_getElem (h : Heap) (b : Block) (q : Nat) :
    (newBlock h b)[q]? = if q = h.length then some (some b) else h[q]? := by
  by_cases hq : q = h.length
  · subst hq
    rw [if_pos rfl]
    exact newBlock_getElem_new h b
  · rw [if_neg hq]
    by_cases hlt : q < h.length
    · exact newBlock_getElem_old h b hlt
    · rw [List.getElem?_eq_none (by rw [newBlock_length]; omega),
        List.getElem?_eq_none (by omega)]

theorem deref_eq (h : Heap) (p : Nat) : deref h p = ((h[p]?).join).getD default := by
  unfold deref
  cases h[p]? with
  | none => rfl
  | some c => cases c <;> rfl

theorem Live.store {h : Heap} {q : Nat} (hq : Live h q) (p : Nat) (f : Block → Block) :
    Live (store h p f) q := by
  obtain ⟨b, hb⟩ := hq
  by_cases hqp : q = p
  · subst hqp
    exact ⟨f b, store_getElem_self f hb⟩
  · exact ⟨b, by rw [store_getElem_ne _ _ _ _ hqp]; exact hb⟩

theorem Live.store_opt {h : Heap} {q : Nat} (hq : Live h q) (p : Option Nat)
    (f : Block → Block) : Live (store_opt h p f) q := by
  cases p with
  | none => exact hq
  | some p => exact hq.store p f

theorem Live.newBlock {h : Heap} {q : Nat} (hq : Live h q) (b : Block) :
    Live (newBlock h b) q := by
  obtain ⟨c, hc⟩ := hq
  exact ⟨c, by rw [newBlock_getElem_old h b (lt_length_of_live hc)]; exact hc⟩

theorem Live.lt {h : Heap} {q : Nat} (hq : Live h q) : q < h.length := by
  obtain ⟨c, hc⟩ := hq
  exact lt_length_of_live hc

theorem deref_store_self {h : Heap} {p : Nat} (hp : Live h p) (f : Block → Block) :
    deref (store h p f) p = f (deref h p) := by
  obtain ⟨b, hb⟩ := hp
  rw [deref_of_live (store_getElem_self f hb), deref_of_live hb]

/-- After the split of `malloc` the block split has the new block before it. -/
theorem malloc_split_heap_remaining_prev {h : Heap} {remaining : Nat} (hr : Live h remaining)
    (device : Int) (stream size : Nat) :
    (deref (malloc_split_heap h remaining device stream size) remaining).prev =
      some (newPtr h) := by
  unfold malloc_split_heap
  dsimp only
  rw [deref_store_proj Block.prev, deref_store_proj Block.prev, deref_store_self]
  · exact (((hr.newBlock _).store _ _).store_opt _ _).store _ _
  · intro b
    rfl
  · intro b
    rfl

theorem malloc_record_heap (a : THCCachingAllocator) (hip : Hip) (block : Nat) :
    (malloc_record a hip block).alloc.heap =
      store a.heap block (fun b => { b with allocated := true }) := rfl

theorem malloc_record_large (a : THCCachingAllocator) (hip : Hip) (block : Nat) :
    (malloc_record a hip block).alloc.large_blocks = a.large_blocks := rfl

theorem malloc_record_small (a : THCCachingAllocator) (hip : Hip) (block : Nat) :
    (malloc_record a hip block).alloc.small_blocks = a.small_blocks := rfl

theorem malloc_record_hip (a : THCCachingAllocator) (hip : Hip) (block : Nat) :
    (malloc_record a hip block).hip = hip := rfl

theorem malloc_split_of_split {a : THCCachingAllocator} {hip : Hip} {block : Nat}
    {device : Int} {stream size : Nat}
    (h : sub_size_t (deref a.heap block).size size ≥ split_threshold size) :
    malloc_split a hip block device stream size =
      malloc_record
        (setPool (decide (size ≤ kSmallAlloc))
          { a with heap := malloc_split_heap a.heap block device stream size }
          (set_insert (malloc_split_heap a.heap block device stream size) block
            (getPool (decide (size ≤ kSmallAlloc)) a)))
        hip (newPtr a.heap) := by
  unfold malloc_split
  rw [if_pos h]

theorem malloc_split_of_whole {a : THCCachingAllocator} {hip : Hip} {block : Nat}
    {device : Int} {stream size : Nat}
    (h : ¬ sub_size_t (deref a.heap block).size size ≥ split_threshold size) :
    malloc_split a hip block device stream size = malloc_record a hip block := by
  unfold malloc_split
  rw [if_neg h]

theorem mem_setPool (small : Bool) (a : THCCachingAllocator) (h : Heap) (fb : List Nat)
    (x : Nat)
    (hx : x ∈ (setPool small { a with heap := h } fb).large_blocks ∨
      x ∈ (setPool small { a with heap := h } fb).small_blocks) :
    x ∈ fb ∨ x ∈ a.large_blocks ∨ x ∈ a.small_blocks := by
  cases small
  · rcases hx with hx | hx
    · exact Or.inr (Or.inl hx)
    · exact Or.inl hx
  · rcases hx with hx | hx
    · exact Or.inl hx
    · exact Or.inr (Or.inr hx)

theorem mem_getPool (small : Bool) (a : THCCachingAllocator) (x : Nat)
    (hx : x ∈ getPool small a) : x ∈ a.large_blocks ∨ x ∈ a.small_blocks := by
  cases small
  · exact Or.inr hx
  · exact Or.inl hx

/-- The pools after the split decision and the end of `malloc` hold what they held before
and, when the chosen block was split, the chosen block, which then has the block handed
out before it. -/
theorem malloc_split_pools (a : THCCachingAllocator) (hip : Hip) (block : Nat) (device : Int)
    (stream size : Nat) (hb : Live a.heap block) (x : Nat)
    (hx : x ∈ (malloc_split a hip block device stream size).alloc.large_blocks ∨
      x ∈ (malloc_split a hip block device stream size).alloc.small_blocks) :
    (x ∈ a.large_blocks ∨ x ∈ a.small_blocks) ∨
      (x = block ∧ (deref (malloc_split a hip block device stream size).alloc.heap block).prev =
        some (newPtr a.heap)) := by
  by_cases hsp : sub_size_t (deref a.heap block).size size ≥ split_threshold size
  · rw [malloc_split_of_split hsp] at hx ⊢
    rw [malloc_record_large, malloc_record_small] at hx
    rw [malloc_record_heap, setPool_heap]
    have hprev := malloc_split_heap_remaining_prev hb device stream size
    generalize malloc_split_heap a.heap block device stream size = h1 at hx hprev ⊢
    rcases mem_setPool _ _ _ _ _ hx with hmem | hmem
    · rcases mem_set_insert hmem with h1 | h1
      · right
        refine ⟨h1, ?_⟩
        dsimp only
        rw [deref_store_ne _ _ _ _ (show block ≠ newPtr a.heap from Nat.ne_of_lt hb.lt)]
        exact hprev
      · exact Or.inl (mem_getPool _ _ _ h1)
    · exact Or.inl hmem
  · rw [malloc_split_of_whole hsp] at hx
    exact Or.inl hx

theorem hipMalloc_answer {hip hip2 : Hip} (h : hip2.mallocs = hip.mallocs) (n : Nat) :
    (hipMalloc hip2 n).1 = (hipMalloc hip n).1 ∧ (hipMalloc hip2 n).2.1 = (hipMalloc hip n).2.1 := by
  unfold hipMalloc
  rw [h]
  cases hip.mallocs <;> exact ⟨rfl, rfl⟩

theorem hipMalloc_frees (hip : Hip) (n : Nat) : (hipMalloc hip n).2.2.frees = hip.frees := by
  unfold hipMalloc
  cases hip.mallocs <;> rfl

theorem FreeRecord.all_free {fs : List HipCall} (h : FreeRecord fs hipSuccess) :
    ∀ c ∈ fs, ∃ p, c = HipCall.free p hipSuccess := by
  intro c hc
  have h1 := h.1 c hc
  have h2 := h.2.1 rfl c hc
  cases c with
  | getDevice e d => cases h1
  | malloc n e p => cases h1
  | free p e =>
    have : e = hipSuccess := h2
    subst this
    exact ⟨p, rfl⟩
  | getLastError => cases h1

/-- What `hip_malloc_retry` does when its first `hipMalloc` fails while the pools are
ordered and every `hipFree` succeeds. -/
theorem hip_malloc_retry_oom (a : THCCachingAllocator) (hip : Hip) (d : Int) (n : Nat)
    (hord : PoolsOrdered a) (hoom : (hipMalloc hip n).1 ≠ hipSuccess)
    (hf : ∀ e ∈ hip.frees, e = hipSuccess) :
    ∃ fs e2 p2,
      (hip_malloc_retry a hip d n).hip.calls =
        HipCall.malloc n e2 p2 :: (fs ++ HipCall.getLastError ::
          HipCall.malloc n (hipMalloc hip n).1 (hipMalloc hip n).2.1 :: hip.calls) ∧
      (∀ c ∈ fs, ∃ p, c = HipCall.free p hipSuccess) ∧
      (hip_malloc_retry a hip d n).err = e2 ∧
      (e2 = hipSuccess → (hip_malloc_retry a hip d n).devPtr = some p2) ∧
      (hip_malloc_retry a hip d n).alloc.heap.length = a.heap.length ∧
      (∀ x ∈ (hip_malloc_retry a hip d n).alloc.large_blocks, x ∈ a.large_blocks) ∧
      (∀ x ∈ (hip_malloc_retry a hip d n).alloc.small_blocks, x ∈ a.small_blocks) ∧
      (∀ x, x ∈ a.large_blocks ∨ x ∈ a.small_blocks → (deref a.heap x).device = d →
        (deref a.heap x).root →
        HipCall.free (deref a.heap x).ptr hipSuccess ∈ fs ∧
        x ∉ (hip_malloc_retry a hip d n).alloc.large_blocks ∧
        x ∉ (hip_malloc_retry a hip d n).alloc.small_blocks) ∧
      (∀ x, x ∈ (hip_malloc_retry a hip d n).alloc.large_blocks ∨
          x ∈ (hip_malloc_retry a hip d n).alloc.small_blocks →
        (deref (hip_malloc_retry a hip d n).alloc.heap x).device = d →
        ¬ (deref (hip_malloc_retry a hip d n).alloc.heap x).root) := by
  have hf1 : ∀ e ∈ (hipGetLastError (hipMalloc hip n).2.2).frees, e = hipSuccess := by
    intro e he
    have : (hipGetLastError (hipMalloc hip n).2.2).frees = hip.frees := hipMalloc_frees hip n
    rw [this] at he
    exact hf e he
  have hfc := free_cached_blocks_ordered a (hipGetLastError (hipMalloc hip n).2.2) d hord hf1
  have hc1 : (hipGetLastError (hipMalloc hip n).2.2).calls =
      HipCall.getLastError :: HipCall.malloc n (hipMalloc hip n).1 (hipMalloc hip n).2.1 ::
        hip.calls := by
    show HipCall.getLastError :: (hipMalloc hip n).2.2.calls = _
    rw [hipMalloc_calls]
  generalize hrdef : free_cached_blocks a (hipGetLastError (hipMalloc hip n).2.2) d = r at hfc
  obtain ⟨fs, hfs, hrec⟩ := hfc.calls
  have heq : hip_malloc_retry a hip d n =
      if (hipMalloc r.hip n).1 ≠ hipSuccess then ⟨(hipMalloc r.hip n).1, none, r.alloc,
        (hipMalloc r.hip n).2.2⟩
      else ⟨hipSuccess, some (hipMalloc r.hip n).2.1, r.alloc, (hipMalloc r.hip n).2.2⟩ := by
    unfold hip_malloc_retry
    dsimp only
    rw [if_pos hoom, hrdef, if_neg (by simp [hfc.err])]
  have halloc : (hip_malloc_retry a hip d n).alloc = r.alloc := by
    rw [heq]
    split <;> rfl
  have hhip : (hip_malloc_retry a hip d n).hip = (hipMalloc r.hip n).2.2 := by
    rw [heq]
    split <;> rfl
  have herr : (hip_malloc_retry a hip d n).err = (hipMalloc r.hip n).1 := by
    rw [heq]
    split
    · rfl
    · rename_i hc
      simp only [ne_eq, not_not] at hc
      exact hc.symm
  have hptr : (hipMalloc r.hip n).1 = hipSuccess →
      (hip_malloc_retry a hip d n).devPtr = some (hipMalloc r.hip n).2.1 := by
    intro hok
    rw [heq, if_neg (by simp [hok])]
  refine ⟨fs, (hipMalloc r.hip n).1, (hipMalloc r.hip n).2.1, ?_, hrec.all_free, herr, hptr, ?_, ?_,
    ?_, ?_, ?_⟩
  · rw [hhip, hipMalloc_calls, hfs, hc1]
  · rw [halloc]
    exact hfc.length
  · rw [halloc]
    exact hfc.large_sub
  · rw [halloc]
    exact hfc.small_sub
  · intro x hx hdev hroot
    rw [halloc]
    obtain ⟨g1, g2, gs, hgs, g3⟩ := hfc.gone x hx hdev hroot
    have : gs = fs := List.append_cancel_right (hgs.symm.trans hfs)
    rw [this] at g3
    exact ⟨g3, g1, g2⟩
  · rw [halloc]
    exact hfc.no_root

theorem malloc_rounded_of_miss {a : THCCachingAllocator} {hip : Hip} {device : Int}
    {stream size : Nat} (h : malloc_hit a device stream size = none) :
    malloc_rounded a hip device stream size = malloc_miss a hip device stream size := by
  unfold malloc_rounded
  rw [h]

/-- A `malloc` that misses the pool and whose first `hipMalloc` fails, in a state with
ordered pools and with every `hipFree` succeeding. -/
theorem malloc_oom_retry_of_ordered (a : THCCachingAllocator) (hip : Hip) (size stream : Nat)
    (hord : PoolsOrdered a) (hwt : WellTyped a) (hdev : hip.device.1 = hipSuccess)
    (hmiss : malloc_hit a hip.device.2 stream (round_size size) = none)
    (hoom : (hipMalloc hip (alloc_size (round_size size))).1 ≠ hipSuccess)
    (hf : ∀ e ∈ hip.frees, e = hipSuccess) :
    ∃ fs e2 p2,
      (malloc a hip size stream).hip.calls =
        HipCall.malloc (alloc_size (round_size size)) e2 p2 :: (fs ++ HipCall.getLastError ::
          HipCall.malloc (alloc_size (round_size size))
            (hipMalloc hip (alloc_size (round_size size))).1
            (hipMalloc hip (alloc_size (round_size size))).2.1 ::
          HipCall.getDevice hipSuccess hip.device.2 :: hip.calls) ∧
      (∀ c ∈ fs, ∃ p, c = HipCall.free p hipSuccess) ∧
      (∀ x, x ∈ a.large_blocks ∨ x ∈ a.small_blocks →
        (deref a.heap x).device = hip.device.2 → (deref a.heap x).root →
        HipCall.free (deref a.heap x).ptr hipSuccess ∈ fs ∧
        x ∉ (malloc a hip size stream).alloc.large_blocks ∧
        x ∉ (malloc a hip size stream).alloc.small_blocks) ∧
      (malloc a hip size stream).err = e2 ∧
      (e2 = hipSuccess →
        ∀ x, x ∈ (malloc a hip size stream).alloc.large_blocks ∨
            x ∈ (malloc a hip size stream).alloc.small_blocks →
          (deref (malloc a hip size stream).alloc.heap x).device = hip.device.2 →
          ¬ (deref (malloc a hip size stream).alloc.heap x).root) := by
  have hans := hipMalloc_answer (show (hipGetDevice hip).2.2.mallocs = hip.mallocs from rfl)
    (alloc_size (round_size size))
  have hoom0 : (hipMalloc (hipGetDevice hip).2.2 (alloc_size (round_size size))).1 ≠
      hipSuccess := by
    rw [hans.1]
    exact hoom
  obtain ⟨fs, e2, p2, hcalls, hfs, herr, hptr, hlen, hlsub, hssub, hgone, hnoroot⟩ :=
    hip_malloc_retry_oom a (hipGetDevice hip).2.2 hip.device.2 (alloc_size (round_size size))
      hord hoom0 hf
  rw [hans.1, hans.2] at hcalls
  have hcalls0 : (hipGetDevice hip).2.2.calls =
      HipCall.getDevice hipSuccess hip.device.2 :: hip.calls := by
    show HipCall.getDevice hip.device.1 hip.device.2 :: hip.calls = _
    rw [hdev]
  rw [hcalls0] at hcalls
  have hmal : malloc a hip size stream =
      malloc_miss a (hipGetDevice hip).2.2 hip.device.2 stream (round_size size) := by
    rw [malloc_of_device_ok hdev, malloc_rounded_of_miss hmiss]
  rw [hmal]
  generalize hrdef : hip_malloc_retry a (hipGetDevice hip).2.2 hip.device.2
    (alloc_size (round_size size)) = r at hcalls herr hptr hlen hlsub hssub hgone hnoroot
  by_cases hok : e2 = hipSuccess
  · have hrok : (hip_malloc_retry a (hipGetDevice hip).2.2 hip.device.2
        (alloc_size (round_size size))).err = hipSuccess := by
      rw [hrdef, herr, hok]
    rw [malloc_miss_of_ok hrok, hrdef]
    have hnewlive : Live (newBlock r.alloc.heap (Block.ctor hip.device.2 stream
        (alloc_size (round_size size)) (r.devPtr.getD 0))) (newPtr r.alloc.heap) :=
      ⟨_, newBlock_getElem_new _ _⟩
    have hpools := malloc_split_pools
      { r.alloc with heap := newBlock r.alloc.heap (Block.ctor hip.device.2 stream
          (alloc_size (round_size size)) (r.devPtr.getD 0)) }
      r.hip (newPtr r.alloc.heap) hip.device.2 stream (round_size size) hnewlive
    have hframe := malloc_split_frame
      { r.alloc with heap := newBlock r.alloc.heap (Block.ctor hip.device.2 stream
          (alloc_size (round_size size)) (r.devPtr.getD 0)) }
      r.hip (newPtr r.alloc.heap) hip.device.2 stream (round_size size)
    have hsplit_err := malloc_split_err
      { r.alloc with heap := newBlock r.alloc.heap (Block.ctor hip.device.2 stream
          (alloc_size (round_size size)) (r.devPtr.getD 0)) }
      r.hip (newPtr r.alloc.heap) hip.device.2 stream (round_size size)
    have hsplit_hip := malloc_split_hip
      { r.alloc with heap := newBlock r.alloc.heap (Block.ctor hip.device.2 stream
          (alloc_size (round_size size)) (r.devPtr.getD 0)) }
      r.hip (newPtr r.alloc.heap) hip.device.2 stream (round_size size)
    generalize malloc_split
      { r.alloc with heap := newBlock r.alloc.heap (Block.ctor hip.device.2 stream
          (alloc_size (round_size size)) (r.devPtr.getD 0)) }
      r.hip (newPtr r.alloc.heap) hip.device.2 stream (round_size size) = m
      at hpools hframe hsplit_err hsplit_hip
    dsimp only at hpools hframe
    have hold : ∀ x, x ∈ r.alloc.large_blocks ∨ x ∈ r.alloc.small_blocks →
        x < r.alloc.heap.length := by
      intro x hx
      rw [hlen]
      rcases hx with hx | hx
      · exact hwt.large x (hlsub x hx)
      · exact hwt.small x (hssub x hx)
    refine ⟨fs, e2, p2, ?_, hfs, ?_, hsplit_err.trans hok.symm, fun _ => ?_⟩
    · rw [hsplit_hip, hcalls]
    · intro x hx hd hroot
      obtain ⟨g1, g2, g3⟩ := hgone x hx hd hroot
      have hxlt : x < a.heap.length := by
        rcases hx with hx | hx
        · exact hwt.large x hx
        · exact hwt.small x hx
      refine ⟨g1, ?_, ?_⟩
      · intro hc
        rcases hpools x (Or.inl hc) with h1 | h1
        · rcases h1 with h1 | h1
          · exact g2 h1
          · exact g3 h1
        · have := h1.1
          unfold newPtr at this
          omega
      · intro hc
        rcases hpools x (Or.inr hc) with h1 | h1
        · rcases h1 with h1 | h1
          · exact g2 h1
          · exact g3 h1
        · have := h1.1
          unfold newPtr at this
          omega
    · intro x hx hd hroot
      rcases hpools x hx with h1 | h1
      · have hxlt := hold x h1
        have hcell : m.alloc.heap[x]? = r.alloc.heap[x]? := by
          rw [(hframe x (by rw [newBlock_length]; omega) (Nat.ne_of_lt hxlt)
            (by rw [deref_newBlock_self]; simp [Block.ctor])).1]
          exact newBlock_getElem_old _ _ hxlt
        rw [deref_congr hcell] at hd hroot
        exact hnoroot x h1 hd hroot
      · obtain ⟨hx1, hprev⟩ := h1
        subst hx1
        rw [hroot.1] at hprev
        cases hprev
  · have hrerr : (hip_malloc_retry a (hipGetDevice hip).2.2 hip.device.2
        (alloc_size (round_size size))).err ≠ hipSuccess := by
      rw [hrdef, herr]
      exact hok
    rw [malloc_miss_of_err hrerr, hrdef]
    exact ⟨fs, e2, p2, hcalls, hfs, hgone, herr, fun h => absurd h hok⟩

theorem twoRoots_reachable : Reachable twoRoots.alloc twoRoots.hip :=
  Reachable.free 8388608 (Reachable.free 4096 (Reachable.malloc 1048576 8
    (Reachable.malloc 1048576 7 (Reachable.init hipTwo rfl) (by decide)) (by decide)))

/-- C12: take a `malloc` that misses the pool on the current device `d`, with `d + 1`
representable in `int` (the upper key of `free_cached_blocks` is built from `d + 1`; the
devices of the model are unbounded integers, so the bound is not used in the proof), in a
state whose pools are ordered by the comparator and share no block (as `std::set` keeps
them) and whose pool pointers point into the heap, and let its first `hipMalloc` fail (with
out-of-memory or any other status) while every `hipFree` succeeds.  Then the calls it makes
after the
device query are that `hipMalloc`, one `hipGetLastError`, `hipFree` calls `fs` that all
succeed, and one more `hipMalloc` of the same byte count, so two primitive allocations in
all; every block of either pool that is on device `d` and has no sibling was handed to
`hipFree` and is in neither pool afterwards; the status returned is the status of the second
`hipMalloc`; and when that is success, no block left in either pool on device `d` is
without a sibling. -/
theorem malloc_oom_retry (a : THCCachingAllocator) (hip : Hip) (size stream : Nat)
    (hord : PoolsOrdered a) (hwt : WellTyped a) (hdev : hip.device.1 = hipSuccess)
    (_hd : hip.device.2 + 1 < 2147483648)
    (hmiss : malloc_hit a hip.device.2 stream (round_size size) = none)
    (hoom : (hipMalloc hip (alloc_size (round_size size))).1 ≠ hipSuccess)
    (hf : ∀ e ∈ hip.frees, e = hipSuccess) :
    ∃ fs e2 p2,
      (malloc a hip size stream).hip.calls =
        HipCall.malloc (alloc_size (round_size size)) e2 p2 :: (fs ++ HipCall.getLastError ::
          HipCall.malloc (alloc_size (round_size size))
            (hipMalloc hip (alloc_size (round_size size))).1
            (hipMalloc hip (alloc_size (round_size size))).2.1 ::
          HipCall.getDevice hipSuccess hip.device.2 :: hip.calls) ∧
      (∀ c ∈ fs, ∃ p, c = HipCall.free p hipSuccess) ∧
      (∀ x, x ∈ a.large_blocks ∨ x ∈ a.small_blocks →
        (deref a.heap x).device = hip.device.2 → (deref a.heap x).root →
        HipCall.free (deref a.heap x).ptr hipSuccess ∈ fs ∧
        x ∉ (malloc a hip size stream).alloc.large_blocks ∧
        x ∉ (malloc a hip size stream).alloc.small_blocks) ∧
      (malloc a hip size stream).err = e2 ∧
      (e2 = hipSuccess →
        ∀ x, x ∈ (malloc a hip size stream).alloc.large_blocks ∨
            x ∈ (malloc a hip size stream).alloc.small_blocks →
          (deref (malloc a hip size stream).alloc.heap x).device = hip.device.2 →
          ¬ (deref (malloc a hip size stream).alloc.heap x).root) :=
  malloc_oom_retry_of_ordered a hip size stream hord hwt hdev hmiss hoom hf

theorem malloc_oom_retry_witness :
    PoolsOrdered twoRoots.alloc ∧
    hipOomOnce.device.2 + 1 < 2147483648 ∧
    twoRoots.alloc.large_blocks = [0, 1] ∧
    (deref twoRoots.alloc.heap 0).root ∧ (deref twoRoots.alloc.heap 1).root ∧
    (malloc twoRoots.alloc hipOomOnce 1048576 9).err = hipSuccess ∧
    (malloc twoRoots.alloc hipOomOnce 1048576 9).alloc.large_blocks = [] ∧
    (malloc twoRoots.alloc hipOomOnce 1048576 9).alloc.allocated_blocks = [(16777216, 2)] ∧
    (malloc twoRoots.alloc hipOomOnce 1048576 9).hip.calls.take 6 =
      [HipCall.malloc 1048576 hipSuccess 16777216, HipCall.free 8388608 hipSuccess,
        HipCall.free 4096 hipSuccess, HipCall.getLastError,
        HipCall.malloc 1048576 hipErrorMemoryAllocation 0, HipCall.getDevice hipSuccess 0] ∧
    ∃ fs e2 p2,
      (malloc twoRoots.alloc hipOomOnce 1048576 9).hip.calls =
        HipCall.malloc (alloc_size (round_size 1048576)) e2 p2 :: (fs ++ HipCall.getLastError ::
          HipCall.malloc (alloc_size (round_size 1048576))
            (hipMalloc hipOomOnce (alloc_size (round_size 1048576))).1
            (hipMalloc hipOomOnce (alloc_size (round_size 1048576))).2.1 ::
          HipCall.getDevice hipSuccess hipOomOnce.device.2 :: hipOomOnce.calls) ∧
      (∀ c ∈ fs, ∃ p, c = HipCall.free p hipSuccess) ∧
      (∀ x, x ∈ twoRoots.alloc.large_blocks ∨ x ∈ twoRoots.alloc.small_blocks →
        (deref twoRoots.alloc.heap x).device = hipOomOnce.device.2 →
        (deref twoRoots.alloc.heap x).root →
        HipCall.free (deref twoRoots.alloc.heap x).ptr hipSuccess ∈ fs ∧
        x ∉ (malloc twoRoots.alloc hipOomOnce 1048576 9).alloc.large_blocks ∧
        x ∉ (malloc twoRoots.alloc hipOomOnce 1048576 9).alloc.small_blocks) ∧
      (malloc twoRoots.alloc hipOomOnce 1048576 9).err = e2 ∧
      (e2 = hipSuccess →
        ∀ x, x ∈ (malloc twoRoots.alloc hipOomOnce 1048576 9).alloc.large_blocks ∨
            x ∈ (malloc twoRoots.alloc hipOomOnce 1048576 9).alloc.small_blocks →
          (deref (malloc twoRoots.alloc hipOomOnce 1048576 9).alloc.heap x).device =
            hipOomOnce.device.2 →
          ¬ (deref (malloc twoRoots.alloc hipOomOnce 1048576 9).alloc.heap x).root) :=
  ⟨⟨by decide, by decide, by decide⟩, by decide, by decide, by decide, by decide, by decide,
    by decide, by decide, by decide,
    malloc_oom_retry twoRoots.alloc hipOomOnce 1048576 9 ⟨by decide, by decide, by decide⟩
      twoRoots_reachable.wellTyped (by decide) (by decide) (by decide) (by decide)
      (by decide)⟩

/-- C13: the calls `new` that a `malloc` adds to the record of the runtime, in any state:
`malloc` returns a status other than success exactly when one of them failed that is the
device query, a `hipFree` (made only by the recovery from a failed `hipMalloc`) or a
`hipMalloc` that is not the first one (the retry); there is at most one such call and the
status returned is its status.  When the device query fails it is the only call made (no
`hipMalloc`), nothing is written to `*devPtr` and the allocator state is unchanged. -/
theorem malloc_status (a : THCCachingAllocator) (hip : Hip) (size stream : Nat) :
    ∃ new, (malloc a hip size stream).hip.calls = new ++ hip.calls ∧
      ((malloc a hip size stream).err ≠ hipSuccess ↔ failed_calls new ≠ []) ∧
      (∀ c ∈ failed_calls new, c.err = (malloc a hip size stream).err) ∧
      (failed_calls new).length ≤ 1 ∧
      (hip.device.1 ≠ hipSuccess →
        new = [HipCall.getDevice hip.device.1 hip.device.2] ∧
        (malloc a hip size stream).alloc = a ∧ (malloc a hip size stream).devPtr = none) :=
  malloc_failed_calls a hip size stream

theorem malloc_status_witness :
    hipNoDevice.device.1 ≠ hipSuccess ∧
    (malloc THCCachingAllocator.empty hipNoDevice 200 7).alloc = THCCachingAllocator.empty ∧
    (malloc THCCachingAllocator.empty hipNoDevice 200 7).devPtr = none ∧
    (malloc THCCachingAllocator.empty hipNoDevice 200 7).hip.calls =
      [HipCall.getDevice (hipErrorUnknown 5) 0] ∧
    (HipCall.getDevice (hipErrorUnknown 5) 0).err =
      (malloc THCCachingAllocator.empty hipNoDevice 200 7).err ∧
    (malloc THCCachingAllocator.empty hipFailTwice 200 7).err = hipErrorUnknown 3 ∧
    failed_calls (malloc THCCachingAllocator.empty hipFailTwice 200 7).hip.calls =
      [HipCall.malloc 1048576 (hipErrorUnknown 3) 0] := by
  obtain ⟨new, _, _, h3, _, h5⟩ := malloc_status THCCachingAllocator.empty hipNoDevice 200 7
  obtain ⟨hn, ha, hp⟩ := h5 (by decide)
  refine ⟨by decide, ha, hp, by decide, h3 _ ?_, by decide, by decide⟩
  rw [hn]
  decide

/-- C16 on the code: after `malloc(SIZE_MAX)` and `malloc(200)` on stream 7 of the fresh
allocator, a state reached with one `hipMalloc` call that behaved, block 1 (0 bytes at
4096) is live and has `allocated = true`, yet it is in neither pool and the allocated table
holds only block 2 under 4096: the entry of block 1 was overwritten when `round_size`
wrapped to 0 and the same address was handed out twice. -/
theorem wrapped_block_in_no_pool_or_table :
    Reachable wrappedSecond.alloc wrappedSecond.hip ∧
    hipSane wrappedSecond.hip.calls = true ∧
    wrappedSecond.alloc.heap =
      [some ⟨0, 7, 1048064, 4608, false, some 2, none⟩,
        some ⟨0, 7, 0, 4096, true, none, some 2⟩,
        some ⟨0, 7, 512, 4096, true, some 1, some 0⟩] ∧
    wrappedSecond.alloc.large_blocks = [0] ∧
    wrappedSecond.alloc.small_blocks = [] ∧
    wrappedSecond.alloc.allocated_blocks = [(4096, 2)] :=
  ⟨Reachable.malloc 200 7
    (Reachable.malloc 18446744073709551615 7 (Reachable.init hipTwo rfl) (by decide))
    (by decide), by decide, by decide, by decide, by decide, by decide⟩

/-- C20 on the code: `malloc` and `free` choose `small ? large_blocks : small_blocks`.
After `malloc(200)` on the fresh allocator the 1048064-byte remainder is in `large_blocks`
and `small_blocks` is empty; the `free` of the address puts the merged 1 MiB block into
`large_blocks` again.  A freed 2 MiB block goes to `small_blocks`, and a `malloc(2 MiB)`
finds it there without a call to `hipMalloc`. -/
theorem pool_choice_inverted :
    round_size 200 = 512 ∧
    Reachable afterFirst.alloc afterFirst.hip ∧
    afterFirst.alloc.heap[0]? = some (some ⟨0, 7, 1048064, 4608, false, some 1, none⟩) ∧
    afterFirst.alloc.large_blocks = [0] ∧
    afterFirst.alloc.small_blocks = [] ∧
    (free afterFirst.alloc afterFirst.hip 4096).alloc.heap[1]? =
      some (some ⟨0, 7, 1048576, 4096, false, none, none⟩) ∧
    (free afterFirst.alloc afterFirst.hip 4096).alloc.large_blocks = [1] ∧
    (free afterFirst.alloc afterFirst.hip 4096).alloc.small_blocks = [] ∧
    round_size 2097152 = 2097152 ∧
    largeFreed.alloc.heap[0]? = some (some ⟨0, 7, 2097152, 4096, false, none, none⟩) ∧
    largeFreed.alloc.small_blocks = [0] ∧
    largeFreed.alloc.large_blocks = [] ∧
    (malloc largeFreed.alloc largeFreed.hip 2097152 7).err = hipSuccess ∧
    (malloc largeFreed.alloc largeFreed.hip 2097152 7).hip.calls =
      HipCall.getDevice hipSuccess 0 :: largeFreed.hip.calls ∧
    (malloc largeFreed.alloc largeFreed.hip 2097152 7).alloc.small_blocks = [] :=
  ⟨by decide, Reachable.malloc 200 7 (Reachable.init hipTwo rfl) (by decide), by decide,
    by decide, by decide, by decide, by decide, by decide, by decide, by decide, by decide,
    by decide, by decide, by decide, by decide⟩

/-! ## The sibling chains of reachable states -/

/-! ## Live cells -/

theorem Live.deref {h : Heap} {p : Nat} (hp : Live h p) : h[p]? = some (some (deref h p)) := by
  obtain ⟨b, hb⟩ := hp
  rw [deref_of_live hb]
  exact hb

theorem Live_store_iff (h : Heap) (p q : Nat) (f : Block → Block) :
    Live (store h p f) q ↔ Live h q := by
  constructor
  · rintro ⟨b, hb⟩
    rw [store_getElem] at hb
    split at hb
    · cases hc : h[q]? with
      | none => rw [hc] at hb; cases hb
      | some c =>
        cases c with
        | none => rw [hc] at hb; cases hb
        | some b0 => exact ⟨b0, hc⟩
    · exact ⟨b, hb⟩
  · intro hq
    exact hq.store p f

theorem Live_store_opt_iff (h : Heap) (p : Option Nat) (q : Nat) (f : Block → Block) :
    Live (store_opt h p f) q ↔ Live h q := by
  cases p with
  | none => exact Iff.rfl
  | some p => exact Live_store_iff h p q f

theorem Live_newBlock_iff (h : Heap) (b : Block) (q : Nat) :
    Live (newBlock h b) q ↔ q = newPtr h ∨ Live h q := by
  unfold Live
  rw [newBlock_getElem]
  unfold newPtr
  by_cases hq : q = h.length
  · simp [hq]
  · simp [hq]

theorem Live_deleteBlock_iff (h : Heap) (p q : Nat) :
    Live (deleteBlock h p) q ↔ q ≠ p ∧ Live h q := by
  unfold Live
  rw [deleteBlock_getElem]
  by_cases hq : q = p
  · subst hq
    simp only [if_true, ne_eq, not_true_eq_false, false_and, iff_false]
    rintro ⟨b, hb⟩
    cases hc : h[q]? with
    | none => rw [hc] at hb; cases hb
    | some c => rw [hc] at hb; cases hb
  · simp [hq]

theorem not_Live_newPtr (h : Heap) : ¬ Live h (newPtr h) := by
  intro hl
  exact Nat.lt_irrefl _ hl.lt

theorem deref_store (h : Heap) (p q : Nat) (f : Block → Block) (hp : Live h p) :
    deref (store h p f) q = if q = p then f (deref h p) else deref h q := by
  by_cases hq : q = p
  · subst hq
    rw [if_pos rfl]
    exact deref_store_self hp f
  · rw [if_neg hq]
    exact deref_store_ne h p q f hq

theorem deref_newBlock (h : Heap) (b : Block) (q : Nat) :
    deref (newBlock h b) q = if q = newPtr h then b else deref h q := by
  by_cases hq : q = newPtr h
  · subst hq
    rw [if_pos rfl]
    exact deref_newBlock_self h b
  · rw [if_neg hq]
    unfold deref
    rw [newBlock_getElem, if_neg (show ¬ q = h.length from hq)]

theorem deref_deleteBlock_ne (h : Heap) {p q : Nat} (hq : q ≠ p) :
    deref (deleteBlock h p) q = deref h q :=
  deref_congr (deleteBlock_getElem_ne h hq)

theorem deref_dead {h : Heap} {p : Nat} (hp : ¬ Live h p) : deref h p = default := by
  unfold deref
  cases hc : h[p]? with
  | none => rfl
  | some c =>
    cases c with
    | none => rfl
    | some b => exact absurd ⟨b, hc⟩ hp

theorem Live_congr {h1 h2 : Heap} {q : Nat} (hc : h2[q]? = h1[q]?) : Live h2 q ↔ Live h1 q := by
  unfold Live
  rw [hc]

/-! ## Positions in a chain -/

theorem eq_nil_or_snoc {α : Type} (l : List α) : l = [] ∨ ∃ L b, l = L ++ [b] := by
  rcases List.eq_nil_or_concat l with h | ⟨L, b, h⟩
  · exact Or.inl h
  · exact Or.inr ⟨L, b, by rw [h, List.concat_eq_append]⟩

theorem ChainOK.prev_eq {h : Heap} {c : Chain} (hc : ChainOK h c) {pre post : List Nat} {x : Nat}
    (hb : c.blocks = pre ++ x :: post) : (deref h x).prev = pre.getLast? := by
  rcases eq_nil_or_snoc pre with hpre | ⟨pre2, p, hpre⟩
  · subst hpre
    have := hc.first x (by rw [hb]; rfl)
    rw [this.1]
    rfl
  · subst hpre
    have hadj := hc.adj
    rw [hb, List.append_assoc, List.chain'_append] at hadj
    have h2 := hadj.2.1
    rw [List.singleton_append, List.chain'_cons] at h2
    rw [List.getLast?_concat]
    exact h2.1.2.1

theorem ChainOK.next_eq {h : Heap} {c : Chain} (hc : ChainOK h c) {pre post : List Nat} {x : Nat}
    (hb : c.blocks = pre ++ x :: post) : (deref h x).next = post.head? := by
  cases post with
  | nil =>
    have := hc.last x (by rw [hb, List.getLast?_append_cons]; rfl)
    rw [this.1]
    rfl
  | cons y post2 =>
    have hadj := hc.adj
    rw [hb, List.chain'_append] at hadj
    have h2 := hadj.2.1
    rw [List.chain'_cons] at h2
    exact h2.1.1

theorem ChainOK.adj_mid {h : Heap} {c : Chain} (hc : ChainOK h c) {pre post : List Nat}
    {x y : Nat} (hb : c.blocks = pre ++ x :: y :: post) : Adj h x y := by
  have hadj := hc.adj
  rw [hb, List.chain'_append] at hadj
  have h2 := hadj.2.1
  rw [List.chain'_cons] at h2
  exact h2.1

theorem chain_ptr_mono {h : Heap} (l : List Nat) :
    ∀ x, List.Chain' (Adj h) (x :: l) → ∀ y ∈ l,
      (deref h x).ptr + (deref h x).size ≤ (deref h y).ptr := by
  induction l with
  | nil => intro x _ y hy; cases hy
  | cons z l ih =>
    intro x hch y hy
    rw [List.chain'_cons] at hch
    rcases List.mem_cons.1 hy with h1 | h1
    · subst h1
      exact hch.1.2.2.1.le
    · have := ih z hch.2 y h1
      have h3 := hch.1.2.2.1
      omega

/-- In a chain a block that comes later starts where an earlier one ends, or after. -/
theorem ChainOK.apart {h : Heap} {c : Chain} (hc : ChainOK h c) {A B C : List Nat} {x y : Nat}
    (hb : c.blocks = A ++ x :: (B ++ y :: C)) :
    (deref h x).ptr + (deref h x).size ≤ (deref h y).ptr := by
  have hadj := hc.adj
  rw [hb] at hadj
  exact chain_ptr_mono _ x hadj.right_of_append y (by simp)

theorem ChainOK.ptr_ge {h : Heap} {c : Chain} (hc : ChainOK h c) {x : Nat}
    (hx : x ∈ c.blocks) : c.base ≤ (deref h x).ptr := by
  obtain ⟨pre, post, hb⟩ := List.append_of_mem hx
  cases pre with
  | nil =>
    have := hc.first x (by rw [hb]; rfl)
    exact this.2.ge
  | cons p pre2 =>
    have hf := hc.first p (by rw [hb]; rfl)
    have hadj := hc.adj
    rw [hb] at hadj
    have := chain_ptr_mono _ p hadj x (by simp)
    omega

theorem ChainOK.end_le {h : Heap} {c : Chain} (hc : ChainOK h c) {x : Nat}
    (hx : x ∈ c.blocks) : (deref h x).ptr + (deref h x).size ≤ c.base + c.total := by
  obtain ⟨pre, post, hb⟩ := List.append_of_mem hx
  rcases eq_nil_or_snoc post with hpost | ⟨post2, l, hpost⟩
  · subst hpost
    have := hc.last x (by rw [hb, List.getLast?_append_cons]; rfl)
    exact this.2.le
  · subst hpost
    have hl := hc.last l (by
      rw [hb, List.getLast?_append_cons, ← List.cons_append, List.getLast?_concat]
      rfl)
    have hadj := hc.adj
    rw [hb] at hadj
    have := chain_ptr_mono _ x hadj.right_of_append l (by simp)
    omega

theorem ChainOK.size_le {h : Heap} {c : Chain} (hc : ChainOK h c) {x : Nat}
    (hx : x ∈ c.blocks) : (deref h x).size ≤ c.total := by
  have h1 := hc.ptr_ge hx
  have h2 := hc.end_le hx
  omega

/-- A block of a chain whose `prev` is null is the first block of the chain. -/
theorem ChainOK.head_of_prev_none {h : Heap} {c : Chain} (hc : ChainOK h c) {x : Nat}
    (hx : x ∈ c.blocks) (hp : (deref h x).prev = none) : c.blocks.head? = some x := by
  obtain ⟨pre, post, hb⟩ := List.append_of_mem hx
  have := hc.prev_eq hb
  rw [hp] at this
  have hpre : pre = [] := List.getLast?_eq_none_iff.1 this.symm
  subst hpre
  rw [hb]
  rfl

/-- A block of a chain whose `next` is null is the last block of the chain. -/
theorem ChainOK.last_of_next_none {h : Heap} {c : Chain} (hc : ChainOK h c) {x : Nat}
    (hx : x ∈ c.blocks) (hp : (deref h x).next = none) : c.blocks.getLast? = some x := by
  obtain ⟨pre, post, hb⟩ := List.append_of_mem hx
  have := hc.next_eq hb
  rw [hp] at this
  have hpost : post = [] := by
    cases post with
    | nil => rfl
    | cons y l => cases this
  subst hpost
  rw [hb, List.getLast?_append_cons]
  rfl

theorem store_opt_getElem (h : Heap) (o : Option Nat) (q : Nat) (f : Block → Block) :
    (store_opt h o f)[q]? = if o = some q then (h[q]?).map (Option.map f) else h[q]? := by
  cases o with
  | none => simp [store_opt]
  | some p =>
    simp only [store_opt, store_getElem, Option.some.injEq]
    by_cases hq : q = p
    · simp [hq]
    · simp [hq, Ne.symm hq]

theorem malloc_split_heap_getElem (h : Heap) (r : Nat) (dev : Int) (st s : Nat) (br : Block)
    (hr : h[r]? = some (some br)) (hself : br.prev ≠ some r) (q : Nat) :
    (store (malloc_split_heap h r dev st s) (newPtr h)
      (fun b => { b with allocated := true }))[q]? =
    if q = newPtr h then some (some ⟨dev, st, s, br.ptr, true, br.prev, some r⟩)
    else if q = r then
      some (some ⟨br.device, br.stream, sub_size_t br.size s, br.ptr + s, br.allocated,
        some (newPtr h), br.next⟩)
    else if br.prev = some q then
      (h[q]?).map (Option.map (fun b => { b with next := some (newPtr h) }))
    else h[q]? := by
  have hrN : r ≠ newPtr h := Nat.ne_of_lt (lt_length_of_live hr)
  have hdr : deref h r = br := deref_of_live hr
  have hN : h[newPtr h]? = none := List.getElem?_eq_none (Nat.le_refl _)
  unfold malloc_split_heap
  dsimp only
  have e0 : (deref (newBlock h (Block.ctor dev st s (deref h r).ptr)) r).prev = br.prev := by
    rw [deref_newBlock, if_neg hrN, hdr]
  have e1 : (deref (store (newBlock h (Block.ctor dev st s (deref h r).ptr)) (newPtr h)
      (fun b => { b with prev := (deref (newBlock h (Block.ctor dev st s (deref h r).ptr))
        r).prev })) (newPtr h)).prev = br.prev := by
    rw [deref_store_self ((Live_newBlock_iff _ _ _).2 (Or.inl rfl)), e0]
  rw [e1, e0, hdr]
  by_cases hqN : q = newPtr h
  · subst hqN
    have hne : newPtr h ≠ r := fun hc => hrN hc.symm
    have hpn : br.prev ≠ some (newPtr h) ∨ br.prev = some (newPtr h) := by tauto
    simp only [store_getElem, store_opt_getElem, newBlock_getElem, if_true, hne, if_false]
    have : (newPtr h = h.length) := rfl
    simp only [this, if_true]
    rcases hpn with hpn | hpn
    · unfold newPtr at hpn
      simp [hpn, Block.ctor]
    · unfold newPtr at hpn
      simp [hpn, Block.ctor]
  · by_cases hqr : q = r
    · subst hqr
      have hq2 : ¬ q = h.length := hqN
      simp only [store_getElem, store_opt_getElem, newBlock_getElem, if_true, hqN, hq2, if_false,
        hself, hr]
      rfl
    · have hq2 : ¬ q = h.length := hqN
      simp only [store_getElem, store_opt_getElem, newBlock_getElem, hqN, hq2, hqr, if_false]

theorem malloc_split_heap_cells (h : Heap) (r : Nat) (dev : Int) (st s : Nat)
    (hr : Live h r) (hself : (deref h r).prev ≠ some r) :
    SplitCells h
      (store (malloc_split_heap h r dev st s) (newPtr h) (fun b => { b with allocated := true }))
      r (newPtr h) dev st s := by
  have hcell := malloc_split_heap_getElem h r dev st s (deref h r) hr.deref hself
  generalize store (malloc_split_heap h r dev st s) (newPtr h)
    (fun b => { b with allocated := true }) = h2 at hcell
  have hrN : r ≠ newPtr h := Nat.ne_of_lt hr.lt
  refine ⟨?_, ?_, ?_, ?_, ?_⟩
  · intro q
    unfold Live
    rw [hcell]
    by_cases hqN : q = newPtr h
    · simp [hqN]
    · by_cases hqr : q = r
      · subst hqr
        simp only [hqN, if_false, if_true, false_or]
        exact ⟨fun _ => hr, fun _ => ⟨_, rfl⟩⟩
      · simp only [hqN, hqr, if_false, false_or]
        split
        · cases hc : h[q]? with
          | none => simp
          | some c => cases c <;> simp
        · exact Iff.rfl
  · exact deref_of_live (by rw [hcell, if_pos rfl])
  · exact deref_of_live (by rw [hcell, if_neg hrN, if_pos rfl])
  · intro p hp hlp
    have hpN : p ≠ newPtr h := Nat.ne_of_lt hlp.lt
    have hpr : p ≠ r := fun hc => hself (hc ▸ hp)
    have : h2[p]? = some (some { deref h p with next := some (newPtr h) }) := by
      rw [hcell, if_neg hpN, if_neg hpr, if_pos hp, hlp.deref]
      rfl
    exact deref_of_live this
  · intro q hqN hqr hqp
    exact deref_congr (by rw [hcell, if_neg hqN, if_neg hqr, if_neg hqp])

/-! ## Chains under changes of the heap -/

theorem Adj_frame {h h2 : Heap} {x y : Nat} (hx : deref h2 x = deref h x)
    (hy : deref h2 y = deref h y) (ha : Adj h x y) : Adj h2 x y := by
  unfold Adj at ha ⊢
  rw [hx, hy]
  exact ha

theorem Chain_frame {h h2 : Heap} {l : List Nat} (hf : ∀ x ∈ l, deref h2 x = deref h x)
    (hc : List.Chain' (Adj h) l) : List.Chain' (Adj h2) l := by
  rw [List.Chain'.iff_mem] at hc
  exact hc.imp (fun a b hab => Adj_frame (hf a hab.1) (hf b hab.2.1) hab.2.2)

theorem Owned_frame {h h2 : Heap} {c c2 : Chain} {x : Nat} (hd : c2.device = c.device)
    (hs : c2.stream = c.stream) (ht : c2.total = c.total) (hl : Live h2 x)
    (hx : deref h2 x = deref h x) (ho : Owned h c x) : Owned h2 c2 x := by
  unfold Owned at ho ⊢
  rw [hx, hd, hs, ht]
  exact ⟨hl, ho.2⟩

/-- The split of a free block `r` of a chain puts the new block `N` before it. -/
theorem ChainOK.split {h h2 : Heap} {c : Chain} {pre post : List Nat} {r N s : Nat}
    (hc : ChainOK h c) (hb : c.blocks = pre ++ r :: post)
    (hs : SplitCells h h2 r N c.device c.stream s) (hN : ¬ Live h N)
    (hfree : (deref h r).allocated = false) (hle : s ≤ (deref h r).size)
    (hbig : kSmallAlloc < c.total → kSmallAlloc < s ∧ kSmallAlloc < (deref h r).size - s) :
    ChainOK h2 { c with blocks := pre ++ N :: r :: post } := by
  have hnd := hc.nodup
  rw [hb] at hnd
  have hrmem : r ∈ c.blocks := by rw [hb]; simp
  have hlive : ∀ x ∈ c.blocks, Live h x := fun x hx => (hc.each x hx).1
  have hNmem : N ∉ c.blocks := fun hm => hN (hlive N hm)
  have hrN : r ≠ N := fun hc2 => hNmem (hc2 ▸ hrmem)
  have hsz : (deref h r).size < SIZE_T := lt_of_le_of_lt (hc.size_le hrmem) hc.total_lt
  have hsub : sub_size_t (deref h r).size s = (deref h r).size - s := sub_size_t_of_le hle hsz
  have hprev := hc.prev_eq hb
  have hnext := hc.next_eq hb
  have hrem : deref h2 r = ⟨(deref h r).device, (deref h r).stream, (deref h r).size - s,
      (deref h r).ptr + s, (deref h r).allocated, some N, (deref h r).next⟩ := by
    rw [hs.rem, hsub]
  have hnew := hs.new
  -- the blocks after `r` are untouched
  have hpost : ∀ x ∈ post, deref h2 x = deref h x := by
    intro x hx
    have hxmem : x ∈ c.blocks := by rw [hb]; simp [hx]
    apply hs.other x (fun hc2 => hNmem (hc2 ▸ hxmem))
    · intro hc2
      subst hc2
      have := (List.nodup_append.1 hnd).2.1
      exact (List.nodup_cons.1 this).1 hx
    · rw [hprev]
      intro hc2
      have h1 : x ∈ pre := List.mem_of_mem_getLast? hc2
      exact (List.nodup_append.1 hnd).2.2 h1 (List.mem_cons_of_mem _ hx)
  have hOr : Owned h c r := hc.each r hrmem
  have hOwnedN : Owned h2 { c with blocks := pre ++ N :: r :: post } N := by
    refine ⟨(hs.live N).2 (Or.inl rfl), ?_, ?_, ?_⟩
    · rw [hnew]
    · rw [hnew]
    · intro hbg
      rw [hnew]
      exact (hbig hbg).1
  have hOwnedr : Owned h2 { c with blocks := pre ++ N :: r :: post } r := by
    refine ⟨(hs.live r).2 (Or.inr hOr.1), ?_, ?_, ?_⟩
    · rw [hrem]
      exact hOr.2.1
    · rw [hrem]
      exact hOr.2.2.1
    · intro hbg
      rw [hrem]
      exact (hbig hbg).2
  have hOwnedPost : ∀ x ∈ post, Owned h2 { c with blocks := pre ++ N :: r :: post } x := by
    intro x hx
    have hxmem : x ∈ c.blocks := by rw [hb]; simp [hx]
    exact Owned_frame rfl rfl rfl ((hs.live x).2 (Or.inr (hlive x hxmem))) (hpost x hx)
      (hc.each x hxmem)
  have hadj := hc.adj
  rw [hb] at hadj
  -- the run from `r` on
  have htail : List.Chain' (Adj h2) (r :: post) := by
    have hold : List.Chain' (Adj h) (r :: post) := hadj.right_of_append
    cases post with
    | nil => exact List.chain'_singleton _
    | cons y post2 =>
      rw [List.chain'_cons] at hold ⊢
      refine ⟨?_, Chain_frame hpost hold.2⟩
      have hy := hpost y (List.mem_cons_self _ _)
      obtain ⟨a1, a2, a3, a4⟩ := hold.1
      unfold Adj
      rw [hy, hrem]
      refine ⟨a1, a2, ?_, ?_⟩
      · dsimp only
        omega
      · rcases a4 with a4 | a4
        · rw [hfree] at a4
          cases a4
        · exact Or.inr a4
  have hNr : Adj h2 N r := by
    unfold Adj
    rw [hnew, hrem]
    exact ⟨rfl, rfl, rfl, Or.inl rfl⟩
  have hlast : ∀ x ∈ (r :: post).getLast?,
      (deref h2 x).next = none ∧ (deref h2 x).ptr + (deref h2 x).size = c.base + c.total := by
    intro x hx
    have hold := hc.last x (by rw [hb, List.getLast?_append_cons]; exact hx)
    rcases eq_nil_or_snoc post with hp | ⟨post2, l, hp⟩
    · subst hp
      have hxr : x = r := by
        simp only [List.getLast?_singleton, Option.mem_def, Option.some.injEq] at hx
        exact hx.symm
      subst hxr
      rw [hrem]
      dsimp only
      refine ⟨hold.1, ?_⟩
      have := hold.2
      omega
    · have hxl : x ∈ post := by
        subst hp
        rw [← List.cons_append, List.getLast?_concat] at hx
        simp only [Option.mem_def, Option.some.injEq] at hx
        subst hx
        simp
      rw [hpost x hxl]
      exact hold
  rcases eq_nil_or_snoc pre with hpre | ⟨pre2, p, hpre⟩
  · subst hpre
    rw [List.nil_append] at hb hnd hadj
    have hprev0 : (deref h r).prev = none := hprev
    have hfirst := hc.first r (by rw [hb]; rfl)
    refine ⟨?_, ?_, ?_, ?_, ?_, hc.total_ge, hc.total_lt⟩
    · show (([] : List Nat) ++ N :: r :: post).Nodup
      rw [List.nil_append, List.nodup_cons]
      refine ⟨?_, hnd⟩
      rw [← hb]
      exact hNmem
    · intro x hx
      have hx2 : x = N ∨ x = r ∨ x ∈ post := by simpa using hx
      rcases hx2 with h1 | h1 | h1
      · subst h1; exact hOwnedN
      · subst h1; exact hOwnedr
      · exact hOwnedPost x h1
    · show List.Chain' (Adj h2) ([] ++ N :: r :: post)
      rw [List.nil_append, List.chain'_cons]
      exact ⟨hNr, htail⟩
    · intro x hx
      have hxN : x = N := by
        have : x ∈ ([] ++ N :: r :: post).head? := hx
        simpa using this.symm
      subst hxN
      rw [hnew]
      exact ⟨hprev0, hfirst.2⟩
    · intro x hx
      apply hlast x
      have : x ∈ ([] ++ N :: r :: post).getLast? := hx
      rw [List.nil_append, List.getLast?_cons_cons] at this
      exact this
  · subst hpre
    rw [List.append_assoc, List.singleton_append] at hb hnd hadj
    have hprevp : (deref h r).prev = some p := by
      rw [hprev, List.getLast?_concat]
    have hpmem : p ∈ c.blocks := by rw [hb]; simp
    have hpcell : deref h2 p = { deref h p with next := some N } :=
      hs.before p hprevp (hlive p hpmem)
    have hpN : p ≠ N := fun hc2 => hNmem (hc2 ▸ hpmem)
    have hpr : p ≠ r := by
      intro hc2
      subst hc2
      have := (List.nodup_append.1 hnd).2.1
      exact (List.nodup_cons.1 this).1 (List.mem_cons_self _ _)
    have hpre2 : ∀ x ∈ pre2, deref h2 x = deref h x := by
      intro x hx
      have hxmem : x ∈ c.blocks := by rw [hb]; simp [hx]
      apply hs.other x (fun hc2 => hNmem (hc2 ▸ hxmem))
      · intro hc2
        subst hc2
        exact (List.nodup_append.1 hnd).2.2 hx (by simp)
      · rw [hprevp]
        intro hc2
        cases hc2
        exact (List.nodup_append.1 hnd).2.2 hx (by simp)
    have hadj2 := List.chain'_split.1 hadj
    refine ⟨?_, ?_, ?_, ?_, ?_, hc.total_ge, hc.total_lt⟩
    · show ((pre2 ++ [p]) ++ N :: r :: post).Nodup
      rw [List.append_assoc, List.singleton_append]
      have h1 : N ∉ pre2 ++ p :: r :: post := by rw [← hb]; exact hNmem
      rw [List.nodup_append] at hnd ⊢
      obtain ⟨n1, n2, n3⟩ := hnd
      refine ⟨n1, ?_, ?_⟩
      · rw [List.nodup_cons] at n2 ⊢
        refine ⟨?_, ?_⟩
        · intro hm
          rcases List.mem_cons.1 hm with h2 | h2
          · exact hpN h2
          · exact n2.1 h2
        · rw [List.nodup_cons]
          refine ⟨?_, n2.2⟩
          intro hm
          exact h1 (List.mem_append_right _ (List.mem_cons_of_mem _ hm))
      · intro x hx1 hx2
        rcases List.mem_cons.1 hx2 with h2 | h2
        · exact n3 hx1 (h2 ▸ List.mem_cons_self _ _)
        · rcases List.mem_cons.1 h2 with h3 | h3
          · subst h3
            exact h1 (List.mem_append_left _ hx1)
          · exact n3 hx1 (List.mem_cons_of_mem _ h3)
    · intro x hx
      have hx2 : x ∈ pre2 ∨ x = p ∨ x = N ∨ x = r ∨ x ∈ post := by
        have : x ∈ (pre2 ++ [p]) ++ N :: r :: post := hx
        simpa [or_assoc] using this
      rcases hx2 with h1 | h1 | h1 | h1 | h1
      · have hxmem : x ∈ c.blocks := by rw [hb]; simp [h1]
        exact Owned_frame rfl rfl rfl ((hs.live x).2 (Or.inr (hlive x hxmem))) (hpre2 x h1)
          (hc.each x hxmem)
      · subst h1
        have ho := hc.each x hpmem
        refine ⟨(hs.live x).2 (Or.inr ho.1), ?_, ?_, ?_⟩
        · rw [hpcell]; exact ho.2.1
        · rw [hpcell]; exact ho.2.2.1
        · rw [hpcell]; exact ho.2.2.2
      · subst h1; exact hOwnedN
      · subst h1; exact hOwnedr
      · exact hOwnedPost x h1
    · show List.Chain' (Adj h2) ((pre2 ++ [p]) ++ N :: r :: post)
      rw [List.append_assoc, List.singleton_append, List.chain'_split]
      constructor
      · have hold := hadj2.1
        rw [List.chain'_append] at hold ⊢
        refine ⟨Chain_frame hpre2 hold.1, List.chain'_singleton _, ?_⟩
        intro x hx y hy
        have hyp : y = p := by simpa using hy.symm
        subst hyp
        have ha := hold.2.2 x hx y hy
        have hxc := hpre2 x (List.mem_of_mem_getLast? hx)
        unfold Adj at ha ⊢
        rw [hxc, hpcell]
        exact ha
      · have hpr2 : Adj h p r := (List.chain'_cons.1 hadj2.2).1
        rw [List.chain'_cons, List.chain'_cons]
        refine ⟨?_, hNr, htail⟩
        unfold Adj at hpr2 ⊢
        rw [hpcell, hnew]
        exact ⟨rfl, hprevp, hpr2.2.2.1, Or.inr rfl⟩
    · intro x hx
      have hx2 : x ∈ (pre2 ++ p :: N :: r :: post).head? := by
        have : x ∈ ((pre2 ++ [p]) ++ N :: r :: post).head? := hx
        rw [List.append_assoc, List.singleton_append] at this
        exact this
      have hxold : x ∈ c.blocks.head? := by
        rw [hb]
        cases pre2 with
        | nil => exact hx2
        | cons z l => exact hx2
      have hold := hc.first x hxold
      cases pre2 with
      | nil =>
        have hxp : x = p := by simpa using hx2.symm
        subst hxp
        rw [hpcell]
        exact hold
      | cons z l =>
        have hxz : x = z := by simpa using hx2.symm
        subst hxz
        rw [hpre2 x (List.mem_cons_self _ _)]
        exact hold
    · intro x hx
      apply hlast x
      have : x ∈ ((pre2 ++ [p]) ++ N :: r :: post).getLast? := hx
      rw [List.append_assoc, List.singleton_append, List.getLast?_append_cons,
        List.getLast?_cons_cons, List.getLast?_cons_cons] at this
      exact this

theorem try_merge_blocks_none (h : Heap) (dst : Nat) (fb : List Nat) :
    try_merge_blocks h dst none fb = (h, fb) := rfl

theorem try_merge_blocks_allocated {h : Heap} {s : Nat} (dst : Nat) (fb : List Nat)
    (hs : (deref h s).allocated = true) : try_merge_blocks h dst (some s) fb = (h, fb) := by
  unfold try_merge_blocks
  simp [hs]

theorem try_merge_blocks_free {h : Heap} {s : Nat} (dst : Nat) (fb : List Nat)
    (hs : (deref h s).allocated = false) :
    try_merge_blocks h dst (some s) fb =
      (deleteBlock (merge_heap h dst s) s, erase_key (merge_heap h dst s) s fb) := by
  unfold try_merge_blocks merge_heap
  simp [hs]

theorem merge_heap_prev_getElem (h : Heap) (d s : Nat) (bd bs : Block)
    (hd : h[d]? = some (some bd)) (hs : h[s]? = some (some bs)) (hds : d ≠ s)
    (hp : bd.prev = some s) (hsd : bs.prev ≠ some d) (hss : bs.prev ≠ some s) (q : Nat) :
    (merge_heap h d s)[q]? =
    if q = d then
      some (some ⟨bd.device, bd.stream, add_size_t bd.size bs.size, bs.ptr, bd.allocated,
        bs.prev, bd.next⟩)
    else if bs.prev = some q then
      (h[q]?).map (Option.map (fun b => { b with next := some d }))
    else h[q]? := by
  have hdd : deref h d = bd := deref_of_live hd
  have hdsx : deref h s = bs := deref_of_live hs
  have hsd2 : s ≠ d := fun hc => hds hc.symm
  unfold merge_heap
  rw [hdd, if_pos hp, hdsx]
  dsimp only
  have hla : Live (store h d (fun b => { b with ptr := bs.ptr })) d :=
    Live.store (⟨bd, hd⟩ : Live h d) _ _
  have e0 : (deref (store h d (fun b => { b with ptr := bs.ptr })) s).prev = bs.prev := by
    rw [deref_store_ne _ _ _ _ hsd2, hdsx]
  have e1 : (deref (store (store h d (fun b => { b with ptr := bs.ptr })) d
      (fun b => { b with prev := (deref (store h d (fun b => { b with ptr := bs.ptr })) s).prev }))
      d).prev = bs.prev := by
    rw [deref_store_self hla, e0]
  rw [e1, e0]
  have e2 : (deref (store_opt (store (store h d (fun b => { b with ptr := bs.ptr })) d
      (fun b => { b with prev := bs.prev })) bs.prev (fun b => { b with next := some d })) s).size
      = bs.size := by
    unfold deref
    rw [store_opt_getElem, if_neg hss, store_getElem, if_neg hsd2, store_getElem, if_neg hsd2, hs]
  rw [e2]
  by_cases hqd : q = d
  · subst hqd
    simp only [store_getElem, store_opt_getElem, if_true, hsd, if_false, hd]
    rfl
  · simp only [store_getElem, store_opt_getElem, hqd, if_false]

theorem merge_heap_next_getElem (h : Heap) (d s : Nat) (bd bs : Block)
    (hd : h[d]? = some (some bd)) (hs : h[s]? = some (some bs)) (hds : d ≠ s)
    (hp : bd.prev ≠ some s) (hsd : bs.next ≠ some d) (hss : bs.next ≠ some s) (q : Nat) :
    (merge_heap h d s)[q]? =
    if q = d then
      some (some ⟨bd.device, bd.stream, add_size_t bd.size bs.size, bd.ptr, bd.allocated,
        bd.prev, bs.next⟩)
    else if bs.next = some q then
      (h[q]?).map (Option.map (fun b => { b with prev := some d }))
    else h[q]? := by
  have hdd : deref h d = bd := deref_of_live hd
  have hdsx : deref h s = bs := deref_of_live hs
  have hsd2 : s ≠ d := fun hc => hds hc.symm
  unfold merge_heap
  rw [hdd, if_neg hp, hdsx]
  dsimp only
  have hla : Live h d := ⟨bd, hd⟩
  have e1 : (deref (store h d (fun b => { b with next := bs.next })) d).next = bs.next := by
    rw [deref_store_self hla]
  rw [e1]
  have e2 : (deref (store_opt (store h d (fun b => { b with next := bs.next })) bs.next
      (fun b => { b with prev := some d })) s).size = bs.size := by
    unfold deref
    rw [store_opt_getElem, if_neg hss, store_getElem, if_neg hsd2, hs]
  rw [e2]
  by_cases hqd : q = d
  · subst hqd
    simp only [store_getElem, store_opt_getElem, if_true, hsd, if_false, hd]
    rfl
  · simp only [store_getElem, store_opt_getElem, hqd, if_false]

theorem merge_prev_cells {h : Heap} {d s : Nat} (hd : Live h d) (hs : Live h s) (hds : d ≠ s)
    (hp : (deref h d).prev = some s) (hsd : (deref h s).prev ≠ some d)
    (hss : (deref h s).prev ≠ some s) :
    MergePrevCells h (deleteBlock (merge_heap h d s) s) d s := by
  have hcell := merge_heap_prev_getElem h d s (deref h d) (deref h s) hd.deref hs.deref hds hp
    hsd hss
  generalize merge_heap h d s = hm at hcell
  have hsd2 : s ≠ d := fun hc => hds hc.symm
  refine ⟨?_, ?_, ?_, ?_⟩
  · intro q
    rw [Live_deleteBlock_iff]
    by_cases hqs : q = s
    · simp [hqs]
    · simp only [ne_eq, hqs, not_false_eq_true, true_and]
      unfold Live
      rw [hcell]
      by_cases hqd : q = d
      · subst hqd
        simp only [if_true]
        exact ⟨fun _ => hd, fun _ => ⟨_, rfl⟩⟩
      · simp only [hqd, if_false]
        split
        · cases hc : h[q]? with
          | none => simp
          | some c => cases c <;> simp
        · exact Iff.rfl
  · rw [deref_deleteBlock_ne _ hds]
    exact deref_of_live (by rw [hcell, if_pos rfl])
  · intro p hpp hlp
    have hpd : p ≠ d := fun hc => hsd (hc ▸ hpp)
    have hps : p ≠ s := fun hc => hss (hc ▸ hpp)
    rw [deref_deleteBlock_ne _ hps]
    have : hm[p]? = some (some { deref h p with next := some d }) := by
      rw [hcell, if_neg hpd, if_pos hpp, hlp.deref]
      rfl
    exact deref_of_live this
  · intro q hqd hqs hqp
    rw [deref_deleteBlock_ne _ hqs]
    exact deref_congr (by rw [hcell, if_neg hqd, if_neg hqp])

theorem merge_next_cells {h : Heap} {d s : Nat} (hd : Live h d) (hs : Live h s) (hds : d ≠ s)
    (hp : (deref h d).prev ≠ some s) (hsd : (deref h s).next ≠ some d)
    (hss : (deref h s).next ≠ some s) :
    MergeNextCells h (deleteBlock (merge_heap h d s) s) d s := by
  have hcell := merge_heap_next_getElem h d s (deref h d) (deref h s) hd.deref hs.deref hds hp
    hsd hss
  generalize merge_heap h d s = hm at hcell
  have hsd2 : s ≠ d := fun hc => hds hc.symm
  refine ⟨?_, ?_, ?_, ?_⟩
  · intro q
    rw [Live_deleteBlock_iff]
    by_cases hqs : q = s
    · simp [hqs]
    · simp only [ne_eq, hqs, not_false_eq_true, true_and]
      unfold Live
      rw [hcell]
      by_cases hqd : q = d
      · subst hqd
        simp only [if_true]
        exact ⟨fun _ => hd, fun _ => ⟨_, rfl⟩⟩
      · simp only [hqd, if_false]
        split
        · cases hc : h[q]? with
          | none => simp
          | some c => cases c <;> simp
        · exact Iff.rfl
  · rw [deref_deleteBlock_ne _ hds]
    exact deref_of_live (by rw [hcell, if_pos rfl])
  · intro p hpp hlp
    have hpd : p ≠ d := fun hc => hsd (hc ▸ hpp)
    have hps : p ≠ s := fun hc => hss (hc ▸ hpp)
    rw [deref_deleteBlock_ne _ hps]
    have : hm[p]? = some (some { deref h p with prev := some d }) := by
      rw [hcell, if_neg hpd, if_pos hpp, hlp.deref]
      rfl
    exact deref_of_live this
  · intro q hqd hqs hqp
    rw [deref_deleteBlock_ne _ hqs]
    exact deref_congr (by rw [hcell, if_neg hqd, if_neg hqp])

theorem add_size_t_of_lt {x y : Nat} (h : x + y < SIZE_T) : add_size_t x y = x + y :=
  Nat.mod_eq_of_lt h

/-- Two neighbours of a chain are together no larger than the chain. -/
theorem ChainOK.pair_le {h : Heap} {c : Chain} (hc : ChainOK h c) {pre post : List Nat}
    {x y : Nat} (hb : c.blocks = pre ++ x :: y :: post) :
    (deref h x).size + (deref h y).size ≤ c.total := by
  have h1 := hc.ptr_ge (show x ∈ c.blocks by rw [hb]; simp)
  have h2 := hc.end_le (show y ∈ c.blocks by rw [hb]; simp)
  have h3 := (hc.adj_mid hb).2.2.1
  omega

/-- The merge of the block `s` into the allocated block `d` after it keeps the chain. -/
theorem ChainOK.merge_prev {h h2 : Heap} {c : Chain} {pre post : List Nat} {d s : Nat}
    (hc : ChainOK h c) (hb : c.blocks = pre ++ s :: d :: post)
    (hm : MergePrevCells h h2 d s) (hda : (deref h d).allocated = true) :
    ChainOK h2 { c with blocks := pre ++ d :: post } := by
  have hnd := hc.nodup
  rw [hb] at hnd
  have hsmem : s ∈ c.blocks := by rw [hb]; simp
  have hdmem : d ∈ c.blocks := by rw [hb]; simp
  have hlive : ∀ x ∈ c.blocks, Live h x := fun x hx => (hc.each x hx).1
  have hsd : Adj h s d := hc.adj_mid hb
  have hds : d ≠ s := by
    intro hc2
    subst hc2
    have := (List.nodup_append.1 hnd).2.1
    exact (List.nodup_cons.1 this).1 (List.mem_cons_self _ _)
  have hprev := hc.prev_eq hb
  have hsum := hc.pair_le hb
  have hadd : add_size_t (deref h d).size (deref h s).size = (deref h d).size + (deref h s).size :=
    add_size_t_of_lt (by have := hc.total_lt; omega)
  have hdcell : deref h2 d = ⟨(deref h d).device, (deref h d).stream,
      (deref h d).size + (deref h s).size, (deref h s).ptr, (deref h d).allocated,
      (deref h s).prev, (deref h d).next⟩ := by
    rw [hm.dst, hadd]
  have hnd2 : (s :: d :: post).Nodup := (List.nodup_append.1 hnd).2.1
  have hdisj := (List.nodup_append.1 hnd).2.2
  have hpost : ∀ x ∈ post, deref h2 x = deref h x := by
    intro x hx
    apply hm.other x
    · intro hc2
      subst hc2
      exact (List.nodup_cons.1 (List.nodup_cons.1 hnd2).2).1 hx
    · intro hc2
      subst hc2
      exact (List.nodup_cons.1 hnd2).1 (List.mem_cons_of_mem _ hx)
    · rw [hprev]
      intro hc2
      exact hdisj (List.mem_of_mem_getLast? hc2) (by simp [hx])
  have hOd : Owned h c d := hc.each d hdmem
  have hOwnedd : Owned h2 { c with blocks := pre ++ d :: post } d := by
    refine ⟨(hm.live d).2 ⟨hds, hOd.1⟩, ?_, ?_, ?_⟩
    · rw [hdcell]; exact hOd.2.1
    · rw [hdcell]; exact hOd.2.2.1
    · intro hbg
      rw [hdcell]
      have := hOd.2.2.2 hbg
      dsimp only
      omega
  have hOwnedPost : ∀ x ∈ post, Owned h2 { c with blocks := pre ++ d :: post } x := by
    intro x hx
    have hxmem : x ∈ c.blocks := by rw [hb]; simp [hx]
    have hxs : x ≠ s := by
      intro hc2
      subst hc2
      exact (List.nodup_cons.1 hnd2).1 (List.mem_cons_of_mem _ hx)
    exact Owned_frame rfl rfl rfl ((hm.live x).2 ⟨hxs, hlive x hxmem⟩) (hpost x hx)
      (hc.each x hxmem)
  have hadj := hc.adj
  rw [hb] at hadj
  have htail : List.Chain' (Adj h2) (d :: post) := by
    have hold : List.Chain' (Adj h) (d :: post) := hadj.right_of_append.tail
    cases post with
    | nil => exact List.chain'_singleton _
    | cons y post2 =>
      rw [List.chain'_cons] at hold ⊢
      refine ⟨?_, Chain_frame hpost hold.2⟩
      have hy := hpost y (List.mem_cons_self _ _)
      obtain ⟨a1, a2, a3, a4⟩ := hold.1
      unfold Adj
      rw [hy, hdcell]
      refine ⟨a1, a2, ?_, Or.inl hda⟩
      have := hsd.2.2.1
      dsimp only
      omega
  have hlast : ∀ x ∈ (d :: post).getLast?,
      (deref h2 x).next = none ∧ (deref h2 x).ptr + (deref h2 x).size = c.base + c.total := by
    intro x hx
    have hold := hc.last x (by
      rw [hb, List.getLast?_append_cons, List.getLast?_cons_cons]; exact hx)
    rcases eq_nil_or_snoc post with hp | ⟨post2, l, hp⟩
    · subst hp
      have hxr : x = d := by
        simp only [List.getLast?_singleton, Option.mem_def, Option.some.injEq] at hx
        exact hx.symm
      subst hxr
      rw [hdcell]
      dsimp only
      refine ⟨hold.1, ?_⟩
      have := hold.2
      have := hsd.2.2.1
      omega
    · have hxl : x ∈ post := by
        subst hp
        rw [← List.cons_append, List.getLast?_concat] at hx
        simp only [Option.mem_def, Option.some.injEq] at hx
        subst hx
        simp
      rw [hpost x hxl]
      exact hold
  rcases eq_nil_or_snoc pre with hpre | ⟨pre2, p, hpre⟩
  · subst hpre
    rw [List.nil_append] at hb hnd hadj
    have hprev0 : (deref h s).prev = none := hprev
    have hfirst := hc.first s (by rw [hb]; rfl)
    refine ⟨?_, ?_, ?_, ?_, ?_, hc.total_ge, hc.total_lt⟩
    · show (([] : List Nat) ++ d :: post).Nodup
      rw [List.nil_append]
      exact (List.nodup_cons.1 hnd).2
    · intro x hx
      have hx2 : x = d ∨ x ∈ post := by simpa using hx
      rcases hx2 with h1 | h1
      · subst h1; exact hOwnedd
      · exact hOwnedPost x h1
    · show List.Chain' (Adj h2) ([] ++ d :: post)
      rw [List.nil_append]
      exact htail
    · intro x hx
      have hxN : x = d := by
        have : x ∈ ([] ++ d :: post).head? := hx
        simpa using this.symm
      subst hxN
      rw [hdcell]
      exact ⟨hprev0, hfirst.2⟩
    · intro x hx
      apply hlast x
      have : x ∈ ([] ++ d :: post).getLast? := hx
      rw [List.nil_append] at this
      exact this
  · subst hpre
    rw [List.append_assoc, List.singleton_append] at hb hnd hadj
    have hprevp : (deref h s).prev = some p := by
      rw [hprev, List.getLast?_concat]
    have hpmem : p ∈ c.blocks := by rw [hb]; simp
    have hpcell : deref h2 p = { deref h p with next := some d } :=
      hm.before p hprevp (hlive p hpmem)
    have hnd3 := List.nodup_append.1 hnd
    have hps : p ≠ s := by
      intro hc2
      subst hc2
      exact (List.nodup_cons.1 hnd3.2.1).1 (List.mem_cons_self _ _)
    have hpd : p ≠ d := by
      intro hc2
      subst hc2
      exact (List.nodup_cons.1 hnd3.2.1).1 (by simp)
    have hpre2 : ∀ x ∈ pre2, deref h2 x = deref h x := by
      intro x hx
      apply hm.other x
      · intro hc2
        subst hc2
        exact hnd3.2.2 hx (by simp)
      · intro hc2
        subst hc2
        exact hnd3.2.2 hx (by simp)
      · rw [hprevp]
        intro hc2
        cases hc2
        exact hnd3.2.2 hx (by simp)
    have hadj2 := List.chain'_split.1 hadj
    refine ⟨?_, ?_, ?_, ?_, ?_, hc.total_ge, hc.total_lt⟩
    · show ((pre2 ++ [p]) ++ d :: post).Nodup
      rw [List.append_assoc, List.singleton_append]
      refine List.Nodup.sublist ?_ hnd
      exact List.Sublist.append_left (List.Sublist.cons₂ _ (List.sublist_cons_self _ _)) _
    · intro x hx
      have hx2 : x ∈ pre2 ∨ x = p ∨ x = d ∨ x ∈ post := by
        have : x ∈ (pre2 ++ [p]) ++ d :: post := hx
        simpa [or_assoc] using this
      rcases hx2 with h1 | h1 | h1 | h1
      · have hxmem : x ∈ c.blocks := by rw [hb]; simp [h1]
        have hxs : x ≠ s := by
          intro hc2
          subst hc2
          exact hnd3.2.2 h1 (by simp)
        exact Owned_frame rfl rfl rfl ((hm.live x).2 ⟨hxs, hlive x hxmem⟩) (hpre2 x h1)
          (hc.each x hxmem)
      · subst h1
        have ho := hc.each x hpmem
        refine ⟨(hm.live x).2 ⟨hps, ho.1⟩, ?_, ?_, ?_⟩
        · rw [hpcell]; exact ho.2.1
        · rw [hpcell]; exact ho.2.2.1
        · rw [hpcell]; exact ho.2.2.2
      · subst h1; exact hOwnedd
      · exact hOwnedPost x h1
    · show List.Chain' (Adj h2) ((pre2 ++ [p]) ++ d :: post)
      rw [List.append_assoc, List.singleton_append, List.chain'_split]
      constructor
      · have hold := hadj2.1
        rw [List.chain'_append] at hold ⊢
        refine ⟨Chain_frame hpre2 hold.1, List.chain'_singleton _, ?_⟩
        intro x hx y hy
        have hyp : y = p := by simpa using hy.symm
        subst hyp
        have ha := hold.2.2 x hx y hy
        have hxc := hpre2 x (List.mem_of_mem_getLast? hx)
        unfold Adj at ha ⊢
        rw [hxc, hpcell]
        exact ha
      · have hps2 : Adj h p s := (List.chain'_cons.1 hadj2.2).1
        rw [List.chain'_cons]
        refine ⟨?_, htail⟩
        unfold Adj at hps2 ⊢
        rw [hpcell, hdcell]
        exact ⟨rfl, hprevp, hps2.2.2.1, Or.inr hda⟩
    · intro x hx
      have hx2 : x ∈ (pre2 ++ p :: d :: post).head? := by
        have : x ∈ ((pre2 ++ [p]) ++ d :: post).head? := hx
        rw [List.append_assoc, List.singleton_append] at this
        exact this
      have hxold : x ∈ c.blocks.head? := by
        rw [hb]
        cases pre2 with
        | nil => exact hx2
        | cons z l => exact hx2
      have hold := hc.first x hxold
      cases pre2 with
      | nil =>
        have hxp : x = p := by simpa using hx2.symm
        subst hxp
        rw [hpcell]
        exact hold
      | cons z l =>
        have hxz : x = z := by simpa using hx2.symm
        subst hxz
        rw [hpre2 x (List.mem_cons_self _ _)]
        exact hold
    · intro x hx
      apply hlast x
      have : x ∈ ((pre2 ++ [p]) ++ d :: post).getLast? := hx
      rw [List.append_assoc, List.singleton_append, List.getLast?_append_cons,
        List.getLast?_cons_cons] at this
      exact this

/-- The merge of the block `s` into the allocated block `d` before it keeps the chain. -/
theorem ChainOK.merge_next {h h2 : Heap} {c : Chain} {pre post : List Nat} {d s : Nat}
    (hc : ChainOK h c) (hb : c.blocks = pre ++ d :: s :: post)
    (hm : MergeNextCells h h2 d s) (hda : (deref h d).allocated = true) :
    ChainOK h2 { c with blocks := pre ++ d :: post } := by
  have hnd := hc.nodup
  rw [hb] at hnd
  have hsmem : s ∈ c.blocks := by rw [hb]; simp
  have hdmem : d ∈ c.blocks := by rw [hb]; simp
  have hlive : ∀ x ∈ c.blocks, Live h x := fun x hx => (hc.each x hx).1
  have hdsA : Adj h d s := hc.adj_mid hb
  have hnd3 := List.nodup_append.1 hnd
  have hnd2 : (d :: s :: post).Nodup := hnd3.2.1
  have hds : d ≠ s := by
    intro hc2
    subst hc2
    exact (List.nodup_cons.1 hnd2).1 (List.mem_cons_self _ _)
  have hb2 : c.blocks = (pre ++ [d]) ++ s :: post := by
    rw [hb, List.append_assoc, List.singleton_append]
  have hnext := hc.next_eq hb2
  have hsum := hc.pair_le hb
  have hadd : add_size_t (deref h d).size (deref h s).size = (deref h d).size + (deref h s).size :=
    add_size_t_of_lt (by have := hc.total_lt; omega)
  have hdcell : deref h2 d = ⟨(deref h d).device, (deref h d).stream,
      (deref h d).size + (deref h s).size, (deref h d).ptr, (deref h d).allocated,
      (deref h d).prev, (deref h s).next⟩ := by
    rw [hm.dst, hadd]
  have hpre : ∀ x ∈ pre, deref h2 x = deref h x := by
    intro x hx
    apply hm.other x
    · intro hc2
      subst hc2
      exact hnd3.2.2 hx (by simp)
    · intro hc2
      subst hc2
      exact hnd3.2.2 hx (by simp)
    · rw [hnext]
      intro hc2
      exact hnd3.2.2 hx (by simp [List.mem_of_mem_head? hc2])
  have hxs_pre : ∀ x ∈ pre, x ≠ s := by
    intro x hx hc2
    subst hc2
    exact hnd3.2.2 hx (by simp)
  have hxs_post : ∀ x ∈ post, x ≠ s := by
    intro x hx hc2
    subst hc2
    exact (List.nodup_cons.1 (List.nodup_cons.1 hnd2).2).1 hx
  have hxd_post : ∀ x ∈ post, x ≠ d := by
    intro x hx hc2
    subst hc2
    exact (List.nodup_cons.1 hnd2).1 (List.mem_cons_of_mem _ hx)
  have hOd : Owned h c d := hc.each d hdmem
  have hOwnedd : Owned h2 { c with blocks := pre ++ d :: post } d := by
    refine ⟨(hm.live d).2 ⟨hds, hOd.1⟩, ?_, ?_, ?_⟩
    · rw [hdcell]; exact hOd.2.1
    · rw [hdcell]; exact hOd.2.2.1
    · intro hbg
      rw [hdcell]
      have := hOd.2.2.2 hbg
      dsimp only
      omega
  have hOwnedPre : ∀ x ∈ pre, Owned h2 { c with blocks := pre ++ d :: post } x := by
    intro x hx
    have hxmem : x ∈ c.blocks := by rw [hb]; simp [hx]
    exact Owned_frame rfl rfl rfl ((hm.live x).2 ⟨hxs_pre x hx, hlive x hxmem⟩) (hpre x hx)
      (hc.each x hxmem)
  have hadj := hc.adj
  rw [hb] at hadj
  have hadjpre : List.Chain' (Adj h2) (pre ++ [d]) := by
    have hold : List.Chain' (Adj h) (pre ++ [d]) := (List.chain'_split.1 hadj).1
    rw [List.chain'_append] at hold ⊢
    refine ⟨Chain_frame hpre hold.1, List.chain'_singleton _, ?_⟩
    intro x hx y hy
    have hyp : y = d := by simpa using hy.symm
    subst hyp
    have ha := hold.2.2 x hx y hy
    have hxc := hpre x (List.mem_of_mem_getLast? hx)
    unfold Adj at ha ⊢
    rw [hxc, hdcell]
    exact ha
  have hfirst : ∀ x ∈ (pre ++ d :: post).head?,
      (deref h2 x).prev = none ∧ (deref h2 x).ptr = c.base := by
    intro x hx
    have hxold : x ∈ c.blocks.head? := by
      rw [hb]
      cases pre with
      | nil => exact hx
      | cons z l => exact hx
    have hold := hc.first x hxold
    cases pre with
    | nil =>
      have hxp : x = d := by simpa using hx.symm
      subst hxp
      rw [hdcell]
      exact hold
    | cons z l =>
      have hxz : x = z := by simpa using hx.symm
      subst hxz
      rw [hpre x (List.mem_cons_self _ _)]
      exact hold
  have holdtail : List.Chain' (Adj h) (s :: post) := hadj.right_of_append.tail
  cases post with
  | nil =>
    have hsnext : (deref h s).next = none := hnext
    have hslast := hc.last s (by
      rw [hb, List.getLast?_append_cons, List.getLast?_cons_cons]; rfl)
    refine ⟨?_, ?_, ?_, hfirst, ?_, hc.total_ge, hc.total_lt⟩
    · show (pre ++ [d]).Nodup
      refine List.Nodup.sublist ?_ hnd
      exact List.Sublist.append_left (List.Sublist.cons₂ _ (List.nil_sublist _)) _
    · intro x hx
      have hx2 : x ∈ pre ∨ x = d := by
        have : x ∈ pre ++ [d] := hx
        simpa using this
      rcases hx2 with h1 | h1
      · exact hOwnedPre x h1
      · subst h1; exact hOwnedd
    · exact hadjpre
    · intro x hx
      have hxd : x = d := by
        have : x ∈ (pre ++ [d]).getLast? := hx
        rw [List.getLast?_concat] at this
        simpa using this.symm
      subst hxd
      rw [hdcell]
      dsimp only
      refine ⟨hsnext, ?_⟩
      have := hdsA.2.2.1
      have := hslast.2
      omega
  | cons n post2 =>
    have hsnext : (deref h s).next = some n := hnext
    have hnmem : n ∈ c.blocks := by rw [hb]; simp
    have hncell : deref h2 n = { deref h n with prev := some d } :=
      hm.after n hsnext (hlive n hnmem)
    have hsn : Adj h s n := (List.chain'_cons.1 holdtail).1
    have hnd4 : (n :: post2).Nodup := (List.nodup_cons.1 (List.nodup_cons.1 hnd2).2).2
    have hpost2 : ∀ x ∈ post2, deref h2 x = deref h x := by
      intro x hx
      apply hm.other x (hxd_post x (List.mem_cons_of_mem _ hx))
        (hxs_post x (List.mem_cons_of_mem _ hx))
      rw [hsnext]
      intro hc2
      cases hc2
      exact (List.nodup_cons.1 hnd4).1 hx
    have hdn : Adj h2 d n := by
      unfold Adj at hsn hdsA ⊢
      rw [hdcell, hncell]
      refine ⟨hsnext, rfl, ?_, Or.inl hda⟩
      have := hsn.2.2.1
      have := hdsA.2.2.1
      dsimp only
      omega
    have hntail : List.Chain' (Adj h2) (n :: post2) := by
      have hold : List.Chain' (Adj h) (n :: post2) := holdtail.tail
      cases post2 with
      | nil => exact List.chain'_singleton _
      | cons y post3 =>
        rw [List.chain'_cons] at hold ⊢
        refine ⟨?_, Chain_frame (fun x hx => hpost2 x hx) hold.2⟩
        have hy := hpost2 y (List.mem_cons_self _ _)
        have ha := hold.1
        unfold Adj at ha ⊢
        rw [hy, hncell]
        exact ha
    refine ⟨?_, ?_, ?_, hfirst, ?_, hc.total_ge, hc.total_lt⟩
    · show (pre ++ d :: n :: post2).Nodup
      refine List.Nodup.sublist ?_ hnd
      exact List.Sublist.append_left (List.Sublist.cons₂ _ (List.sublist_cons_self _ _)) _
    · intro x hx
      have hx2 : x ∈ pre ∨ x = d ∨ x = n ∨ x ∈ post2 := by
        have : x ∈ pre ++ d :: n :: post2 := hx
        simpa [or_assoc] using this
      rcases hx2 with h1 | h1 | h1 | h1
      · exact hOwnedPre x h1
      · subst h1; exact hOwnedd
      · subst h1
        have ho := hc.each x hnmem
        refine ⟨(hm.live x).2 ⟨hxs_post x (List.mem_cons_self _ _), ho.1⟩, ?_, ?_, ?_⟩
        · rw [hncell]; exact ho.2.1
        · rw [hncell]; exact ho.2.2.1
        · rw [hncell]; exact ho.2.2.2
      · have hxmem : x ∈ c.blocks := by rw [hb]; simp [h1]
        exact Owned_frame rfl rfl rfl
          ((hm.live x).2 ⟨hxs_post x (List.mem_cons_of_mem _ h1), hlive x hxmem⟩)
          (hpost2 x h1) (hc.each x hxmem)
    · show List.Chain' (Adj h2) (pre ++ d :: n :: post2)
      rw [List.chain'_split]
      refine ⟨hadjpre, ?_⟩
      rw [List.chain'_cons]
      exact ⟨hdn, hntail⟩
    · intro x hx
      have hx2 : x ∈ (n :: post2).getLast? := by
        have : x ∈ (pre ++ d :: n :: post2).getLast? := hx
        rw [List.getLast?_append_cons, List.getLast?_cons_cons] at this
        exact this
      have hold := hc.last x (by
        rw [hb, List.getLast?_append_cons, List.getLast?_cons_cons, List.getLast?_cons_cons]
        exact hx2)
      rcases eq_nil_or_snoc post2 with hp | ⟨post3, l, hp⟩
      · subst hp
        have hxn : x = n := by
          simp only [List.getLast?_singleton, Option.mem_def, Option.some.injEq] at hx2
          exact hx2.symm
        subst hxn
        rw [hncell]
        exact hold
      · have hxl : x ∈ post2 := by
          subst hp
          rw [← List.cons_append, List.getLast?_concat] at hx2
          simp only [Option.mem_def, Option.some.injEq] at hx2
          subst hx2
          simp
        rw [hpost2 x hxl]
        exact hold

/-- A change of `allocated` flags that leaves one of every two neighbours allocated keeps
a chain. -/
theorem ChainOK.flags {h h2 : Heap} {c : Chain} (hc : ChainOK h c)
    (hcell : ∀ x ∈ c.blocks, Live h2 x ∧ ∃ v, deref h2 x = { deref h x with allocated := v })
    (hflag : ∀ x ∈ c.blocks, ∀ y ∈ c.blocks, Adj h x y →
      (deref h2 x).allocated = true ∨ (deref h2 y).allocated = true) :
    ChainOK h2 c := by
  refine ⟨hc.nodup, ?_, ?_, ?_, ?_, hc.total_ge, hc.total_lt⟩
  · intro x hx
    obtain ⟨hl, v, hv⟩ := hcell x hx
    have ho := hc.each x hx
    refine ⟨hl, ?_, ?_, ?_⟩
    · rw [hv]; exact ho.2.1
    · rw [hv]; exact ho.2.2.1
    · rw [hv]; exact ho.2.2.2
  · have hadj := hc.adj
    rw [List.Chain'.iff_mem] at hadj
    refine hadj.imp ?_
    intro x y hxy
    obtain ⟨hx, hy, ha⟩ := hxy
    have hf := hflag x hx y hy ha
    obtain ⟨_, vx, hvx⟩ := hcell x hx
    obtain ⟨_, vy, hvy⟩ := hcell y hy
    unfold Adj at ha ⊢
    refine ⟨?_, ?_, ?_, hf⟩
    · rw [hvx]; exact ha.1
    · rw [hvy]; exact ha.2.1
    · rw [hvx, hvy]; exact ha.2.2.1
  · intro x hx
    obtain ⟨_, v, hv⟩ := hcell x (List.mem_of_mem_head? hx)
    rw [hv]
    exact hc.first x hx
  · intro x hx
    obtain ⟨_, v, hv⟩ := hcell x (List.mem_of_mem_getLast? hx)
    rw [hv]
    exact hc.last x hx

/-- A chain is kept by a change of the heap that leaves its blocks alone. -/
theorem ChainOK.frame {h h2 : Heap} {c : Chain} (hc : ChainOK h c)
    (hcell : ∀ x ∈ c.blocks, Live h2 x ∧ deref h2 x = deref h x) : ChainOK h2 c := by
  apply hc.flags
  · intro x hx
    exact ⟨(hcell x hx).1, (deref h x).allocated, (hcell x hx).2⟩
  · intro x hx y hy ha
    rw [(hcell x hx).2, (hcell y hy).2]
    exact ha.2.2.2

/-- Marking a block allocated keeps every chain. -/
theorem ChainOK.set_allocated {h : Heap} {c : Chain} (hc : ChainOK h c) (b : Nat) :
    ChainOK (store h b (fun blk => { blk with allocated := true })) c := by
  have hcell : ∀ x, deref (store h b (fun blk => { blk with allocated := true })) x =
      deref h x ∨ deref (store h b (fun blk => { blk with allocated := true })) x =
        { deref h x with allocated := true } := by
    intro x
    rcases deref_store_cases h b x (fun blk => { blk with allocated := true }) with h1 | h1
    · exact Or.inl h1
    · exact Or.inr h1.2
  apply hc.flags
  · intro x hx
    refine ⟨((hc.each x hx).1).store _ _, ?_⟩
    rcases hcell x with h1 | h1
    · exact ⟨(deref h x).allocated, h1⟩
    · exact ⟨true, h1⟩
  · intro x hx y hy ha
    rcases ha.2.2.2 with h3 | h3
    · left
      rcases hcell x with h1 | h1
      · rw [h1]; exact h3
      · rw [h1]
    · right
      rcases hcell y with h1 | h1
      · rw [h1]; exact h3
      · rw [h1]

/-- Marking a block free keeps its chain when the blocks next to it are allocated. -/
theorem ChainOK.set_free {h : Heap} {c : Chain} (hc : ChainOK h c) (d : Nat)
    (hprev : ∀ p, (deref h d).prev = some p → (deref h p).allocated = true)
    (hnext : ∀ n, (deref h d).next = some n → (deref h n).allocated = true) :
    ChainOK (store h d (fun blk => { blk with allocated := false })) c := by
  have hcell : ∀ x, x ≠ d → deref (store h d (fun blk => { blk with allocated := false })) x =
      deref h x := fun x hx => deref_store_ne _ _ _ _ hx
  apply hc.flags
  · intro x hx
    refine ⟨((hc.each x hx).1).store _ _, ?_⟩
    rcases deref_store_cases h d x (fun blk => { blk with allocated := false }) with h1 | h1
    · exact ⟨(deref h x).allocated, h1⟩
    · exact ⟨false, h1.2⟩
  · intro x hx y hy ha
    have hxy : x ≠ y := by
      intro hc2
      subst hc2
      obtain ⟨pre, post, hb⟩ := List.append_of_mem hx
      have h1 := hc.next_eq hb
      rw [ha.1] at h1
      have hnd := hc.nodup
      rw [hb] at hnd
      have h2 : x ∈ post := List.mem_of_mem_head? h1.symm
      exact (List.nodup_cons.1 (List.nodup_append.1 hnd).2.1).1 h2
    by_cases hxd : x = d
    · subst hxd
      right
      rw [hcell y (Ne.symm hxy)]
      exact hnext y ha.1
    · by_cases hyd : y = d
      · subst hyd
        left
        rw [hcell x hxd]
        exact hprev x ha.2.1
      · rw [hcell x hxd, hcell y hyd]
        exact ha.2.2.2

/-! ## The comparator and ordered sets -/

theorem BlockComparator_congr {a a2 b b2 : Block} (h1 : a2.device = a.device)
    (h2 : a2.stream = a.stream) (h3 : a2.size = a.size) (h4 : a2.ptr = a.ptr)
    (h5 : b2.device = b.device) (h6 : b2.stream = b.stream) (h7 : b2.size = b.size)
    (h8 : b2.ptr = b.ptr) : BlockComparator a2 b2 = BlockComparator a b := by
  unfold BlockComparator
  rw [h1, h2, h3, h4, h5, h6, h7, h8]

/-- Two heaps that agree on the cells of `l`. -/
theorem Sorted.frame_sorted {h h2 : Heap} {l : List Nat} (hs : Sorted h l)
    (hc : ∀ x ∈ l, deref h2 x = deref h x) : Sorted h2 l := by
  unfold Sorted at hs ⊢
  refine hs.imp_of_mem ?_
  intro x y hx hy hxy
  rw [hc x hx, hc y hy]
  exact hxy

theorem Sorted.sublist_sorted {h : Heap} {l l2 : List Nat} (hs : Sorted h l) (hsub : l2.Sublist l) :
    Sorted h l2 :=
  List.Pairwise.sublist hsub hs

theorem PoolOK.sublist_pool {h : Heap} {small : Bool} {l l2 : List Nat} (hp : PoolOK h small l)
    (hsub : l2.Sublist l) : PoolOK h small l2 :=
  ⟨hp.sorted.sublist hsub, fun x hx => hp.mem x (hsub.subset hx)⟩

theorem PoolOK.frame_pool {h h2 : Heap} {small : Bool} {l : List Nat} (hp : PoolOK h small l)
    (hc : ∀ x ∈ l, Live h2 x ∧ deref h2 x = deref h x) : PoolOK h2 small l := by
  refine ⟨hp.sorted.frame_sorted (fun x hx => (hc x hx).2), ?_⟩
  intro x hx
  rw [(hc x hx).2]
  exact ⟨(hc x hx).1, (hp.mem x hx).2⟩

theorem Sorted.nodup {h : Heap} {l : List Nat} (hs : Sorted h l) : l.Nodup := by
  unfold Sorted at hs
  refine hs.imp ?_
  intro x y hxy hc
  subst hc
  unfold BlockComparator at hxy
  simp at hxy

theorem erase_at_sublist (fb it : List Nat) (hit : it <:+ fb) : (erase_at fb it).Sublist fb := by
  obtain ⟨pre, hpre⟩ := hit
  unfold erase_at
  have hlen : fb.length - it.length = pre.length := by
    rw [← hpre]
    simp
  rw [hlen]
  subst hpre
  rw [List.take_left' rfl]
  exact List.Sublist.append_left (List.tail_sublist it) pre

theorem lower_bound_suffix (h : Heap) (key : Block) (fb : List Nat) :
    lower_bound h key fb <:+ fb :=
  List.dropWhile_suffix _

theorem erase_key_sublist (h : Heap) (s : Nat) (fb : List Nat) :
    (erase_key h s fb).Sublist fb := by
  unfold erase_key
  split
  · exact List.Sublist.refl _
  · rename_i e post hlb
    split
    · exact List.Sublist.refl _
    · exact erase_at_sublist fb _ (hlb ▸ lower_bound_suffix h _ fb)

theorem BlockComparator_trans {a b c : Block} (h1 : BlockComparator a b = true)
    (h2 : BlockComparator b c = true) : BlockComparator a c = true := by
  unfold BlockComparator at h1 h2 ⊢
  split_ifs at h1 h2 ⊢ <;> simp_all <;> omega

theorem Sorted.set_insert {h : Heap} {l : List Nat} (hs : Sorted h l) (x : Nat) :
    Sorted h (set_insert h x l) := by
  induction l with
  | nil => exact List.pairwise_singleton _ _
  | cons e es ih =>
    unfold Sorted at hs ih ⊢
    rw [List.pairwise_cons] at hs
    unfold THC.set_insert
    split
    · rename_i hex
      rw [List.pairwise_cons]
      refine ⟨?_, ih hs.2⟩
      intro y hy
      rcases mem_set_insert hy with h1 | h1
      · rw [h1]; exact hex
      · exact hs.1 y h1
    · split
      · rename_i hxe
        rw [List.pairwise_cons]
        refine ⟨?_, List.pairwise_cons.2 hs⟩
        intro y hy
        rcases List.mem_cons.1 hy with h1 | h1
        · rw [h1]; exact hxe
        · exact BlockComparator_trans hxe (hs.1 y h1)
      · exact List.pairwise_cons.2 hs

/-- The set after `insert(x)` holds `x`, unless it held an element equivalent to `x`. -/
theorem set_insert_mem_or (h : Heap) (x : Nat) (l : List Nat) :
    x ∈ set_insert h x l ∨ ∃ e ∈ l, BlockComparator (deref h e) (deref h x) = false ∧
      BlockComparator (deref h x) (deref h e) = false := by
  induction l with
  | nil => left; simp [set_insert]
  | cons e es ih =>
    unfold set_insert
    split
    · rcases ih with h1 | ⟨e2, he2, h2⟩
      · left; exact List.mem_cons_of_mem _ h1
      · right; exact ⟨e2, List.mem_cons_of_mem _ he2, h2⟩
    · split
      · left; exact List.mem_cons_self _ _
      · rename_i h1 h2
        right
        refine ⟨e, List.mem_cons_self _ _, ?_, ?_⟩
        · simpa using h1
        · simpa using h2

theorem set_insert_congr {h h2 : Heap} (x : Nat) (l : List Nat)
    (hc : ∀ y ∈ x :: l, deref h2 y = deref h y) : set_insert h2 x l = set_insert h x l := by
  induction l with
  | nil => rfl
  | cons e es ih =>
    unfold set_insert
    rw [hc e (by simp), hc x (by simp)]
    rw [ih (fun y hy => hc y (by
      rcases List.mem_cons.1 hy with h1 | h1
      · rw [h1]; simp
      · simp [h1]))]

theorem getPool_setPool (sm sm2 : Bool) (a : THCCachingAllocator) (l : List Nat) :
    getPool sm2 (setPool sm a l) = if sm2 = sm then l else getPool sm2 a := by
  cases sm <;> cases sm2 <;> rfl

theorem getPool_heap (sm : Bool) (a : THCCachingAllocator) (h : Heap) :
    getPool sm { a with heap := h } = getPool sm a := by
  cases sm <;> rfl

theorem getPool_table (sm : Bool) (a : THCCachingAllocator) (t : List (Nat × Nat)) :
    getPool sm { a with allocated_blocks := t } = getPool sm a := by
  cases sm <;> rfl

/-- Taking blocks out of the pools and entries out of the table keeps the invariant. -/
theorem Inv.shrink {a a2 : THCCachingAllocator} {ch : Nat → Chain} (hinv : Inv a ch)
    (hheap : a2.heap = a.heap) (hpool : ∀ sm, (getPool sm a2).Sublist (getPool sm a))
    (htable : a2.allocated_blocks.Sublist a.allocated_blocks) : Inv a2 ch := by
  refine ⟨?_, ?_, ?_, ?_⟩
  · rw [hheap]
    exact hinv.chain
  · intro sm
    rw [hheap]
    exact (hinv.pool sm).sublist_pool (hpool sm)
  · exact List.Nodup.sublist (htable.map _) hinv.table_keys
  · intro kv hkv
    rw [hheap]
    exact hinv.table_mem kv (htable.subset hkv)

/-- A block in a pool is not in the table, and is in one pool only. -/
theorem Inv.pool_class {a : THCCachingAllocator} {ch : Nat → Chain} (hinv : Inv a ch)
    {sm sm2 : Bool} {x : Nat} (h1 : x ∈ getPool sm a) (h2 : x ∈ getPool sm2 a) : sm = sm2 := by
  rw [← ((hinv.pool sm).mem x h1).2.2, ← ((hinv.pool sm2).mem x h2).2.2]

/-- The end of `malloc` (lines 141-145) on a free block that is in no pool. -/
theorem Inv.record {a : THCCachingAllocator} {ch : Nat → Chain} (hinv : Inv a ch) (hip : Hip)
    {blk : Nat} (hl : Live a.heap blk) (hfree : (deref a.heap blk).allocated = false)
    (hpool : ∀ sm, blk ∉ getPool sm a) : Inv (malloc_record a hip blk).alloc ch := by
  have hcell : ∀ x, x ≠ blk → deref (store a.heap blk (fun b => { b with allocated := true })) x =
      deref a.heap x := fun x hx => deref_store_ne _ _ _ _ hx
  have hself : deref (store a.heap blk (fun b => { b with allocated := true })) blk =
      { deref a.heap blk with allocated := true } := deref_store_self hl _
  refine ⟨?_, ?_, ?_, ?_⟩
  · intro x hx
    rw [malloc_record_heap] at hx ⊢
    have hx0 := (Live_store_iff _ _ _ _).1 hx
    obtain ⟨h1, h2, h3⟩ := hinv.chain x hx0
    exact ⟨h1, h2.set_allocated blk, h3⟩
  · intro sm
    rw [malloc_record_heap]
    have : getPool sm (malloc_record a hip blk).alloc = getPool sm a := by
      cases sm <;> rfl
    rw [this]
    apply (hinv.pool sm).frame_pool
    intro x hx
    have hxb : x ≠ blk := fun hc => hpool sm (hc ▸ hx)
    exact ⟨((hinv.pool sm).mem x hx).1.store _ _, hcell x hxb⟩
  · show (((deref (store a.heap blk (fun b => { b with allocated := true })) blk).ptr, blk) ::
      a.allocated_blocks.filter (fun kv => kv.1 ≠
        (deref (store a.heap blk (fun b => { b with allocated := true })) blk).ptr)).map
        Prod.fst |>.Nodup
    rw [List.map_cons, List.nodup_cons]
    constructor
    · intro hm
      obtain ⟨kv, hkv, hk⟩ := List.mem_map.1 hm
      have := (List.mem_filter.1 hkv).2
      simp only [ne_eq, decide_not, Bool.not_eq_eq_eq_not, Bool.not_true,
        decide_eq_false_iff_not] at this
      exact this hk
    · exact List.Nodup.sublist ((List.filter_sublist _).map _) hinv.table_keys
  · intro kv hkv
    rw [malloc_record_heap]
    have hkv2 : kv = ((deref (store a.heap blk (fun b => { b with allocated := true })) blk).ptr,
        blk) ∨ kv ∈ a.allocated_blocks := by
      have : kv ∈ ((deref (store a.heap blk (fun b => { b with allocated := true })) blk).ptr,
          blk) :: a.allocated_blocks.filter (fun kv => kv.1 ≠
        (deref (store a.heap blk (fun b => { b with allocated := true })) blk).ptr) := hkv
      rcases List.mem_cons.1 this with h1 | h1
      · exact Or.inl h1
      · exact Or.inr (List.mem_filter.1 h1).1
    rcases hkv2 with h1 | h1
    · rw [h1]
      dsimp only
      refine ⟨hl.store _ _, ?_, rfl⟩
      rw [hself]
    · obtain ⟨t1, t2, t3⟩ := hinv.table_mem kv h1
      have hne : kv.2 ≠ blk := by
        intro hc
        rw [hc, hfree] at t2
        cases t2
      rw [hcell _ hne]
      exact ⟨t1.store _ _, t2, t3⟩

theorem SameData.of_eq {h h2 : Heap} {x : Nat} (hl : Live h2 x) (he : deref h2 x = deref h x) :
    SameData h h2 x := by
  unfold SameData
  rw [he]
  exact ⟨hl, rfl, rfl, rfl, rfl, rfl⟩

theorem Sorted.same_sorted {h h2 : Heap} {l : List Nat} (hs : Sorted h l)
    (hc : ∀ x ∈ l, SameData h h2 x) : Sorted h2 l := by
  unfold Sorted at hs ⊢
  refine hs.imp_of_mem ?_
  intro x y hx hy hxy
  obtain ⟨_, a1, a2, a3, a4, _⟩ := hc x hx
  obtain ⟨_, b1, b2, b3, b4, _⟩ := hc y hy
  rw [BlockComparator_congr a1 a2 a3 a4 b1 b2 b3 b4]
  exact hxy

theorem PoolOK.same_pool {h h2 : Heap} {small : Bool} {l : List Nat} (hp : PoolOK h small l)
    (hc : ∀ x ∈ l, SameData h h2 x) : PoolOK h2 small l := by
  refine ⟨hp.sorted.same_sorted hc, ?_⟩
  intro x hx
  obtain ⟨hl, _, _, a3, _, a5⟩ := hc x hx
  rw [a3, a5]
  exact ⟨hl, (hp.mem x hx).2⟩

theorem SplitCells.same_data {h h2 : Heap} {r N : Nat} {dev : Int} {st s : Nat}
    (hs : SplitCells h h2 r N dev st s) (hN : ¬ Live h N) {x : Nat} (hl : Live h x)
    (hxr : x ≠ r) : SameData h h2 x := by
  have hl2 : Live h2 x := (hs.live x).2 (Or.inr hl)
  have hxN : x ≠ N := fun hc => hN (hc ▸ hl)
  by_cases hp : (deref h r).prev = some x
  · have := hs.before x hp hl
    unfold SameData
    rw [this]
    exact ⟨hl2, rfl, rfl, rfl, rfl, rfl⟩
  · exact SameData.of_eq hl2 (hs.other x hxN hxr hp)

theorem MergePrevCells.same_prev {h h2 : Heap} {d s : Nat} (hm : MergePrevCells h h2 d s) {x : Nat}
    (hl : Live h x) (hxd : x ≠ d) (hxs : x ≠ s) : SameData h h2 x := by
  have hl2 : Live h2 x := (hm.live x).2 ⟨hxs, hl⟩
  by_cases hp : (deref h s).prev = some x
  · have := hm.before x hp hl
    unfold SameData
    rw [this]
    exact ⟨hl2, rfl, rfl, rfl, rfl, rfl⟩
  · exact SameData.of_eq hl2 (hm.other x hxd hxs hp)

theorem MergeNextCells.same_next {h h2 : Heap} {d s : Nat} (hm : MergeNextCells h h2 d s) {x : Nat}
    (hl : Live h x) (hxd : x ≠ d) (hxs : x ≠ s) : SameData h h2 x := by
  have hl2 : Live h2 x := (hm.live x).2 ⟨hxs, hl⟩
  by_cases hp : (deref h s).next = some x
  · have := hm.after x hp hl
    unfold SameData
    rw [this]
    exact ⟨hl2, rfl, rfl, rfl, rfl, rfl⟩
  · exact SameData.of_eq hl2 (hm.other x hxd hxs hp)

/-- Replacing the blocks `old` of one chain (or of none) by the chain `c2`, with no other
live block touched, gives the chains of the new heap. -/
theorem Chained.update {h h2 : Heap} {ch : Nat → Chain} {c2 : Chain} {old : List Nat}
    (hinv : Chained h ch) (hc2 : ChainOK h2 c2)
    (hold : ∀ x, Live h x → ∀ y ∈ (ch x).blocks, y ∈ old → x ∈ old)
    (H1 : ∀ x, Live h2 x → x ∈ c2.blocks ∨ Live h x)
    (H2 : ∀ x ∈ c2.blocks, x ∈ old ∨ ¬ Live h x)
    (H3 : ∀ x, Live h2 x → x ∈ old → x ∈ c2.blocks)
    (F : ∀ y, Live h y → y ∉ old → Live h2 y ∧ deref h2 y = deref h y) :
    Chained h2 (rechain ch c2) := by
  intro x hx
  by_cases hxc : x ∈ c2.blocks
  · have e : rechain ch c2 x = c2 := by unfold rechain; rw [if_pos hxc]
    rw [e]
    refine ⟨hxc, hc2, ?_⟩
    intro y hy
    unfold rechain
    rw [if_pos hy]
  · have e : rechain ch c2 x = ch x := by unfold rechain; rw [if_neg hxc]
    rw [e]
    have hxl : Live h x := by
      rcases H1 x hx with h1 | h1
      · exact absurd h1 hxc
      · exact h1
    have hxo : x ∉ old := fun hc => hxc (H3 x hx hc)
    obtain ⟨h1, h2c, h3⟩ := hinv x hxl
    have hy_old : ∀ y ∈ (ch x).blocks, y ∉ old := fun y hy hc => hxo (hold x hxl y hy hc)
    refine ⟨h1, ?_, ?_⟩
    · apply h2c.frame
      intro y hy
      exact F y ((h2c.each y hy).1) (hy_old y hy)
    · intro y hy
      have hyc : y ∉ c2.blocks := by
        intro hc
        rcases H2 y hc with h4 | h4
        · exact hy_old y hy h4
        · exact h4 ((h2c.each y hy).1)
      unfold rechain
      rw [if_neg hyc]
      exact h3 y hy

/-- The blocks of the chain of a live block are closed under "lies in the chain of". -/
theorem Chained.closed {h : Heap} {ch : Nat → Chain} (hinv : Chained h ch) {r : Nat}
    (hr : Live h r) : ∀ x, Live h x → ∀ y ∈ (ch x).blocks, y ∈ (ch r).blocks →
      x ∈ (ch r).blocks := by
  intro x hx y hy hyr
  have h1 := (hinv x hx).2.2 y hy
  have h2 := (hinv r hr).2.2 y hyr
  rw [← h1.symm.trans h2]
  exact (hinv x hx).1

theorem Geom.update_geom {h h2 : Heap} {ch : Nat → Chain} {c2 : Chain} {r : Nat}
    {calls : List HipCall} (hg : Geom h ch calls) (hinv : Chained h ch) (hr : Live h r)
    (hbase : c2.base = (ch r).base) (htotal : c2.total = (ch r).total)
    (H1 : ∀ x, Live h2 x → x ∈ c2.blocks ∨ Live h x)
    (H3 : ∀ x, Live h2 x → x ∈ (ch r).blocks → x ∈ c2.blocks) :
    Geom h2 (rechain ch c2) calls := by
  have hcase : ∀ x, Live h2 x → (rechain ch c2 x = c2 ∧ x ∈ c2.blocks) ∨
      (rechain ch c2 x = ch x ∧ Live h x ∧ ch x ≠ ch r) := by
    intro x hx
    by_cases hxc : x ∈ c2.blocks
    · left
      unfold rechain
      rw [if_pos hxc]
      exact ⟨rfl, hxc⟩
    · right
      have hxl : Live h x := by
        rcases H1 x hx with h1 | h1
        · exact absurd h1 hxc
        · exact h1
      unfold rechain
      rw [if_neg hxc]
      refine ⟨rfl, hxl, ?_⟩
      intro hc
      apply hxc
      apply H3 x hx
      rw [← hc]
      exact (hinv x hxl).1
  refine ⟨?_, ?_, ?_⟩
  · intro x hx
    rcases hcase x hx with ⟨e, _⟩ | ⟨e, hl, _⟩
    · rw [e, hbase, htotal]
      exact hg.region r hr
    · rw [e]
      exact hg.region x hl
  · intro x hx
    rcases hcase x hx with ⟨e, _⟩ | ⟨e, hl, _⟩
    · rw [e, hbase]
      exact hg.base_ne r hr
    · rw [e]
      exact hg.base_ne x hl
  · intro x y hx hy hne
    rcases hcase x hx with ⟨e1, _⟩ | ⟨e1, hl1, hn1⟩
    · rcases hcase y hy with ⟨e2, _⟩ | ⟨e2, hl2, hn2⟩
      · rw [e1, e2] at hne
        exact absurd rfl hne
      · rw [e1, e2, hbase, htotal]
        exact hg.apart r y hr hl2 (Ne.symm hn2)
    · rcases hcase y hy with ⟨e2, _⟩ | ⟨e2, hl2, hn2⟩
      · rw [e1, e2, hbase, htotal]
        exact hg.apart x r hl1 hr hn1
      · rw [e1, e2] at hne ⊢
        exact hg.apart x y hl1 hl2 hne

/-- The allocated table keeps unique keys when the entry of `p` is replaced. -/
theorem table_keys_record {t : List (Nat × Nat)} (hk : (t.map Prod.fst).Nodup) (p b : Nat) :
    (((p, b) :: t.filter (fun kv => kv.1 ≠ p)).map Prod.fst).Nodup := by
  rw [List.map_cons, List.nodup_cons]
  constructor
  · intro hm
    obtain ⟨kv, hkv, hk2⟩ := List.mem_map.1 hm
    have := (List.mem_filter.1 hkv).2
    simp only [ne_eq, decide_not, Bool.not_eq_eq_eq_not, Bool.not_true,
      decide_eq_false_iff_not] at this
    exact this hk2
  · exact List.Nodup.sublist ((List.filter_sublist _).map _) hk

theorem Geom.of_live {h h2 : Heap} {ch : Nat → Chain} {calls : List HipCall}
    (hg : Geom h ch calls) (hl : ∀ x, Live h2 x → Live h x) : Geom h2 ch calls :=
  ⟨fun x hx => hg.region x (hl x hx), fun x hx => hg.base_ne x (hl x hx),
    fun x y hx hy => hg.apart x y (hl x hx) (hl y hy)⟩

theorem split_threshold_of_small {size : Nat} (h : size ≤ kSmallAlloc) :
    split_threshold size = kRoundSmall := by
  unfold split_threshold
  rw [if_pos h]

theorem split_threshold_of_large {size : Nat} (h : ¬ size ≤ kSmallAlloc) :
    split_threshold size = kSmallAlloc + 1 := by
  unfold split_threshold
  rw [if_neg h]

/-- The split decision and the end of `malloc` (lines 125-145), for a free block `blk` of
the right owner and size class that is in no pool, keep the invariant. -/
theorem Inv.malloc_split {a : THCCachingAllocator} {ch : Nat → Chain} (hinv : Inv a ch)
    (hip : Hip) {blk : Nat} {d : Int} {st size : Nat}
    (hl : Live a.heap blk) (hfree : (deref a.heap blk).allocated = false)
    (hpool : ∀ sm, blk ∉ getPool sm a)
    (hd : (deref a.heap blk).device = d) (hst : (deref a.heap blk).stream = st)
    (hle : size ≤ (deref a.heap blk).size)
    (hclass : decide ((deref a.heap blk).size ≤ kSmallAlloc) = decide (size ≤ kSmallAlloc)) :
    ∃ ch2, Inv (malloc_split a hip blk d st size).alloc ch2 ∧
      ∀ calls, Geom a.heap ch calls →
        Geom (malloc_split a hip blk d st size).alloc.heap ch2 calls := by
  by_cases hsp : sub_size_t (deref a.heap blk).size size ≥ split_threshold size
  · rw [malloc_split_of_split hsp]
    obtain ⟨hmem, hcok, hclosed⟩ := hinv.chain blk hl
    obtain ⟨pre, post, hb⟩ := List.append_of_mem hmem
    have hnd := hcok.nodup
    rw [hb] at hnd
    have hself : (deref a.heap blk).prev ≠ some blk := by
      rw [hcok.prev_eq hb]
      intro hc
      exact (List.nodup_append.1 hnd).2.2 (List.mem_of_mem_getLast? hc) (List.mem_cons_self _ _)
    have hN : ¬ Live a.heap (newPtr a.heap) := not_Live_newPtr _
    have hO := hcok.each blk hmem
    have hcells := malloc_split_heap_cells a.heap blk d st size hl hself
    have hsz : (deref a.heap blk).size < SIZE_T :=
      lt_of_le_of_lt (hcok.size_le hmem) hcok.total_lt
    have hsub : sub_size_t (deref a.heap blk).size size = (deref a.heap blk).size - size :=
      sub_size_t_of_le hle hsz
    rw [hsub] at hsp
    have hstore : ∀ y, y ≠ newPtr a.heap →
        deref (store (malloc_split_heap a.heap blk d st size) (newPtr a.heap)
          (fun b => { b with allocated := true })) y =
        deref (malloc_split_heap a.heap blk d st size) y :=
      fun y hy => deref_store_ne _ _ _ _ hy
    have hblkN : blk ≠ newPtr a.heap := fun hc => hN (hc ▸ hl)
    have hfinal : (malloc_record
        (setPool (decide (size ≤ kSmallAlloc))
          { a with heap := malloc_split_heap a.heap blk d st size }
          (set_insert (malloc_split_heap a.heap blk d st size) blk
            (getPool (decide (size ≤ kSmallAlloc)) a)))
        hip (newPtr a.heap)).alloc.heap =
        store (malloc_split_heap a.heap blk d st size) (newPtr a.heap)
          (fun b => { b with allocated := true }) := by
      rw [malloc_record_heap, setPool_heap]
    have hins : set_insert (malloc_split_heap a.heap blk d st size) blk
        (getPool (decide (size ≤ kSmallAlloc)) a) =
        set_insert (store (malloc_split_heap a.heap blk d st size) (newPtr a.heap)
          (fun b => { b with allocated := true })) blk
          (getPool (decide (size ≤ kSmallAlloc)) a) := by
      symm
      apply set_insert_congr
      intro y hy
      apply hstore
      rcases List.mem_cons.1 hy with h1 | h1
      · rw [h1]; exact hblkN
      · intro hc
        exact hN (hc ▸ ((hinv.pool _).mem y h1).1)
    have hpools : ∀ sm2, getPool sm2 (malloc_record
        (setPool (decide (size ≤ kSmallAlloc))
          { a with heap := malloc_split_heap a.heap blk d st size }
          (set_insert (malloc_split_heap a.heap blk d st size) blk
            (getPool (decide (size ≤ kSmallAlloc)) a)))
        hip (newPtr a.heap)).alloc =
        if sm2 = decide (size ≤ kSmallAlloc) then
          set_insert (store (malloc_split_heap a.heap blk d st size) (newPtr a.heap)
            (fun b => { b with allocated := true })) blk
            (getPool (decide (size ≤ kSmallAlloc)) a)
        else getPool sm2 a := by
      intro sm2
      have e1 : getPool sm2 (malloc_record
        (setPool (decide (size ≤ kSmallAlloc))
          { a with heap := malloc_split_heap a.heap blk d st size }
          (set_insert (malloc_split_heap a.heap blk d st size) blk
            (getPool (decide (size ≤ kSmallAlloc)) a)))
        hip (newPtr a.heap)).alloc = getPool sm2 (setPool (decide (size ≤ kSmallAlloc))
          { a with heap := malloc_split_heap a.heap blk d st size }
          (set_insert (malloc_split_heap a.heap blk d st size) blk
            (getPool (decide (size ≤ kSmallAlloc)) a))) := by
        cases sm2 <;> rfl
      rw [e1, getPool_setPool, getPool_heap sm2, hins]
    have htable : (malloc_record
        (setPool (decide (size ≤ kSmallAlloc))
          { a with heap := malloc_split_heap a.heap blk d st size }
          (set_insert (malloc_split_heap a.heap blk d st size) blk
            (getPool (decide (size ≤ kSmallAlloc)) a)))
        hip (newPtr a.heap)).alloc.allocated_blocks =
        ((deref (store (malloc_split_heap a.heap blk d st size) (newPtr a.heap)
          (fun b => { b with allocated := true })) (newPtr a.heap)).ptr, newPtr a.heap) ::
          a.allocated_blocks.filter (fun kv => kv.1 ≠
            (deref (store (malloc_split_heap a.heap blk d st size) (newPtr a.heap)
              (fun b => { b with allocated := true })) (newPtr a.heap)).ptr) := by
      cases hdec : decide (size ≤ kSmallAlloc) <;> rfl
    generalize (malloc_record
        (setPool (decide (size ≤ kSmallAlloc))
          { a with heap := malloc_split_heap a.heap blk d st size }
          (set_insert (malloc_split_heap a.heap blk d st size) blk
            (getPool (decide (size ≤ kSmallAlloc)) a)))
        hip (newPtr a.heap)).alloc = a2 at hfinal hpools htable
    generalize store (malloc_split_heap a.heap blk d st size) (newPtr a.heap)
          (fun b => { b with allocated := true }) = h2 at hcells hfinal hpools htable
    clear hstore hins
    -- the chain of `blk`
    have hdev : d = (ch blk).device := hd.symm.trans hO.2.1
    have hstr : st = (ch blk).stream := hst.symm.trans hO.2.2.1
    rw [hdev, hstr] at hcells
    have hbig : kSmallAlloc < (ch blk).total →
        kSmallAlloc < size ∧ kSmallAlloc < (deref a.heap blk).size - size := by
      intro hbg
      have h1 := hO.2.2.2 hbg
      have h2 : ¬ size ≤ kSmallAlloc := by
        intro hc
        have : decide ((deref a.heap blk).size ≤ kSmallAlloc) = true := by
          rw [hclass]; exact decide_eq_true hc
        have := of_decide_eq_true this
        omega
      rw [split_threshold_of_large h2] at hsp
      omega
    have hc2 := hcok.split hb hcells hN hfree hle hbig
    have hlive2 : ∀ x, Live a.heap x → Live h2 x := fun x hx => (hcells.live x).2 (Or.inr hx)
    have hsame : ∀ x, Live a.heap x → x ≠ blk → SameData a.heap h2 x :=
      fun x hx hxb => hcells.same_data hN hx hxb
    have H1 : ∀ x, Live h2 x →
        x ∈ ({ (ch blk) with blocks := pre ++ newPtr a.heap :: blk :: post } : Chain).blocks ∨
          Live a.heap x := by
      intro x hx
      rcases (hcells.live x).1 hx with h1 | h1
      · left
        rw [h1]
        show newPtr a.heap ∈ pre ++ newPtr a.heap :: blk :: post
        simp
      · exact Or.inr h1
    have H3 : ∀ x, Live h2 x → x ∈ (ch blk).blocks →
        x ∈ ({ (ch blk) with blocks := pre ++ newPtr a.heap :: blk :: post } : Chain).blocks := by
      intro x _ hx
      rw [hb] at hx
      show x ∈ pre ++ newPtr a.heap :: blk :: post
      rcases List.mem_append.1 hx with h1 | h1
      · exact List.mem_append_left _ h1
      · exact List.mem_append_right _ (List.mem_cons_of_mem _ h1)
    refine ⟨rechain ch { (ch blk) with blocks := pre ++ newPtr a.heap :: blk :: post }, ?_, ?_⟩
    · refine ⟨?_, ?_, ?_, ?_⟩
      · rw [hfinal]
        refine Chained.update hinv.chain hc2 (Chained.closed hinv.chain hl) H1 ?_ H3 ?_
        · intro x hx
          have hx2 : x ∈ pre ++ newPtr a.heap :: blk :: post := hx
          rcases List.mem_append.1 hx2 with h1 | h1
          · left; rw [hb]; exact List.mem_append_left _ h1
          · rcases List.mem_cons.1 h1 with h3 | h3
            · right; rw [h3]; exact hN
            · left; rw [hb]; exact List.mem_append_right _ h3
        · intro y hy hyc
          refine ⟨hlive2 y hy, hcells.other y (fun hc => hN (hc ▸ hy)) ?_ ?_⟩
          · intro hc
            exact hyc (hc ▸ hmem)
          · rw [hcok.prev_eq hb]
            intro hc
            apply hyc
            rw [hb]
            exact List.mem_append_left _ (List.mem_of_mem_getLast? hc)
      · intro sm2
        rw [hfinal, hpools]
        have hbase : ∀ sm3, PoolOK h2 sm3 (getPool sm3 a) := by
          intro sm3
          apply (hinv.pool sm3).same_pool
          intro x hx
          exact hsame x ((hinv.pool sm3).mem x hx).1 (fun hc => hpool sm3 (hc ▸ hx))
        by_cases hsm : sm2 = decide (size ≤ kSmallAlloc)
        · rw [if_pos hsm]
          refine ⟨(hbase _).sorted.set_insert blk, ?_⟩
          intro x hx
          rcases mem_set_insert hx with h1 | h1
          · rw [h1, hcells.rem, hsub]
            refine ⟨hlive2 blk hl, hfree, ?_⟩
            rw [hsm]
            dsimp only
            by_cases hs2 : size ≤ kSmallAlloc
            · have h3 : (deref a.heap blk).size ≤ kSmallAlloc := by
                have : decide ((deref a.heap blk).size ≤ kSmallAlloc) = true := by
                  rw [hclass]; exact decide_eq_true hs2
                exact of_decide_eq_true this
              rw [decide_eq_true hs2]
              exact decide_eq_true (by omega)
            · rw [split_threshold_of_large hs2] at hsp
              rw [decide_eq_false hs2]
              exact decide_eq_false (by omega)
          · rw [hsm]
            exact (hbase _).mem x h1
        · rw [if_neg hsm]
          exact hbase sm2
      · rw [htable]
        exact table_keys_record hinv.table_keys _ _
      · intro kv hkv
        rw [htable] at hkv
        rw [hfinal]
        rcases List.mem_cons.1 hkv with h1 | h1
        · rw [h1]
          dsimp only
          refine ⟨(hcells.live _).2 (Or.inl rfl), ?_, rfl⟩
          rw [hcells.new]
        · obtain ⟨t1, t2, t3⟩ := hinv.table_mem kv (List.mem_filter.1 h1).1
          have hne : kv.2 ≠ blk := by
            intro hc
            rw [hc, hfree] at t2
            cases t2
          obtain ⟨s1, _, _, _, s5, s6⟩ := hsame kv.2 t1 hne
          rw [s5, s6]
          exact ⟨s1, t2, t3⟩
    · intro calls hg
      rw [hfinal]
      exact hg.update_geom hinv.chain hl rfl rfl H1 H3
  · rw [malloc_split_of_whole hsp]
    refine ⟨ch, hinv.record hip hl hfree hpool, ?_⟩
    intro calls hg
    rw [malloc_record_heap]
    exact hg.of_live (fun x hx => (Live_store_iff _ _ _ _).1 hx)

/-! ## The record of the runtime -/

theorem hipLive_free_ok (p : Nat) (cs : List HipCall) :
    hipLive (HipCall.free p hipSuccess :: cs) = (hipLive cs).filter (fun r => r.1 ≠ p) := rfl

theorem hipLive_free_err {e : hipError_t} (he : e ≠ hipSuccess) (p : Nat) (cs : List HipCall) :
    hipLive (HipCall.free p e :: cs) = hipLive cs := by
  cases e with
  | hipSuccess => exact absurd rfl he
  | hipErrorMemoryAllocation => rfl
  | hipErrorInvalidDevicePointer => rfl
  | hipErrorUnknown c => rfl

theorem hipLive_malloc_ok (n p : Nat) (cs : List HipCall) :
    hipLive (HipCall.malloc n hipSuccess p :: cs) = (p, n) :: hipLive cs := rfl

theorem hipLive_malloc_err {e : hipError_t} (he : e ≠ hipSuccess) (n p : Nat)
    (cs : List HipCall) : hipLive (HipCall.malloc n e p :: cs) = hipLive cs := by
  cases e with
  | hipSuccess => exact absurd rfl he
  | hipErrorMemoryAllocation => rfl
  | hipErrorInvalidDevicePointer => rfl
  | hipErrorUnknown c => rfl

theorem hipLive_getDevice (e : hipError_t) (d : Int) (cs : List HipCall) :
    hipLive (HipCall.getDevice e d :: cs) = hipLive cs := rfl

theorem hipLive_getLastError (cs : List HipCall) :
    hipLive (HipCall.getLastError :: cs) = hipLive cs := rfl

theorem hipSane_free (p : Nat) (e : hipError_t) (cs : List HipCall) :
    hipSane (HipCall.free p e :: cs) = hipSane cs := rfl

theorem hipSane_getDevice (e : hipError_t) (d : Int) (cs : List HipCall) :
    hipSane (HipCall.getDevice e d :: cs) = hipSane cs := rfl

theorem hipSane_getLastError (cs : List HipCall) :
    hipSane (HipCall.getLastError :: cs) = hipSane cs := rfl

theorem hipSane_malloc_err {e : hipError_t} (he : e ≠ hipSuccess) (n p : Nat)
    (cs : List HipCall) : hipSane (HipCall.malloc n e p :: cs) = hipSane cs := by
  cases e with
  | hipSuccess => exact absurd rfl he
  | hipErrorMemoryAllocation => rfl
  | hipErrorInvalidDevicePointer => rfl
  | hipErrorUnknown c => rfl

theorem hipSane_malloc_ok (n p : Nat) (cs : List HipCall) :
    hipSane (HipCall.malloc n hipSuccess p :: cs) =
      (decide (p ≠ 0) && decide (p + n ≤ SIZE_T) &&
      (hipLive cs).all (fun r => decide (p + n ≤ r.1) || decide (r.1 + r.2 ≤ p)) &&
      hipSane cs) := rfl

theorem hipSane_tail {c : HipCall} {cs : List HipCall} (h : hipSane (c :: cs) = true) :
    hipSane cs = true := by
  cases c with
  | getDevice e d => exact h
  | free p e => exact h
  | getLastError => exact h
  | malloc n e p =>
    by_cases he : e = hipSuccess
    · subst he
      rw [hipSane_malloc_ok] at h
      simp only [Bool.and_eq_true] at h
      exact h.2
    · rw [hipSane_malloc_err he] at h
      exact h

theorem hipSane_append {new cs : List HipCall} (h : hipSane (new ++ cs) = true) :
    hipSane cs = true := by
  induction new with
  | nil => exact h
  | cons c new ih => exact ih (hipSane_tail h)

theorem hipFreesValid_free (p : Nat) (e : hipError_t) (cs : List HipCall) :
    hipFreesValid (HipCall.free p e :: cs) =
      ((hipLive cs).any (fun r => decide (r.1 = p)) && hipFreesValid cs) := rfl

theorem hipFreesValid_malloc (n p : Nat) (e : hipError_t) (cs : List HipCall) :
    hipFreesValid (HipCall.malloc n e p :: cs) = hipFreesValid cs := rfl

theorem hipFreesValid_getDevice (e : hipError_t) (d : Int) (cs : List HipCall) :
    hipFreesValid (HipCall.getDevice e d :: cs) = hipFreesValid cs := rfl

theorem hipFreesValid_getLastError (cs : List HipCall) :
    hipFreesValid (HipCall.getLastError :: cs) = hipFreesValid cs := rfl

/-! ## Blocks with no sibling -/

/-- A live block with both links null is the whole of its chain. -/
theorem Chained.root_chain {h : Heap} {ch : Nat → Chain} (hinv : Chained h ch) {b : Nat}
    (hb : Live h b) (hroot : (deref h b).root) : (ch b).blocks = [b] := by
  obtain ⟨hmem, hc, _⟩ := hinv b hb
  have h1 := hc.head_of_prev_none hmem hroot.1
  have h2 := hc.last_of_next_none hmem hroot.2
  have hnd := hc.nodup
  cases hbl : (ch b).blocks with
  | nil => rw [hbl] at hmem; cases hmem
  | cons x l =>
    rw [hbl] at h1 h2 hnd
    have hx : x = b := by simpa using h1
    subst hx
    cases l with
    | nil => rfl
    | cons y l2 =>
      rw [List.getLast?_cons_cons] at h2
      exact absurd (List.mem_of_mem_getLast? h2) (List.nodup_cons.1 hnd).1

/-- A live block with both links null starts at the base of its chain and has its size. -/
theorem Chained.root_region {h : Heap} {ch : Nat → Chain} (hinv : Chained h ch) {b : Nat}
    (hb : Live h b) (hroot : (deref h b).root) :
    (deref h b).ptr = (ch b).base ∧ (deref h b).size = (ch b).total := by
  obtain ⟨hmem, hc, _⟩ := hinv b hb
  have hbl := hinv.root_chain hb hroot
  have h1 := hc.first b (by rw [hbl]; rfl)
  have h2 := hc.last b (by rw [hbl]; rfl)
  refine ⟨h1.2, ?_⟩
  have := h2.2
  omega

/-- Deleting a live block with both links null keeps the chains of the other blocks. -/
theorem Chained.delete_root {h : Heap} {ch : Nat → Chain} (hinv : Chained h ch) {b : Nat}
    (hb : Live h b) (hroot : (deref h b).root) : Chained (deleteBlock h b) ch := by
  intro x hx
  obtain ⟨hxb, hxl⟩ := (Live_deleteBlock_iff _ _ _).1 hx
  obtain ⟨h1, h2, h3⟩ := hinv x hxl
  refine ⟨h1, ?_, h3⟩
  apply h2.frame
  intro y hy
  have hyb : y ≠ b := by
    intro hc
    subst hc
    have e := h3 y hy
    have hbl := hinv.root_chain hb hroot
    rw [e] at hbl
    rw [hbl] at h1
    exact hxb (List.mem_singleton.1 h1)
  exact ⟨(Live_deleteBlock_iff _ _ _).2 ⟨hyb, (h2.each y hy).1⟩, deref_deleteBlock_ne _ hyb⟩

theorem Geom.delete_root_geom {h : Heap} {ch : Nat → Chain} {calls : List HipCall}
    (hg : Geom h ch calls) (hinv : Chained h ch) {b : Nat} (hb : Live h b)
    (hroot : (deref h b).root) :
    Geom (deleteBlock h b) ch (HipCall.free (deref h b).ptr hipSuccess :: calls) := by
  have hbl := hinv.root_chain hb hroot
  have hreg := hinv.root_region hb hroot
  have hne : ∀ x, Live h x → x ≠ b → ch x ≠ ch b := by
    intro x hx hxb hc
    have := (hinv x hx).1
    rw [hc, hbl] at this
    exact hxb (List.mem_singleton.1 this)
  refine ⟨?_, ?_, ?_⟩
  · intro x hx
    obtain ⟨hxb, hxl⟩ := (Live_deleteBlock_iff _ _ _).1 hx
    rw [hipLive_free_ok]
    refine List.mem_filter.2 ⟨hg.region x hxl, ?_⟩
    have h1 := hg.apart x b hxl hb (hne x hxl hxb)
    have h2 := (hinv x hxl).2.1.total_ge
    have h3 := (hinv b hb).2.1.total_ge
    simp only [ne_eq, decide_not, Bool.not_eq_eq_eq_not, Bool.not_true, decide_eq_false_iff_not]
    rw [hreg.1]
    unfold kSmallAlloc at h2 h3
    omega
  · intro x hx
    exact hg.base_ne x ((Live_deleteBlock_iff _ _ _).1 hx).2
  · intro x y hx hy
    exact hg.apart x y ((Live_deleteBlock_iff _ _ _).1 hx).2 ((Live_deleteBlock_iff _ _ _).1 hy).2

theorem hipFree_calls2 (hip : Hip) (p : Nat) :
    (hipFree hip p).2.calls = HipCall.free p (hipFree hip p).1 :: hip.calls := by
  unfold hipFree
  cases hip.frees <;> rfl

theorem free_blocks_loop_walk (ch : Nat → Chain) (l : List Nat) :
    ∀ (h : Heap) (hip : Hip), Chained h ch → (∀ b ∈ l, Live h b) → l.Nodup →
      Walk ch h hip l (free_blocks_loop l h hip) := by
  induction l with
  | nil =>
    intro h hip hc _ _
    exact ⟨hc, List.Sublist.refl _, fun q hq => ⟨hq, rfl⟩, fun q hq _ => hq,
      fun q hq => (by cases hq), fun hg => hg, fun _ hv => hv, rfl⟩
  | cons b rest ih =>
    intro h hip hc hlive hnd
    have hb : Live h b := hlive b (List.mem_cons_self _ _)
    have hbrest : b ∉ rest := (List.nodup_cons.1 hnd).1
    have hndrest : rest.Nodup := (List.nodup_cons.1 hnd).2
    unfold free_blocks_loop
    split
    · rename_i hroot
      split
      · rename_i herr
        refine ⟨hc, List.Sublist.refl _, fun q hq => ⟨hq, rfl⟩, fun q hq _ => hq, hlive, ?_, ?_,
          ?_⟩
        · intro hg
          dsimp only
          rw [hipFree_calls2]
          exact ⟨fun x hx => by rw [hipLive_free_err herr]; exact hg.region x hx, hg.base_ne,
            hg.apart⟩
        · intro hg hv
          dsimp only
          rw [hipFree_calls2, hipFreesValid_free, hv, Bool.and_true]
          have hreg := hg.region b hb
          rw [← (hc.root_region hb hroot).1] at hreg
          exact List.any_eq_true.2 ⟨_, hreg, by simp⟩
        · dsimp only
          rw [hipFree_calls2, hipSane_free]
      · rename_i herr
        have hok : (hipFree hip (deref h b).ptr).1 = hipSuccess := by
          simpa using herr
        have hc2 := hc.delete_root hb hroot
        have hlive2 : ∀ b2 ∈ rest, Live (deleteBlock h b) b2 := by
          intro b2 hb2
          refine (Live_deleteBlock_iff _ _ _).2 ⟨?_, hlive b2 (List.mem_cons_of_mem _ hb2)⟩
          intro hc3
          exact hbrest (hc3 ▸ hb2)
        have hw := ih (deleteBlock h b) (hipFree hip (deref h b).ptr).2 hc2 hlive2 hndrest
        have hcalls : (hipFree hip (deref h b).ptr).2.calls =
            HipCall.free (deref h b).ptr hipSuccess :: hip.calls := by
          rw [hipFree_calls2, hok]
        refine ⟨hw.chained, hw.sub.trans (List.sublist_cons_self _ _), ?_, ?_, hw.kept, ?_, ?_,
          ?_⟩
        · intro q hq
          obtain ⟨h1, h2⟩ := hw.cell q hq
          obtain ⟨h3, h4⟩ := (Live_deleteBlock_iff _ _ _).1 h1
          exact ⟨h4, h2.trans (deref_deleteBlock_ne _ h3)⟩
        · intro q hq hql
          apply hw.keep q
          · exact (Live_deleteBlock_iff _ _ _).2
              ⟨fun hc3 => hql (hc3 ▸ List.mem_cons_self _ _), hq⟩
          · exact fun hc3 => hql (List.mem_cons_of_mem _ hc3)
        · intro hg
          apply hw.geom
          rw [hcalls]
          exact hg.delete_root_geom hc hb hroot
        · intro hg hv
          apply hw.frees
          · rw [hcalls]
            exact hg.delete_root_geom hc hb hroot
          · rw [hcalls, hipFreesValid_free, hv, Bool.and_true]
            have hreg := hg.region b hb
            rw [← (hc.root_region hb hroot).1] at hreg
            exact List.any_eq_true.2 ⟨_, hreg, by simp⟩
        · rw [hw.sane, hcalls, hipSane_free]
    · have hw := ih h hip hc (fun b2 hb2 => hlive b2 (List.mem_cons_of_mem _ hb2)) hndrest
      refine ⟨hw.chained, hw.sub.cons₂ b, hw.cell, ?_, ?_, hw.geom, hw.frees, hw.sane⟩
      · intro q hq hql
        exact hw.keep q hq (fun hc3 => hql (List.mem_cons_of_mem _ hc3))
      · intro q hq
        rcases List.mem_cons.1 hq with h1 | h1
        · rw [h1]
          exact hw.keep b hb hbrest
        · exact hw.kept q h1

theorem suffix_split {α : Type} {l it : List α} (h : it <:+ l) (n : Nat) :
    l = l.take (l.length - it.length) ++ (it.take n ++ it.drop n) := by
  obtain ⟨A, hA⟩ := h
  rw [List.take_append_drop]
  have := (take_drop_of_append hA).1
  rw [this]
  exact hA.symm

/-- A walk of `free_blocks` over a range of a pool keeps the invariant. -/
theorem GoodWith.walk {a : THCCachingAllocator} {hip : Hip} {ch : Nat → Chain}
    (hg : GoodWith a hip ch) (sm : Bool) (it endIt : List Nat) (hit : it <:+ getPool sm a) :
    GoodWith
      (setPool sm { a with heap := (free_blocks a.heap hip (getPool sm a) it endIt).heap }
        (free_blocks a.heap hip (getPool sm a) it endIt).blocks)
      (free_blocks a.heap hip (getPool sm a) it endIt).hip ch := by
  obtain ⟨hinv, hgeo⟩ := hg
  have hpool := hinv.pool sm
  have hsplit := suffix_split hit (it.length - endIt.length)
  have hnd : (getPool sm a).Nodup := hpool.sorted.nodup
  have hsubl : (it.take (it.length - endIt.length)).Sublist (getPool sm a) :=
    (List.take_sublist _ _).trans hit.sublist
  have hw := free_blocks_loop_walk ch (it.take (it.length - endIt.length)) a.heap hip hinv.chain
    (fun b hb => (hpool.mem b (hsubl.subset hb)).1) (List.Nodup.sublist hsubl hnd)
  have hr : free_blocks a.heap hip (getPool sm a) it endIt =
      { free_blocks_loop (it.take (it.length - endIt.length)) a.heap hip with
        blocks := (getPool sm a).take ((getPool sm a).length - it.length) ++
          (free_blocks_loop (it.take (it.length - endIt.length)) a.heap hip).blocks ++
          it.drop (it.length - endIt.length) } := rfl
  rw [hr]
  generalize free_blocks_loop (it.take (it.length - endIt.length)) a.heap hip = w at hw
  dsimp only
  generalize hA : (getPool sm a).take ((getPool sm a).length - it.length) = A at hsplit
  generalize hB : it.take (it.length - endIt.length) = B at hsplit hw hsubl
  generalize hC : it.drop (it.length - endIt.length) = C at hsplit
  have hsub : (A ++ w.blocks ++ C).Sublist (getPool sm a) := by
    rw [hsplit, List.append_assoc]
    exact List.Sublist.append (List.Sublist.refl _) (List.Sublist.append hw.sub (List.Sublist.refl _))
  rw [hsplit] at hnd
  have hnd2 := List.nodup_append.1 hnd
  have hnd3 := List.nodup_append.1 hnd2.2.1
  have hmemlive : ∀ q ∈ A ++ w.blocks ++ C, Live w.heap q := by
    intro q hq
    rcases List.mem_append.1 hq with h1 | h1
    · rcases List.mem_append.1 h1 with h2 | h2
      · apply hw.keep q (hpool.mem q (by rw [hsplit]; exact List.mem_append_left _ h2)).1
        intro hc
        exact hnd2.2.2 h2 (List.mem_append_left _ hc)
      · exact hw.kept q h2
    · apply hw.keep q (hpool.mem q (by
        rw [hsplit]; exact List.mem_append_right _ (List.mem_append_right _ h1))).1
      intro hc
      exact hnd3.2.2 hc h1
  have hBfree : ∀ q ∈ B, (deref a.heap q).allocated = false ∧
      decide ((deref a.heap q).size ≤ kSmallAlloc) = sm :=
    fun q hq => (hpool.mem q (hsubl.subset hq)).2
  refine ⟨⟨?_, ?_, ?_, ?_⟩, ?_⟩
  · rw [setPool_heap]
    exact hw.chained
  rotate_left
  · rw [setPool_allocated_blocks]
    exact hinv.table_keys
  rotate_right
  · intro sm2
    rw [getPool_setPool, setPool_heap]
    by_cases hsm : sm2 = sm
    · rw [if_pos hsm, hsm]
      apply (hpool.sublist_pool hsub).frame_pool
      intro x hx
      exact ⟨hmemlive x hx, (hw.cell x (hmemlive x hx)).2⟩
    · rw [if_neg hsm, getPool_heap]
      apply (hinv.pool sm2).frame_pool
      intro x hx
      have hl : Live w.heap x := by
        apply hw.keep x ((hinv.pool sm2).mem x hx).1
        intro hc
        exact hsm (((hinv.pool sm2).mem x hx).2.2.symm.trans (hBfree x hc).2)
      exact ⟨hl, (hw.cell x hl).2⟩
  · intro kv hkv
    rw [setPool_heap]
    have hkv2 : kv ∈ a.allocated_blocks := by
      rw [setPool_allocated_blocks] at hkv
      exact hkv
    obtain ⟨t1, t2, t3⟩ := hinv.table_mem kv hkv2
    have hl : Live w.heap kv.2 := by
      apply hw.keep kv.2 t1
      intro hc
      rw [(hBfree kv.2 hc).1] at t2
      cases t2
    rw [(hw.cell kv.2 hl).2]
    exact ⟨hl, t2, t3⟩
  · intro hs
    rw [setPool_heap]
    rw [hw.sane] at hs
    obtain ⟨g1, g2⟩ := hgeo hs
    exact ⟨hw.geom g1, hw.frees g1 g2⟩

theorem GoodWith.after_emptyCache {a : THCCachingAllocator} {hip : Hip} {ch : Nat → Chain}
    (hg : GoodWith a hip ch) : GoodWith (emptyCache a hip).alloc (emptyCache a hip).hip ch := by
  have h1 := hg.walk true a.large_blocks [] (List.suffix_refl _)
  have e1 : getPool true a = a.large_blocks := rfl
  rw [e1] at h1
  have h2 := h1.walk false a.small_blocks [] (List.suffix_refl _)
  unfold emptyCache
  generalize free_blocks a.heap hip a.large_blocks a.large_blocks [] = r1 at h1 h2
  dsimp only
  split
  · exact h1
  · have e2 : getPool false (setPool true { a with heap := r1.heap } r1.blocks) =
        a.small_blocks := rfl
    have e3 : (setPool true { a with heap := r1.heap } r1.blocks).heap = r1.heap := rfl
    rw [e2, e3] at h2
    generalize free_blocks r1.heap r1.hip a.small_blocks a.small_blocks [] = r2 at h2
    split
    · exact h2
    · exact h2

theorem GoodWith.after_free_cached {a : THCCachingAllocator} {hip : Hip} {ch : Nat → Chain}
    (hg : GoodWith a hip ch) (d : Int) :
    GoodWith (free_cached_blocks a hip d).alloc (free_cached_blocks a hip d).hip ch := by
  have h1 := hg.walk true (lower_bound a.heap (Block.ctor d 0 0 0) a.large_blocks)
    (lower_bound a.heap (Block.ctor (d + 1) 0 0 0) a.large_blocks) (lower_bound_suffix _ _ _)
  have e1 : getPool true a = a.large_blocks := rfl
  rw [e1] at h1
  unfold free_cached_blocks
  dsimp only
  generalize free_blocks a.heap hip a.large_blocks
    (lower_bound a.heap (Block.ctor d 0 0 0) a.large_blocks)
    (lower_bound a.heap (Block.ctor (d + 1) 0 0 0) a.large_blocks) = r1 at h1
  have h2 := h1.walk false (lower_bound r1.heap (Block.ctor d 0 0 0) a.small_blocks)
    (lower_bound r1.heap (Block.ctor (d + 1) 0 0 0) a.small_blocks) (lower_bound_suffix _ _ _)
  split
  · exact h1
  · exact h2

theorem Geom.of_hipLive {h : Heap} {ch : Nat → Chain} {c1 c2 : List HipCall}
    (hg : Geom h ch c1) (hl : hipLive c2 = hipLive c1) : Geom h ch c2 :=
  ⟨fun x hx => by rw [hl]; exact hg.region x hx, hg.base_ne, hg.apart⟩

/-- Calls that hand out and take back no region leave the invariant as it is. -/
theorem GoodWith.recall {a : THCCachingAllocator} {hip hip2 : Hip} {ch : Nat → Chain}
    (hg : GoodWith a hip ch) (hs : hipSane hip2.calls = hipSane hip.calls)
    (hl : hipLive hip2.calls = hipLive hip.calls)
    (hv : hipFreesValid hip2.calls = hipFreesValid hip.calls) : GoodWith a hip2 ch := by
  refine ⟨hg.1, ?_⟩
  intro h
  rw [hs] at h
  obtain ⟨g1, g2⟩ := hg.2 h
  exact ⟨g1.of_hipLive hl, by rw [hv]; exact g2⟩

/-- The chain of a block fresh from the primitive allocator. -/
theorem Inv.new_chain {a : THCCachingAllocator} {ch : Nat → Chain} (hinv : Inv a ch)
    (d : Int) (st n p : Nat) (hn1 : kSmallAlloc ≤ n) (hn2 : n < SIZE_T) :
    Inv { a with heap := newBlock a.heap (Block.ctor d st n p) }
      (rechain ch ⟨d, st, p, n, [newPtr a.heap]⟩) := by
  have hN : ¬ Live a.heap (newPtr a.heap) := not_Live_newPtr _
  have hold : ∀ y, Live a.heap y → Live (newBlock a.heap (Block.ctor d st n p)) y ∧
      deref (newBlock a.heap (Block.ctor d st n p)) y = deref a.heap y := by
    intro y hy
    refine ⟨hy.newBlock _, ?_⟩
    rw [deref_newBlock, if_neg (show ¬ y = newPtr a.heap from fun hc => hN (hc ▸ hy))]
  have hc2 : ChainOK (newBlock a.heap (Block.ctor d st n p)) ⟨d, st, p, n, [newPtr a.heap]⟩ := by
    have hcell : deref (newBlock a.heap (Block.ctor d st n p)) (newPtr a.heap) =
        Block.ctor d st n p := deref_newBlock_self _ _
    refine ⟨List.nodup_singleton _, ?_, List.chain'_singleton _, ?_, ?_, hn1, hn2⟩
    · intro x hx
      rw [List.mem_singleton.1 hx]
      refine ⟨(Live_newBlock_iff _ _ _).2 (Or.inl rfl), ?_, ?_, ?_⟩
      · rw [hcell]; rfl
      · rw [hcell]; rfl
      · intro hb
        rw [hcell]
        exact hb
    · intro x hx
      have : x = newPtr a.heap := by simpa using hx.symm
      rw [this, hcell]
      exact ⟨rfl, rfl⟩
    · intro x hx
      have : x = newPtr a.heap := by simpa using hx.symm
      rw [this, hcell]
      exact ⟨rfl, rfl⟩
  refine ⟨?_, ?_, hinv.table_keys, ?_⟩
  · refine @Chained.update _ _ _ _ [] hinv.chain hc2 ?_ ?_ ?_ ?_ ?_
    · intro x _ y _ hy
      cases hy
    · intro x hx
      rcases (Live_newBlock_iff _ _ _).1 hx with h1 | h1
      · left; rw [h1]; exact List.mem_singleton_self _
      · exact Or.inr h1
    · intro x hx
      right
      rw [List.mem_singleton.1 hx]
      exact hN
    · intro x _ hx
      cases hx
    · intro y hy _
      exact hold y hy
  · intro sm
    rw [getPool_heap]
    exact (hinv.pool sm).frame_pool (fun x hx => hold x ((hinv.pool sm).mem x hx).1)
  · intro kv hkv
    obtain ⟨t1, t2, t3⟩ := hinv.table_mem kv hkv
    show Live (newBlock a.heap (Block.ctor d st n p)) kv.2 ∧ _
    rw [(hold kv.2 t1).2]
    exact ⟨(hold kv.2 t1).1, t2, t3⟩

theorem Geom.new_chain_geom {a : THCCachingAllocator} {ch : Nat → Chain} {calls0 : List HipCall}
    (hg : Geom a.heap ch calls0) (d : Int) (st n p : Nat)
    (hs : hipSane (HipCall.malloc n hipSuccess p :: calls0) = true) :
    Geom (newBlock a.heap (Block.ctor d st n p)) (rechain ch ⟨d, st, p, n, [newPtr a.heap]⟩)
      (HipCall.malloc n hipSuccess p :: calls0) := by
  have hN : ¬ Live a.heap (newPtr a.heap) := not_Live_newPtr _
  rw [hipSane_malloc_ok] at hs
  simp only [Bool.and_eq_true, decide_eq_true_eq, List.all_eq_true, Bool.or_eq_true] at hs
  obtain ⟨⟨⟨hp0, _⟩, hall⟩, _⟩ := hs
  have hcase : ∀ x, Live (newBlock a.heap (Block.ctor d st n p)) x →
      (rechain ch ⟨d, st, p, n, [newPtr a.heap]⟩ x = ⟨d, st, p, n, [newPtr a.heap]⟩) ∨
      (rechain ch ⟨d, st, p, n, [newPtr a.heap]⟩ x = ch x ∧ Live a.heap x) := by
    intro x hx
    rcases (Live_newBlock_iff _ _ _).1 hx with h1 | h1
    · left
      unfold rechain
      rw [if_pos (by rw [h1]; exact List.mem_singleton_self _)]
    · right
      unfold rechain
      rw [if_neg (by
        intro hc
        rw [List.mem_singleton.1 hc] at h1
        exact hN h1)]
      exact ⟨rfl, h1⟩
  refine ⟨?_, ?_, ?_⟩
  · intro x hx
    rw [hipLive_malloc_ok]
    rcases hcase x hx with e | ⟨e, hl⟩
    · rw [e]
      exact List.mem_cons_self _ _
    · rw [e]
      exact List.mem_cons_of_mem _ (hg.region x hl)
  · intro x hx
    rcases hcase x hx with e | ⟨e, hl⟩
    · rw [e]
      exact hp0
    · rw [e]
      exact hg.base_ne x hl
  · intro x y hx hy hne
    rcases hcase x hx with e1 | ⟨e1, hl1⟩
    · rcases hcase y hy with e2 | ⟨e2, hl2⟩
      · rw [e1, e2] at hne
        exact absurd rfl hne
      · rw [e1, e2]
        exact hall _ (hg.region y hl2)
    · rcases hcase y hy with e2 | ⟨e2, hl2⟩
      · rw [e1, e2]
        exact (hall _ (hg.region x hl1)).symm
      · rw [e1, e2] at hne ⊢
        exact hg.apart x y hl1 hl2 hne

/-- The state `hip_malloc_retry` leaves: when it fails the invariant holds; when it
succeeds its latest call is the successful `hipMalloc`, and the invariant holds for the
record before that call. -/
theorem GoodWith.retry {a : THCCachingAllocator} {hip : Hip} {ch : Nat → Chain}
    (hg : GoodWith a hip ch) (d : Int) (n : Nat) :
    ((hip_malloc_retry a hip d n).err ≠ hipSuccess →
      GoodWith (hip_malloc_retry a hip d n).alloc (hip_malloc_retry a hip d n).hip ch) ∧
    ((hip_malloc_retry a hip d n).err = hipSuccess → ∃ p calls0,
      (hip_malloc_retry a hip d n).devPtr = some p ∧
      (hip_malloc_retry a hip d n).hip.calls = HipCall.malloc n hipSuccess p :: calls0 ∧
      Inv (hip_malloc_retry a hip d n).alloc ch ∧
      (hipSane calls0 = true →
        Geom (hip_malloc_retry a hip d n).alloc.heap ch calls0 ∧
        hipFreesValid calls0 = true)) := by
  by_cases h1 : (hipMalloc hip n).1 = hipSuccess
  · have e : hip_malloc_retry a hip d n =
        ⟨hipSuccess, some (hipMalloc hip n).2.1, a, (hipMalloc hip n).2.2⟩ := by
      unfold hip_malloc_retry
      dsimp only
      rw [if_neg (by simp [h1])]
    rw [e]
    refine ⟨fun hc => absurd rfl hc, fun _ => ⟨(hipMalloc hip n).2.1, hip.calls, rfl, ?_, hg.1, hg.2⟩⟩
    dsimp only
    rw [hipMalloc_calls, h1]
  · have hcA : (hipGetLastError (hipMalloc hip n).2.2).calls =
        HipCall.getLastError :: HipCall.malloc n (hipMalloc hip n).1 (hipMalloc hip n).2.1 ::
          hip.calls := by
      show HipCall.getLastError :: (hipMalloc hip n).2.2.calls = _
      rw [hipMalloc_calls]
    have hgA : GoodWith a (hipGetLastError (hipMalloc hip n).2.2) ch := by
      apply hg.recall
      · rw [hcA, hipSane_getLastError, hipSane_malloc_err h1]
      · rw [hcA, hipLive_getLastError, hipLive_malloc_err h1]
      · rw [hcA, hipFreesValid_getLastError, hipFreesValid_malloc]
    have hgB := hgA.after_free_cached d
    have e : hip_malloc_retry a hip d n =
        if (free_cached_blocks a (hipGetLastError (hipMalloc hip n).2.2) d).err ≠ hipSuccess then
          ⟨(free_cached_blocks a (hipGetLastError (hipMalloc hip n).2.2) d).err, none,
            (free_cached_blocks a (hipGetLastError (hipMalloc hip n).2.2) d).alloc,
            (free_cached_blocks a (hipGetLastError (hipMalloc hip n).2.2) d).hip⟩
        else if (hipMalloc (free_cached_blocks a (hipGetLastError (hipMalloc hip n).2.2) d).hip
            n).1 ≠ hipSuccess then
          ⟨(hipMalloc (free_cached_blocks a (hipGetLastError (hipMalloc hip n).2.2) d).hip n).1,
            none, (free_cached_blocks a (hipGetLastError (hipMalloc hip n).2.2) d).alloc,
            (hipMalloc (free_cached_blocks a (hipGetLastError (hipMalloc hip n).2.2) d).hip
              n).2.2⟩
        else
          ⟨hipSuccess,
            some (hipMalloc (free_cached_blocks a (hipGetLastError (hipMalloc hip n).2.2) d).hip
              n).2.1,
            (free_cached_blocks a (hipGetLastError (hipMalloc hip n).2.2) d).alloc,
            (hipMalloc (free_cached_blocks a (hipGetLastError (hipMalloc hip n).2.2) d).hip
              n).2.2⟩ := by
      unfold hip_malloc_retry
      dsimp only
      rw [if_pos h1]
    rw [e]
    generalize free_cached_blocks a (hipGetLastError (hipMalloc hip n).2.2) d = rA at hgB
    by_cases h2 : rA.err ≠ hipSuccess
    · rw [if_pos h2]
      exact ⟨fun _ => hgB, fun hc => absurd hc h2⟩
    · rw [if_neg h2]
      by_cases h3 : (hipMalloc rA.hip n).1 ≠ hipSuccess
      · rw [if_pos h3]
        refine ⟨fun _ => ?_, fun hc => absurd hc h3⟩
        dsimp only
        apply hgB.recall
        · rw [hipMalloc_calls, hipSane_malloc_err h3]
        · rw [hipMalloc_calls, hipLive_malloc_err h3]
        · rw [hipMalloc_calls, hipFreesValid_malloc]
      · rw [if_neg h3]
        have h3b : (hipMalloc rA.hip n).1 = hipSuccess := by simpa using h3
        refine ⟨fun hc => absurd rfl hc,
          fun _ => ⟨(hipMalloc rA.hip n).2.1, rA.hip.calls, rfl, ?_, hgB.1, hgB.2⟩⟩
        dsimp only
        rw [hipMalloc_calls, h3b]

theorem alloc_size_ge (size : Nat) : kSmallAlloc ≤ alloc_size size := by
  unfold alloc_size
  split
  · exact Nat.le_refl _
  · omega

theorem alloc_size_class (size : Nat) :
    decide (alloc_size size ≤ kSmallAlloc) = decide (size ≤ kSmallAlloc) := by
  unfold alloc_size
  split
  · rename_i h
    rw [decide_eq_true h]
    exact decide_eq_true (Nat.le_refl _)
  · rfl

theorem le_alloc_size (size : Nat) : size ≤ alloc_size size := by
  unfold alloc_size
  split
  · assumption
  · exact Nat.le_refl _

/-- The miss path of `malloc` keeps the invariant. -/
theorem GoodWith.after_miss {a : THCCachingAllocator} {hip : Hip} {ch : Nat → Chain}
    (hg : GoodWith a hip ch) (d : Int) (st : Nat) {size : Nat} (hsz : size < SIZE_T) :
    Good (malloc_miss a hip d st size).alloc (malloc_miss a hip d st size).hip := by
  obtain ⟨hfail, hok⟩ := hg.retry d (alloc_size size)
  by_cases herr : (hip_malloc_retry a hip d (alloc_size size)).err = hipSuccess
  · rw [malloc_miss_of_ok herr]
    obtain ⟨p, calls0, hp, hcalls, hinv, hgeo⟩ := hok herr
    rw [hp]
    generalize hip_malloc_retry a hip d (alloc_size size) = r at hcalls hinv hgeo
    have hinv2 := hinv.new_chain d st (alloc_size size) p (alloc_size_ge size)
      (alloc_size_lt hsz)
    have hN : ¬ Live r.alloc.heap (newPtr r.alloc.heap) := not_Live_newPtr _
    have hcell : deref (newBlock r.alloc.heap (Block.ctor d st (alloc_size size) p))
        (newPtr r.alloc.heap) = Block.ctor d st (alloc_size size) p := deref_newBlock_self _ _
    obtain ⟨ch2, hinv3, hgeo3⟩ := @Inv.malloc_split _ _ hinv2 r.hip
      (newPtr r.alloc.heap) d st size
      ((Live_newBlock_iff _ _ _).2 (Or.inl rfl))
      (by rw [hcell]; rfl)
      (by
        intro sm hc
        rw [getPool_heap] at hc
        exact hN ((hinv.pool sm).mem _ hc).1)
      (by rw [hcell]; rfl) (by rw [hcell]; rfl)
      (by rw [hcell]; exact le_alloc_size size)
      (by rw [hcell]; exact alloc_size_class size)
    refine ⟨ch2, hinv3, ?_⟩
    rw [malloc_split_hip, hcalls]
    intro hs
    obtain ⟨g1, g2⟩ := hgeo (hipSane_tail hs)
    refine ⟨hgeo3 _ (g1.new_chain_geom d st (alloc_size size) p hs), ?_⟩
    rw [hipFreesValid_malloc]
    exact g2
  · rw [malloc_miss_of_err herr]
    exact ⟨ch, hfail herr⟩

theorem erase_at_append (pre it : List Nat) : erase_at (pre ++ it) it = pre ++ it.tail := by
  unfold erase_at
  have : (pre ++ it).length - it.length = pre.length := by simp
  rw [this, List.take_left' rfl]

/-- The hit path of `malloc` keeps the invariant. -/
theorem GoodWith.after_hit {a : THCCachingAllocator} {hip : Hip} {ch : Nat → Chain}
    (hg : GoodWith a hip ch) {d : Int} {st size blk : Nat}
    (hhit : malloc_hit a d st size = some blk) :
    Good
      (malloc_split
        (setPool (decide (size ≤ kSmallAlloc)) a
          (erase_at (getPool (decide (size ≤ kSmallAlloc)) a)
            (lower_bound a.heap (Block.ctor d st size 0)
              (getPool (decide (size ≤ kSmallAlloc)) a))))
        hip blk d st size).alloc
      (malloc_split
        (setPool (decide (size ≤ kSmallAlloc)) a
          (erase_at (getPool (decide (size ≤ kSmallAlloc)) a)
            (lower_bound a.heap (Block.ctor d st size 0)
              (getPool (decide (size ≤ kSmallAlloc)) a))))
        hip blk d st size).hip := by
  obtain ⟨hinv, hgeo⟩ := hg
  have hmem := malloc_hit_mem hhit
  obtain ⟨post, hlb⟩ := malloc_hit_lower_bound hhit
  have hown := malloc_hit_owner hhit
  have hsize := malloc_hit_size hhit
  obtain ⟨pre, hpre⟩ := lower_bound_suffix a.heap (Block.ctor d st size 0)
    (getPool (decide (size ≤ kSmallAlloc)) a)
  rw [hlb] at hpre ⊢
  have hpool := hinv.pool (decide (size ≤ kSmallAlloc))
  have hnd := hpool.sorted.nodup
  have herase : erase_at (getPool (decide (size ≤ kSmallAlloc)) a) (blk :: post) = pre ++ post := by
    rw [← hpre, erase_at_append]
    rfl
  rw [herase]
  have hsubl : (pre ++ post).Sublist (getPool (decide (size ≤ kSmallAlloc)) a) := by
    rw [← hpre]
    exact List.Sublist.append_left (List.sublist_cons_self _ _) _
  have hblk := hpool.mem blk hmem
  have hinv0 : Inv (setPool (decide (size ≤ kSmallAlloc)) a (pre ++ post)) ch := by
    apply hinv.shrink (setPool_heap _ _ _)
    · intro sm2
      rw [getPool_setPool]
      split
      · rename_i h
        rw [h]
        exact hsubl
      · exact List.Sublist.refl _
    · rw [setPool_allocated_blocks]
  have hnotin : ∀ sm2, blk ∉ getPool sm2 (setPool (decide (size ≤ kSmallAlloc)) a (pre ++ post)) := by
    intro sm2
    rw [getPool_setPool]
    split
    · rw [← hpre] at hnd
      intro hc
      have h1 := List.nodup_append.1 hnd
      rcases List.mem_append.1 hc with h2 | h2
      · exact h1.2.2 h2 (List.mem_cons_self _ _)
      · exact (List.nodup_cons.1 h1.2.1).1 h2
    · rename_i hne
      intro hc
      exact hne (hinv.pool_class hc hmem)
  obtain ⟨ch2, hinv2, hgeo2⟩ := @Inv.malloc_split _ _ hinv0 hip blk d st size
    (by rw [setPool_heap]; exact hblk.1) (by rw [setPool_heap]; exact hblk.2.1) hnotin
    (by rw [setPool_heap]; exact hown.1) (by rw [setPool_heap]; exact hown.2)
    (by rw [setPool_heap]; exact hsize) (by rw [setPool_heap]; exact hblk.2.2)
  refine ⟨ch2, hinv2, ?_⟩
  rw [malloc_split_hip]
  intro hs
  obtain ⟨g1, g2⟩ := hgeo hs
  refine ⟨hgeo2 _ ?_, g2⟩
  rw [setPool_heap]
  exact g1

/-- The method `malloc` keeps the invariant. -/
theorem Good.after_malloc {a : THCCachingAllocator} {hip : Hip} (hg : Good a hip)
    (size st : Nat) : Good (malloc a hip size st).alloc (malloc a hip size st).hip := by
  obtain ⟨ch, hg⟩ := hg
  have hg0 : GoodWith a (hipGetDevice hip).2.2 ch :=
    hg.recall (hipSane_getDevice _ _ _) (hipLive_getDevice _ _ _) (hipFreesValid_getDevice _ _ _)
  by_cases hdev : hip.device.1 = hipSuccess
  · rw [malloc_of_device_ok hdev]
    unfold malloc_rounded
    split
    · rename_i blk hhit
      exact hg0.after_hit hhit
    · exact hg0.after_miss _ _ (round_size_lt size)
  · rw [malloc_of_device_err hdev]
    exact ⟨ch, hg0⟩

theorem free_steps_aux (a : THCCachingAllocator) (b : Nat) (t : List (Nat × Nat)) (sm : Bool) :
    setPool sm
      { a with
        heap := store (try_merge_blocks (try_merge_blocks a.heap b (deref a.heap b).prev
            (getPool sm a)).1 b
          (deref (try_merge_blocks a.heap b (deref a.heap b).prev (getPool sm a)).1 b).next
          (try_merge_blocks a.heap b (deref a.heap b).prev (getPool sm a)).2).1 b
          (fun blk => { blk with allocated := false }),
        allocated_blocks := t }
      (set_insert
        (store (try_merge_blocks (try_merge_blocks a.heap b (deref a.heap b).prev
            (getPool sm a)).1 b
          (deref (try_merge_blocks a.heap b (deref a.heap b).prev (getPool sm a)).1 b).next
          (try_merge_blocks a.heap b (deref a.heap b).prev (getPool sm a)).2).1 b
          (fun blk => { blk with allocated := false })) b
        (try_merge_blocks (try_merge_blocks a.heap b (deref a.heap b).prev
            (getPool sm a)).1 b
          (deref (try_merge_blocks a.heap b (deref a.heap b).prev (getPool sm a)).1 b).next
          (try_merge_blocks a.heap b (deref a.heap b).prev (getPool sm a)).2).2) =
    release
      (merge_step (merge_step { a with allocated_blocks := t } sm b (deref a.heap b).prev) sm b
        (deref (merge_step { a with allocated_blocks := t } sm b (deref a.heap b).prev).heap
          b).next)
      sm b := by
  cases sm <;> rfl

/-- The method `free` on an address of the table, as three steps. -/
theorem free_steps {a : THCCachingAllocator} (hip : Hip) {ptr b : Nat} (hp : ptr ≠ 0)
    (hl : a.allocated_blocks.lookup ptr = some b) :
    free a hip ptr =
      ⟨hipSuccess,
        release
          (merge_step
            (merge_step (table_erase a ptr)
              (decide ((deref a.heap b).size ≤ kSmallAlloc)) b (deref a.heap b).prev)
            (decide ((deref a.heap b).size ≤ kSmallAlloc)) b
            (deref (merge_step (table_erase a ptr)
              (decide ((deref a.heap b).size ≤ kSmallAlloc)) b (deref a.heap b).prev).heap
              b).next)
          (decide ((deref a.heap b).size ≤ kSmallAlloc)) b, hip⟩ := by
  unfold table_erase
  rw [← free_steps_aux]
  unfold free
  rw [if_neg hp, hl]

theorem merge_step_none (a : THCCachingAllocator) (sm : Bool) (b : Nat) :
    merge_step a sm b none = a := by
  cases sm <;> rfl

theorem setPool_getPool (a : THCCachingAllocator) (sm : Bool) :
    setPool sm { a with heap := a.heap } (getPool sm a) = a := by
  cases sm <;> rfl

theorem merge_step_allocated {a : THCCachingAllocator} (sm : Bool) (b : Nat) {s : Nat}
    (hs : (deref a.heap s).allocated = true) : merge_step a sm b (some s) = a := by
  unfold merge_step
  rw [try_merge_blocks_allocated b _ hs]
  exact setPool_getPool a sm

theorem merge_step_free {a : THCCachingAllocator} (sm : Bool) (b : Nat) {s : Nat}
    (hs : (deref a.heap s).allocated = false) :
    merge_step a sm b (some s) =
      setPool sm { a with heap := deleteBlock (merge_heap a.heap b s) s }
        (erase_key (merge_heap a.heap b s) s (getPool sm a)) := by
  unfold merge_step
  rw [try_merge_blocks_free b _ hs]

/-- The size class of a block is that of its chain. -/
theorem ChainOK.class_eq {h : Heap} {c : Chain} (hc : ChainOK h c) {x : Nat}
    (hx : x ∈ c.blocks) :
    decide ((deref h x).size ≤ kSmallAlloc) = decide (c.total ≤ kSmallAlloc) := by
  by_cases hb : kSmallAlloc < c.total
  · have := (hc.each x hx).2.2.2 hb
    rw [decide_eq_false (by omega), decide_eq_false (by omega)]
  · have := hc.size_le hx
    rw [decide_eq_true (by omega), decide_eq_true (by omega)]

theorem dropWhile_append_stop {α : Type} (p : α → Bool) (pre : List α) (s : α) (post : List α)
    (hpre : ∀ e ∈ pre, p e = true) (hs : p s = false) :
    (pre ++ s :: post).dropWhile p = s :: post := by
  induction pre with
  | nil =>
    rw [List.nil_append, List.dropWhile_cons_of_neg (by simp [hs])]
  | cons e pre ih =>
    rw [List.cons_append, List.dropWhile_cons_of_pos (hpre e (List.mem_cons_self _ _))]
    exact ih (fun x hx => hpre x (List.mem_cons_of_mem _ hx))

/-- In an ordered set, `erase(src)` by key removes the block `src` itself. -/
theorem erase_key_sorted {h : Heap} {fb : List Nat} {s : Nat} (hs : Sorted h fb)
    (hmem : s ∈ fb) : s ∉ erase_key h s fb := by
  obtain ⟨pre, post, hfb⟩ := List.append_of_mem hmem
  have hnd := hs.nodup
  subst hfb
  unfold Sorted at hs
  have hpre : ∀ e ∈ pre, BlockComparator (deref h e) (deref h s) = true := by
    intro e he
    exact (List.pairwise_append.1 hs).2.2 e he s (List.mem_cons_self _ _)
  have hlb : lower_bound h (deref h s) (pre ++ s :: post) = s :: post := by
    unfold lower_bound
    exact dropWhile_append_stop _ pre s post hpre (BlockComparator_irrefl _)
  unfold erase_key
  rw [hlb]
  dsimp only
  rw [if_neg (by simp [BlockComparator_irrefl]), erase_at_append]
  intro hc
  have h1 := List.nodup_append.1 hnd
  rcases List.mem_append.1 hc with h2 | h2
  · exact h1.2.2 h2 (List.mem_cons_self _ _)
  · exact (List.nodup_cons.1 h1.2.1).1 h2

theorem BlockComparator_key {a a2 b b2 : Block} (ha : a2.key = a.key) (hb : b2.key = b.key) :
    BlockComparator a2 b2 = BlockComparator a b := by
  unfold Block.key at ha hb
  simp only [Prod.mk.injEq] at ha hb
  exact BlockComparator_congr ha.1 ha.2.1 ha.2.2.1 ha.2.2.2 hb.1 hb.2.1 hb.2.2.1 hb.2.2.2

theorem dropWhile_congr_mem {α : Type} {p q : α → Bool} (l : List α)
    (h : ∀ e ∈ l, p e = q e) : l.dropWhile p = l.dropWhile q := by
  induction l with
  | nil => rfl
  | cons e l ih =>
    rw [List.dropWhile_cons, List.dropWhile_cons, h e (List.mem_cons_self _ _),
      ih (fun x hx => h x (List.mem_cons_of_mem _ hx))]

theorem erase_key_congr {h h2 : Heap} (s : Nat) (fb : List Nat)
    (hs : (deref h2 s).key = (deref h s).key)
    (hfb : ∀ e ∈ fb, (deref h2 e).key = (deref h e).key) :
    erase_key h2 s fb = erase_key h s fb := by
  have hlb : lower_bound h2 (deref h2 s) fb = lower_bound h (deref h s) fb := by
    unfold lower_bound
    apply dropWhile_congr_mem
    intro e he
    exact BlockComparator_key (hfb e he) hs
  unfold erase_key
  rw [hlb]
  split
  · rfl
  · rename_i e post hlb2
    have he : e ∈ fb := mem_lower_bound (by rw [hlb2]; exact List.mem_cons_self _ _)
    rw [BlockComparator_key hs (hfb e he)]

theorem SameData.key {h h2 : Heap} {x : Nat} (hs : SameData h h2 x) :
    (deref h2 x).key = (deref h x).key := by
  obtain ⟨_, a1, a2, a3, a4, _⟩ := hs
  unfold Block.key
  rw [a1, a2, a3, a4]

theorem key_of_map_next (h : Heap) (e : Nat) (v : Option Nat) (c : Option (Option Block))
    (hc : c = (h[e]?).map (Option.map (fun b => { b with next := v }))) :
    (match c with
      | some (some b) => b
      | _ => default).key = (deref h e).key := by
  unfold deref
  subst hc
  cases h[e]? with
  | none => rfl
  | some o => cases o <;> rfl

theorem key_of_map_prev (h : Heap) (e : Nat) (v : Option Nat) (c : Option (Option Block))
    (hc : c = (h[e]?).map (Option.map (fun b => { b with prev := v }))) :
    (match c with
      | some (some b) => b
      | _ => default).key = (deref h e).key := by
  unfold deref
  subst hc
  cases h[e]? with
  | none => rfl
  | some o => cases o <;> rfl

theorem merge_heap_prev_key {h : Heap} {d s : Nat} (hd : Live h d) (hs : Live h s)
    (hds : d ≠ s) (hp : (deref h d).prev = some s) (hsd : (deref h s).prev ≠ some d)
    (hss : (deref h s).prev ≠ some s) (e : Nat) (he : e ≠ d) :
    (deref (merge_heap h d s) e).key = (deref h e).key := by
  have hcell := merge_heap_prev_getElem h d s (deref h d) (deref h s) hd.deref hs.deref hds hp
    hsd hss e
  rw [if_neg he] at hcell
  by_cases hq : (deref h s).prev = some e
  · rw [if_pos hq] at hcell
    exact key_of_map_next h e _ _ hcell
  · rw [if_neg hq] at hcell
    rw [deref_congr hcell]

theorem merge_heap_next_key {h : Heap} {d s : Nat} (hd : Live h d) (hs : Live h s)
    (hds : d ≠ s) (hp : (deref h d).prev ≠ some s) (hsd : (deref h s).next ≠ some d)
    (hss : (deref h s).next ≠ some s) (e : Nat) (he : e ≠ d) :
    (deref (merge_heap h d s) e).key = (deref h e).key := by
  have hcell := merge_heap_next_getElem h d s (deref h d) (deref h s) hd.deref hs.deref hds hp
    hsd hss e
  rw [if_neg he] at hcell
  by_cases hq : (deref h s).next = some e
  · rw [if_pos hq] at hcell
    exact key_of_map_prev h e _ _ hcell
  · rw [if_neg hq] at hcell
    rw [deref_congr hcell]

/-- What one merging call of `try_merge_blocks` keeps, shared by both directions: `h2` is
the heap after the merge of `s` into `b`, `hm` the heap before `delete s`. -/
theorem Inv.merge_common {a : THCCachingAllocator} {ch : Nat → Chain} {b s : Nat} {sm : Bool}
    {hm h2 : Heap} {c2 : Chain}
    (hinv : Inv a ch) (hd : Detached a ch b sm)
    (hsmem : s ∈ (ch b).blocks) (hsb : s ≠ b)
    (hsfree : (deref a.heap s).allocated = false)
    (hc2 : ChainOK h2 c2) (hc2b : ∀ x, x ∈ c2.blocks ↔ x ∈ (ch b).blocks ∧ x ≠ s)
    (hc2t : c2.total = (ch b).total) (hc2base : c2.base = (ch b).base)
    (hlive : ∀ q, Live h2 q ↔ q ≠ s ∧ Live a.heap q)
    (hsame : ∀ x, Live a.heap x → x ≠ b → x ≠ s → SameData a.heap h2 x)
    (hother : ∀ y, Live a.heap y → y ∉ (ch b).blocks → deref h2 y = deref a.heap y)
    (hkey : ∀ e, e ≠ b → (deref hm e).key = (deref a.heap e).key)
    (hballoc : (deref h2 b).allocated = true) :
    Inv (setPool sm { a with heap := h2 } (erase_key hm s (getPool sm a))) (rechain ch c2) ∧
    Detached (setPool sm { a with heap := h2 } (erase_key hm s (getPool sm a)))
      (rechain ch c2) b sm ∧
    (∀ calls, Geom a.heap ch calls → Geom h2 (rechain ch c2) calls) := by
  obtain ⟨hbmem, hcok, hclosed⟩ := hinv.chain b hd.live
  have hbc2 : b ∈ c2.blocks := (hc2b b).2 ⟨hbmem, Ne.symm hsb⟩
  have hsl : Live a.heap s := (hcok.each s hsmem).1
  have hnotpool : ∀ sm2, b ∉ getPool sm2 a := by
    intro sm2 hc
    have := ((hinv.pool sm2).mem b hc).2.1
    rw [hd.alloc] at this
    cases this
  have hscls : decide ((deref a.heap s).size ≤ kSmallAlloc) = sm := by
    rw [hcok.class_eq hsmem]
    exact hd.cls
  have H1 : ∀ x, Live h2 x → x ∈ c2.blocks ∨ Live a.heap x :=
    fun x hx => Or.inr ((hlive x).1 hx).2
  have H3 : ∀ x, Live h2 x → x ∈ (ch b).blocks → x ∈ c2.blocks :=
    fun x hx hxm => (hc2b x).2 ⟨hxm, ((hlive x).1 hx).1⟩
  have hpoolsame : ∀ sm2, ∀ x ∈ getPool sm2 a, x ≠ s → SameData a.heap h2 x := by
    intro sm2 x hx hxs
    exact hsame x ((hinv.pool sm2).mem x hx).1 (fun hc => hnotpool sm2 (hc ▸ hx)) hxs
  have herase : erase_key hm s (getPool sm a) = erase_key a.heap s (getPool sm a) := by
    apply erase_key_congr
    · exact hkey s hsb
    · intro e he
      exact hkey e (fun hc => hnotpool sm (hc ▸ he))
  have hsnot : s ∉ erase_key a.heap s (getPool sm a) := by
    by_cases hin : s ∈ getPool sm a
    · exact erase_key_sorted (hinv.pool sm).sorted hin
    · exact fun hc => hin ((erase_key_sublist _ _ _).subset hc)
  refine ⟨⟨?_, ?_, ?_, ?_⟩, ⟨?_, ?_, ?_, ?_⟩, ?_⟩
  · rw [setPool_heap]
    refine Chained.update hinv.chain hc2 (Chained.closed hinv.chain hd.live) H1 ?_ H3 ?_
    · intro x hx
      exact Or.inl ((hc2b x).1 hx).1
    · intro y hy hyc
      refine ⟨(hlive y).2 ⟨fun hc => hyc (hc ▸ hsmem), hy⟩, hother y hy hyc⟩
  · intro sm2
    rw [getPool_setPool, setPool_heap, getPool_heap, herase]
    by_cases hsm : sm2 = sm
    · rw [if_pos hsm, hsm]
      apply ((hinv.pool sm).sublist_pool (erase_key_sublist _ _ _)).same_pool
      intro x hx
      exact hpoolsame sm x ((erase_key_sublist _ _ _).subset hx) (fun hc => hsnot (hc ▸ hx))
    · rw [if_neg hsm]
      apply (hinv.pool sm2).same_pool
      intro x hx
      apply hpoolsame sm2 x hx
      intro hc
      rw [hc] at hx
      exact hsm (((hinv.pool sm2).mem s hx).2.2.symm.trans hscls)
  · rw [setPool_allocated_blocks]
    exact hinv.table_keys
  · intro kv hkv
    rw [setPool_allocated_blocks] at hkv
    rw [setPool_heap]
    obtain ⟨t1, t2, t3⟩ := hinv.table_mem kv hkv
    have hne : kv.2 ≠ s := by
      intro hc
      rw [hc, hsfree] at t2
      cases t2
    obtain ⟨s1, _, _, _, s5, s6⟩ := hsame kv.2 t1 (hd.notable kv hkv) hne
    rw [s5, s6]
    exact ⟨s1, t2, t3⟩
  · rw [setPool_heap]
    exact (hlive b).2 ⟨Ne.symm hsb, hd.live⟩
  · rw [setPool_heap]
    exact hballoc
  · intro kv hkv
    rw [setPool_allocated_blocks] at hkv
    exact hd.notable kv hkv
  · have : rechain ch c2 b = c2 := by
      unfold rechain
      rw [if_pos hbc2]
    rw [this, hc2t]
    exact hd.cls
  · intro calls hg
    exact hg.update_geom hinv.chain hd.live hc2base hc2t H1 H3

theorem mem_remove_middle {pre post : List Nat} {s b : Nat}
    (hnd : (pre ++ s :: b :: post).Nodup) (x : Nat) :
    x ∈ pre ++ b :: post ↔ x ∈ pre ++ s :: b :: post ∧ x ≠ s := by
  have h1 := List.nodup_append.1 hnd
  have hs1 : s ∉ pre := fun hc => h1.2.2 hc (List.mem_cons_self _ _)
  have hs2 : s ∉ b :: post := (List.nodup_cons.1 h1.2.1).1
  constructor
  · intro hx
    rcases List.mem_append.1 hx with h2 | h2
    · exact ⟨List.mem_append_left _ h2, fun hc => hs1 (hc ▸ h2)⟩
    · exact ⟨List.mem_append_right _ (List.mem_cons_of_mem _ h2), fun hc => hs2 (hc ▸ h2)⟩
  · rintro ⟨hx, hxs⟩
    rcases List.mem_append.1 hx with h2 | h2
    · exact List.mem_append_left _ h2
    · rcases List.mem_cons.1 h2 with h3 | h3
      · exact absurd h3 hxs
      · exact List.mem_append_right _ h3

theorem mem_remove_after {pre post : List Nat} {s b : Nat}
    (hnd : (pre ++ b :: s :: post).Nodup) (x : Nat) :
    x ∈ pre ++ b :: post ↔ x ∈ pre ++ b :: s :: post ∧ x ≠ s := by
  have h1 := List.nodup_append.1 hnd
  have hs1 : s ∉ pre := fun hc => h1.2.2 hc (by simp)
  have hs2 : s ≠ b := by
    intro hc
    subst hc
    exact (List.nodup_cons.1 h1.2.1).1 (List.mem_cons_self _ _)
  have hs3 : s ∉ post := (List.nodup_cons.1 (List.nodup_cons.1 h1.2.1).2).1
  constructor
  · intro hx
    rcases List.mem_append.1 hx with h2 | h2
    · exact ⟨List.mem_append_left _ h2, fun hc => hs1 (hc ▸ h2)⟩
    · rcases List.mem_cons.1 h2 with h3 | h3
      · exact ⟨by rw [h3]; simp, fun hc => hs2 (hc.symm.trans h3)⟩
      · exact ⟨by simp [h3], fun hc => hs3 (hc ▸ h3)⟩
  · rintro ⟨hx, hxs⟩
    rcases List.mem_append.1 hx with h2 | h2
    · exact List.mem_append_left _ h2
    · rcases List.mem_cons.1 h2 with h3 | h3
      · rw [h3]; simp
      · rcases List.mem_cons.1 h3 with h4 | h4
        · exact absurd h4 hxs
        · simp [h4]

/-- The first call `try_merge_blocks(block, block->prev, ...)` of `free` keeps the invariant,
and after it the block before `block`, if there is one, is allocated. -/
theorem Inv.merge_prev_step {a : THCCachingAllocator} {ch : Nat → Chain} {b : Nat} {sm : Bool}
    (hinv : Inv a ch) (hd : Detached a ch b sm) :
    ∃ ch2, Inv (merge_step a sm b (deref a.heap b).prev) ch2 ∧
      Detached (merge_step a sm b (deref a.heap b).prev) ch2 b sm ∧
      (∀ calls, Geom a.heap ch calls →
        Geom (merge_step a sm b (deref a.heap b).prev).heap ch2 calls) ∧
      (∀ p, (deref (merge_step a sm b (deref a.heap b).prev).heap b).prev = some p →
        (deref (merge_step a sm b (deref a.heap b).prev).heap p).allocated = true) := by
  cases hprev : (deref a.heap b).prev with
  | none =>
    rw [merge_step_none]
    exact ⟨ch, hinv, hd, fun _ hg => hg, fun p hp => by rw [hprev] at hp; cases hp⟩
  | some s =>
    by_cases hs : (deref a.heap s).allocated = true
    · rw [merge_step_allocated sm b hs]
      refine ⟨ch, hinv, hd, fun _ hg => hg, fun p hp => ?_⟩
      rw [hprev] at hp
      cases hp
      exact hs
    · have hsfree : (deref a.heap s).allocated = false := by simpa using hs
      rw [merge_step_free sm b hsfree]
      obtain ⟨hbmem, hcok, hclosed⟩ := hinv.chain b hd.live
      obtain ⟨pre1, post, hb1⟩ := List.append_of_mem hbmem
      have hp1 := hcok.prev_eq hb1
      rw [hprev] at hp1
      obtain ⟨pre, hpre⟩ := List.getLast?_eq_some_iff.1 hp1.symm
      have hb : (ch b).blocks = pre ++ s :: b :: post := by
        rw [hb1, hpre, List.append_assoc, List.singleton_append]
      have hnd := hcok.nodup
      rw [hb] at hnd
      have hnd1 := List.nodup_append.1 hnd
      have hsmem : s ∈ (ch b).blocks := by rw [hb]; simp
      have hsl : Live a.heap s := (hcok.each s hsmem).1
      have hsb : s ≠ b := by
        intro hc
        subst hc
        exact (List.nodup_cons.1 hnd1.2.1).1 (List.mem_cons_self _ _)
      have hsprev := hcok.prev_eq hb
      have hsd : (deref a.heap s).prev ≠ some b := by
        rw [hsprev]
        intro hc
        exact hnd1.2.2 (List.mem_of_mem_getLast? hc) (by simp)
      have hss : (deref a.heap s).prev ≠ some s := by
        rw [hsprev]
        intro hc
        exact hnd1.2.2 (List.mem_of_mem_getLast? hc) (by simp)
      have hm := merge_prev_cells hd.live hsl (Ne.symm hsb) hprev hsd hss
      have hkey := merge_heap_prev_key hd.live hsl (Ne.symm hsb) hprev hsd hss
      have hc2 := hcok.merge_prev hb hm hd.alloc
      have hcommon := @Inv.merge_common a ch b s sm (merge_heap a.heap b s)
        (deleteBlock (merge_heap a.heap b s) s) { (ch b) with blocks := pre ++ b :: post }
        hinv hd hsmem hsb hsfree hc2
        (by
          intro x
          rw [hb]
          exact mem_remove_middle hnd x)
        rfl rfl hm.live
        (fun x hx hxb hxs => hm.same_prev hx hxb hxs)
        (by
          intro y hy hyc
          apply hm.other y (fun hc => hyc (hc ▸ hbmem)) (fun hc => hyc (hc ▸ hsmem))
          rw [hsprev]
          intro hc
          apply hyc
          rw [hb]
          exact List.mem_append_left _ (List.mem_of_mem_getLast? hc))
        hkey
        (by rw [hm.dst]; exact hd.alloc)
      refine ⟨_, hcommon.1, hcommon.2.1, ?_, ?_⟩
      · intro calls hg
        rw [setPool_heap]
        exact hcommon.2.2 calls hg
      · intro p hp
        rw [setPool_heap] at hp ⊢
        rw [hm.dst] at hp
        have hp2 : (deref a.heap s).prev = some p := hp
        have hpm : p ∈ pre := by
          rw [hsprev] at hp2
          exact List.mem_of_mem_getLast? hp2
        obtain ⟨pre0, hpre0⟩ := List.getLast?_eq_some_iff.1 (hsprev.symm.trans hp2)
        have hadj : Adj a.heap p s := by
          apply @ChainOK.adj_mid _ _ hcok pre0 (b :: post) p s
          rw [hb, hpre0, List.append_assoc, List.singleton_append]
        have hpa : (deref a.heap p).allocated = true := by
          rcases hadj.2.2.2 with h1 | h1
          · exact h1
          · rw [hsfree] at h1
            cases h1
        have hpl : Live a.heap p := (hcok.each p (by rw [hb]; exact List.mem_append_left _ hpm)).1
        have hpb : p ≠ b := fun hc => hnd1.2.2 hpm (by rw [hc]; simp)
        have hps : p ≠ s := fun hc => hnd1.2.2 hpm (by rw [hc]; simp)
        rw [(hm.same_prev hpl hpb hps).2.2.2.2.2]
        exact hpa

/-- The second call `try_merge_blocks(block, block->next, ...)` of `free` keeps the
invariant, and after it the blocks next to `block`, if there are any, are allocated. -/
theorem Inv.merge_next_step {a : THCCachingAllocator} {ch : Nat → Chain} {b : Nat} {sm : Bool}
    (hinv : Inv a ch) (hd : Detached a ch b sm)
    (hN1 : ∀ p, (deref a.heap b).prev = some p → (deref a.heap p).allocated = true) :
    ∃ ch2, Inv (merge_step a sm b (deref a.heap b).next) ch2 ∧
      Detached (merge_step a sm b (deref a.heap b).next) ch2 b sm ∧
      (∀ calls, Geom a.heap ch calls →
        Geom (merge_step a sm b (deref a.heap b).next).heap ch2 calls) ∧
      (∀ p, (deref (merge_step a sm b (deref a.heap b).next).heap b).prev = some p →
        (deref (merge_step a sm b (deref a.heap b).next).heap p).allocated = true) ∧
      (∀ n, (deref (merge_step a sm b (deref a.heap b).next).heap b).next = some n →
        (deref (merge_step a sm b (deref a.heap b).next).heap n).allocated = true) := by
  cases hnext : (deref a.heap b).next with
  | none =>
    rw [merge_step_none]
    exact ⟨ch, hinv, hd, fun _ hg => hg, hN1, fun p hp => by rw [hnext] at hp; cases hp⟩
  | some s =>
    by_cases hs : (deref a.heap s).allocated = true
    · rw [merge_step_allocated sm b hs]
      refine ⟨ch, hinv, hd, fun _ hg => hg, hN1, fun p hp => ?_⟩
      rw [hnext] at hp
      cases hp
      exact hs
    · have hsfree : (deref a.heap s).allocated = false := by simpa using hs
      rw [merge_step_free sm b hsfree]
      obtain ⟨hbmem, hcok, hclosed⟩ := hinv.chain b hd.live
      obtain ⟨pre, post1, hb1⟩ := List.append_of_mem hbmem
      have hn1 := hcok.next_eq hb1
      rw [hnext] at hn1
      obtain ⟨post, hpost⟩ : ∃ post, post1 = s :: post := by
        cases post1 with
        | nil => cases hn1
        | cons y l =>
          have : y = s := by simpa using hn1.symm
          exact ⟨l, by rw [this]⟩
      have hb : (ch b).blocks = pre ++ b :: s :: post := by rw [hb1, hpost]
      have hnd := hcok.nodup
      rw [hb] at hnd
      have hnd1 := List.nodup_append.1 hnd
      have hsmem : s ∈ (ch b).blocks := by rw [hb]; simp
      have hsl : Live a.heap s := (hcok.each s hsmem).1
      have hsb : s ≠ b := by
        intro hc
        subst hc
        exact (List.nodup_cons.1 hnd1.2.1).1 (List.mem_cons_self _ _)
      have hbprev := hcok.prev_eq hb
      have hb2 : (ch b).blocks = (pre ++ [b]) ++ s :: post := by
        rw [hb, List.append_assoc, List.singleton_append]
      have hsnext := hcok.next_eq hb2
      have hnd4 : (s :: post).Nodup := (List.nodup_cons.1 hnd1.2.1).2
      have hbp : (deref a.heap b).prev ≠ some s := by
        rw [hbprev]
        intro hc
        exact hnd1.2.2 (List.mem_of_mem_getLast? hc) (by simp)
      have hsd : (deref a.heap s).next ≠ some b := by
        rw [hsnext]
        intro hc
        exact (List.nodup_cons.1 hnd1.2.1).1 (List.mem_cons_of_mem _ (List.mem_of_mem_head? hc))
      have hss : (deref a.heap s).next ≠ some s := by
        rw [hsnext]
        intro hc
        exact (List.nodup_cons.1 hnd4).1 (List.mem_of_mem_head? hc)
      have hm := merge_next_cells hd.live hsl (Ne.symm hsb) hbp hsd hss
      have hkey := merge_heap_next_key hd.live hsl (Ne.symm hsb) hbp hsd hss
      have hc2 := hcok.merge_next hb hm hd.alloc
      have hcommon := @Inv.merge_common a ch b s sm (merge_heap a.heap b s)
        (deleteBlock (merge_heap a.heap b s) s) { (ch b) with blocks := pre ++ b :: post }
        hinv hd hsmem hsb hsfree hc2
        (by
          intro x
          rw [hb]
          exact mem_remove_after hnd x)
        rfl rfl hm.live
        (fun x hx hxb hxs => hm.same_next hx hxb hxs)
        (by
          intro y hy hyc
          apply hm.other y (fun hc => hyc (hc ▸ hbmem)) (fun hc => hyc (hc ▸ hsmem))
          rw [hsnext]
          intro hc
          apply hyc
          rw [hb]
          exact List.mem_append_right _ (List.mem_cons_of_mem _ (List.mem_cons_of_mem _
            (List.mem_of_mem_head? hc))))
        hkey
        (by rw [hm.dst]; exact hd.alloc)
      refine ⟨_, hcommon.1, hcommon.2.1, ?_, ?_, ?_⟩
      · intro calls hg
        rw [setPool_heap]
        exact hcommon.2.2 calls hg
      · intro p hp
        rw [setPool_heap] at hp ⊢
        rw [hm.dst] at hp
        have hp2 : (deref a.heap b).prev = some p := hp
        have hpa := hN1 p hp2
        have hpm : p ∈ pre := by
          rw [hbprev] at hp2
          exact List.mem_of_mem_getLast? hp2
        have hpl : Live a.heap p := (hcok.each p (by rw [hb]; exact List.mem_append_left _ hpm)).1
        have hpb : p ≠ b := fun hc => hnd1.2.2 hpm (by rw [hc]; simp)
        have hps : p ≠ s := fun hc => hnd1.2.2 hpm (by rw [hc]; simp)
        rw [(hm.same_next hpl hpb hps).2.2.2.2.2]
        exact hpa
      · intro n hn
        rw [setPool_heap] at hn ⊢
        rw [hm.dst] at hn
        have hn2 : (deref a.heap s).next = some n := hn
        obtain ⟨post0, hpost0⟩ : ∃ post0, post = n :: post0 := by
          rw [hsnext] at hn2
          cases post with
          | nil => cases hn2
          | cons y l =>
            have : y = n := by simpa using hn2
            exact ⟨l, by rw [this]⟩
        have hadj : Adj a.heap s n := by
          apply @ChainOK.adj_mid _ _ hcok (pre ++ [b]) post0 s n
          rw [hb2, hpost0]
        have hna : (deref a.heap n).allocated = true := by
          rcases hadj.2.2.2 with h1 | h1
          · rw [hsfree] at h1
            cases h1
          · exact h1
        have hnm : n ∈ post := by rw [hpost0]; simp
        have hnl : Live a.heap n := (hcok.each n (by rw [hb]; simp [hnm])).1
        have hnb : n ≠ b := by
          intro hc
          subst hc
          exact (List.nodup_cons.1 hnd1.2.1).1 (List.mem_cons_of_mem _ hnm)
        have hns : n ≠ s := by
          intro hc
          subst hc
          exact (List.nodup_cons.1 hnd4).1 hnm
        rw [(hm.same_next hnl hnb hns).2.2.2.2.2]
        exact hna

theorem release_heap (a : THCCachingAllocator) (sm : Bool) (b : Nat) :
    (release a sm b).heap = store a.heap b (fun blk => { blk with allocated := false }) := by
  unfold release
  rw [setPool_heap]

theorem release_table (a : THCCachingAllocator) (sm : Bool) (b : Nat) :
    (release a sm b).allocated_blocks = a.allocated_blocks := by
  unfold release
  rw [setPool_allocated_blocks]

theorem release_pool (a : THCCachingAllocator) (sm sm2 : Bool) (b : Nat) :
    getPool sm2 (release a sm b) =
      if sm2 = sm then
        set_insert (store a.heap b (fun blk => { blk with allocated := false })) b (getPool sm a)
      else getPool sm2 a := by
  unfold release
  rw [getPool_setPool, getPool_heap sm2]

/-- The end of `free` keeps the invariant when the blocks next to `block` are allocated. -/
theorem Inv.release {a : THCCachingAllocator} {ch : Nat → Chain} {b : Nat} {sm : Bool}
    (hinv : Inv a ch) (hd : Detached a ch b sm)
    (hN1 : ∀ p, (deref a.heap b).prev = some p → (deref a.heap p).allocated = true)
    (hN2 : ∀ n, (deref a.heap b).next = some n → (deref a.heap n).allocated = true) :
    Inv (THC.release a sm b) ch ∧
      ∀ calls, Geom a.heap ch calls → Geom (THC.release a sm b).heap ch calls := by
  have hcell : ∀ x, x ≠ b →
      deref (store a.heap b (fun blk => { blk with allocated := false })) x = deref a.heap x :=
    fun x hx => deref_store_ne _ _ _ _ hx
  have hself : deref (store a.heap b (fun blk => { blk with allocated := false })) b =
      { deref a.heap b with allocated := false } := deref_store_self hd.live _
  have hnotpool : ∀ sm2, b ∉ getPool sm2 a := by
    intro sm2 hc
    have := ((hinv.pool sm2).mem b hc).2.1
    rw [hd.alloc] at this
    cases this
  have hbase : ∀ sm2, PoolOK (store a.heap b (fun blk => { blk with allocated := false })) sm2
      (getPool sm2 a) := by
    intro sm2
    apply (hinv.pool sm2).frame_pool
    intro x hx
    exact ⟨((hinv.pool sm2).mem x hx).1.store _ _, hcell x (fun hc => hnotpool sm2 (hc ▸ hx))⟩
  refine ⟨⟨?_, ?_, ?_, ?_⟩, ?_⟩
  · rw [release_heap]
    intro x hx
    have hx0 := (Live_store_iff _ _ _ _).1 hx
    obtain ⟨h1, h2, h3⟩ := hinv.chain x hx0
    exact ⟨h1, h2.set_free b hN1 hN2, h3⟩
  · intro sm2
    rw [release_heap, release_pool]
    by_cases hsm : sm2 = sm
    · rw [if_pos hsm, hsm]
      refine ⟨(hbase sm).sorted.set_insert b, ?_⟩
      intro x hx
      rcases mem_set_insert hx with h1 | h1
      · rw [h1, hself]
        refine ⟨hd.live.store _ _, rfl, ?_⟩
        dsimp only
        rw [(hinv.chain b hd.live).2.1.class_eq (hinv.chain b hd.live).1]
        exact hd.cls
      · exact (hbase sm).mem x h1
    · rw [if_neg hsm]
      exact hbase sm2
  · rw [release_table]
    exact hinv.table_keys
  · intro kv hkv
    rw [release_table] at hkv
    rw [release_heap]
    obtain ⟨t1, t2, t3⟩ := hinv.table_mem kv hkv
    rw [hcell _ (hd.notable kv hkv)]
    exact ⟨t1.store _ _, t2, t3⟩
  · intro calls hg
    rw [release_heap]
    exact hg.of_live (fun x hx => (Live_store_iff _ _ _ _).1 hx)

theorem free_zero (a : THCCachingAllocator) (hip : Hip) : free a hip 0 = ⟨hipSuccess, a, hip⟩ := by
  unfold free
  rw [if_pos rfl]

/-- The block of a table entry, once the entry is erased, is ready to be merged. -/
theorem Inv.detach {a : THCCachingAllocator} {ch : Nat → Chain} (hinv : Inv a ch) {ptr b : Nat}
    (hl : a.allocated_blocks.lookup ptr = some b) :
    Inv (table_erase a ptr) ch ∧
    Detached (table_erase a ptr) ch b (decide ((deref a.heap b).size ≤ kSmallAlloc)) := by
  have hmem := mem_of_lookup hl
  obtain ⟨t1, t2, t3⟩ := hinv.table_mem _ hmem
  refine ⟨?_, t1, t2, ?_, ?_⟩
  · refine @Inv.shrink a (table_erase a ptr) ch hinv rfl ?_ ?_
    · intro sm
      unfold table_erase
      rw [getPool_table]
    · exact List.filter_sublist _
  · intro kv hkv hc
    have h1 := List.mem_filter.1 hkv
    have h2 := (hinv.table_mem kv h1.1).2.2
    rw [hc] at h2
    have h3 : kv.1 ≠ ptr := by simpa using h1.2
    exact h3 (h2.symm.trans t3)
  · exact ((hinv.chain b t1).2.1.class_eq (hinv.chain b t1).1).symm

/-- The method `free` keeps the invariant. -/
theorem Good.after_free {a : THCCachingAllocator} {hip : Hip} (hg : Good a hip) (ptr : Nat) :
    Good (free a hip ptr).alloc (free a hip ptr).hip := by
  by_cases hp : ptr = 0
  · rw [hp, free_zero]
    exact hg
  · cases hl : a.allocated_blocks.lookup ptr with
    | none =>
      rw [free_of_not_allocated hp hl]
      exact hg
    | some b =>
      rw [free_steps hip hp hl]
      obtain ⟨ch, hinv, hgeo⟩ := hg
      obtain ⟨hinv0, hd0⟩ := hinv.detach hl
      obtain ⟨ch1, hinv1, hd1, hg1, hN1⟩ := hinv0.merge_prev_step hd0
      have e0 : (table_erase a ptr).heap = a.heap := rfl
      rw [e0] at hinv1 hd1 hg1 hN1
      generalize merge_step (table_erase a ptr) (decide ((deref a.heap b).size ≤ kSmallAlloc)) b
        (deref a.heap b).prev = a1 at hinv1 hd1 hg1 hN1
      obtain ⟨ch2, hinv2, hd2, hg2, hN1b, hN2⟩ := hinv1.merge_next_step hd1 hN1
      generalize merge_step a1 (decide ((deref a.heap b).size ≤ kSmallAlloc)) b
        (deref a1.heap b).next = a2 at hinv2 hd2 hg2 hN1b hN2
      obtain ⟨hinv3, hg3⟩ := hinv2.release hd2 hN1b hN2
      refine ⟨ch2, hinv3, ?_⟩
      intro hs
      obtain ⟨g1, g2⟩ := hgeo hs
      exact ⟨hg3 _ (hg2 _ (hg1 _ g1)), g2⟩

/-- The invariant holds in every reachable state. -/
theorem Reachable.good {a : THCCachingAllocator} {hip : Hip} (hr : Reachable a hip) :
    Good a hip := by
  induction hr with
  | init hip hcalls =>
    refine ⟨fun _ => ⟨0, 0, 0, 0, []⟩, ⟨?_, ?_, ?_, ?_⟩, ?_⟩
    · intro x hx
      obtain ⟨b, hb⟩ := hx
      cases hb
    · intro sm
      refine ⟨?_, ?_⟩
      · cases sm <;> exact List.Pairwise.nil
      · intro x hx
        cases sm <;> cases hx
    · exact List.nodup_nil
    · intro kv hkv
      cases hkv
    · intro _
      refine ⟨⟨?_, ?_, ?_⟩, ?_⟩
      · intro x hx
        obtain ⟨b, hb⟩ := hx
        cases hb
      · intro x hx
        obtain ⟨b, hb⟩ := hx
        cases hb
      · intro x y hx
        obtain ⟨b, hb⟩ := hx
        cases hb
      · rw [hcalls]
        rfl
  | answers device mallocs frees _ ih => exact ih
  | malloc size stream _ _ ih => exact ih.after_malloc size stream
  | free ptr _ ih => exact ih.after_free ptr
  | emptyCache _ ih =>
    obtain ⟨ch, hg⟩ := ih
    exact ⟨ch, hg.after_emptyCache⟩

/-- In a chained heap the block before a live block is live, points back to it, ends where
it starts and has its device and stream. -/
theorem Chained.prev_ok {h : Heap} {ch : Nat → Chain} (hinv : Chained h ch) {x p : Nat}
    (hx : Live h x) (hp : (deref h x).prev = some p) :
    Live h p ∧ Adj h p x ∧ (deref h p).device = (deref h x).device ∧
      (deref h p).stream = (deref h x).stream := by
  obtain ⟨hmem, hc, _⟩ := hinv x hx
  obtain ⟨pre, post, hb⟩ := List.append_of_mem hmem
  have h1 := hc.prev_eq hb
  rw [hp] at h1
  obtain ⟨pre0, hpre0⟩ := List.getLast?_eq_some_iff.1 h1.symm
  have hb2 : (ch x).blocks = pre0 ++ p :: x :: post := by
    rw [hb, hpre0, List.append_assoc, List.singleton_append]
  have hpm : p ∈ (ch x).blocks := by rw [hb2]; simp
  have ho1 := hc.each p hpm
  have ho2 := hc.each x hmem
  exact ⟨ho1.1, hc.adj_mid hb2, ho1.2.1.trans ho2.2.1.symm, ho1.2.2.1.trans ho2.2.2.1.symm⟩

/-- In a chained heap the block after a live block is live, points back to it, starts where
it ends and has its device and stream. -/
theorem Chained.next_ok {h : Heap} {ch : Nat → Chain} (hinv : Chained h ch) {x n : Nat}
    (hx : Live h x) (hn : (deref h x).next = some n) :
    Live h n ∧ Adj h x n ∧ (deref h n).device = (deref h x).device ∧
      (deref h n).stream = (deref h x).stream := by
  obtain ⟨hmem, hc, _⟩ := hinv x hx
  obtain ⟨pre, post, hb⟩ := List.append_of_mem hmem
  have h1 := hc.next_eq hb
  rw [hn] at h1
  obtain ⟨post0, hpost0⟩ : ∃ post0, post = n :: post0 := by
    cases post with
    | nil => cases h1
    | cons y l =>
      have : y = n := by simpa using h1.symm
      exact ⟨l, by rw [this]⟩
  have hb2 : (ch x).blocks = pre ++ x :: n :: post0 := by rw [hb, hpost0]
  have hnm : n ∈ (ch x).blocks := by rw [hb2]; simp
  have ho1 := hc.each n hnm
  have ho2 := hc.each x hmem
  exact ⟨ho1.1, hc.adj_mid hb2, ho1.2.1.trans ho2.2.1.symm, ho1.2.2.1.trans ho2.2.2.1.symm⟩

/-- The links of every live block of a reachable state are consistent. -/
theorem Reachable.links {a : THCCachingAllocator} {hip : Hip} (hr : Reachable a hip)
    (B : Nat) (blk : Block) (hB : a.heap[B]? = some (some blk)) :
    (∀ p, blk.prev = some p → ∃ pb, a.heap[p]? = some (some pb) ∧ pb.next = some B ∧
      pb.ptr + pb.size = blk.ptr ∧ pb.device = blk.device ∧ pb.stream = blk.stream) ∧
    (∀ n, blk.next = some n → ∃ nb, a.heap[n]? = some (some nb) ∧ nb.prev = some B ∧
      blk.ptr + blk.size = nb.ptr ∧ nb.device = blk.device ∧ nb.stream = blk.stream) := by
  obtain ⟨ch, hinv, _⟩ := hr.good
  have hl : Live a.heap B := ⟨blk, hB⟩
  have hd : deref a.heap B = blk := deref_of_live hB
  constructor
  · intro p hp
    obtain ⟨h1, h2, h3, h4⟩ := hinv.chain.prev_ok hl (by rw [hd]; exact hp)
    rw [hd] at h3 h4
    refine ⟨deref a.heap p, h1.deref, h2.1, ?_, h3, h4⟩
    have := h2.2.2.1
    rw [hd] at this
    exact this
  · intro n hn
    obtain ⟨h1, h2, h3, h4⟩ := hinv.chain.next_ok hl (by rw [hd]; exact hn)
    rw [hd] at h3 h4
    refine ⟨deref a.heap n, h1.deref, h2.2.1, ?_, h3, h4⟩
    have := h2.2.2.1
    rw [hd] at this
    exact this

/-- In a reachable state the blocks of the pools are live and free, and the blocks next to
a block of a pool are live and allocated. -/
theorem Reachable.free_neighbours {a : THCCachingAllocator} {hip : Hip}
    (hr : Reachable a hip) (B : Nat) (hB : B ∈ a.large_blocks ∨ B ∈ a.small_blocks) :
    (∃ blk, a.heap[B]? = some (some blk) ∧ blk.allocated = false) ∧
    (∀ p, (deref a.heap B).prev = some p →
      ∃ pb, a.heap[p]? = some (some pb) ∧ pb.allocated = true) ∧
    (∀ n, (deref a.heap B).next = some n →
      ∃ nb, a.heap[n]? = some (some nb) ∧ nb.allocated = true) := by
  obtain ⟨ch, hinv, _⟩ := hr.good
  have hm : Live a.heap B ∧ (deref a.heap B).allocated = false := by
    rcases hB with h1 | h1
    · have := (hinv.pool true).mem B h1
      exact ⟨this.1, this.2.1⟩
    · have := (hinv.pool false).mem B h1
      exact ⟨this.1, this.2.1⟩
  refine ⟨⟨deref a.heap B, hm.1.deref, hm.2⟩, ?_, ?_⟩
  · intro p hp
    obtain ⟨h1, h2, _⟩ := hinv.chain.prev_ok hm.1 hp
    refine ⟨deref a.heap p, h1.deref, ?_⟩
    rcases h2.2.2.2 with h3 | h3
    · exact h3
    · rw [hm.2] at h3
      cases h3
  · intro n hn
    obtain ⟨h1, h2, _⟩ := hinv.chain.next_ok hm.1 hn
    refine ⟨deref a.heap n, h1.deref, ?_⟩
    rcases h2.2.2.2 with h3 | h3
    · rw [hm.2] at h3
      cases h3
    · exact h3

theorem chain_follow {h : Heap} {c : Chain} (hc : ChainOK h c) (xs : List Nat) :
    ∀ (pre : List Nat) (x : Nat) (L : List Nat), c.blocks = pre ++ x :: L →
      List.Chain' (fun x y => (deref h x).next = some y) (x :: xs) →
      (∀ l ∈ (x :: xs).getLast?, (deref h l).next = none) → L = xs := by
  induction xs with
  | nil =>
    intro pre x L hb _ hlast
    have h1 := hc.next_eq hb
    rw [(hlast x rfl)] at h1
    cases L with
    | nil => rfl
    | cons y l => cases h1
  | cons y xs ih =>
    intro pre x L hb hch hlast
    rw [List.chain'_cons] at hch
    have h1 := hc.next_eq hb
    rw [hch.1] at h1
    cases L with
    | nil => cases h1
    | cons z L2 =>
      have hz : z = y := by simpa using h1.symm
      subst hz
      have := ih (pre ++ [x]) z L2 (by rw [hb, List.append_assoc, List.singleton_append]) hch.2
        (by
          intro l hl
          apply hlast l
          rw [List.getLast?_cons_cons]
          exact hl)
      rw [this]

/-- A whole sibling chain of a chained heap is the chain of its first block. -/
theorem Chained.sibling_chain {h : Heap} {ch : Nat → Chain} (hinv : Chained h ch) {x : Nat}
    {xs : List Nat} (hs : IsSiblingChain h (x :: xs)) : (ch x).blocks = x :: xs := by
  obtain ⟨hl, hch, hfirst, hlast⟩ := hs
  have hx : Live h x := hl x (List.mem_cons_self _ _)
  obtain ⟨hmem, hc, _⟩ := hinv x hx
  have hhead := hc.head_of_prev_none hmem (hfirst x rfl)
  cases hb : (ch x).blocks with
  | nil => rw [hb] at hmem; cases hmem
  | cons z L =>
    rw [hb] at hhead
    have hz : z = x := by simpa using hhead
    subst hz
    have := chain_follow hc xs [] z L (by rw [hb]; rfl) hch hlast
    rw [this]

theorem chain_sum_aux {h : Heap} (l : List Nat) :
    ∀ x, List.Chain' (Adj h) (x :: l) → ∀ z ∈ (x :: l).getLast?,
      (deref h z).ptr + (deref h z).size =
        (deref h x).ptr + ((x :: l).map (fun y => (deref h y).size)).sum := by
  induction l with
  | nil =>
    intro x _ z hz
    have : z = x := by simpa using hz.symm
    subst this
    simp
  | cons y l ih =>
    intro x hch z hz
    rw [List.chain'_cons] at hch
    rw [List.getLast?_cons_cons] at hz
    have h1 := ih y hch.2 z hz
    have h2 := hch.1.2.2.1
    simp only [List.map_cons, List.sum_cons] at h1 ⊢
    omega

/-- The sizes of the blocks of a chain add up to the size of its region. -/
theorem ChainOK.sum_sizes {h : Heap} {c : Chain} (hc : ChainOK h c) (hne : c.blocks ≠ []) :
    (c.blocks.map (fun y => (deref h y).size)).sum = c.total := by
  cases hb : c.blocks with
  | nil => exact absurd hb hne
  | cons x l =>
    have hadj := hc.adj
    rw [hb] at hadj
    obtain ⟨z, hz⟩ : ∃ z, (x :: l).getLast? = some z := by
      cases hl : (x :: l).getLast? with
      | none => exact absurd (List.getLast?_eq_none_iff.1 hl) (List.cons_ne_nil _ _)
      | some z => exact ⟨z, rfl⟩
    have h1 := chain_sum_aux l x hadj z hz
    have h2 := hc.first x (by rw [hb]; rfl)
    have h3 := hc.last z (by rw [hb]; exact hz)
    rw [h2.2, h3.2] at h1
    omega

/-- The chains of a reachable state against the record of the runtime, when the record
shows that the primitive allocator behaved. -/
theorem Reachable.chains {a : THCCachingAllocator} {hip : Hip} (hr : Reachable a hip)
    (hs : hipSane hip.calls = true) :
    (∀ x xs, IsSiblingChain a.heap (x :: xs) →
      ((deref a.heap x).ptr, ((x :: xs).map (fun y => (deref a.heap y).size)).sum) ∈
        hipLive hip.calls) ∧
    (∀ (b : Nat) (blk : Block), a.heap[b]? = some (some blk) → blk.prev = none →
      blk.next = none →
      (blk.ptr, blk.size) ∈ hipLive hip.calls) ∧
    hipFreesValid hip.calls = true := by
  obtain ⟨ch, hinv, hgeo⟩ := hr.good
  obtain ⟨g1, g2⟩ := hgeo hs
  refine ⟨?_, ?_, g2⟩
  · intro x xs hsc
    have hx : Live a.heap x := hsc.1 x (List.mem_cons_self _ _)
    have hb := hinv.chain.sibling_chain hsc
    obtain ⟨hmem, hc, _⟩ := hinv.chain x hx
    have hsum := hc.sum_sizes (by rw [hb]; exact List.cons_ne_nil _ _)
    rw [hb] at hsum
    have hfirst := hc.first x (by rw [hb]; rfl)
    rw [hsum, hfirst.2]
    exact g1.region x hx
  · intro b blk hb hp hn
    have hl : Live a.heap b := ⟨blk, hb⟩
    have hd : deref a.heap b = blk := deref_of_live hb
    have hroot : (deref a.heap b).root := by
      rw [hd]
      exact ⟨hp, hn⟩
    have hreg := hinv.chain.root_region hl hroot
    rw [hd] at hreg
    rw [hreg.1, hreg.2]
    exact g1.region b hl

theorem afterFirst_reachable : Reachable afterFirst.alloc afterFirst.hip :=
  Reachable.malloc 200 7 (Reachable.init hipTwo rfl) (by decide)

theorem emptiedTwo_reachable : Reachable emptiedTwo.alloc emptiedTwo.hip :=
  Reachable.emptyCache (Reachable.free 8388608 (Reachable.malloc 100 8 afterFirst_reachable
    (by decide)))

/-- C17: in every state reachable from the empty allocator by `malloc`, `free` and
`emptyCache` (under any answers of the runtime), every live block `B` whose `prev` is not
null has a live `prev` with `prev->next == B`, `prev->ptr + prev->size == B->ptr` and the
device and stream of `B`; and symmetrically for `next`. -/
theorem sibling_links_consistent (a : THCCachingAllocator) (hip : Hip) (hr : Reachable a hip)
    (B : Nat) (blk : Block) (hB : a.heap[B]? = some (some blk)) :
    (∀ p, blk.prev = some p → ∃ pb, a.heap[p]? = some (some pb) ∧ pb.next = some B ∧
      pb.ptr + pb.size = blk.ptr ∧ pb.device = blk.device ∧ pb.stream = blk.stream) ∧
    (∀ n, blk.next = some n → ∃ nb, a.heap[n]? = some (some nb) ∧ nb.prev = some B ∧
      blk.ptr + blk.size = nb.ptr ∧ nb.device = blk.device ∧ nb.stream = blk.stream) :=
  hr.links B blk hB

theorem sibling_links_consistent_witness :
    afterFirst.alloc.heap[0]? = some (some ⟨0, 7, 1048064, 4608, false, some 1, none⟩) ∧
    ∃ pb, afterFirst.alloc.heap[1]? = some (some pb) ∧ pb.next = some 0 ∧
      pb.ptr + pb.size = 4608 ∧ pb.device = 0 ∧ pb.stream = 7 :=
  ⟨by decide, (sibling_links_consistent afterFirst.alloc afterFirst.hip afterFirst_reachable 0
    ⟨0, 7, 1048064, 4608, false, some 1, none⟩ (by decide)).1 1 rfl⟩

/-- C18: in every state reachable from the empty allocator by `malloc`, `free` and
`emptyCache`, every block of either pool is a live block with the in-use flag clear, and
its `prev` and its `next`, when not null, are live blocks with the in-use flag set: no two
sibling-adjacent blocks are both free. -/
theorem no_adjacent_free (a : THCCachingAllocator) (hip : Hip) (hr : Reachable a hip)
    (B : Nat) (hB : B ∈ a.large_blocks ∨ B ∈ a.small_blocks) :
    (∃ blk, a.heap[B]? = some (some blk) ∧ blk.allocated = false) ∧
    (∀ p, (deref a.heap B).prev = some p →
      ∃ pb, a.heap[p]? = some (some pb) ∧ pb.allocated = true) ∧
    (∀ n, (deref a.heap B).next = some n →
      ∃ nb, a.heap[n]? = some (some nb) ∧ nb.allocated = true) :=
  hr.free_neighbours B hB

theorem no_adjacent_free_witness :
    0 ∈ afterFirst.alloc.large_blocks ∧ (deref afterFirst.alloc.heap 0).prev = some 1 ∧
    ∃ pb, afterFirst.alloc.heap[1]? = some (some pb) ∧ pb.allocated = true :=
  ⟨by decide, by decide,
    (no_adjacent_free afterFirst.alloc afterFirst.hip afterFirst_reachable 0
      (Or.inl (by decide))).2.1 1 (by decide)⟩

/-- C19: in every reachable state whose runtime record is sane (the primitive allocator
returned non-null, non-overlapping regions), every sibling chain, read from the block with
null `prev` along `next` to the block with null `next`, starts at the address of a region
that `hipMalloc` returned and that is still live, and its sizes sum to the byte count of
that `hipMalloc`; a block with both links null is exactly one live region; and every
`hipFree` call of the record was passed the address of a region live at that moment. -/
theorem chain_covers_allocation (a : THCCachingAllocator) (hip : Hip) (hr : Reachable a hip)
    (hs : hipSane hip.calls = true) :
    (∀ x xs, IsSiblingChain a.heap (x :: xs) →
      ((deref a.heap x).ptr, ((x :: xs).map (fun y => (deref a.heap y).size)).sum) ∈
        hipLive hip.calls) ∧
    (∀ (b : Nat) (blk : Block), a.heap[b]? = some (some blk) → blk.prev = none →
      blk.next = none → (blk.ptr, blk.size) ∈ hipLive hip.calls) ∧
    hipFreesValid hip.calls = true :=
  hr.chains hs

theorem chain_covers_allocation_witness :
    hipSane emptiedTwo.hip.calls = true ∧
    IsSiblingChain emptiedTwo.alloc.heap [1, 0] ∧
    emptiedTwo.hip.calls.head? = some (HipCall.free 8388608 hipSuccess) ∧
    hipLive emptiedTwo.hip.calls = [(4096, 1048576)] ∧
    ((deref emptiedTwo.alloc.heap 1).ptr,
      ([1, 0].map (fun y => (deref emptiedTwo.alloc.heap y).size)).sum) ∈
        hipLive emptiedTwo.hip.calls :=
  ⟨by decide,
    ⟨by decide, by simp only [List.chain'_cons, List.chain'_singleton, and_true]; decide,
      fun x hx => by simp at hx; subst hx; decide,
      fun x hx => by simp at hx; subst hx; decide⟩,
    by decide, by decide,
    (chain_covers_allocation emptiedTwo.alloc emptiedTwo.hip emptiedTwo_reachable
      (by decide)).1 1 [0]
      ⟨by decide, by simp only [List.chain'_cons, List.chain'_singleton, and_true]; decide,
        fun x hx => by simp at hx; subst hx; decide,
        fun x hx => by simp at hx; subst hx; decide⟩⟩

/-! ## A failing `hipFree`, and the `free` of a block between two free blocks -/

theorem roots_congr {h h2 : Heap} {l : List Nat} (hc : ∀ x ∈ l, deref h2 x = deref h x) :
    roots h2 l = roots h l := by
  unfold roots
  exact List.filter_congr (fun x hx => by rw [hc x hx])

theorem splits_congr {h h2 : Heap} {l : List Nat} (hc : ∀ x ∈ l, deref h2 x = deref h x) :
    splits h2 l = splits h l := by
  unfold splits
  exact List.filter_congr (fun x hx => by rw [hc x hx])

theorem mem_roots {h : Heap} {l : List Nat} {x : Nat} :
    x ∈ roots h l ↔ x ∈ l ∧ (deref h x).root := by
  unfold roots
  simp [List.mem_filter]

theorem mem_splits {h : Heap} {l : List Nat} {x : Nat} :
    x ∈ splits h l ↔ x ∈ l ∧ ¬ (deref h x).root := by
  unfold splits
  simp [List.mem_filter]

theorem freed_calls_congr {h h2 : Heap} {l : List Nat}
    (hc : ∀ x ∈ l, deref h2 x = deref h x) : freed_calls h2 l = freed_calls h l := by
  unfold freed_calls
  rw [roots_congr hc]
  congr 1
  apply List.map_congr_left
  intro x hx
  rw [hc x (mem_roots.1 hx).1]

theorem roots_cons_root {h : Heap} {x : Nat} (l : List Nat) (hx : (deref h x).root) :
    roots h (x :: l) = x :: roots h l := by
  unfold roots
  rw [List.filter_cons_of_pos (by simpa using hx)]

theorem roots_cons_split {h : Heap} {x : Nat} (l : List Nat) (hx : ¬ (deref h x).root) :
    roots h (x :: l) = roots h l := by
  unfold roots
  rw [List.filter_cons_of_neg (by simpa using hx)]

theorem splits_cons_root {h : Heap} {x : Nat} (l : List Nat) (hx : (deref h x).root) :
    splits h (x :: l) = splits h l := by
  unfold splits
  rw [List.filter_cons_of_neg (by simpa using hx)]

theorem splits_cons_split {h : Heap} {x : Nat} (l : List Nat) (hx : ¬ (deref h x).root) :
    splits h (x :: l) = x :: splits h l := by
  unfold splits
  rw [List.filter_cons_of_pos (by simpa using hx)]

theorem freed_calls_cons_root {h : Heap} {x : Nat} (l : List Nat) (hx : (deref h x).root) :
    freed_calls h (x :: l) = freed_calls h l ++ [HipCall.free (deref h x).ptr hipSuccess] := by
  unfold freed_calls
  rw [roots_cons_root l hx, List.map_cons, List.reverse_cons]

theorem freed_calls_cons_split {h : Heap} {x : Nat} (l : List Nat) (hx : ¬ (deref h x).root) :
    freed_calls h (x :: l) = freed_calls h l := by
  unfold freed_calls
  rw [roots_cons_split l hx]

/-- The walk of `free_blocks` over a duplicate-free range, whatever the runtime answers. -/
theorem free_blocks_loop_trace (l : List Nat) :
    ∀ (h : Heap) (hip : Hip), l.Nodup →
      ∃ done tail, l = done ++ tail ∧
        (free_blocks_loop l h hip).blocks = splits h done ++ tail ∧
        Trace h hip done tail (free_blocks_loop l h hip) := by
  induction l with
  | nil =>
    intro h hip _
    refine ⟨[], [], rfl, rfl, ?_, ?_, ?_, ?_⟩
    · intro q hq; cases hq
    · intro q _; rfl
    · intro _; exact ⟨rfl, rfl⟩
    · intro hc; exact absurd rfl hc
  | cons x rest ih =>
    intro h hip hnd
    have hxrest : x ∉ rest := (List.nodup_cons.1 hnd).1
    have hndrest : rest.Nodup := (List.nodup_cons.1 hnd).2
    unfold free_blocks_loop
    split
    · rename_i hroot
      split
      · rename_i herr
        refine ⟨[], x :: rest, rfl, rfl, ?_, ?_, ?_, ?_⟩
        · intro q hq; cases hq
        · intro q _; rfl
        · intro hc; exact absurd hc herr
        · intro _
          exact ⟨x, rest, rfl, hroot, hipFree_calls hip _⟩
      · rename_i herr
        have hok : (hipFree hip (deref h x).ptr).1 = hipSuccess := by
          by_contra hc; exact herr hc
        obtain ⟨done, tail, hl, hblocks, htr⟩ :=
          ih (deleteBlock h x) (hipFree hip (deref h x).ptr).2 hndrest
        have hcong : ∀ y ∈ done, deref (deleteBlock h x) y = deref h y := by
          intro y hy
          have hyr : y ∈ rest := by rw [hl]; exact List.mem_append_left _ hy
          exact deref_deleteBlock_ne h (fun hc => hxrest (hc ▸ hyr))
        have hcalls : (hipFree hip (deref h x).ptr).2.calls =
            HipCall.free (deref h x).ptr hipSuccess :: hip.calls := by
          rw [hipFree_calls, hok]
        refine ⟨x :: done, tail, by rw [hl]; rfl, ?_, ?_, ?_, ?_, ?_⟩
        · rw [hblocks, splits_cons_root done hroot, splits_congr hcong]
        · intro q hq hlt
          rw [roots_cons_root done hroot] at hq
          rcases List.mem_cons.1 hq with hc | hc
          · subst hc
            have hnot : q ∉ roots (deleteBlock h q) done := by
              intro hm
              have : q ∈ rest := by rw [hl]; exact List.mem_append_left _ (mem_roots.1 hm).1
              exact hxrest this
            rw [htr.cell q hnot, deleteBlock_getElem, if_pos rfl,
              List.getElem?_eq_getElem hlt]
            rfl
          · rw [← roots_congr hcong] at hc
            exact htr.gone q hc (by rw [deleteBlock_length]; exact hlt)
        · intro q hq
          rw [roots_cons_root done hroot] at hq
          have hne : q ≠ x := fun hc => hq (hc ▸ List.mem_cons_self _ _)
          have hq2 : q ∉ roots (deleteBlock h x) done := by
            rw [roots_congr hcong]
            exact fun hc => hq (List.mem_cons_of_mem _ hc)
          rw [htr.cell q hq2, deleteBlock_getElem_ne h hne]
        · intro he
          obtain ⟨ht, hc⟩ := htr.ok he
          refine ⟨ht, ?_⟩
          rw [hc, hcalls, freed_calls_congr hcong, freed_calls_cons_root done hroot,
            List.append_assoc]
          rfl
        · intro he
          obtain ⟨b, rest2, ht, hb, hc⟩ := htr.failed he
          have hbne : b ≠ x := by
            intro hc2
            have : b ∈ rest := by rw [hl, ht]; simp
            exact hxrest (hc2 ▸ this)
          rw [deref_deleteBlock_ne h hbne] at hb hc
          refine ⟨b, rest2, ht, hb, ?_⟩
          rw [hc, hcalls, freed_calls_congr hcong, freed_calls_cons_root done hroot,
            List.append_assoc]
          rfl
    · rename_i hroot
      obtain ⟨done, tail, hl, hblocks, htr⟩ := ih h hip hndrest
      refine ⟨x :: done, tail, by rw [hl]; rfl, ?_, ?_, ?_, ?_, ?_⟩
      · show x :: (free_blocks_loop rest h hip).blocks = _
        rw [hblocks, splits_cons_split done hroot]
        rfl
      · intro q hq hlt
        rw [roots_cons_split done hroot] at hq
        exact htr.gone q hq hlt
      · intro q hq
        rw [roots_cons_split done hroot] at hq
        exact htr.cell q hq
      · intro he
        rw [freed_calls_cons_split done hroot]
        exact htr.ok he
      · intro he
        rw [freed_calls_cons_split done hroot]
        exact htr.failed he

theorem filter_gone (h : Heap) (done A C : List Nat) (hA : ∀ x ∈ A, x ∉ done)
    (hC : ∀ x ∈ C, x ∉ done) :
    (A ++ done ++ C).filter (fun x => decide (x ∉ roots h done)) = A ++ splits h done ++ C := by
  rw [List.filter_append, List.filter_append]
  have h1 : A.filter (fun x => decide (x ∉ roots h done)) = A :=
    List.filter_eq_self.2 (fun x hx => by
      simpa using fun hc => hA x hx (mem_roots.1 hc).1)
  have h2 : C.filter (fun x => decide (x ∉ roots h done)) = C :=
    List.filter_eq_self.2 (fun x hx => by
      simpa using fun hc => hC x hx (mem_roots.1 hc).1)
  have h3 : done.filter (fun x => decide (x ∉ roots h done)) = splits h done := by
    unfold splits
    apply List.filter_congr
    intro x hx
    by_cases hr : (deref h x).root
    · have : x ∈ roots h done := mem_roots.2 ⟨hx, hr⟩
      simp [this, hr]
    · have : x ∉ roots h done := fun hc => hr (mem_roots.1 hc).2
      simp [this, hr]
  rw [h1, h2, h3]

theorem filter_gone_apart (h : Heap) (done A : List Nat) (hA : ∀ x ∈ A, x ∉ done) :
    A.filter (fun x => decide (x ∉ roots h done)) = A :=
  List.filter_eq_self.2 (fun x hx => by
    simpa using fun hc => hA x hx (mem_roots.1 hc).1)

/-- The walk of `free_blocks` over the range between `it` and `end` of a duplicate-free
set: the set loses the unsplit blocks the walk went over and nothing else. -/
theorem free_blocks_trace (h : Heap) (hip : Hip) (pool it endIt : List Nat)
    (hit : it <:+ pool) (hnd : pool.Nodup) :
    ∃ done tail, it.take (it.length - endIt.length) = done ++ tail ∧
      (free_blocks h hip pool it endIt).blocks =
        pool.filter (fun x => decide (x ∉ roots h done)) ∧
      (∀ q ∈ tail, q ∉ done) ∧
      Trace h hip done tail (free_blocks h hip pool it endIt) := by
  have hsplit := suffix_split hit (it.length - endIt.length)
  have hsubl : (it.take (it.length - endIt.length)).Sublist pool :=
    (List.take_sublist _ _).trans hit.sublist
  obtain ⟨done, tail, hl, hblocks, htr⟩ :=
    free_blocks_loop_trace (it.take (it.length - endIt.length)) h hip
      (List.Nodup.sublist hsubl hnd)
  rw [hl] at hsplit
  have hb : (free_blocks h hip pool it endIt).blocks =
      pool.take (pool.length - it.length) ++ (splits h done ++ tail) ++
        it.drop (it.length - endIt.length) := by
    rw [← hblocks]
    rfl
  generalize pool.take (pool.length - it.length) = pre at hsplit hb
  generalize it.drop (it.length - endIt.length) = post at hsplit hb
  have hnd2 := hnd
  rw [hsplit] at hnd2
  have h2 := (List.nodup_append.1 hnd2).2.1
  have h3 := List.nodup_append.1 h2
  refine ⟨done, tail, hl, ?_, ?_, ⟨htr.gone, htr.cell, htr.ok, htr.failed⟩⟩
  · rw [hb]
    have hrhs : pool.filter (fun x => decide (x ∉ roots h done)) =
        (pre ++ done ++ (tail ++ post)).filter (fun x => decide (x ∉ roots h done)) := by
      rw [hsplit]
      simp only [List.append_assoc]
    rw [hrhs, filter_gone]
    · simp only [List.append_assoc]
    · intro x hx hd
      exact (List.nodup_append.1 hnd2).2.2 hx
        (List.mem_append_left _ (List.mem_append_left _ hd))
    · intro x hx hd
      rcases List.mem_append.1 hx with hc | hc
      · exact (List.nodup_append.1 h3.1).2.2 hd hc
      · exact h3.2.2 (List.mem_append_left _ hd) hc
  · intro q hq hd
    exact (List.nodup_append.1 h3.1).2.2 hd hq

theorem take_suffix_subset {α : Type} {it pool : List α} (hit : it <:+ pool) (n : Nat) :
    ∀ x ∈ it.take n, x ∈ pool :=
  fun _ hx => hit.subset ((List.take_sublist _ _).subset hx)

/-- The first walk of a sweep fails: the second set is not visited. -/
theorem sweep_first (a : THCCachingAllocator) (hip : Hip) (it endIt X : List Nat)
    (hp : PoolsApart a) (hit : it <:+ a.large_blocks) (hX : ∀ x ∈ X, x ∈ a.small_blocks)
    (herr : (free_blocks a.heap hip a.large_blocks it endIt).err ≠ hipSuccess) :
    ∃ done tail, it.take (it.length - endIt.length) ++ X = done ++ tail ∧
      Swept a hip done tail
        ⟨(free_blocks a.heap hip a.large_blocks it endIt).err,
          { a with heap := (free_blocks a.heap hip a.large_blocks it endIt).heap,
                   large_blocks := (free_blocks a.heap hip a.large_blocks it endIt).blocks },
          (free_blocks a.heap hip a.large_blocks it endIt).hip⟩ := by
  obtain ⟨done, tail, hl, hblocks, hapart, htr⟩ :=
    free_blocks_trace a.heap hip a.large_blocks it endIt hit hp.large_nodup
  have hdone : ∀ x ∈ done, x ∈ a.large_blocks := by
    intro x hx
    exact take_suffix_subset hit _ x (by rw [hl]; exact List.mem_append_left _ hx)
  refine ⟨done, tail ++ X, by rw [hl, List.append_assoc], hblocks, ?_, rfl, ?_, htr.cell, ?_,
    ?_, ?_⟩
  · exact (filter_gone_apart a.heap done a.small_blocks
      (fun x hx hd => hp.disjoint x (hdone x hd) hx)).symm
  · intro q hq
    exact htr.gone q hq (hp.large_lt q (hdone q (mem_roots.1 hq).1))
  · intro q hq
    rcases List.mem_append.1 hq with hc | hc
    · exact hapart q hc
    · exact fun hd => hp.disjoint q (hdone q hd) (hX q hc)
  · intro hc
    exact absurd hc herr
  · intro _
    obtain ⟨b, rest, ht, hb, hc⟩ := htr.failed herr
    exact ⟨b, rest ++ X, by rw [ht]; rfl, hb, hc, fun _ => rfl⟩

theorem roots_append (h : Heap) (l1 l2 : List Nat) :
    roots h (l1 ++ l2) = roots h l1 ++ roots h l2 := by
  unfold roots
  exact List.filter_append _ _

theorem freed_calls_append (h : Heap) (l1 l2 : List Nat) :
    freed_calls h (l1 ++ l2) = freed_calls h l2 ++ freed_calls h l1 := by
  unfold freed_calls
  rw [roots_append, List.map_append, List.reverse_append]

/-- The first walk of a sweep ends well: the second walk goes on from the heap and the
runtime it left. -/
theorem sweep_second (a : THCCachingAllocator) (hip : Hip) (it1 end1 it2 end2 : List Nat)
    (hp : PoolsApart a) (hit1 : it1 <:+ a.large_blocks) (hit2 : it2 <:+ a.small_blocks)
    (hok : (free_blocks a.heap hip a.large_blocks it1 end1).err = hipSuccess) :
    ∃ done tail, it1.take (it1.length - end1.length) ++ it2.take (it2.length - end2.length) =
        done ++ tail ∧
      Swept a hip done tail
        ⟨(free_blocks (free_blocks a.heap hip a.large_blocks it1 end1).heap
            (free_blocks a.heap hip a.large_blocks it1 end1).hip a.small_blocks it2 end2).err,
          { a with
            heap := (free_blocks (free_blocks a.heap hip a.large_blocks it1 end1).heap
              (free_blocks a.heap hip a.large_blocks it1 end1).hip a.small_blocks it2 end2).heap,
            large_blocks := (free_blocks a.heap hip a.large_blocks it1 end1).blocks,
            small_blocks := (free_blocks (free_blocks a.heap hip a.large_blocks it1 end1).heap
              (free_blocks a.heap hip a.large_blocks it1 end1).hip a.small_blocks it2 end2).blocks },
          (free_blocks (free_blocks a.heap hip a.large_blocks it1 end1).heap
            (free_blocks a.heap hip a.large_blocks it1 end1).hip a.small_blocks it2 end2).hip⟩ := by
  obtain ⟨done1, tail1, hl1, hb1, _, htr1⟩ :=
    free_blocks_trace a.heap hip a.large_blocks it1 end1 hit1 hp.large_nodup
  obtain ⟨ht1, hc1⟩ := htr1.ok hok
  subst ht1
  rw [List.append_nil] at hl1
  have hlen : (free_blocks a.heap hip a.large_blocks it1 end1).heap.length = a.heap.length :=
    free_blocks_length _ _ _ _ _
  generalize free_blocks a.heap hip a.large_blocks it1 end1 = r1 at hb1 htr1 hc1 hlen ⊢
  obtain ⟨done2, tail2, hl2, hb2, hap2, htr2⟩ :=
    free_blocks_trace r1.heap r1.hip a.small_blocks it2 end2 hit2 hp.small_nodup
  generalize free_blocks r1.heap r1.hip a.small_blocks it2 end2 = r2 at hb2 htr2 ⊢
  have hdone1 : ∀ x ∈ done1, x ∈ a.large_blocks := by
    intro x hx
    exact take_suffix_subset hit1 _ x (by rw [hl1]; exact hx)
  have hrange2 : ∀ x ∈ done2 ++ tail2, x ∈ a.small_blocks := by
    intro x hx
    exact take_suffix_subset hit2 _ x (by rw [hl2]; exact hx)
  have hsmall1 : ∀ x ∈ a.small_blocks, x ∉ roots a.heap done1 :=
    fun x hx hc => hp.disjoint x (hdone1 x (mem_roots.1 hc).1) hx
  have hcell : ∀ x ∈ a.small_blocks, deref r1.heap x = deref a.heap x :=
    fun x hx => deref_congr (htr1.cell x (hsmall1 x hx))
  have hcong2 : ∀ x ∈ done2, deref r1.heap x = deref a.heap x :=
    fun x hx => hcell x (hrange2 x (List.mem_append_left _ hx))
  have hroots2 : roots r1.heap done2 = roots a.heap done2 := roots_congr hcong2
  have hlarge2 : ∀ x ∈ a.large_blocks, x ∉ roots a.heap done2 :=
    fun x hx hc => hp.disjoint x hx (hrange2 x (List.mem_append_left _ (mem_roots.1 hc).1))
  refine ⟨done1 ++ done2, tail2, by rw [hl1, hl2, List.append_assoc], ?_, ?_, rfl, ?_, ?_, ?_,
    ?_, ?_⟩
  · show r1.blocks = _
    rw [hb1]
    apply List.filter_congr
    intro x hx
    rw [roots_append]
    have := hlarge2 x hx
    simp [List.mem_append, this]
  · show r2.blocks = _
    rw [hb2, hroots2]
    apply List.filter_congr
    intro x hx
    rw [roots_append]
    have := hsmall1 x hx
    simp [List.mem_append, this]
  · intro q hq
    show r2.heap[q]? = some none
    rw [roots_append] at hq
    rcases List.mem_append.1 hq with hc | hc
    · have hql : q ∈ a.large_blocks := hdone1 q (mem_roots.1 hc).1
      rw [htr2.cell q (by rw [hroots2]; exact hlarge2 q hql)]
      exact htr1.gone q hc (hp.large_lt q hql)
    · refine htr2.gone q (by rw [hroots2]; exact hc) ?_
      rw [hlen]
      exact hp.small_lt q (hrange2 q (List.mem_append_left _ (mem_roots.1 hc).1))
  · intro q hq
    show r2.heap[q]? = a.heap[q]?
    rw [roots_append] at hq
    rw [htr2.cell q (by rw [hroots2]; exact fun hc => hq (List.mem_append_right _ hc)),
      htr1.cell q (fun hc => hq (List.mem_append_left _ hc))]
  · intro q hq hd
    rcases List.mem_append.1 hd with hc | hc
    · exact hp.disjoint q (hdone1 q hc) (hrange2 q (List.mem_append_right _ hq))
    · exact hap2 q hq hc
  · intro he
    obtain ⟨ht, hc⟩ := htr2.ok he
    refine ⟨ht, ?_⟩
    show r2.hip.calls = _
    rw [hc, freed_calls_congr hcong2, hc1, freed_calls_append, List.append_assoc]
  · intro he
    obtain ⟨b, rest, ht, hb, hc⟩ := htr2.failed he
    have hbs : b ∈ a.small_blocks := hrange2 b (by rw [ht]; simp)
    rw [hcell b hbs] at hb hc
    refine ⟨b, rest, ht, hb, ?_, fun hbl => absurd hbs (hp.disjoint b hbl)⟩
    show r2.hip.calls = _
    rw [hc, freed_calls_congr hcong2, hc1, freed_calls_append, List.append_assoc]

theorem Swept.congr {a : THCCachingAllocator} {hip : Hip} {done tail : List Nat}
    {r r2 : Outcome} (hs : Swept a hip done tail r) (he : r2.err = r.err)
    (ha : r2.alloc = r.alloc) (hh : r2.hip = r.hip) : Swept a hip done tail r2 := by
  cases r
  cases r2
  dsimp only at he ha hh
  subst he ha hh
  exact hs

/-- The two walks of `emptyCache`, whatever the runtime answers. -/
theorem emptyCache_swept (a : THCCachingAllocator) (hip : Hip) (hp : PoolsApart a) :
    ∃ done tail, a.large_blocks ++ a.small_blocks = done ++ tail ∧
      Swept a hip done tail (emptyCache a hip) := by
  unfold emptyCache
  dsimp only
  by_cases h1 : (free_blocks a.heap hip a.large_blocks a.large_blocks []).err = hipSuccess
  · rw [if_neg (by simpa using h1)]
    obtain ⟨done, tail, hl, hs⟩ := sweep_second a hip a.large_blocks [] a.small_blocks []
      hp (List.suffix_refl _) (List.suffix_refl _) h1
    simp only [List.length_nil, Nat.sub_zero, List.take_length] at hl
    refine ⟨done, tail, hl, ?_⟩
    split
    · exact hs
    · rename_i h2
      have h3 : (free_blocks (free_blocks a.heap hip a.large_blocks a.large_blocks []).heap
          (free_blocks a.heap hip a.large_blocks a.large_blocks []).hip a.small_blocks
          a.small_blocks []).err = hipSuccess := by
        by_contra hc
        exact h2 hc
      exact hs.congr h3.symm rfl rfl
  · rw [if_pos h1]
    obtain ⟨done, tail, hl, hs⟩ := sweep_first a hip a.large_blocks [] a.small_blocks
      hp (List.suffix_refl _) (fun _ hx => hx) h1
    simp only [List.length_nil, Nat.sub_zero, List.take_length] at hl
    exact ⟨done, tail, hl, hs⟩

theorem lower_bound_congr {h h2 : Heap} (key : Block) (l : List Nat)
    (hc : ∀ x ∈ l, deref h2 x = deref h x) : lower_bound h2 key l = lower_bound h key l := by
  unfold lower_bound
  exact dropWhile_congr_mem l (fun e he => by rw [hc e he])

theorem device_range_congr {h h2 : Heap} (d : Int) (l : List Nat)
    (hc : ∀ x ∈ l, deref h2 x = deref h x) : device_range h2 d l = device_range h d l := by
  unfold device_range
  rw [lower_bound_congr _ l hc, lower_bound_congr _ l hc]

/-- The two walks of `free_cached_blocks(d)`, whatever the runtime answers. -/
theorem free_cached_blocks_swept (a : THCCachingAllocator) (hip : Hip) (d : Int)
    (hp : PoolsApart a) :
    ∃ done tail, device_range a.heap d a.large_blocks ++ device_range a.heap d a.small_blocks =
        done ++ tail ∧
      Swept a hip done tail (free_cached_blocks a hip d) := by
  unfold free_cached_blocks
  dsimp only
  by_cases h1 : (free_blocks a.heap hip a.large_blocks
      (lower_bound a.heap (Block.ctor d 0 0 0) a.large_blocks)
      (lower_bound a.heap (Block.ctor (d + 1) 0 0 0) a.large_blocks)).err = hipSuccess
  · rw [if_neg (by simpa using h1)]
    have hcell : ∀ x ∈ a.small_blocks,
        deref (free_blocks a.heap hip a.large_blocks
          (lower_bound a.heap (Block.ctor d 0 0 0) a.large_blocks)
          (lower_bound a.heap (Block.ctor (d + 1) 0 0 0) a.large_blocks)).heap x =
        deref a.heap x := by
      intro x hx
      apply deref_congr
      apply free_blocks_loop_frame_notin
      intro hc
      exact hp.disjoint x (take_suffix_subset (lower_bound_suffix _ _ _) _ x hc) hx
    obtain ⟨done, tail, hl, hs⟩ := sweep_second a hip
      (lower_bound a.heap (Block.ctor d 0 0 0) a.large_blocks)
      (lower_bound a.heap (Block.ctor (d + 1) 0 0 0) a.large_blocks)
      (lower_bound (free_blocks a.heap hip a.large_blocks
          (lower_bound a.heap (Block.ctor d 0 0 0) a.large_blocks)
          (lower_bound a.heap (Block.ctor (d + 1) 0 0 0) a.large_blocks)).heap
        (Block.ctor d 0 0 0) a.small_blocks)
      (lower_bound (free_blocks a.heap hip a.large_blocks
          (lower_bound a.heap (Block.ctor d 0 0 0) a.large_blocks)
          (lower_bound a.heap (Block.ctor (d + 1) 0 0 0) a.large_blocks)).heap
        (Block.ctor (d + 1) 0 0 0) a.small_blocks)
      hp (lower_bound_suffix _ _ _) (lower_bound_suffix _ _ _) h1
    refine ⟨done, tail, ?_, hs⟩
    rw [← hl, ← device_range_congr d a.small_blocks hcell]
    rfl
  · rw [if_pos h1]
    obtain ⟨done, tail, hl, hs⟩ := sweep_first a hip
      (lower_bound a.heap (Block.ctor d 0 0 0) a.large_blocks)
      (lower_bound a.heap (Block.ctor (d + 1) 0 0 0) a.large_blocks)
      (device_range a.heap d a.small_blocks) hp (lower_bound_suffix _ _ _)
      (fun x hx => take_suffix_subset (lower_bound_suffix _ _ _) _ x hx) h1
    exact ⟨done, tail, hl, hs⟩

theorem Reachable.pools_apart {a : THCCachingAllocator} {hip : Hip} (hr : Reachable a hip) :
    PoolsApart a := by
  obtain ⟨ch, hinv, _⟩ := hr.good
  have hl := hinv.pool true
  have hs := hinv.pool false
  rw [getPool_true] at hl
  rw [getPool_false] at hs
  refine ⟨hl.sorted.nodup, hs.sorted.nodup, ?_, fun x hx => (hl.mem x hx).1.lt,
    fun x hx => (hs.mem x hx).1.lt⟩
  intro x hx hx2
  have := @Inv.pool_class a ch hinv true false x hx hx2
  cases this

/-- In every reachable state the two pools are ordered sets that share no block. -/
theorem Reachable.pools_ordered {a : THCCachingAllocator} {hip : Hip} (hr : Reachable a hip) :
    PoolsOrdered a := by
  obtain ⟨ch, hinv, _⟩ := hr.good
  have hl := hinv.pool true
  have hs := hinv.pool false
  rw [getPool_true] at hl
  rw [getPool_false] at hs
  refine ⟨hl.sorted, hs.sorted, ?_⟩
  intro x hx hx2
  have := @Inv.pool_class a ch hinv true false x hx hx2
  cases this

/-- A sweep that did not end well, spelled out. -/
theorem Swept.failure {a : THCCachingAllocator} {hip : Hip} {done tail : List Nat}
    {r : Outcome} (hs : Swept a hip done tail r) (herr : r.err ≠ hipSuccess) :
    ∃ b rest, tail = b :: rest ∧ (deref a.heap b).root ∧
      r.hip.calls =
        HipCall.free (deref a.heap b).ptr r.err :: (freed_calls a.heap done ++ hip.calls) ∧
      (∀ q ∈ done, (deref a.heap q).root →
        q ∉ r.alloc.large_blocks ∧ q ∉ r.alloc.small_blocks ∧ r.alloc.heap[q]? = some none) ∧
      (∀ q, q ∈ b :: rest ∨ ¬ (q ∈ done ∧ (deref a.heap q).root) →
        (q ∈ r.alloc.large_blocks ↔ q ∈ a.large_blocks) ∧
        (q ∈ r.alloc.small_blocks ↔ q ∈ a.small_blocks) ∧ r.alloc.heap[q]? = a.heap[q]?) ∧
      (b ∈ a.large_blocks → r.alloc.small_blocks = a.small_blocks) ∧
      r.alloc.large_blocks.Sublist a.large_blocks ∧
      r.alloc.small_blocks.Sublist a.small_blocks ∧
      r.alloc.allocated_blocks = a.allocated_blocks := by
  obtain ⟨b, rest, ht, hb, hc, hsec⟩ := hs.failed herr
  refine ⟨b, rest, ht, hb, hc, ?_, ?_, hsec, ?_, ?_, hs.table⟩
  · intro q hq hroot
    have hm : q ∈ roots a.heap done := mem_roots.2 ⟨hq, hroot⟩
    refine ⟨?_, ?_, hs.gone q hm⟩
    · rw [hs.large, List.mem_filter]
      intro hc2
      simp [hm] at hc2
    · rw [hs.small, List.mem_filter]
      intro hc2
      simp [hm] at hc2
  · intro q hq
    have hm : q ∉ roots a.heap done := by
      intro hc2
      rcases hq with hq | hq
      · exact hs.apart q (ht ▸ hq) (mem_roots.1 hc2).1
      · exact hq (mem_roots.1 hc2)
    refine ⟨?_, ?_, hs.cell q hm⟩
    · rw [hs.large, List.mem_filter]
      simp [hm]
    · rw [hs.small, List.mem_filter]
      simp [hm]
  · rw [hs.large]
    exact List.filter_sublist _
  · rw [hs.small]
    exact List.filter_sublist _

theorem hip_malloc_retry_of_failed_free (a : THCCachingAllocator) (hip0 : Hip) (d : Int)
    (size : Nat) (h1 : (hipMalloc hip0 size).1 ≠ hipSuccess)
    (h2 : (free_cached_blocks a (hipGetLastError (hipMalloc hip0 size).2.2) d).err ≠
      hipSuccess) :
    hip_malloc_retry a hip0 d size =
      ⟨(free_cached_blocks a (hipGetLastError (hipMalloc hip0 size).2.2) d).err, none,
        (free_cached_blocks a (hipGetLastError (hipMalloc hip0 size).2.2) d).alloc,
        (free_cached_blocks a (hipGetLastError (hipMalloc hip0 size).2.2) d).hip⟩ := by
  unfold hip_malloc_retry
  dsimp only
  rw [if_pos h1, if_pos h2]

theorem free_failure_of_reachable (a : THCCachingAllocator) (hip hip2 : Hip)
    (hr : Reachable a hip) (r : Outcome) (order : List Nat)
    (hop : (r = emptyCache a hip2 ∧ order = a.large_blocks ++ a.small_blocks) ∨
      (∃ d, r = free_cached_blocks a hip2 d ∧
        order = device_range a.heap d a.large_blocks ++ device_range a.heap d a.small_blocks))
    (herr : r.err ≠ hipSuccess) :
    ∃ done b rest, order = done ++ b :: rest ∧ (deref a.heap b).root ∧
      r.hip.calls =
        HipCall.free (deref a.heap b).ptr r.err :: (freed_calls a.heap done ++ hip2.calls) ∧
      (∀ q ∈ done, (deref a.heap q).root →
        q ∉ r.alloc.large_blocks ∧ q ∉ r.alloc.small_blocks ∧ r.alloc.heap[q]? = some none) ∧
      (∀ q, q ∈ b :: rest ∨ ¬ (q ∈ done ∧ (deref a.heap q).root) →
        (q ∈ r.alloc.large_blocks ↔ q ∈ a.large_blocks) ∧
        (q ∈ r.alloc.small_blocks ↔ q ∈ a.small_blocks) ∧ r.alloc.heap[q]? = a.heap[q]?) ∧
      (b ∈ a.large_blocks → r.alloc.small_blocks = a.small_blocks) ∧
      r.alloc.large_blocks.Sublist a.large_blocks ∧
      r.alloc.small_blocks.Sublist a.small_blocks ∧
      r.alloc.allocated_blocks = a.allocated_blocks ∧
      (∀ hip0 d size, hip2 = hipGetLastError (hipMalloc hip0 size).2.2 →
        (hipMalloc hip0 size).1 ≠ hipSuccess → r = free_cached_blocks a hip2 d →
        hip_malloc_retry a hip0 d size = ⟨r.err, none, r.alloc, r.hip⟩) := by
  have hp := hr.pools_apart
  have hswept : ∃ done tail, order = done ++ tail ∧ Swept a hip2 done tail r := by
    rcases hop with ⟨h1, h2⟩ | ⟨d, h1, h2⟩
    · rw [h1, h2]
      exact emptyCache_swept a hip2 hp
    · rw [h1, h2]
      exact free_cached_blocks_swept a hip2 d hp
  obtain ⟨done, tail, hl, hs⟩ := hswept
  obtain ⟨b, rest, ht, hb, hc, h1, h2, h3, h4, h5, h6⟩ := hs.failure herr
  refine ⟨done, b, rest, by rw [hl, ht], hb, hc, h1, h2, h3, h4, h5, h6, ?_⟩
  intro hip0 d size e1 e2 e3
  subst e1
  subst e3
  exact hip_malloc_retry_of_failed_free a hip0 d size e2 herr

theorem freed_calls_ok (h : Heap) (l : List Nat) : ∀ c ∈ freed_calls h l, c.err = hipSuccess := by
  intro c hc
  unfold freed_calls at hc
  rw [List.mem_reverse, List.mem_map] at hc
  obtain ⟨x, _, hx⟩ := hc
  rw [← hx]
  rfl

/-- A sweep during which a `hipFree` failed does not return success. -/
theorem Swept.status {a : THCCachingAllocator} {hip : Hip} {done tail : List Nat}
    {r : Outcome} (hs : Swept a hip done tail r) {new : List HipCall}
    (hnew : r.hip.calls = new ++ hip.calls) (hfail : ∃ c ∈ new, c.err ≠ hipSuccess) :
    r.err ≠ hipSuccess := by
  intro he
  obtain ⟨_, hc⟩ := hs.ok he
  have hn : new = freed_calls a.heap done := List.append_cancel_right (hnew.symm.trans hc)
  obtain ⟨c, hcm, hce⟩ := hfail
  rw [hn] at hcm
  exact hce (freed_calls_ok _ _ c hcm)

theorem swept_of_reachable (a : THCCachingAllocator) (hip hip2 : Hip)
    (hr : Reachable a hip) (r : Outcome) (order : List Nat)
    (hop : (r = emptyCache a hip2 ∧ order = a.large_blocks ++ a.small_blocks) ∨
      (∃ d, r = free_cached_blocks a hip2 d ∧
        order = device_range a.heap d a.large_blocks ++ device_range a.heap d a.small_blocks)) :
    ∃ done tail, order = done ++ tail ∧ Swept a hip2 done tail r := by
  have hp := hr.pools_apart
  rcases hop with ⟨h1, h2⟩ | ⟨d, h1, h2⟩
  · rw [h1, h2]
    exact emptyCache_swept a hip2 hp
  · rw [h1, h2]
    exact free_cached_blocks_swept a hip2 d hp

/-- C14: take a reachable allocator state `a` and let `emptyCache`, or the recovery
`free_cached_blocks(d)` of a `malloc` whose `hipMalloc` failed, run on it with any runtime
`hip2`, and let one of the calls `new` it makes fail.  Then the operation returns a status
other than success.  With `order` the blocks in visiting order (the first pool, then the
second), the visit splits as `done`, `b`, `rest`: the last call made is the `hipFree` of the
unsplit block `b`, it failed and its status is the one returned; before it every unsplit
block of `done` was freed with success, and these blocks are in neither pool and deleted
(nothing is rolled back); `b`, the blocks of `rest` and every other block are in the pools
they were in with their cells unchanged; the second pool is as it was when `b` is in the
first; the table is unchanged; and `hip_malloc_retry` hands the status and the state of a
failed recovery on. -/
theorem free_failure_not_rolled_back (a : THCCachingAllocator) (hip hip2 : Hip)
    (hr : Reachable a hip) (r : Outcome) (order : List Nat) (new : List HipCall)
    (hop : (r = emptyCache a hip2 ∧ order = a.large_blocks ++ a.small_blocks) ∨
      (∃ d, r = free_cached_blocks a hip2 d ∧
        order = device_range a.heap d a.large_blocks ++ device_range a.heap d a.small_blocks))
    (hnew : r.hip.calls = new ++ hip2.calls) (hfail : ∃ c ∈ new, c.err ≠ hipSuccess) :
    r.err ≠ hipSuccess ∧
    ∃ done b rest, order = done ++ b :: rest ∧ (deref a.heap b).root ∧
      r.hip.calls =
        HipCall.free (deref a.heap b).ptr r.err :: (freed_calls a.heap done ++ hip2.calls) ∧
      (∀ q ∈ done, (deref a.heap q).root →
        q ∉ r.alloc.large_blocks ∧ q ∉ r.alloc.small_blocks ∧ r.alloc.heap[q]? = some none) ∧
      (∀ q, q ∈ b :: rest ∨ ¬ (q ∈ done ∧ (deref a.heap q).root) →
        (q ∈ r.alloc.large_blocks ↔ q ∈ a.large_blocks) ∧
        (q ∈ r.alloc.small_blocks ↔ q ∈ a.small_blocks) ∧ r.alloc.heap[q]? = a.heap[q]?) ∧
      (b ∈ a.large_blocks → r.alloc.small_blocks = a.small_blocks) ∧
      r.alloc.large_blocks.Sublist a.large_blocks ∧
      r.alloc.small_blocks.Sublist a.small_blocks ∧
      r.alloc.allocated_blocks = a.allocated_blocks ∧
      (∀ hip0 d size, hip2 = hipGetLastError (hipMalloc hip0 size).2.2 →
        (hipMalloc hip0 size).1 ≠ hipSuccess → r = free_cached_blocks a hip2 d →
        hip_malloc_retry a hip0 d size = ⟨r.err, none, r.alloc, r.hip⟩) := by
  obtain ⟨done, tail, _, hs⟩ := swept_of_reachable a hip hip2 hr r order hop
  have herr := hs.status hnew hfail
  exact ⟨herr, free_failure_of_reachable a hip hip2 hr r order hop herr⟩

theorem free_failure_not_rolled_back_witness :
    twoRoots.alloc.large_blocks = [0, 1] ∧
    (emptyCache twoRoots.alloc hipFreeFails).alloc.large_blocks = [1] ∧
    (emptyCache twoRoots.alloc hipFreeFails).err = hipErrorUnknown 5 ∧
    ∃ done b rest,
      twoRoots.alloc.large_blocks ++ twoRoots.alloc.small_blocks = done ++ b :: rest ∧
      (deref twoRoots.alloc.heap b).root ∧
      (emptyCache twoRoots.alloc hipFreeFails).hip.calls =
        HipCall.free (deref twoRoots.alloc.heap b).ptr (hipErrorUnknown 5) ::
          (freed_calls twoRoots.alloc.heap done ++ hipFreeFails.calls) :=
  ⟨by decide, by decide, by decide,
    let ⟨done, b, rest, h1, h2, h3, _⟩ :=
      (free_failure_not_rolled_back twoRoots.alloc twoRoots.hip hipFreeFails
        twoRoots_reachable (emptyCache twoRoots.alloc hipFreeFails)
        (twoRoots.alloc.large_blocks ++ twoRoots.alloc.small_blocks)
        [HipCall.free 8388608 (hipErrorUnknown 5), HipCall.free 4096 hipSuccess]
        (Or.inl ⟨rfl, rfl⟩) (by decide)
        ⟨HipCall.free 8388608 (hipErrorUnknown 5), by decide, by decide⟩).2
    ⟨done, b, rest, h1, h2, h3⟩⟩

theorem BlockComparator_eq_key {x y : Block} (h1 : BlockComparator x y = false)
    (h2 : BlockComparator y x = false) : x.key = y.key := by
  unfold BlockComparator at h1 h2
  unfold Block.key
  by_cases hd : x.device = y.device
  · by_cases hs : x.stream = y.stream
    · by_cases hz : x.size = y.size
      · simp [hd, hs, hz] at h1 h2
        have : x.ptr = y.ptr := by omega
        simp [hd, hs, hz, this]
      · have hz2 : ¬ y.size = x.size := fun hc => hz hc.symm
        simp [hd, hs, hz, hz2] at h1 h2
        omega
    · have hs2 : ¬ y.stream = x.stream := fun hc => hs hc.symm
      simp [hd, hs, hs2] at h1 h2
      omega
  · have hd2 : ¬ y.device = x.device := fun hc => hd hc.symm
    simp [hd, hd2] at h1 h2
    omega

/-- A whole chain that is one free block goes into the pool on `release`: no other block of
the pool compares equal to it, as it would lie in the region of another chain. -/
theorem release_inserts {a : THCCachingAllocator} {ch : Nat → Chain} {b : Nat} {sm : Bool}
    {calls : List HipCall} (hinv : Inv a ch) (hd : Detached a ch b sm)
    (hg : Geom a.heap ch calls) (hroot : (deref a.heap b).root) :
    b ∈ getPool sm (release a sm b) := by
  rw [release_pool, if_pos rfl]
  rcases set_insert_mem_or (store a.heap b (fun blk => { blk with allocated := false })) b
    (getPool sm a) with h1 | ⟨e, he, h1, h2⟩
  · exact h1
  · exfalso
    obtain ⟨hel, hefree, _⟩ := (hinv.pool sm).mem e he
    have heb : e ≠ b := by
      intro hc
      rw [hc, hd.alloc] at hefree
      cases hefree
    rw [deref_store_ne _ _ _ _ heb, deref_store_self hd.live] at h1 h2
    have hk := BlockComparator_eq_key h1 h2
    unfold Block.key at hk
    simp only [Prod.mk.injEq] at hk
    obtain ⟨_, _, hsize, hptr⟩ := hk
    have hbl := hinv.chain.root_chain hd.live hroot
    obtain ⟨hbreg1, hbreg2⟩ := hinv.chain.root_region hd.live hroot
    obtain ⟨hbm, hbc, _⟩ := hinv.chain b hd.live
    obtain ⟨hem, hec, hecl⟩ := hinv.chain e hel
    have hne : ch e ≠ ch b := by
      intro hc
      rw [hc, hbl] at hem
      exact heb (by simpa using hem)
    have h3 := hec.ptr_ge hem
    have h4 := hec.end_le hem
    have h5 := hbc.total_ge
    have hks : (0 : Nat) < kSmallAlloc := by decide
    rcases hg.apart e b hel hd.live hne with h6 | h6 <;> omega

theorem free_middle_of_good {a : THCCachingAllocator} {hip : Hip} (hg : Good a hip)
    (hs : hipSane hip.calls = true) {p b n : Nat} {pb bb nb : Block}
    (hp : a.heap[p]? = some (some pb)) (hb : a.heap[b]? = some (some bb))
    (hn : a.heap[n]? = some (some nb))
    (hpn : pb.next = some b) (hbn : bb.next = some n)
    (hpf : pb.allocated = false) (hnf : nb.allocated = false)
    (hba : a.allocated_blocks.lookup bb.ptr = some b)
    (hpp : pb.prev = none) (hnn : nb.next = none) :
    (free a hip bb.ptr).err = hipSuccess ∧
    (free a hip bb.ptr).alloc.heap[b]? =
      some (some ⟨bb.device, bb.stream, pb.size + bb.size + nb.size, pb.ptr, false, none,
        none⟩) ∧
    b ∈ getPool (decide (bb.size ≤ kSmallAlloc)) (free a hip bb.ptr).alloc ∧
    ¬ Live (free a hip bb.ptr).alloc.heap p ∧ ¬ Live (free a hip bb.ptr).alloc.heap n ∧
    (∀ sm, p ∉ getPool sm (free a hip bb.ptr).alloc ∧
      n ∉ getPool sm (free a hip bb.ptr).alloc) ∧
    (pb.ptr, pb.size + bb.size + nb.size) ∈ hipLive hip.calls := by
  have hlp : Live a.heap p := ⟨pb, hp⟩
  have hlb : Live a.heap b := ⟨bb, hb⟩
  have hln : Live a.heap n := ⟨nb, hn⟩
  have dp : deref a.heap p = pb := deref_of_live hp
  have db : deref a.heap b = bb := deref_of_live hb
  have dn : deref a.heap n = nb := deref_of_live hn
  obtain ⟨ch, hinv, hgeo⟩ := hg
  obtain ⟨hgeom, _⟩ := hgeo hs
  have hsib : IsSiblingChain a.heap [p, b, n] := by
    refine ⟨?_, ?_, ?_, ?_⟩
    · intro x hx
      simp only [List.mem_cons, List.mem_singleton, List.not_mem_nil, or_false] at hx
      rcases hx with hx | hx | hx <;> rw [hx] <;> assumption
    · simp only [List.chain'_cons, List.chain'_singleton, and_true]
      rw [dp, db]
      exact ⟨hpn, hbn⟩
    · intro x hx
      simp only [List.head?_cons, Option.mem_def, Option.some.injEq] at hx
      rw [← hx, dp]
      exact hpp
    · intro x hx
      simp at hx
      rw [← hx, dn]
      exact hnn
  have hblocks := hinv.chain.sibling_chain hsib
  obtain ⟨_, hcok, hclos⟩ := hinv.chain p hlp
  have hnd := hcok.nodup
  rw [hblocks] at hnd
  have hpb : p ≠ b := by
    intro hc; subst hc; simp at hnd
  have hpn2 : p ≠ n := by
    intro hc; subst hc; simp at hnd
  have hbn2 : b ≠ n := by
    intro hc; subst hc; simp at hnd
  have hadj1 : Adj a.heap p b := @ChainOK.adj_mid _ _ hcok [] [n] p b hblocks
  have hadj2 : Adj a.heap b n := @ChainOK.adj_mid _ _ hcok [p] [] b n hblocks
  have hsum := hcok.sum_sizes (by rw [hblocks]; simp)
  rw [hblocks] at hsum
  simp only [List.map_cons, List.map_nil, List.sum_cons, List.sum_nil, dp, db, dn,
    Nat.add_zero] at hsum
  have hfirst := (hcok.first p (by rw [hblocks]; rfl)).2
  rw [dp] at hfirst
  have hbase := hgeom.base_ne p hlp
  have hreg := hgeom.region p hlp
  have htot := hcok.total_lt
  have hptr1 := hadj1.2.2.1
  rw [dp, db] at hptr1
  have hptr : bb.ptr ≠ 0 := by omega
  have hprev : (deref a.heap b).prev = some p := hadj1.2.1
  have hnprev : (deref a.heap n).prev = some b := hadj2.2.1
  rw [free_steps hip hptr hba]
  obtain ⟨hinv0, hd0⟩ := hinv.detach hba
  obtain ⟨ch1, hinv1, hd1, hg1, hN1⟩ := hinv0.merge_prev_step hd0
  have e0 : (table_erase a bb.ptr).heap = a.heap := rfl
  rw [e0] at hinv1 hd1 hg1 hN1
  have hc1 : MergePrevCells a.heap
      (merge_step (table_erase a bb.ptr) (decide ((deref a.heap b).size ≤ kSmallAlloc)) b
        (deref a.heap b).prev).heap b p := by
    rw [hprev, merge_step_free _ b (show (deref (table_erase a bb.ptr).heap p).allocated = false
      by rw [e0, dp]; exact hpf), setPool_heap]
    refine merge_prev_cells hlb hlp (Ne.symm hpb) hprev ?_ ?_
    · rw [dp, hpp]; exact fun hc => Option.noConfusion hc
    · rw [dp, hpp]; exact fun hc => Option.noConfusion hc
  generalize merge_step (table_erase a bb.ptr) (decide ((deref a.heap b).size ≤ kSmallAlloc)) b
    (deref a.heap b).prev = a1 at hinv1 hd1 hg1 hN1 hc1 ⊢
  -- the cells after the first merge
  have d1b : deref a1.heap b = ⟨bb.device, bb.stream, add_size_t bb.size pb.size, pb.ptr,
      bb.allocated, none, some n⟩ := by
    rw [hc1.dst, db, dp, hpp, hbn]
  have d1n : deref a1.heap n = nb := by
    rw [hc1.other n (Ne.symm hbn2) (Ne.symm hpn2) (by rw [dp, hpp]; exact fun hc => Option.noConfusion hc), dn]
  have hl1b : Live a1.heap b := (hc1.live b).2 ⟨Ne.symm hpb, hlb⟩
  have hl1n : Live a1.heap n := (hc1.live n).2 ⟨Ne.symm hpn2, hln⟩
  have hnl1p : ¬ Live a1.heap p := fun hc => ((hc1.live p).1 hc).1 rfl
  have hnext1 : (deref a1.heap b).next = some n := by rw [d1b]
  obtain ⟨ch2, hinv2, hd2, hg2, hN1b, hN2⟩ := hinv1.merge_next_step hd1 hN1
  have hc2 : MergeNextCells a1.heap
      (merge_step a1 (decide ((deref a.heap b).size ≤ kSmallAlloc)) b
        (deref a1.heap b).next).heap b n := by
    rw [hnext1, merge_step_free _ b (show (deref a1.heap n).allocated = false
      by rw [d1n]; exact hnf), setPool_heap]
    refine merge_next_cells hl1b hl1n hbn2 ?_ ?_ ?_
    · rw [d1b]; exact fun hc => Option.noConfusion hc
    · rw [d1n, hnn]; exact fun hc => Option.noConfusion hc
    · rw [d1n, hnn]; exact fun hc => Option.noConfusion hc
  generalize merge_step a1 (decide ((deref a.heap b).size ≤ kSmallAlloc)) b
    (deref a1.heap b).next = a2 at hinv2 hd2 hg2 hN1b hN2 hc2 ⊢
  have hadd1 : add_size_t bb.size pb.size = bb.size + pb.size := by
    unfold add_size_t
    exact Nat.mod_eq_of_lt (by omega)
  have hadd2 : add_size_t (bb.size + pb.size) nb.size = pb.size + bb.size + nb.size := by
    unfold add_size_t
    rw [Nat.mod_eq_of_lt (by omega)]
    omega
  have d2b : deref a2.heap b = ⟨bb.device, bb.stream, pb.size + bb.size + nb.size, pb.ptr,
      bb.allocated, none, none⟩ := by
    rw [hc2.dst, d1b, d1n, hnn, hadd1, hadd2]
  have hnl2p : ¬ Live a2.heap p := fun hc => hnl1p ((hc2.live p).1 hc).2
  have hnl2n : ¬ Live a2.heap n := fun hc => ((hc2.live n).1 hc).1 rfl
  obtain ⟨hinv3, hg3⟩ := hinv2.release hd2 hN1b hN2
  have hroot2 : (deref a2.heap b).root := by
    rw [d2b]
    exact ⟨rfl, rfl⟩
  have hgeom2 := hg2 _ (hg1 _ hgeom)
  have hins := release_inserts hinv2 hd2 hgeom2 hroot2
  rw [db] at hins hinv3 ⊢
  have hnl3 : ∀ q, ¬ Live a2.heap q →
      ¬ Live (release a2 (decide (bb.size ≤ kSmallAlloc)) b).heap q := by
    intro q hq hc
    rw [release_heap, Live_store_iff] at hc
    exact hq hc
  refine ⟨rfl, ?_, hins, hnl3 p hnl2p, hnl3 n hnl2n, ?_, ?_⟩
  · show (release a2 _ b).heap[b]? = _
    have hl3 : Live (release a2 (decide (bb.size ≤ kSmallAlloc)) b).heap b := by
      rw [release_heap, Live_store_iff]
      exact hd2.live
    rw [hl3.deref, release_heap, deref_store_self hd2.live, d2b]
  · intro sm
    exact ⟨fun hc => hnl3 p hnl2p ((hinv3.pool sm).mem p hc).1,
      fun hc => hnl3 n hnl2n ((hinv3.pool sm).mem n hc).1⟩
  · rw [hfirst]
    have : pb.size + bb.size + nb.size = (ch p).total := by omega
    rw [this]
    exact hreg

theorem freedAC_reachable : Reachable freedAC.alloc freedAC.hip :=
  Reachable.free 5120 (Reachable.free 4096 (Reachable.malloc 512 7 (Reachable.malloc 512 7
    (Reachable.malloc 512 7 (Reachable.init hipTwo rfl) (by decide)) (by decide)) (by decide)))

theorem lostMiddle_reachable : Reachable lostMiddle.alloc lostMiddle.hip :=
  Reachable.free 4608 (Reachable.free 4096 (Reachable.malloc 200 7
    (Reachable.malloc 18446744073709551615 7
      (Reachable.malloc 200 7 (Reachable.init hipTwo rfl) (by decide)) (by decide))
    (by decide)))

/-- C15: on the code.  First part, the failing run: after `malloc(200)`, `malloc(SIZE_MAX)`,
`malloc(200)`, `free(4096)`, `free(4608)` on stream 7 of the fresh allocator (one
`hipMalloc`, which behaved) the chain is block 1 (free, `prev` null), block 2 (0 bytes at
4608, `allocated = true`, never freed), block 3 (free, `next` null); `free(4608)` returns
`hipErrorInvalidDevicePointer` and changes nothing, because the table entry of block 2 was
overwritten when `round_size` wrapped to 0.  Second part, what holds: in every reachable
state with a sane runtime record, for a chain P, B, N with P and N free, `P->prev` and
`N->next` null and B the block that the allocated table holds under `B->ptr`, `free(B->ptr)`
succeeds, B becomes the block at `P->ptr` of `P->size + B->size + N->size` bytes with both
links null and the in-use flag clear, B is in the pool of its size class, P and N are
deleted and in no pool, and B covers exactly one live region of the primitive. -/
theorem free_middle_coalesces :
    (Reachable lostMiddle.alloc lostMiddle.hip ∧
      hipSane lostMiddle.hip.calls = true ∧
      lostMiddle.alloc.heap =
        [none, some ⟨0, 7, 512, 4096, false, none, some 2⟩,
          some ⟨0, 7, 0, 4608, true, some 1, some 3⟩,
          some ⟨0, 7, 1048064, 4608, false, some 2, none⟩] ∧
      lostMiddle.alloc.large_blocks = [1, 3] ∧
      lostMiddle.alloc.allocated_blocks = [] ∧
      free lostMiddle.alloc lostMiddle.hip 4608 =
        ⟨hipErrorInvalidDevicePointer, lostMiddle.alloc, lostMiddle.hip⟩) ∧
    (∀ (a : THCCachingAllocator) (hip : Hip), Reachable a hip → hipSane hip.calls = true →
      ∀ (p b n : Nat) (pb bb nb : Block),
        a.heap[p]? = some (some pb) → a.heap[b]? = some (some bb) →
        a.heap[n]? = some (some nb) →
        pb.next = some b → bb.next = some n → pb.allocated = false → nb.allocated = false →
        a.allocated_blocks.lookup bb.ptr = some b → pb.prev = none → nb.next = none →
        (free a hip bb.ptr).err = hipSuccess ∧
        (free a hip bb.ptr).alloc.heap[b]? =
          some (some ⟨bb.device, bb.stream, pb.size + bb.size + nb.size, pb.ptr, false, none,
            none⟩) ∧
        b ∈ getPool (decide (bb.size ≤ kSmallAlloc)) (free a hip bb.ptr).alloc ∧
        ¬ Live (free a hip bb.ptr).alloc.heap p ∧ ¬ Live (free a hip bb.ptr).alloc.heap n ∧
        (∀ sm, p ∉ getPool sm (free a hip bb.ptr).alloc ∧
          n ∉ getPool sm (free a hip bb.ptr).alloc) ∧
        (pb.ptr, pb.size + bb.size + nb.size) ∈ hipLive hip.calls) :=
  ⟨⟨lostMiddle_reachable, by decide, by decide, by decide, by decide, by decide⟩,
    fun _ _ hr hs _ _ _ _ _ _ hp hb hn hpn hbn hpf hnf hba hpp hnn =>
      free_middle_of_good hr.good hs hp hb hn hpn hbn hpf hnf hba hpp hnn⟩

theorem free_middle_coalesces_witness :
    freedAC.alloc.heap =
      [none, some ⟨0, 7, 512, 4096, false, none, some 2⟩,
        some ⟨0, 7, 512, 4608, true, some 1, some 3⟩,
        some ⟨0, 7, 1047552, 5120, false, some 2, none⟩] ∧
    (free freedAC.alloc freedAC.hip 4608).alloc.heap[2]? =
      some (some ⟨0, 7, 1048576, 4096, false, none, none⟩) ∧
    (free freedAC.alloc freedAC.hip 4608).alloc.large_blocks = [2] ∧
    (free freedAC.alloc freedAC.hip 4608).alloc.small_blocks = [] :=
  ⟨by decide,
    (free_middle_coalesces.2 freedAC.alloc freedAC.hip freedAC_reachable (by decide) 1 2 3
      ⟨0, 7, 512, 4096, false, none, some 2⟩ ⟨0, 7, 512, 4608, true, some 1, some 3⟩
      ⟨0, 7, 1047552, 5120, false, some 2, none⟩ (by decide) (by decide) (by decide) rfl rfl
      rfl rfl (by decide) rfl rfl).2.1,
    by decide, by decide⟩

/-! ## Repeated pairs of `malloc` and `free` -/

theorem BlockComparator_sandwich {e x key : Block} (h1 : BlockComparator e key = false)
    (h2 : e = x ∨ BlockComparator e x = true) (hd : x.device = key.device)
    (hs : x.stream = key.stream) : e.device = key.device ∧ e.stream = key.stream := by
  rcases h2 with h2 | h2
  · subst h2
    exact ⟨hd, hs⟩
  · unfold BlockComparator at h1 h2
    by_cases hed : e.device = key.device
    · refine ⟨hed, ?_⟩
      have hex : e.device = x.device := hed.trans hd.symm
      simp only [hed, ne_eq, not_true_eq_false, if_false] at h1
      simp only [hex, ne_eq, not_true_eq_false, if_false] at h2
      by_contra hes
      have hes2 : ¬ e.stream = x.stream := fun hc => hes (hc.trans hs)
      simp only [hes, not_false_eq_true, if_true, decide_eq_false_iff_not] at h1
      simp only [hes2, not_false_eq_true, if_true, decide_eq_true_eq] at h2
      omega
    · exfalso
      have hex : ¬ e.device = x.device := fun hc => hed (hc.trans hd)
      simp only [hed, ne_eq, not_false_eq_true, if_true, decide_eq_false_iff_not] at h1
      simp only [hex, ne_eq, not_false_eq_true, if_true, decide_eq_true_eq] at h2
      omega

theorem BlockComparator_key_false {x : Block} {d : Int} {st r : Nat} (hd : x.device = d)
    (hs : x.stream = st) (hr : r ≤ x.size) :
    BlockComparator x (Block.ctor d st r 0) = false := by
  unfold BlockComparator Block.ctor
  simp only [hd, hs, ne_eq, not_true_eq_false, if_false]
  by_cases hz : x.size = r
  · simp [hz]
  · simp only [hz, not_false_eq_true, if_true, decide_eq_false_iff_not]
    omega

/-- A pool that holds a block of the device and stream with enough bytes serves the
request: the lookup of `malloc` hits. -/
theorem malloc_hit_of_cached {a : THCCachingAllocator} {d : Int} {st r : Nat}
    (hs : Sorted a.heap (getPool (decide (r ≤ kSmallAlloc)) a)) (hc : Cached a d st r) :
    ∃ e, malloc_hit a d st r = some e := by
  obtain ⟨x, hx, hxd, hxs, hxr⟩ := hc
  have hxk := BlockComparator_key_false hxd hxs hxr
  unfold malloc_hit
  generalize getPool (decide (r ≤ kSmallAlloc)) a = l at hs hx
  unfold lower_bound
  have hsplit := List.takeWhile_append_dropWhile
    (fun e => BlockComparator (deref a.heap e) (Block.ctor d st r 0)) l
  cases hlb : l.dropWhile (fun e => BlockComparator (deref a.heap e) (Block.ctor d st r 0)) with
  | nil =>
    exfalso
    rw [hlb, List.append_nil] at hsplit
    rw [← hsplit] at hx
    have := List.mem_takeWhile_imp hx
    rw [hxk] at this
    cases this
  | cons e post =>
    have he := dropWhile_head_false _ _ _ _ hlb
    rw [hlb] at hsplit
    have hxin : x ∈ e :: post := by
      rw [← hsplit] at hx
      rcases List.mem_append.1 hx with h1 | h1
      · have := List.mem_takeWhile_imp h1
        rw [hxk] at this
        cases this
      · exact h1
    have hsorted : Sorted a.heap (e :: post) := by
      unfold Sorted at hs ⊢
      rw [← hsplit] at hs
      exact (List.pairwise_append.1 hs).2.1
    have hex : e = x ∨ BlockComparator (deref a.heap e) (deref a.heap x) = true := by
      rcases List.mem_cons.1 hxin with h1 | h1
      · exact Or.inl h1.symm
      · exact Or.inr ((List.pairwise_cons.1 hsorted).1 x h1)
    have hown := BlockComparator_sandwich he
      (hex.imp (fun h => congrArg (deref a.heap) h) id)
      (show (deref a.heap x).device = (Block.ctor d st r 0).device from hxd)
      (show (deref a.heap x).stream = (Block.ctor d st r 0).stream from hxs)
    refine ⟨e, ?_⟩
    show (if (deref a.heap e).device = d ∧ (deref a.heap e).stream = st then some e else none) = _
    have hown2 : (deref a.heap e).device = d ∧ (deref a.heap e).stream = st := hown
    rw [if_pos hown2]

theorem ReturnedBlock.both {r : MallocOutcome} {P Q : Block → Prop} (h1 : ReturnedBlock r P)
    (h2 : ReturnedBlock r Q) : ReturnedBlock r (fun b => P b ∧ Q b) := by
  obtain ⟨p, blk, hp, hl, hP⟩ := h1
  obtain ⟨p2, blk2, hp2, hl2, hQ⟩ := h2
  rw [hp] at hp2
  cases hp2
  rw [hl] at hl2
  cases hl2
  exact ⟨p, blk, hp, hl, hP, hQ⟩

/-- The cells after the first merge of `free`, when the block before `b` is free. -/
theorem Inv.prev_cells {a : THCCachingAllocator} {ch : Nat → Chain} {b s : Nat} {sm : Bool}
    (hinv : Inv a ch) (hd : Detached a ch b sm) (hprev : (deref a.heap b).prev = some s) :
    MergePrevCells a.heap (deleteBlock (merge_heap a.heap b s) s) b s ∧
    (deref a.heap s).size + (deref a.heap b).size ≤ (ch b).total ∧ (ch b).total < SIZE_T := by
  obtain ⟨hbmem, hcok, hclosed⟩ := hinv.chain b hd.live
  obtain ⟨pre1, post, hb1⟩ := List.append_of_mem hbmem
  have hp1 := hcok.prev_eq hb1
  rw [hprev] at hp1
  obtain ⟨pre, hpre⟩ := List.getLast?_eq_some_iff.1 hp1.symm
  have hb : (ch b).blocks = pre ++ s :: b :: post := by
    rw [hb1, hpre, List.append_assoc, List.singleton_append]
  have hnd := hcok.nodup
  rw [hb] at hnd
  have hnd1 := List.nodup_append.1 hnd
  have hsmem : s ∈ (ch b).blocks := by rw [hb]; simp
  have hsl : Live a.heap s := (hcok.each s hsmem).1
  have hsb : s ≠ b := by
    intro hc
    subst hc
    exact (List.nodup_cons.1 hnd1.2.1).1 (List.mem_cons_self _ _)
  have hsprev := hcok.prev_eq hb
  have hsd : (deref a.heap s).prev ≠ some b := by
    rw [hsprev]
    intro hc
    exact hnd1.2.2 (List.mem_of_mem_getLast? hc) (by simp)
  have hss : (deref a.heap s).prev ≠ some s := by
    rw [hsprev]
    intro hc
    exact hnd1.2.2 (List.mem_of_mem_getLast? hc) (by simp)
  exact ⟨merge_prev_cells hd.live hsl (Ne.symm hsb) hprev hsd hss, hcok.pair_le hb,
    hcok.total_lt⟩

/-- The first merge of `free` keeps the device and the stream of the block and does not
shrink it. -/
theorem Inv.merge_prev_cell {a : THCCachingAllocator} {ch : Nat → Chain} {b : Nat} {sm : Bool}
    (hinv : Inv a ch) (hd : Detached a ch b sm) :
    (deref (merge_step a sm b (deref a.heap b).prev).heap b).device = (deref a.heap b).device ∧
    (deref (merge_step a sm b (deref a.heap b).prev).heap b).stream = (deref a.heap b).stream ∧
    (deref a.heap b).size ≤ (deref (merge_step a sm b (deref a.heap b).prev).heap b).size := by
  cases hprev : (deref a.heap b).prev with
  | none =>
    rw [merge_step_none]
    exact ⟨rfl, rfl, Nat.le_refl _⟩
  | some s =>
    by_cases hs : (deref a.heap s).allocated = true
    · rw [merge_step_allocated sm b hs]
      exact ⟨rfl, rfl, Nat.le_refl _⟩
    · have hsfree : (deref a.heap s).allocated = false := by simpa using hs
      rw [merge_step_free sm b hsfree, setPool_heap]
      obtain ⟨hm, hle, hlt⟩ := hinv.prev_cells hd hprev
      rw [hm.dst]
      refine ⟨rfl, rfl, ?_⟩
      show _ ≤ add_size_t _ _
      unfold add_size_t
      rw [Nat.mod_eq_of_lt (by omega)]
      omega

/-- The cells after the second merge of `free`, when the block after `b` is free. -/
theorem Inv.next_cells {a : THCCachingAllocator} {ch : Nat → Chain} {b s : Nat} {sm : Bool}
    (hinv : Inv a ch) (hd : Detached a ch b sm) (hnext : (deref a.heap b).next = some s) :
    MergeNextCells a.heap (deleteBlock (merge_heap a.heap b s) s) b s ∧
    (deref a.heap b).size + (deref a.heap s).size ≤ (ch b).total ∧ (ch b).total < SIZE_T := by
  obtain ⟨hbmem, hcok, hclosed⟩ := hinv.chain b hd.live
  obtain ⟨pre, post1, hb1⟩ := List.append_of_mem hbmem
  have hn1 := hcok.next_eq hb1
  rw [hnext] at hn1
  obtain ⟨post, hpost⟩ : ∃ post, post1 = s :: post := by
    cases post1 with
    | nil => cases hn1
    | cons y l =>
      have : y = s := by simpa using hn1.symm
      exact ⟨l, by rw [this]⟩
  have hb : (ch b).blocks = pre ++ b :: s :: post := by rw [hb1, hpost]
  have hnd := hcok.nodup
  rw [hb] at hnd
  have hnd1 := List.nodup_append.1 hnd
  have hsmem : s ∈ (ch b).blocks := by rw [hb]; simp
  have hsl : Live a.heap s := (hcok.each s hsmem).1
  have hsb : s ≠ b := by
    intro hc
    subst hc
    exact (List.nodup_cons.1 hnd1.2.1).1 (List.mem_cons_self _ _)
  have hbprev := hcok.prev_eq hb
  have hb2 : (ch b).blocks = (pre ++ [b]) ++ s :: post := by
    rw [hb, List.append_assoc, List.singleton_append]
  have hsnext := hcok.next_eq hb2
  have hnd4 : (s :: post).Nodup := (List.nodup_cons.1 hnd1.2.1).2
  have hbp : (deref a.heap b).prev ≠ some s := by
    rw [hbprev]
    intro hc
    exact hnd1.2.2 (List.mem_of_mem_getLast? hc) (by simp)
  have hsd : (deref a.heap s).next ≠ some b := by
    rw [hsnext]
    intro hc
    exact (List.nodup_cons.1 hnd1.2.1).1 (List.mem_cons_of_mem _ (List.mem_of_mem_head? hc))
  have hss : (deref a.heap s).next ≠ some s := by
    rw [hsnext]
    intro hc
    exact (List.nodup_cons.1 hnd4).1 (List.mem_of_mem_head? hc)
  exact ⟨merge_next_cells hd.live hsl (Ne.symm hsb) hbp hsd hss, hcok.pair_le hb,
    hcok.total_lt⟩

/-- The second merge of `free` keeps the device and the stream of the block and does not
shrink it. -/
theorem Inv.merge_next_cell {a : THCCachingAllocator} {ch : Nat → Chain} {b : Nat} {sm : Bool}
    (hinv : Inv a ch) (hd : Detached a ch b sm) :
    (deref (merge_step a sm b (deref a.heap b).next).heap b).device = (deref a.heap b).device ∧
    (deref (merge_step a sm b (deref a.heap b).next).heap b).stream = (deref a.heap b).stream ∧
    (deref a.heap b).size ≤ (deref (merge_step a sm b (deref a.heap b).next).heap b).size := by
  cases hnext : (deref a.heap b).next with
  | none =>
    rw [merge_step_none]
    exact ⟨rfl, rfl, Nat.le_refl _⟩
  | some s =>
    by_cases hs : (deref a.heap s).allocated = true
    · rw [merge_step_allocated sm b hs]
      exact ⟨rfl, rfl, Nat.le_refl _⟩
    · have hsfree : (deref a.heap s).allocated = false := by simpa using hs
      rw [merge_step_free sm b hsfree, setPool_heap]
      obtain ⟨hm, hle, hlt⟩ := hinv.next_cells hd hnext
      rw [hm.dst]
      refine ⟨rfl, rfl, ?_⟩
      show _ ≤ add_size_t _ _
      unfold add_size_t
      rw [Nat.mod_eq_of_lt (by omega)]
      omega

/-- After `free(p)` of an allocated block of device `d` and stream `st` with at least `r`
bytes, of the size class of `r`, the pool of that class holds such a block: the block
itself, merged with its free neighbours, or the block of the set that compares equal to it. -/
theorem free_recaches {a : THCCachingAllocator} {hip : Hip} (hg : Good a hip) {p b : Nat}
    {d : Int} {st r : Nat} (hp : p ≠ 0) (hl : a.allocated_blocks.lookup p = some b)
    (hbd : (deref a.heap b).device = d) (hbs : (deref a.heap b).stream = st)
    (hbr : r ≤ (deref a.heap b).size)
    (hbc : decide ((deref a.heap b).size ≤ kSmallAlloc) = decide (r ≤ kSmallAlloc)) :
    Cached (free a hip p).alloc d st r ∧ (free a hip p).hip = hip ∧
      (free a hip p).err = hipSuccess := by
  rw [free_steps hip hp hl]
  refine ⟨?_, rfl, rfl⟩
  show Cached (release _ _ b) d st r
  obtain ⟨ch, hinv, _⟩ := hg
  obtain ⟨hinv0, hd0⟩ := hinv.detach hl
  obtain ⟨ch1, hinv1, hd1, _, hN1⟩ := hinv0.merge_prev_step hd0
  obtain ⟨c1, c2, c3⟩ := hinv0.merge_prev_cell hd0
  have e0 : (table_erase a p).heap = a.heap := rfl
  rw [e0] at hinv1 hd1 hN1 c1 c2 c3
  generalize merge_step (table_erase a p) (decide ((deref a.heap b).size ≤ kSmallAlloc)) b
    (deref a.heap b).prev = a1 at hinv1 hd1 hN1 c1 c2 c3 ⊢
  obtain ⟨ch2, hinv2, hd2, _, hN1b, hN2⟩ := hinv1.merge_next_step hd1 hN1
  obtain ⟨e1, e2, e3⟩ := hinv1.merge_next_cell hd1
  generalize merge_step a1 (decide ((deref a.heap b).size ≤ kSmallAlloc)) b
    (deref a1.heap b).next = a2 at hinv2 hd2 hN1b hN2 e1 e2 e3 ⊢
  rw [hbc] at hd2 ⊢
  have hself : deref (store a2.heap b (fun blk => { blk with allocated := false })) b =
      { deref a2.heap b with allocated := false } := deref_store_self hd2.live _
  have hdev : (deref a2.heap b).device = d := by rw [e1, c1, hbd]
  have hstr : (deref a2.heap b).stream = st := by rw [e2, c2, hbs]
  have hsz : r ≤ (deref a2.heap b).size := by omega
  unfold Cached
  rw [release_pool, if_pos rfl, release_heap]
  rcases set_insert_mem_or (store a2.heap b (fun blk => { blk with allocated := false })) b
    (getPool (decide (r ≤ kSmallAlloc)) a2) with h1 | ⟨e, he, h1, h2⟩
  · refine ⟨b, h1, ?_, ?_, ?_⟩
    · rw [hself]; exact hdev
    · rw [hself]; exact hstr
    · rw [hself]; exact hsz
  · have hk := BlockComparator_eq_key h1 h2
    unfold Block.key at hk
    simp only [Prod.mk.injEq] at hk
    obtain ⟨k1, k2, k3, _⟩ := hk
    rw [hself] at k1 k2 k3
    refine ⟨e, mem_of_mem_set_insert_old he, ?_, ?_, ?_⟩
    · rw [k1]; exact hdev
    · rw [k2]; exact hstr
    · rw [k3]; exact hsz

theorem malloc_split_class {a : THCCachingAllocator} (hip : Hip) {block : Nat} (device : Int)
    (stream : Nat) {size : Nat} (hb : block < a.heap.length)
    (hc : decide ((deref a.heap block).size ≤ kSmallAlloc) = decide (size ≤ kSmallAlloc)) :
    ReturnedBlock (malloc_split a hip block device stream size)
      (fun b => decide (b.size ≤ kSmallAlloc) = decide (size ≤ kSmallAlloc)) := by
  unfold malloc_split
  split
  · apply malloc_record_returned
    rw [setPool_heap]
    dsimp only
    rw [deref_store_allocated_size,
      malloc_split_heap_new_size _ _ _ _ _ (Nat.ne_of_gt hb)]
  · apply malloc_record_returned
    rw [deref_store_allocated_size]
    exact hc

/-- The block that a successful `malloc` hands out is of the size class of the rounded
request, in a state whose pools hold blocks of their class. -/
theorem malloc_rounded_class {a : THCCachingAllocator} {ch : Nat → Chain} (hinv : Inv a ch)
    (hip : Hip) (device : Int) (stream : Nat) {size : Nat}
    (hok : (malloc_rounded a hip device stream size).err = hipSuccess) :
    ReturnedBlock (malloc_rounded a hip device stream size)
      (fun b => decide (b.size ≤ kSmallAlloc) = decide (size ≤ kSmallAlloc)) := by
  unfold malloc_rounded at hok ⊢
  split
  · rename_i block hhit
    have hm := (hinv.pool _).mem block (malloc_hit_mem hhit)
    apply malloc_split_class
    · rw [setPool_heap]
      exact hm.1.lt
    · rw [setPool_heap]
      exact hm.2.2
  · rename_i hmiss
    simp only [hmiss] at hok
    by_cases herr : (hip_malloc_retry a hip device (alloc_size size)).err = hipSuccess
    · rw [malloc_miss_of_ok herr]
      apply malloc_split_class
      · dsimp only
        exact newPtr_lt_newBlock _ _
      · dsimp only
        rw [deref_newBlock_self]
        exact alloc_size_class size
    · rw [malloc_miss_of_err herr] at hok
      exact absurd hok herr

/-- What a successful `malloc` in a reachable state hands out: a block of the current device
and the stream, with at least the rounded size, of the size class of the rounded size. -/
theorem malloc_returned_facts {a : THCCachingAllocator} {hip : Hip} (hr : Reachable a hip)
    (size st : Nat) (hok : (malloc a hip size st).err = hipSuccess) :
    ReturnedBlock (malloc a hip size st)
      (fun b => (b.device = hip.device.2 ∧ b.stream = st) ∧
        (round_size size ≤ b.size ∧
          b.size < round_size size + split_threshold (round_size size)) ∧
        decide (b.size ≤ kSmallAlloc) = decide (round_size size ≤ kSmallAlloc)) := by
  have h1 := malloc_returned_owner a hip size st hok
  have hdev : hip.device.1 = hipSuccess := by
    by_contra hc
    rw [malloc_of_device_err hc] at hok
    exact hc hok
  obtain ⟨ch, hinv, _⟩ := hr.good
  have h2 : ReturnedBlock (malloc a hip size st)
      (fun b => round_size size ≤ b.size ∧
        b.size < round_size size + split_threshold (round_size size)) := by
    rw [malloc_of_device_ok hdev] at hok ⊢
    exact malloc_rounded_size _ _ _ hr.wellTyped (round_size_lt size) hok
  have h3 : ReturnedBlock (malloc a hip size st)
      (fun b => decide (b.size ≤ kSmallAlloc) = decide (round_size size ≤ kSmallAlloc)) := by
    rw [malloc_of_device_ok hdev] at hok ⊢
    exact malloc_rounded_class hinv _ _ _ hok
  exact h1.both (h2.both h3)

/-- One pair `malloc(&p, size, st); free(p)` in a reachable state, the `malloc` succeeding and
the runtime record sane: the `free` succeeds and leaves a block that serves the next
request of this size in the pool. -/
theorem pair_recaches {a : THCCachingAllocator} {hip : Hip} (hr : Reachable a hip)
    (size st : Nat) (hsz : size < SIZE_T)
    (hok : (malloc a hip size st).err = hipSuccess)
    (hsane : hipSane (malloc a hip size st).hip.calls = true) :
    ∃ p, (malloc a hip size st).devPtr = some p ∧
      Cached (free (malloc a hip size st).alloc (malloc a hip size st).hip p).alloc
        hip.device.2 st (round_size size) ∧
      (free (malloc a hip size st).alloc (malloc a hip size st).hip p).hip =
        (malloc a hip size st).hip := by
  obtain ⟨p, b, hp, hl, ⟨hbd, hbs⟩, ⟨hbr, _⟩, hbc⟩ := malloc_returned_facts hr size st hok
  have hg := (Reachable.malloc size st hr hsz).good
  obtain ⟨ch, hinv, hgeo⟩ := hg
  obtain ⟨hgeom, _⟩ := hgeo hsane
  obtain ⟨hlive, _, hptr⟩ := hinv.table_mem _ (mem_of_lookup hl)
  obtain ⟨hmem, hcok, _⟩ := hinv.chain b hlive
  have h1 := hcok.ptr_ge hmem
  have h2 := hgeom.base_ne b hlive
  have hp0 : p ≠ 0 := by
    have : (deref (malloc a hip size st).alloc.heap b).ptr = p := hptr
    omega
  obtain ⟨c1, c2, _⟩ := free_recaches ⟨ch, hinv, hgeo⟩ hp0 hl hbd hbs hbr hbc
  exact ⟨p, hp, c1, c2⟩

theorem free_hip (a : THCCachingAllocator) (hip : Hip) (p : Nat) : (free a hip p).hip = hip := by
  unfold free
  split
  · rfl
  · split <;> rfl

theorem alloc_free_pairs_some {size st : Nat} {a : THCCachingAllocator} {hip : Hip} {p : Nat}
    (n : Nat) (h : (malloc a hip size st).devPtr = some p) :
    alloc_free_pairs size st (n + 1) a hip =
      alloc_free_pairs size st n
        (free (malloc a hip size st).alloc (malloc a hip size st).hip p).alloc
        (free (malloc a hip size st).alloc (malloc a hip size st).hip p).hip := by
  rw [alloc_free_pairs]
  simp only [h]

theorem alloc_free_pairs_none {size st : Nat} {a : THCCachingAllocator} {hip : Hip}
    (n : Nat) (h : (malloc a hip size st).devPtr = none) :
    alloc_free_pairs size st (n + 1) a hip =
      ((malloc a hip size st).alloc, (malloc a hip size st).hip) := by
  rw [alloc_free_pairs]
  simp only [h]

/-- The record only grows in a run of pairs. -/
theorem alloc_free_pairs_calls (size st : Nat) (n : Nat) :
    ∀ (a : THCCachingAllocator) (hip : Hip),
      ∃ new, (alloc_free_pairs size st n a hip).2.calls = new ++ hip.calls := by
  induction n with
  | zero => intro a hip; exact ⟨[], rfl⟩
  | succ n ih =>
    intro a hip
    obtain ⟨new1, h1, _⟩ := malloc_failed_calls a hip size st
    cases hdp : (malloc a hip size st).devPtr with
    | none =>
      rw [alloc_free_pairs_none n hdp]
      exact ⟨new1, h1⟩
    | some p =>
      rw [alloc_free_pairs_some n hdp]
      obtain ⟨new2, h2⟩ := ih
        (free (malloc a hip size st).alloc (malloc a hip size st).hip p).alloc
        (free (malloc a hip size st).alloc (malloc a hip size st).hip p).hip
      rw [free_hip] at h2 ⊢
      exact ⟨new2 ++ new1, by rw [h2, h1, List.append_assoc]⟩

theorem hipGetDevice_calls (hip : Hip) :
    (hipGetDevice hip).2.2.calls = HipCall.getDevice hip.device.1 hip.device.2 :: hip.calls :=
  rfl

/-- A `malloc` that hits the pool calls the runtime for the device only. -/
theorem malloc_of_hit {a : THCCachingAllocator} {hip : Hip} {size st e : Nat}
    (hdev : hip.device.1 = hipSuccess)
    (hhit : malloc_hit a hip.device.2 st (round_size size) = some e) :
    (malloc a hip size st).err = hipSuccess ∧
    (malloc a hip size st).hip = (hipGetDevice hip).2.2 := by
  rw [malloc_of_device_ok hdev]
  unfold malloc_rounded
  rw [hhit]
  exact ⟨malloc_split_err _ _ _ _ _ _, malloc_split_hip _ _ _ _ _ _⟩

/-- The record of `hip_malloc_retry` stands on the record of its first `hipMalloc`, and is
that record when the first `hipMalloc` succeeded. -/
theorem hip_malloc_retry_calls_grow (a : THCCachingAllocator) (hip : Hip) (d : Int) (n : Nat) :
    ∃ X, (hip_malloc_retry a hip d n).hip.calls = X ++ (hipMalloc hip n).2.2.calls ∧
      ((hipMalloc hip n).1 = hipSuccess → X = []) := by
  unfold hip_malloc_retry
  dsimp only
  split
  · rename_i hfail
    obtain ⟨fs, hfs, _⟩ := free_cached_blocks_calls a (hipGetLastError (hipMalloc hip n).2.2) d
    have hgl : (hipGetLastError (hipMalloc hip n).2.2).calls =
        [HipCall.getLastError] ++ (hipMalloc hip n).2.2.calls := rfl
    split
    · exact ⟨fs ++ [HipCall.getLastError], by rw [hfs, hgl, List.append_assoc],
        fun hc => absurd hc hfail⟩
    · split
      · refine ⟨HipCall.malloc n
            (hipMalloc (free_cached_blocks a (hipGetLastError (hipMalloc hip n).2.2) d).hip n).1
            (hipMalloc (free_cached_blocks a (hipGetLastError (hipMalloc hip n).2.2) d).hip
              n).2.1 :: (fs ++ [HipCall.getLastError]), ?_, fun hc => absurd hc hfail⟩
        show (hipMalloc _ n).2.2.calls = _
        rw [hipMalloc_calls, hfs, hgl]
        simp only [List.cons_append, List.append_assoc]
      · refine ⟨HipCall.malloc n
            (hipMalloc (free_cached_blocks a (hipGetLastError (hipMalloc hip n).2.2) d).hip n).1
            (hipMalloc (free_cached_blocks a (hipGetLastError (hipMalloc hip n).2.2) d).hip
              n).2.1 :: (fs ++ [HipCall.getLastError]), ?_, fun hc => absurd hc hfail⟩
        show (hipMalloc _ n).2.2.calls = _
        rw [hipMalloc_calls, hfs, hgl]
        simp only [List.cons_append, List.append_assoc]
  · exact ⟨[], rfl, fun _ => rfl⟩

theorem malloc_miss_hip (a : THCCachingAllocator) (hip : Hip) (d : Int) (st size : Nat) :
    (malloc_miss a hip d st size).hip = (hip_malloc_retry a hip d (alloc_size size)).hip := by
  by_cases herr : (hip_malloc_retry a hip d (alloc_size size)).err = hipSuccess
  · rw [malloc_miss_of_ok herr, malloc_split_hip]
  · rw [malloc_miss_of_err herr]

/-- When every call that a `malloc` makes succeeds, at most one of them is a `hipMalloc`. -/
theorem malloc_calls_of_ok (a : THCCachingAllocator) (hip : Hip) (size st : Nat)
    (new : List HipCall) (hnew : (malloc a hip size st).hip.calls = new ++ hip.calls)
    (hok : ∀ c ∈ new, c.err = hipSuccess) :
    (new.filter HipCall.isMalloc).length ≤ 1 := by
  by_cases hdev : hip.device.1 = hipSuccess
  · rw [malloc_of_device_ok hdev] at hnew
    unfold malloc_rounded at hnew
    split at hnew
    · rw [malloc_split_hip, hipGetDevice_calls] at hnew
      have : new = [HipCall.getDevice hip.device.1 hip.device.2] :=
        List.append_cancel_right (hnew.symm.trans (List.singleton_append).symm)
      rw [this]
      exact Nat.zero_le _
    · rw [malloc_miss_hip] at hnew
      obtain ⟨X, hX, hX0⟩ := hip_malloc_retry_calls_grow a (hipGetDevice hip).2.2 hip.device.2
        (alloc_size (round_size size))
      rw [hX, hipMalloc_calls, hipGetDevice_calls] at hnew
      have hn : new = X ++ [HipCall.malloc (alloc_size (round_size size))
          (hipMalloc (hipGetDevice hip).2.2 (alloc_size (round_size size))).1
          (hipMalloc (hipGetDevice hip).2.2 (alloc_size (round_size size))).2.1,
          HipCall.getDevice hip.device.1 hip.device.2] := by
        have h3 : new ++ hip.calls = (X ++ [HipCall.malloc (alloc_size (round_size size))
            (hipMalloc (hipGetDevice hip).2.2 (alloc_size (round_size size))).1
            (hipMalloc (hipGetDevice hip).2.2 (alloc_size (round_size size))).2.1,
            HipCall.getDevice hip.device.1 hip.device.2]) ++ hip.calls := by
          rw [← hnew]
          simp
        exact List.append_cancel_right h3
      have hfirst : (hipMalloc (hipGetDevice hip).2.2 (alloc_size (round_size size))).1 =
          hipSuccess :=
        hok (HipCall.malloc (alloc_size (round_size size))
          (hipMalloc (hipGetDevice hip).2.2 (alloc_size (round_size size))).1
          (hipMalloc (hipGetDevice hip).2.2 (alloc_size (round_size size))).2.1)
          (by rw [hn]; simp)
      rw [hn, hX0 hfirst]
      exact Nat.le_refl _
  · rw [malloc_of_device_err hdev, hipGetDevice_calls] at hnew
    have : new = [HipCall.getDevice hip.device.1 hip.device.2] :=
      List.append_cancel_right (hnew.symm.trans (List.singleton_append).symm)
    rw [this]
    exact Nat.zero_le _

theorem failed_calls_of_ok {new : List HipCall} (hok : ∀ c ∈ new, c.err = hipSuccess) :
    failed_calls new = [] := by
  induction new with
  | nil => rfl
  | cons c new ih =>
    rw [failed_calls_cons, if_neg, ih (fun x hx => hok x (List.mem_cons_of_mem _ hx))]
    intro hc
    exact hc.1 (hok c (List.mem_cons_self _ _))

/-- A `malloc` all of whose calls succeeded has succeeded. -/
theorem malloc_ok_of_calls (a : THCCachingAllocator) (hip : Hip) (size st : Nat)
    (new : List HipCall) (hnew : (malloc a hip size st).hip.calls = new ++ hip.calls)
    (hok : ∀ c ∈ new, c.err = hipSuccess) : (malloc a hip size st).err = hipSuccess := by
  obtain ⟨new1, h1, h2, _⟩ := malloc_failed_calls a hip size st
  have : new1 = new := List.append_cancel_right (h1.symm.trans hnew)
  subst this
  by_contra hc
  exact h2.1 hc (failed_calls_of_ok hok)

theorem hipFree_device (hip : Hip) (p : Nat) : (hipFree hip p).2.device = hip.device := by
  unfold hipFree
  split <;> rfl

theorem hipMalloc_device (hip : Hip) (n : Nat) : (hipMalloc hip n).2.2.device = hip.device := by
  unfold hipMalloc
  split <;> rfl

theorem free_blocks_loop_device (l : List Nat) :
    ∀ (h : Heap) (hip : Hip), (free_blocks_loop l h hip).hip.device = hip.device := by
  induction l with
  | nil => intro h hip; rfl
  | cons b rest ih =>
    intro h hip
    unfold free_blocks_loop
    split
    · split
      · exact hipFree_device hip _
      · rw [ih, hipFree_device]
    · exact ih h hip

theorem free_cached_blocks_hip_device (a : THCCachingAllocator) (hip : Hip) (d : Int) :
    (free_cached_blocks a hip d).hip.device = hip.device := by
  unfold free_cached_blocks
  dsimp only
  split
  · exact free_blocks_loop_device _ _ _
  · show (free_blocks_loop _ _ _).hip.device = _
    rw [free_blocks_loop_device]
    exact free_blocks_loop_device _ _ _

theorem hip_malloc_retry_device (a : THCCachingAllocator) (hip : Hip) (d : Int) (n : Nat) :
    (hip_malloc_retry a hip d n).hip.device = hip.device := by
  have h1 : (free_cached_blocks a (hipGetLastError (hipMalloc hip n).2.2) d).hip.device =
      hip.device := by
    rw [free_cached_blocks_hip_device]
    exact hipMalloc_device hip n
  unfold hip_malloc_retry
  dsimp only
  split
  · split
    · exact h1
    · split
      · show (hipMalloc _ n).2.2.device = _
        rw [hipMalloc_device, h1]
      · show (hipMalloc _ n).2.2.device = _
        rw [hipMalloc_device, h1]
  · exact hipMalloc_device hip n

/-- The answer that the runtime gives to the device query is not changed by `malloc`. -/
theorem malloc_hip_device (a : THCCachingAllocator) (hip : Hip) (size st : Nat) :
    (malloc a hip size st).hip.device = hip.device := by
  by_cases hdev : hip.device.1 = hipSuccess
  · rw [malloc_of_device_ok hdev]
    unfold malloc_rounded
    split
    · rw [malloc_split_hip]
      rfl
    · rw [malloc_miss_hip, hip_malloc_retry_device]
      rfl
  · rw [malloc_of_device_err hdev]
    rfl

theorem replicate_shift {α : Type} (n : Nat) (x : α) (l : List α) :
    List.replicate n x ++ x :: l = List.replicate (n + 1) x ++ l := by
  rw [List.replicate_succ', List.append_assoc]
  rfl

/-- From a state whose pool serves the request, every pair of the run hits the pool: each
pair adds one device query to the record and nothing else. -/
theorem alloc_free_pairs_of_cached (size st : Nat) (hsz : size < SIZE_T) (n : Nat) :
    ∀ (a : THCCachingAllocator) (hip : Hip), Reachable a hip → hip.device.1 = hipSuccess →
      hipSane hip.calls = true → Cached a hip.device.2 st (round_size size) →
      (alloc_free_pairs size st n a hip).2.calls =
        List.replicate n (HipCall.getDevice hipSuccess hip.device.2) ++ hip.calls := by
  induction n with
  | zero => intro a hip _ _ _ _; rfl
  | succ n ih =>
    intro a hip hr hdev hsane hc
    obtain ⟨ch, hinv, _⟩ := hr.good
    obtain ⟨e, hhit⟩ := malloc_hit_of_cached (hinv.pool _).sorted hc
    obtain ⟨hok, hhip⟩ := malloc_of_hit hdev hhit
    have hcalls : (malloc a hip size st).hip.calls =
        HipCall.getDevice hipSuccess hip.device.2 :: hip.calls := by
      rw [hhip, hipGetDevice_calls, hdev]
    have hsane2 : hipSane (malloc a hip size st).hip.calls = true := by
      rw [hcalls, hipSane_getDevice]
      exact hsane
    obtain ⟨p, hp, hc2, hfh⟩ := pair_recaches hr size st hsz hok hsane2
    have hr2 : Reachable (free (malloc a hip size st).alloc (malloc a hip size st).hip p).alloc
        (free (malloc a hip size st).alloc (malloc a hip size st).hip p).hip :=
      Reachable.free p (Reachable.malloc size st hr hsz)
    have hdev2 : (free (malloc a hip size st).alloc (malloc a hip size st).hip p).hip.device =
        hip.device := by
      rw [hfh, hhip]
      rfl
    rw [alloc_free_pairs_some n hp]
    have := ih _ _ hr2 (by rw [hdev2]; exact hdev) (by rw [hfh]; exact hsane2)
      (by rw [hdev2]; exact hc2)
    rw [this, hdev2, hfh, hcalls]
    exact replicate_shift _ _ _

/-- A run of pairs all of whose runtime calls succeeded, with a sane record, from a
reachable state: at most one call is a `hipMalloc`, and all calls after those of the first
pair are device queries. -/
theorem alloc_free_pairs_once {a : THCCachingAllocator} {hip : Hip} (hr : Reachable a hip)
    (size st N : Nat) (new : List HipCall) (hsz : size < SIZE_T)
    (hnew : (alloc_free_pairs size st N a hip).2.calls = new ++ hip.calls)
    (hok : ∀ c ∈ new, c.err = hipSuccess) (hsane : hipSane (new ++ hip.calls) = true) :
    (new.filter HipCall.isMalloc).length ≤ 1 ∧
    ∀ k first, k + 1 = N → (alloc_free_pairs size st 1 a hip).2.calls = first ++ hip.calls →
      new = List.replicate k (HipCall.getDevice hipSuccess hip.device.2) ++ first := by
  cases N with
  | zero =>
    have h0 : new = [] := by
      have h3 : new ++ hip.calls = [] ++ hip.calls := hnew.symm
      exact List.append_cancel_right h3
    subst h0
    exact ⟨Nat.zero_le _, fun k first hk _ => by omega⟩
  | succ k =>
    obtain ⟨new1, h1, _⟩ := malloc_failed_calls a hip size st
    cases hdp : (malloc a hip size st).devPtr with
    | none =>
      exfalso
      rw [alloc_free_pairs_none k hdp] at hnew
      have h3 : new1 = new := List.append_cancel_right (h1.symm.trans hnew)
      subst h3
      have hok1 := malloc_ok_of_calls a hip size st new1 h1 hok
      obtain ⟨p, _, hp, _⟩ := malloc_returned_owner a hip size st hok1
      rw [hdp] at hp
      cases hp
    | some p =>
      rw [alloc_free_pairs_some k hdp] at hnew
      obtain ⟨tail, ht⟩ := alloc_free_pairs_calls size st k
        (free (malloc a hip size st).alloc (malloc a hip size st).hip p).alloc
        (free (malloc a hip size st).alloc (malloc a hip size st).hip p).hip
      have hfh := free_hip (malloc a hip size st).alloc (malloc a hip size st).hip p
      have hn : new = tail ++ new1 := by
        have h3 : new ++ hip.calls = (tail ++ new1) ++ hip.calls := by
          rw [← hnew, ht, hfh, h1, List.append_assoc]
        exact List.append_cancel_right h3
      subst hn
      have hok1 : ∀ c ∈ new1, c.err = hipSuccess :=
        fun c hc => hok c (List.mem_append_right _ hc)
      have herr := malloc_ok_of_calls a hip size st new1 h1 hok1
      have hsane1 : hipSane (malloc a hip size st).hip.calls = true := by
        rw [h1]
        rw [List.append_assoc] at hsane
        exact hipSane_append hsane
      have hdev : hip.device.1 = hipSuccess := by
        by_contra hc
        rw [malloc_of_device_err hc] at herr
        exact hc herr
      obtain ⟨p2, hp2, hc2, _⟩ := pair_recaches hr size st hsz herr hsane1
      rw [hdp] at hp2
      cases hp2
      have hr2 : Reachable (free (malloc a hip size st).alloc (malloc a hip size st).hip p).alloc
          (free (malloc a hip size st).alloc (malloc a hip size st).hip p).hip :=
        Reachable.free p (Reachable.malloc size st hr hsz)
      have hdevm := malloc_hip_device a hip size st
      have hdev2 : (free (malloc a hip size st).alloc (malloc a hip size st).hip p).hip.device =
          hip.device := by rw [hfh, hdevm]
      have hrun := alloc_free_pairs_of_cached size st hsz k _ _ hr2
        (by rw [hdev2]; exact hdev) (by rw [hfh]; exact hsane1) (by rw [hdev2]; exact hc2)
      rw [hdev2, hfh] at hrun
      have htail : tail = List.replicate k (HipCall.getDevice hipSuccess hip.device.2) := by
        rw [hfh] at ht
        exact List.append_cancel_right (ht.symm.trans hrun)
      subst htail
      refine ⟨?_, ?_⟩
      · rw [List.filter_append]
        have hrep : (List.replicate k (HipCall.getDevice hipSuccess hip.device.2)).filter
            HipCall.isMalloc = [] := by
          rw [List.filter_eq_nil_iff]
          intro c hc
          rw [List.eq_of_mem_replicate hc]
          simp [HipCall.isMalloc]
        rw [hrep]
        exact malloc_calls_of_ok a hip size st new1 h1 hok1
      · intro k2 first hk hfirst
        have hk2 : k2 = k := by omega
        subst hk2
        rw [alloc_free_pairs_some 0 hdp] at hfirst
        have hf : (alloc_free_pairs size st 0
            (free (malloc a hip size st).alloc (malloc a hip size st).hip p).alloc
            (free (malloc a hip size st).alloc (malloc a hip size st).hip p).hip).2.calls =
            (malloc a hip size st).hip.calls := by
          show (free _ _ p).hip.calls = _
          rw [hfh]
        rw [hf, h1] at hfirst
        rw [List.append_cancel_right hfirst]

/-- C11: from a reachable state, run `N` pairs `malloc(&p, size, st); free(p)` with the same
size and stream, and let `new` be the runtime calls the run added to the record.  If every
one of these calls succeeded and the record is sane (the primitive allocator returned a
non-null region apart from the live ones), then at most one call of `new` is a `hipMalloc`,
and `new` is the calls of the first pair followed by `N - 1` device queries: no `malloc`
after the first pair calls the primitive allocator, each one is served from the pool. -/
theorem pairs_call_primitive_once (a : THCCachingAllocator) (hip : Hip) (hr : Reachable a hip)
    (size st N : Nat) (new : List HipCall) (hsz : size < SIZE_T)
    (hnew : (alloc_free_pairs size st N a hip).2.calls = new ++ hip.calls)
    (hok : ∀ c ∈ new, c.err = hipSuccess) (hsane : hipSane (new ++ hip.calls) = true) :
    (new.filter HipCall.isMalloc).length ≤ 1 ∧
    ∀ k first, k + 1 = N → (alloc_free_pairs size st 1 a hip).2.calls = first ++ hip.calls →
      new = List.replicate k (HipCall.getDevice hipSuccess hip.device.2) ++ first :=
  alloc_free_pairs_once hr size st N new hsz hnew hok hsane

theorem pairs_call_primitive_once_witness :
    (alloc_free_pairs 200 7 3 THCCachingAllocator.empty hipTwo).2.calls =
      [HipCall.getDevice hipSuccess 0, HipCall.getDevice hipSuccess 0,
        HipCall.malloc 1048576 hipSuccess 4096, HipCall.getDevice hipSuccess 0] ∧
    ([HipCall.getDevice hipSuccess 0, HipCall.getDevice hipSuccess 0,
        HipCall.malloc 1048576 hipSuccess 4096, HipCall.getDevice hipSuccess 0].filter
      HipCall.isMalloc).length ≤ 1 :=
  ⟨by decide,
    (pairs_call_primitive_once THCCachingAllocator.empty hipTwo (Reachable.init hipTwo rfl)
      200 7 3
      [HipCall.getDevice hipSuccess 0, HipCall.getDevice hipSuccess 0,
        HipCall.malloc 1048576 hipSuccess 4096, HipCall.getDevice hipSuccess 0]
      (by decide) (by decide) (by decide) (by decide)).1⟩

/-! ## The block a hit takes, the bytes a miss asks for, and what a sweep and a `free` leave alone -/

theorem BlockComparator_same_owner {x y : Block} (hd : x.device = y.device)
    (hs : x.stream = y.stream) (h : BlockComparator x y = true) :
    x.size ≤ y.size ∧ (y.size = x.size → x.ptr ≤ y.ptr) := by
  unfold BlockComparator at h
  simp only [hd, hs, ne_eq, not_true_eq_false, if_false] at h
  by_cases hz : x.size = y.size
  · simp only [hz, not_true_eq_false, if_false, decide_eq_true_eq] at h
    exact ⟨Nat.le_of_eq hz, fun _ => Nat.le_of_lt h⟩
  · simp only [hz, not_false_eq_true, if_true, decide_eq_true_eq] at h
    exact ⟨Nat.le_of_lt h, fun hc => absurd hc.symm hz⟩

/-- The block that the lookup of `malloc` finds in a sorted pool is the least block of the
device and stream with enough bytes: least in size, and least in address among those of
that size. -/
theorem malloc_hit_min {a : THCCachingAllocator} {d : Int} {st r e : Nat}
    (hs : Sorted a.heap (getPool (decide (r ≤ kSmallAlloc)) a))
    (hhit : malloc_hit a d st r = some e) :
    ∀ x ∈ getPool (decide (r ≤ kSmallAlloc)) a, (deref a.heap x).device = d →
      (deref a.heap x).stream = st → r ≤ (deref a.heap x).size →
      (deref a.heap e).size ≤ (deref a.heap x).size ∧
      ((deref a.heap x).size = (deref a.heap e).size →
        (deref a.heap e).ptr ≤ (deref a.heap x).ptr) := by
  intro x hx hxd hxs hxr
  obtain ⟨hed, hes⟩ := malloc_hit_owner hhit
  obtain ⟨post, hlb⟩ := malloc_hit_lower_bound hhit
  have hxk := BlockComparator_key_false hxd hxs hxr
  generalize getPool (decide (r ≤ kSmallAlloc)) a = l at hs hx hlb
  unfold lower_bound at hlb
  have hsplit := List.takeWhile_append_dropWhile
    (fun e => BlockComparator (deref a.heap e) (Block.ctor d st r 0)) l
  rw [hlb] at hsplit
  have hxin : x ∈ e :: post := by
    rw [← hsplit] at hx
    rcases List.mem_append.1 hx with h1 | h1
    · have := List.mem_takeWhile_imp h1
      rw [hxk] at this
      cases this
    · exact h1
  have hsorted : Sorted a.heap (e :: post) := by
    unfold Sorted at hs ⊢
    rw [← hsplit] at hs
    exact (List.pairwise_append.1 hs).2.1
  rcases List.mem_cons.1 hxin with h1 | h1
  · rw [h1]
    exact ⟨Nat.le_refl _, fun _ => Nat.le_refl _⟩
  · exact BlockComparator_same_owner (hed.trans hxd.symm) (hes.trans hxs.symm)
      ((List.pairwise_cons.1 hsorted).1 x h1)

theorem malloc_split_heap_new_ptr (h : Heap) (remaining : Nat) (device : Int)
    (stream size : Nat) (hne : newPtr h ≠ remaining) :
    (deref (malloc_split_heap h remaining device stream size) (newPtr h)).ptr =
      (deref h remaining).ptr := by
  unfold malloc_split_heap
  dsimp only
  rw [deref_store_ne _ _ _ _ hne, deref_store_ne _ _ _ _ hne, deref_store_ne _ _ _ _ hne,
    deref_store_proj Block.ptr, deref_store_opt_proj Block.ptr, deref_store_proj Block.ptr,
    deref_newBlock_self]
  · rfl
  all_goals
    intro b
    rfl

/-- The address that the split decision hands out is the address of the chosen block. -/
theorem malloc_split_devPtr (a : THCCachingAllocator) (hip : Hip) {block : Nat} (device : Int)
    (stream size : Nat) (hb : Live a.heap block) :
    (malloc_split a hip block device stream size).devPtr = some (deref a.heap block).ptr := by
  unfold malloc_split
  split
  · show some (deref (store _ (newPtr a.heap) _) (newPtr a.heap)).ptr = _
    rw [setPool_heap, deref_store_proj Block.ptr]
    · rw [malloc_split_heap_new_ptr _ _ _ _ _ (Nat.ne_of_gt hb.lt)]
    · intro b; rfl
  · show some (deref (store a.heap block _) block).ptr = _
    rw [deref_store_proj Block.ptr]
    intro b; rfl

/-- A `malloc` whose lookup hits the pool: the block found is erased from the pool and
handed to the split decision, the runtime is asked for the device only, and the address
handed out is the address of the block found. -/
theorem malloc_hit_run {a : THCCachingAllocator} {hip : Hip} {size st e : Nat}
    (hdev : hip.device.1 = hipSuccess) (hl : Live a.heap e)
    (hhit : malloc_hit a hip.device.2 st (round_size size) = some e) :
    (malloc a hip size st).err = hipSuccess ∧
    (malloc a hip size st).hip.calls =
      HipCall.getDevice hipSuccess hip.device.2 :: hip.calls ∧
    (malloc a hip size st).devPtr = some (deref a.heap e).ptr := by
  obtain ⟨h1, h2⟩ := malloc_of_hit hdev hhit
  refine ⟨h1, by rw [h2, hipGetDevice_calls, hdev], ?_⟩
  rw [malloc_of_device_ok hdev]
  unfold malloc_rounded
  rw [hhit]
  dsimp only
  rw [malloc_split_devPtr _ _ _ _ _ (by rw [setPool_heap]; exact hl), setPool_heap]

theorem malloc_hit_iff_of_reachable {a : THCCachingAllocator} {hip : Hip}
    (hr : Reachable a hip) (d : Int) (st r : Nat) :
    ((∃ e, malloc_hit a d st r = some e) ↔
      ∃ x ∈ getPool (decide (r ≤ kSmallAlloc)) a, (deref a.heap x).device = d ∧
        (deref a.heap x).stream = st ∧ r ≤ (deref a.heap x).size) ∧
    (∀ e, malloc_hit a d st r = some e →
      e ∈ getPool (decide (r ≤ kSmallAlloc)) a ∧ (deref a.heap e).device = d ∧
      (deref a.heap e).stream = st ∧ r ≤ (deref a.heap e).size ∧
      (∀ x ∈ getPool (decide (r ≤ kSmallAlloc)) a, (deref a.heap x).device = d →
        (deref a.heap x).stream = st → r ≤ (deref a.heap x).size →
        (deref a.heap e).size ≤ (deref a.heap x).size ∧
        ((deref a.heap x).size = (deref a.heap e).size →
          (deref a.heap e).ptr ≤ (deref a.heap x).ptr)) ∧
      (∀ size, round_size size = r → hip.device = (hipSuccess, d) →
        (malloc a hip size st).err = hipSuccess ∧
        (malloc a hip size st).hip.calls = HipCall.getDevice hipSuccess d :: hip.calls ∧
        (malloc a hip size st).devPtr = some (deref a.heap e).ptr)) := by
  obtain ⟨ch, hinv, _⟩ := hr.good
  have hs := (hinv.pool (decide (r ≤ kSmallAlloc))).sorted
  refine ⟨⟨?_, fun hc => malloc_hit_of_cached hs hc⟩, ?_⟩
  · rintro ⟨e, he⟩
    exact ⟨e, malloc_hit_mem he, (malloc_hit_owner he).1, (malloc_hit_owner he).2,
      malloc_hit_size he⟩
  · intro e he
    refine ⟨malloc_hit_mem he, (malloc_hit_owner he).1, (malloc_hit_owner he).2,
      malloc_hit_size he, malloc_hit_min hs he, ?_⟩
    intro size hsz hdev
    have hl : Live a.heap e := ((hinv.pool _).mem e (malloc_hit_mem he)).1
    have hd1 : hip.device.1 = hipSuccess := by rw [hdev]
    have hd2 : hip.device.2 = d := by rw [hdev]
    subst hsz
    rw [← hd2] at he ⊢
    exact malloc_hit_run hd1 hl he

/-- C21: in every reachable state, for the current device `d`, a stream and a rounded size
`r`, the lookup of `malloc` in the pool it searches finds a block if and only if that pool
holds a block of device `d` and the stream with at least `r` bytes.  The block found is in
that pool, is such a block, is the one of least size among them and of least address among
those of that size; and the `malloc` then succeeds, asks the runtime for the device only
(no `hipMalloc`) and hands out the address of the block found. -/
theorem malloc_hit_least (a : THCCachingAllocator) (hip : Hip) (hr : Reachable a hip)
    (d : Int) (st r : Nat) :
    ((∃ e, malloc_hit a d st r = some e) ↔
      ∃ x ∈ getPool (decide (r ≤ kSmallAlloc)) a, (deref a.heap x).device = d ∧
        (deref a.heap x).stream = st ∧ r ≤ (deref a.heap x).size) ∧
    (∀ e, malloc_hit a d st r = some e →
      e ∈ getPool (decide (r ≤ kSmallAlloc)) a ∧ (deref a.heap e).device = d ∧
      (deref a.heap e).stream = st ∧ r ≤ (deref a.heap e).size ∧
      (∀ x ∈ getPool (decide (r ≤ kSmallAlloc)) a, (deref a.heap x).device = d →
        (deref a.heap x).stream = st → r ≤ (deref a.heap x).size →
        (deref a.heap e).size ≤ (deref a.heap x).size ∧
        ((deref a.heap x).size = (deref a.heap e).size →
          (deref a.heap e).ptr ≤ (deref a.heap x).ptr)) ∧
      (∀ size, round_size size = r → hip.device = (hipSuccess, d) →
        (malloc a hip size st).err = hipSuccess ∧
        (malloc a hip size st).hip.calls = HipCall.getDevice hipSuccess d :: hip.calls ∧
        (malloc a hip size st).devPtr = some (deref a.heap e).ptr)) :=
  malloc_hit_iff_of_reachable hr d st r

theorem malloc_hit_least_witness :
    malloc_hit afterFirst.alloc 0 7 512 = some 0 ∧
    afterFirst.alloc.heap[0]? = some (some ⟨0, 7, 1048064, 4608, false, some 1, none⟩) ∧
    afterSecondHit.devPtr = some 4608 ∧
    afterSecondHit.alloc.heap =
      [some ⟨0, 7, 1047552, 5120, false, some 2, none⟩,
        some ⟨0, 7, 512, 4096, true, none, some 2⟩,
        some ⟨0, 7, 512, 4608, true, some 1, some 0⟩] ∧
    afterSecondHit.hip.calls = HipCall.getDevice hipSuccess 0 :: afterFirst.hip.calls :=
  ⟨by decide, by decide,
    ((malloc_hit_least afterFirst.alloc afterFirst.hip
      (Reachable.malloc 200 7 (Reachable.init hipTwo rfl) (by decide)) 0 7 512).2 0
      (by decide)).2.2.2.2.2 100 (by decide) (by decide) |>.2.2,
    by decide,
    ((malloc_hit_least afterFirst.alloc afterFirst.hip
      (Reachable.malloc 200 7 (Reachable.init hipTwo rfl) (by decide)) 0 7 512).2 0
      (by decide)).2.2.2.2.2 100 (by decide) (by decide) |>.2.1⟩

/-- The record of `hip_malloc_retry` above its first `hipMalloc`: every `hipMalloc` in it
was asked for the same byte count. -/
theorem hip_malloc_retry_calls_bytes (a : THCCachingAllocator) (hip : Hip) (d : Int) (n : Nat) :
    ∃ X, (hip_malloc_retry a hip d n).hip.calls = X ++ (hipMalloc hip n).2.2.calls ∧
      ∀ c ∈ X, c.isMalloc = true → ∃ e p, c = HipCall.malloc n e p := by
  unfold hip_malloc_retry
  dsimp only
  split
  · obtain ⟨fs, hfs, hrec⟩ :=
      free_cached_blocks_calls a (hipGetLastError (hipMalloc hip n).2.2) d
    have hgl : (hipGetLastError (hipMalloc hip n).2.2).calls =
        [HipCall.getLastError] ++ (hipMalloc hip n).2.2.calls := rfl
    have hfree : ∀ c ∈ fs ++ [HipCall.getLastError], c.isMalloc = true →
        ∃ e p, c = HipCall.malloc n e p := by
      intro c hc hm
      rcases List.mem_append.1 hc with h1 | h1
      · have := hrec.1 c h1
        cases c <;> simp [HipCall.isMalloc, HipCall.isFree] at hm this
      · rw [List.mem_singleton] at h1
        rw [h1] at hm
        simp [HipCall.isMalloc] at hm
    split
    · exact ⟨fs ++ [HipCall.getLastError], by rw [hfs, hgl, List.append_assoc], hfree⟩
    · have hboth : ∃ X,
          (hipMalloc (free_cached_blocks a (hipGetLastError (hipMalloc hip n).2.2) d).hip
            n).2.2.calls = X ++ (hipMalloc hip n).2.2.calls ∧
          ∀ c ∈ X, c.isMalloc = true → ∃ e p, c = HipCall.malloc n e p := by
        refine ⟨HipCall.malloc n
          (hipMalloc (free_cached_blocks a (hipGetLastError (hipMalloc hip n).2.2) d).hip n).1
          (hipMalloc (free_cached_blocks a (hipGetLastError (hipMalloc hip n).2.2) d).hip
            n).2.1 :: (fs ++ [HipCall.getLastError]), ?_, ?_⟩
        · rw [hipMalloc_calls, hfs, hgl]
          simp only [List.cons_append, List.append_assoc]
        · intro c hc hm
          rcases List.mem_cons.1 hc with h1 | h1
          · exact ⟨_, _, h1⟩
          · exact hfree c h1 hm
      split
      · exact hboth
      · exact hboth
  · exact ⟨[], rfl, fun c hc => by cases hc⟩

/-- A `hip_malloc_retry` that succeeds wrote the address of its last `hipMalloc`, which
succeeded. -/
theorem hip_malloc_retry_ok (a : THCCachingAllocator) (hip : Hip) (d : Int) (n : Nat)
    (hok : (hip_malloc_retry a hip d n).err = hipSuccess) :
    ∃ p rest, (hip_malloc_retry a hip d n).devPtr = some p ∧
      (hip_malloc_retry a hip d n).hip.calls = HipCall.malloc n hipSuccess p :: rest := by
  unfold hip_malloc_retry at hok ⊢
  dsimp only at hok ⊢
  split
  · rename_i h1
    rw [if_pos h1] at hok
    split
    · rename_i h2
      rw [if_pos h2] at hok
      exact absurd hok h2
    · rename_i h2
      rw [if_neg h2] at hok
      split
      · rename_i h3
        rw [if_pos h3] at hok
        exact absurd hok h3
      · rename_i h3
        have h4 : (hipMalloc (free_cached_blocks a (hipGetLastError (hipMalloc hip n).2.2)
            d).hip n).1 = hipSuccess := by
          by_contra hc
          exact h3 hc
        refine ⟨(hipMalloc (free_cached_blocks a (hipGetLastError (hipMalloc hip n).2.2)
            d).hip n).2.1, (free_cached_blocks a (hipGetLastError (hipMalloc hip n).2.2)
            d).hip.calls, rfl, ?_⟩
        show (hipMalloc _ n).2.2.calls = _
        rw [hipMalloc_calls, h4]
  · rename_i h1
    have h4 : (hipMalloc hip n).1 = hipSuccess := by
      by_contra hc
      exact h1 hc
    refine ⟨(hipMalloc hip n).2.1, hip.calls, rfl, ?_⟩
    show (hipMalloc hip n).2.2.calls = _
    rw [hipMalloc_calls, h4]

theorem malloc_miss_run (a : THCCachingAllocator) (hip : Hip) (size st : Nat)
    (hdev : hip.device.1 = hipSuccess)
    (hmiss : malloc_hit a hip.device.2 st (round_size size) = none) :
    (∃ new e1 p1, (malloc a hip size st).hip.calls =
        new ++ HipCall.malloc (alloc_size (round_size size)) e1 p1 ::
          HipCall.getDevice hipSuccess hip.device.2 :: hip.calls ∧
      ∀ c ∈ new, c.isMalloc = true →
        ∃ e p, c = HipCall.malloc (alloc_size (round_size size)) e p) ∧
    ((malloc a hip size st).err = hipSuccess → ∃ p rest,
      (malloc a hip size st).hip.calls =
        HipCall.malloc (alloc_size (round_size size)) hipSuccess p :: rest ∧
      malloc a hip size st =
        malloc_split
          { (hip_malloc_retry a (hipGetDevice hip).2.2 hip.device.2
              (alloc_size (round_size size))).alloc with
            heap := newBlock (hip_malloc_retry a (hipGetDevice hip).2.2 hip.device.2
                (alloc_size (round_size size))).alloc.heap
              (Block.ctor hip.device.2 st (alloc_size (round_size size)) p) }
          (malloc a hip size st).hip
          (newPtr (hip_malloc_retry a (hipGetDevice hip).2.2 hip.device.2
            (alloc_size (round_size size))).alloc.heap)
          hip.device.2 st (round_size size)) := by
  rw [malloc_of_device_ok hdev, malloc_rounded_of_miss hmiss]
  refine ⟨?_, ?_⟩
  · obtain ⟨X, hX, hXm⟩ := hip_malloc_retry_calls_bytes a (hipGetDevice hip).2.2 hip.device.2
      (alloc_size (round_size size))
    refine ⟨X, (hipMalloc (hipGetDevice hip).2.2 (alloc_size (round_size size))).1,
      (hipMalloc (hipGetDevice hip).2.2 (alloc_size (round_size size))).2.1, ?_, hXm⟩
    rw [malloc_miss_hip, hX, hipMalloc_calls, hipGetDevice_calls, hdev]
  · intro hok
    by_cases herr : (hip_malloc_retry a (hipGetDevice hip).2.2 hip.device.2
        (alloc_size (round_size size))).err = hipSuccess
    · obtain ⟨p, rest, hp, hc⟩ := hip_malloc_retry_ok _ _ _ _ herr
      refine ⟨p, rest, by rw [malloc_miss_hip, hc], ?_⟩
      rw [malloc_miss_hip, malloc_miss_of_ok herr, hp]
      rfl
    · rw [malloc_miss_of_err herr] at hok
      exact absurd hok herr

theorem malloc_rounded_of_hit {a : THCCachingAllocator} {hip : Hip} {device : Int}
    {stream size e : Nat} (h : malloc_hit a device stream size = some e) :
    malloc_rounded a hip device stream size =
      malloc_split
        (setPool (decide (size ≤ kSmallAlloc)) a
          (erase_at (getPool (decide (size ≤ kSmallAlloc)) a)
            (lower_bound a.heap (Block.ctor device stream size 0)
              (getPool (decide (size ≤ kSmallAlloc)) a))))
        hip e device stream size := by
  unfold malloc_rounded
  rw [h]

theorem malloc_sub_of_reachable (a : THCCachingAllocator) (hip : Hip) (hr : Reachable a hip)
    (size st : Nat) (hok : (malloc a hip size st).err = hipSuccess) :
    ∃ a2 hip2 blk, malloc a hip size st =
        malloc_split a2 hip2 blk hip.device.2 st (round_size size) ∧
      round_size size ≤ (deref a2.heap blk).size ∧ (deref a2.heap blk).size < SIZE_T ∧
      sub_size_t (deref a2.heap blk).size (round_size size) =
        (deref a2.heap blk).size - round_size size ∧
      ((malloc_hit a hip.device.2 st (round_size size) = some blk ∧ a2.heap = a.heap ∧
          (deref a.heap blk).device = hip.device.2 ∧ (deref a.heap blk).stream = st ∧
          BlockComparator (deref a.heap blk)
            (Block.ctor hip.device.2 st (round_size size) 0) = false) ∨
       (malloc_hit a hip.device.2 st (round_size size) = none ∧
          (deref a2.heap blk).size = alloc_size (round_size size))) := by
  by_cases hdev : hip.device.1 = hipSuccess
  swap
  · rw [malloc_of_device_err hdev] at hok
    exact absurd hok hdev
  cases hhit : malloc_hit a hip.device.2 st (round_size size) with
  | some e =>
    have hsz := malloc_hit_size hhit
    have hown := malloc_hit_owner hhit
    have hmem := malloc_hit_mem hhit
    have hlt : (deref a.heap e).size < SIZE_T := by
      have hw := hr.wellTyped
      have hpa := hr.pools_apart
      have hel : e < a.heap.length := by
        unfold getPool at hmem
        split at hmem
        · exact hpa.large_lt e hmem
        · exact hpa.small_lt e hmem
      cases hc : a.heap[e]? with
      | none =>
        rw [List.getElem?_eq_none_iff] at hc
        omega
      | some c =>
        cases c with
        | none =>
          have : deref a.heap e = default := by
            unfold deref
            rw [hc]
          rw [this]
          decide
        | some b =>
          rw [deref_of_live hc]
          exact hw.sizes e b hc
    refine ⟨setPool (decide (round_size size ≤ kSmallAlloc)) a
        (erase_at (getPool (decide (round_size size ≤ kSmallAlloc)) a)
          (lower_bound a.heap (Block.ctor hip.device.2 st (round_size size) 0)
            (getPool (decide (round_size size ≤ kSmallAlloc)) a))),
      (hipGetDevice hip).2.2, e, ?_, ?_, ?_, ?_, Or.inl ⟨rfl, ?_, hown.1, hown.2, ?_⟩⟩
    · rw [malloc_of_device_ok hdev, malloc_rounded_of_hit hhit]
    · rw [setPool_heap]
      exact hsz
    · rw [setPool_heap]
      exact hlt
    · rw [setPool_heap]
      exact sub_size_t_of_le hsz hlt
    · rw [setPool_heap]
    · obtain ⟨post, hpost⟩ := malloc_hit_lower_bound hhit
      unfold lower_bound at hpost
      have := List.head_dropWhile_not
        (fun e => BlockComparator (deref a.heap e)
          (Block.ctor hip.device.2 st (round_size size) 0))
        (getPool (decide (round_size size ≤ kSmallAlloc)) a)
        (by rw [hpost]; exact List.cons_ne_nil _ _)
      simp only [hpost, List.head_cons] at this
      simpa using this
  | none =>
    obtain ⟨p, rest, _, heq⟩ := (malloc_miss_run a hip size st hdev hhit).2 hok
    refine ⟨_, _, _, heq, ?_, ?_, ?_, Or.inr ⟨rfl, ?_⟩⟩
    · show round_size size ≤ (deref (newBlock _ _) (newPtr _)).size
      rw [deref_newBlock, if_pos rfl]
      exact le_alloc_size _
    · show (deref (newBlock _ _) (newPtr _)).size < SIZE_T
      rw [deref_newBlock, if_pos rfl]
      exact alloc_size_lt (round_size_lt _)
    · show sub_size_t (deref (newBlock _ _) (newPtr _)).size _ = _
      rw [deref_newBlock, if_pos rfl]
      exact sub_size_t_of_le (le_alloc_size _) (alloc_size_lt (round_size_lt _))
    · show (deref (newBlock _ _) (newPtr _)).size = _
      rw [deref_newBlock, if_pos rfl]
      rfl

/-- C28: in every reachable state the subtraction `block->size - size` of `malloc` does not
wrap around.  A successful `malloc` is the split decision `malloc_split` run on a state and
a chosen block whose size is at least the rounded request and a `size_t` value, so the
`size_t` subtraction is the subtraction of the natural numbers.  The chosen block is
either the block of a pool hit, which has the device and the stream of the request and is
not below the search key under `BlockComparator`, or the block of a miss, whose size is
`alloc_size` of the rounded request: 1048576, which is at least the rounded request, in the
small class, and the rounded request itself in the large class. -/
theorem malloc_sub_no_underflow (a : THCCachingAllocator) (hip : Hip) (hr : Reachable a hip)
    (size st : Nat) (hok : (malloc a hip size st).err = hipSuccess) :
    (∃ a2 hip2 blk, malloc a hip size st =
        malloc_split a2 hip2 blk hip.device.2 st (round_size size) ∧
      round_size size ≤ (deref a2.heap blk).size ∧ (deref a2.heap blk).size < SIZE_T ∧
      sub_size_t (deref a2.heap blk).size (round_size size) =
        (deref a2.heap blk).size - round_size size ∧
      ((malloc_hit a hip.device.2 st (round_size size) = some blk ∧ a2.heap = a.heap ∧
          (deref a.heap blk).device = hip.device.2 ∧ (deref a.heap blk).stream = st ∧
          BlockComparator (deref a.heap blk)
            (Block.ctor hip.device.2 st (round_size size) 0) = false) ∨
       (malloc_hit a hip.device.2 st (round_size size) = none ∧
          (deref a2.heap blk).size = alloc_size (round_size size)))) ∧
    (round_size size ≤ kSmallAlloc →
      alloc_size (round_size size) = 1048576 ∧ round_size size ≤ alloc_size (round_size size)) ∧
    (kSmallAlloc < round_size size → alloc_size (round_size size) = round_size size) :=
  ⟨malloc_sub_of_reachable a hip hr size st hok,
    fun h => ⟨by unfold alloc_size; rw [if_pos h], le_alloc_size _⟩,
    fun h => by unfold alloc_size; rw [if_neg (by omega)]⟩

theorem malloc_sub_no_underflow_witness :
    (malloc afterFirst.alloc afterFirst.hip 100 7).err = hipSuccess ∧
    (round_size 100 ≤ kSmallAlloc →
      alloc_size (round_size 100) = 1048576 ∧ round_size 100 ≤ alloc_size (round_size 100)) :=
  ⟨by decide,
    (malloc_sub_no_underflow afterFirst.alloc afterFirst.hip afterFirst_reachable 100 7
      (by decide)).2.1⟩

/-- Under `BlockComparator` the keys `(d, NULL, 0, 0)` and `(d + 1, NULL, 0, 0)` bound exactly
the blocks of device `d`. -/
theorem BlockComparator_device_bounds (b : Block) (d : Int) :
    (BlockComparator b (Block.ctor d 0 0 0) = false ∧
      BlockComparator b (Block.ctor (d + 1) 0 0 0) = true) ↔ b.device = d := by
  unfold BlockComparator Block.ctor
  dsimp only
  constructor
  · rintro ⟨h1, h2⟩
    by_cases hd : b.device = d
    · exact hd
    · rw [if_pos hd] at h1
      have h3 : ¬ b.device < d := by simpa using h1
      by_cases hd2 : b.device = d + 1
      · rw [if_neg (by simpa using hd2)] at h2
        split at h2
        · simp at h2
        · split at h2
          · simp at h2
          · simp at h2
      · rw [if_pos hd2] at h2
        have h4 : b.device < d + 1 := by simpa using h2
        omega
  · intro hd
    subst hd
    refine ⟨?_, ?_⟩
    · rw [if_neg (by simp)]
      split
      · simp
      · split
        · simp
        · simp
    · rw [if_pos (by omega)]
      simp

/-- In an ordered pool the range that `free_cached_blocks(d)` walks is the blocks of
device `d`. -/
theorem mem_device_range {h : Heap} {l : List Nat} (hs : Sorted h l) (d : Int) (x : Nat) :
    x ∈ device_range h d l ↔ x ∈ l ∧ (deref h x).device = d := by
  have hmono := sorted_device hs
  unfold device_range
  rw [lower_bound_device, lower_bound_device]
  have hsplit := range_split (fun e => decide ((deref h e).device < d))
    (fun e => decide ((deref h e).device < d + 1))
    (fun x hx => by
      have : (deref h x).device < d := by simpa using hx
      simp only [decide_eq_true_eq]
      omega) l
  rw [hsplit.2.1]
  have hm : (l.dropWhile (fun e => decide ((deref h e).device < d))).Sublist l :=
    List.dropWhile_sublist _
  constructor
  · intro hx
    have hx1 := List.mem_takeWhile_imp hx
    have hx2 := (List.takeWhile_sublist _).subset hx
    have hx3 := dropWhile_device_ge h d l hmono x hx2
    have hx4 : (deref h x).device < d + 1 := by simpa using hx1
    exact ⟨hm.subset hx2, by omega⟩
  · rintro ⟨hx, hd⟩
    have h1 : x ∈ l.takeWhile (fun e => decide ((deref h e).device < d)) ++
        l.dropWhile (fun e => decide ((deref h e).device < d)) := by
      rw [List.takeWhile_append_dropWhile]
      exact hx
    rcases List.mem_append.1 h1 with h2 | h2
    · have := List.mem_takeWhile_imp h2
      have h3 : (deref h x).device < d := by simpa using this
      omega
    · have h4 : x ∈ (l.dropWhile (fun e => decide ((deref h e).device < d))).takeWhile
            (fun e => decide ((deref h e).device < d + 1)) ++
          (l.dropWhile (fun e => decide ((deref h e).device < d))).dropWhile
            (fun e => decide ((deref h e).device < d + 1)) := by
        rw [List.takeWhile_append_dropWhile]
        exact h2
      rcases List.mem_append.1 h4 with h5 | h5
      · exact h5
      · have := dropWhile_device_ge h (d + 1) _ (hmono.sublist hm) x h5
        omega

theorem free_cached_exact_of_reachable (a : THCCachingAllocator) (hip hip2 : Hip)
    (hr : Reachable a hip) (d : Int) (hf : ∀ e ∈ hip2.frees, e = hipSuccess) :
    (free_cached_blocks a hip2 d).err = hipSuccess ∧
    (∀ x, x ∈ roots a.heap
          (device_range a.heap d a.large_blocks ++ device_range a.heap d a.small_blocks) ↔
        (x ∈ a.large_blocks ∨ x ∈ a.small_blocks) ∧ (deref a.heap x).device = d ∧
          (deref a.heap x).root) ∧
    (free_cached_blocks a hip2 d).hip.calls =
      freed_calls a.heap
        (device_range a.heap d a.large_blocks ++ device_range a.heap d a.small_blocks) ++
        hip2.calls ∧
    (free_cached_blocks a hip2 d).alloc.large_blocks =
      a.large_blocks.filter (fun x => decide (x ∉ roots a.heap
        (device_range a.heap d a.large_blocks ++ device_range a.heap d a.small_blocks))) ∧
    (free_cached_blocks a hip2 d).alloc.small_blocks =
      a.small_blocks.filter (fun x => decide (x ∉ roots a.heap
        (device_range a.heap d a.large_blocks ++ device_range a.heap d a.small_blocks))) ∧
    (free_cached_blocks a hip2 d).alloc.allocated_blocks = a.allocated_blocks ∧
    (∀ q ∈ roots a.heap
        (device_range a.heap d a.large_blocks ++ device_range a.heap d a.small_blocks),
      (free_cached_blocks a hip2 d).alloc.heap[q]? = some none) ∧
    (∀ q, q ∉ roots a.heap
        (device_range a.heap d a.large_blocks ++ device_range a.heap d a.small_blocks) →
      (free_cached_blocks a hip2 d).alloc.heap[q]? = a.heap[q]?) := by
  have hord := hr.pools_ordered
  have herr := (free_cached_blocks_ordered a hip2 d hord hf).err
  obtain ⟨done, tail, hdt, hsw⟩ := swept_of_reachable a hip hip2 hr
    (free_cached_blocks a hip2 d)
    (device_range a.heap d a.large_blocks ++ device_range a.heap d a.small_blocks)
    (Or.inr ⟨d, rfl, rfl⟩)
  obtain ⟨htail, hcalls⟩ := hsw.ok herr
  subst htail
  rw [List.append_nil] at hdt
  subst hdt
  refine ⟨herr, ?_, hcalls, hsw.large, hsw.small, hsw.table, hsw.gone, hsw.cell⟩
  intro x
  rw [mem_roots, List.mem_append, mem_device_range hord.large_sorted,
    mem_device_range hord.small_sorted]
  constructor
  · rintro ⟨h1 | h1, h2⟩
    · exact ⟨Or.inl h1.1, h1.2, h2⟩
    · exact ⟨Or.inr h1.1, h1.2, h2⟩
  · rintro ⟨h1 | h1, h2, h3⟩
    · exact ⟨Or.inl ⟨h1, h2⟩, h3⟩
    · exact ⟨Or.inr ⟨h1, h2⟩, h3⟩

/-- C25: in a reachable state, for a device `d` with `d + 1` representable and a runtime
whose `hipFree` calls all succeed, `free_cached_blocks(d)` succeeds; the keys
`(d, NULL, 0, 0)` and `(d + 1, NULL, 0, 0)` bound exactly the blocks of device `d` under
`BlockComparator`; the blocks `cached_roots a d` it works on are exactly the blocks of the
two pools with device `d` and both sibling links null, whatever their stream; it calls
`hipFree` on the address of each of them, once and in order, and makes no other call; it
erases each of them from its pool and deletes it; every other cell of the heap (blocks of
other devices, blocks with a sibling, allocated blocks), the rest of both pools and the
allocated table are unchanged.  The devices of the model are unbounded integers, so the
bound on `d` is not used. -/
theorem free_cached_blocks_exact (a : THCCachingAllocator) (hip hip2 : Hip)
    (hr : Reachable a hip) (d : Int) (_hd : d + 1 < 2147483648)
    (hf : ∀ e ∈ hip2.frees, e = hipSuccess) :
    (free_cached_blocks a hip2 d).err = hipSuccess ∧
    (∀ b : Block, (BlockComparator b (Block.ctor d 0 0 0) = false ∧
      BlockComparator b (Block.ctor (d + 1) 0 0 0) = true) ↔ b.device = d) ∧
    (∀ x, x ∈ cached_roots a d ↔
      (x ∈ a.large_blocks ∨ x ∈ a.small_blocks) ∧ (deref a.heap x).device = d ∧
        (deref a.heap x).prev = none ∧ (deref a.heap x).next = none) ∧
    (free_cached_blocks a hip2 d).hip.calls =
      ((cached_roots a d).map (fun x => HipCall.free (deref a.heap x).ptr hipSuccess)).reverse ++
        hip2.calls ∧
    (free_cached_blocks a hip2 d).alloc.large_blocks =
      a.large_blocks.filter (fun x => decide (x ∉ cached_roots a d)) ∧
    (free_cached_blocks a hip2 d).alloc.small_blocks =
      a.small_blocks.filter (fun x => decide (x ∉ cached_roots a d)) ∧
    (free_cached_blocks a hip2 d).alloc.allocated_blocks = a.allocated_blocks ∧
    (∀ q ∈ cached_roots a d, (free_cached_blocks a hip2 d).alloc.heap[q]? = some none) ∧
    (∀ q, q ∉ cached_roots a d → (free_cached_blocks a hip2 d).alloc.heap[q]? = a.heap[q]?) :=
  ⟨(free_cached_exact_of_reachable a hip hip2 hr d hf).1,
    fun b => BlockComparator_device_bounds b d,
    (free_cached_exact_of_reachable a hip hip2 hr d hf).2⟩

theorem free_cached_blocks_exact_witness :
    cached_roots twoRoots.alloc 0 = [0, 1] ∧
    (free_cached_blocks twoRoots.alloc twoRoots.hip 0).hip.calls =
      [HipCall.free 8388608 hipSuccess, HipCall.free 4096 hipSuccess] ++ twoRoots.hip.calls ∧
    (free_cached_blocks twoRoots.alloc twoRoots.hip 0).alloc.heap = [none, none] ∧
    (free_cached_blocks twoRoots.alloc twoRoots.hip 0).alloc.large_blocks = [] :=
  ⟨by decide,
    (free_cached_blocks_exact twoRoots.alloc twoRoots.hip twoRoots.hip twoRoots_reachable 0
      (by decide) (by decide)).2.2.2.1,
    by decide, by decide⟩

theorem Chained.prev_mem {h : Heap} {ch : Nat → Chain} (hinv : Chained h ch) {x p : Nat}
    (hx : Live h x) (hp : (deref h x).prev = some p) : p ∈ (ch x).blocks := by
  obtain ⟨hmem, hc, _⟩ := hinv x hx
  obtain ⟨pre, post, hb⟩ := List.append_of_mem hmem
  have h1 := hc.prev_eq hb
  rw [hp] at h1
  obtain ⟨pre0, hpre0⟩ := List.getLast?_eq_some_iff.1 h1.symm
  rw [hb, hpre0]
  simp

theorem Chained.next_mem {h : Heap} {ch : Nat → Chain} (hinv : Chained h ch) {x n : Nat}
    (hx : Live h x) (hn : (deref h x).next = some n) : n ∈ (ch x).blocks := by
  obtain ⟨hmem, hc, _⟩ := hinv x hx
  obtain ⟨pre, post, hb⟩ := List.append_of_mem hmem
  have h1 := hc.next_eq hb
  rw [hn] at h1
  rw [hb]
  have := List.mem_of_mem_head? h1.symm
  simp [this]

/-- The first merge of `free`: nothing happens, or the free block `s` before `b` is merged
into `b`, erased from the pool and deleted. -/
theorem merge_prev_cases {a : THCCachingAllocator} {ch : Nat → Chain} {b : Nat} {sm : Bool}
    (hinv : Inv a ch) (hd : Detached a ch b sm) :
    (merge_step a sm b (deref a.heap b).prev = a ∧
      ∀ s, (deref a.heap b).prev = some s → (deref a.heap s).allocated = true) ∨
    ∃ s, (deref a.heap b).prev = some s ∧ (deref a.heap s).allocated = false ∧
      Live a.heap s ∧ s ≠ b ∧ s ∈ (ch b).blocks ∧
      merge_step a sm b (deref a.heap b).prev =
        setPool sm { a with heap := deleteBlock (merge_heap a.heap b s) s }
          (erase_key (merge_heap a.heap b s) s (getPool sm a)) ∧
      MergePrevCells a.heap (deleteBlock (merge_heap a.heap b s) s) b s ∧
      (deref a.heap s).size + (deref a.heap b).size ≤ (ch b).total ∧
      (ch b).total < SIZE_T := by
  cases hprev : (deref a.heap b).prev with
  | none =>
    left
    exact ⟨merge_step_none a sm b, fun s hs => by cases hs⟩
  | some s =>
    cases hal : (deref a.heap s).allocated with
    | true =>
      left
      refine ⟨merge_step_allocated sm b hal, ?_⟩
      intro s2 hs2
      cases hs2
      exact hal
    | false =>
      right
      obtain ⟨hc1, hc2, hc3⟩ := hinv.prev_cells hd hprev
      refine ⟨s, rfl, hal, (hinv.chain.prev_ok hd.live hprev).1, ?_,
        hinv.chain.prev_mem hd.live hprev, merge_step_free sm b hal, hc1, hc2, hc3⟩
      intro hsb
      rw [hsb, hd.alloc] at hal
      cases hal

/-- The second merge of `free`: nothing happens, or the free block `s` after `b` is merged
into `b`, erased from the pool and deleted. -/
theorem merge_next_cases {a : THCCachingAllocator} {ch : Nat → Chain} {b : Nat} {sm : Bool}
    (hinv : Inv a ch) (hd : Detached a ch b sm) :
    (merge_step a sm b (deref a.heap b).next = a ∧
      ∀ s, (deref a.heap b).next = some s → (deref a.heap s).allocated = true) ∨
    ∃ s, (deref a.heap b).next = some s ∧ (deref a.heap s).allocated = false ∧
      Live a.heap s ∧ s ≠ b ∧ s ∈ (ch b).blocks ∧
      merge_step a sm b (deref a.heap b).next =
        setPool sm { a with heap := deleteBlock (merge_heap a.heap b s) s }
          (erase_key (merge_heap a.heap b s) s (getPool sm a)) ∧
      MergeNextCells a.heap (deleteBlock (merge_heap a.heap b s) s) b s ∧
      (deref a.heap b).size + (deref a.heap s).size ≤ (ch b).total ∧
      (ch b).total < SIZE_T := by
  cases hnext : (deref a.heap b).next with
  | none =>
    left
    exact ⟨merge_step_none a sm b, fun s hs => by cases hs⟩
  | some s =>
    cases hal : (deref a.heap s).allocated with
    | true =>
      left
      refine ⟨merge_step_allocated sm b hal, ?_⟩
      intro s2 hs2
      cases hs2
      exact hal
    | false =>
      right
      obtain ⟨hc1, hc2, hc3⟩ := hinv.next_cells hd hnext
      refine ⟨s, rfl, hal, (hinv.chain.next_ok hd.live hnext).1, ?_,
        hinv.chain.next_mem hd.live hnext, merge_step_free sm b hal, hc1, hc2, hc3⟩
      intro hsb
      rw [hsb, hd.alloc] at hal
      cases hal

/-- The run of a `free` that finds its block: the table entry is erased, the two merges are
tried, the block is released; the invariant holds at every step. -/
theorem free_run {a : THCCachingAllocator} {ch : Nat → Chain} (hinv : Inv a ch) (hip : Hip)
    {p b : Nat} (hp : p ≠ 0) (hl : a.allocated_blocks.lookup p = some b) :
    ∃ a1 a2 ch1 ch2,
      Inv (table_erase a p) ch ∧
      Detached (table_erase a p) ch b (decide ((deref a.heap b).size ≤ kSmallAlloc)) ∧
      a1 = merge_step (table_erase a p) (decide ((deref a.heap b).size ≤ kSmallAlloc)) b
        (deref a.heap b).prev ∧
      Inv a1 ch1 ∧ Detached a1 ch1 b (decide ((deref a.heap b).size ≤ kSmallAlloc)) ∧
      a2 = merge_step a1 (decide ((deref a.heap b).size ≤ kSmallAlloc)) b
        (deref a1.heap b).next ∧
      Inv a2 ch2 ∧ Detached a2 ch2 b (decide ((deref a.heap b).size ≤ kSmallAlloc)) ∧
      free a hip p =
        ⟨hipSuccess, release a2 (decide ((deref a.heap b).size ≤ kSmallAlloc)) b, hip⟩ ∧
      Inv (release a2 (decide ((deref a.heap b).size ≤ kSmallAlloc)) b) ch2 ∧
      (∀ calls, Geom a.heap ch calls → Geom a1.heap ch1 calls) ∧
      (∀ calls, Geom a1.heap ch1 calls → Geom a2.heap ch2 calls) ∧
      (∀ calls, Geom a2.heap ch2 calls →
        Geom (release a2 (decide ((deref a.heap b).size ≤ kSmallAlloc)) b).heap ch2 calls) := by
  obtain ⟨hinv0, hd0⟩ := hinv.detach hl
  obtain ⟨ch1, hinv1, hd1, hg1, hN1⟩ := hinv0.merge_prev_step hd0
  obtain ⟨ch2, hinv2, hd2, hg2, hN2a, hN2b⟩ := hinv1.merge_next_step hd1 hN1
  obtain ⟨hinv3, hg3⟩ := hinv2.release hd2 hN2a hN2b
  exact ⟨_, _, ch1, ch2, hinv0, hd0, rfl, hinv1, hd1, rfl, hinv2, hd2, free_steps hip hp hl,
    hinv3, hg1, hg2, hg3⟩

theorem SameData.trans_data {h h1 h2 : Heap} {x : Nat} (h01 : SameData h h1 x)
    (h12 : SameData h1 h2 x) : SameData h h2 x := by
  obtain ⟨_, a1, a2, a3, a4, a5⟩ := h01
  obtain ⟨hl, b1, b2, b3, b4, b5⟩ := h12
  exact ⟨hl, b1.trans a1, b2.trans a2, b3.trans a3, b4.trans a4, b5.trans a5⟩

theorem FreeFrame.same {h : Heap} {b : Nat} (hb : Live h b) (p n : Option Nat) :
    FreeFrame h h b p n :=
  ⟨hb, fun _ hq => hq, fun _ hq hn => absurd hq hn,
    fun _ _ hq => ⟨SameData.of_eq hq rfl, Or.inl rfl, Or.inl rfl⟩⟩

theorem FreeFrame.trans_frame {h h1 h2 : Heap} {b : Nat} {p n : Option Nat}
    (h01 : FreeFrame h h1 b p n) (h12 : FreeFrame h1 h2 b p n) : FreeFrame h h2 b p n := by
  obtain ⟨_, a2, a3, a4⟩ := h01
  obtain ⟨b1, b2, b3, b4⟩ := h12
  refine ⟨b1, fun q hq => a2 q (b2 q hq), ?_, ?_⟩
  · intro q hq hn
    by_cases hq1 : Live h1 q
    · have hqb : q ≠ b := by
        intro hc
        rw [hc] at hn
        exact hn b1
      obtain ⟨hal, hpn⟩ := b3 q hq1 hn
      obtain ⟨⟨_, _, _, _, _, e5⟩, _⟩ := a4 q hqb hq1
      rw [e5] at hal
      exact ⟨hal, hpn⟩
    · exact a3 q hq hq1
  · intro q hqb hq
    obtain ⟨s2, p2, n2⟩ := b4 q hqb hq
    obtain ⟨s1, p1, n1⟩ := a4 q hqb (b2 q hq)
    refine ⟨s1.trans_data s2, ?_, ?_⟩
    · rcases p2 with p2 | p2
      · rw [p2]
        exact p1
      · exact Or.inr p2
    · rcases n2 with n2 | n2
      · rw [n2]
        exact n1
      · exact Or.inr n2

theorem FreeFrame.of_prev {h h2 : Heap} {b s : Nat} (hm : MergePrevCells h h2 b s)
    (hb : Live h b) (hsb : s ≠ b) (hs : (deref h s).allocated = false) (n : Option Nat) :
    FreeFrame h h2 b (some s) n := by
  refine ⟨(hm.live b).2 ⟨Ne.symm hsb, hb⟩, fun q hq => ((hm.live q).1 hq).2, ?_, ?_⟩
  · intro q hq hn
    have hqs : q = s := by
      by_contra hc
      exact hn ((hm.live q).2 ⟨hc, hq⟩)
    rw [hqs]
    exact ⟨hs, Or.inl rfl⟩
  · intro q hqb hq
    obtain ⟨hqs, hq0⟩ := (hm.live q).1 hq
    refine ⟨hm.same_prev hq0 hqb hqs, ?_⟩
    by_cases hp : (deref h s).prev = some q
    · rw [hm.before q hp hq0]
      exact ⟨Or.inl rfl, Or.inr rfl⟩
    · rw [hm.other q hqb hqs hp]
      exact ⟨Or.inl rfl, Or.inl rfl⟩

theorem FreeFrame.of_next {h h2 : Heap} {b s : Nat} (hm : MergeNextCells h h2 b s)
    (hb : Live h b) (hsb : s ≠ b) (hs : (deref h s).allocated = false) (p : Option Nat) :
    FreeFrame h h2 b p (some s) := by
  refine ⟨(hm.live b).2 ⟨Ne.symm hsb, hb⟩, fun q hq => ((hm.live q).1 hq).2, ?_, ?_⟩
  · intro q hq hn
    have hqs : q = s := by
      by_contra hc
      exact hn ((hm.live q).2 ⟨hc, hq⟩)
    rw [hqs]
    exact ⟨hs, Or.inr rfl⟩
  · intro q hqb hq
    obtain ⟨hqs, hq0⟩ := (hm.live q).1 hq
    refine ⟨hm.same_next hq0 hqb hqs, ?_⟩
    by_cases hp : (deref h s).next = some q
    · rw [hm.after q hp hq0]
      exact ⟨Or.inr rfl, Or.inl rfl⟩
    · rw [hm.other q hqb hqs hp]
      exact ⟨Or.inl rfl, Or.inl rfl⟩

theorem FreeFrame.of_store {h : Heap} {b : Nat} (hb : Live h b) (f : Block → Block)
    (p n : Option Nat) : FreeFrame h (store h b f) b p n := by
  refine ⟨(Live_store_iff h b b f).2 hb, fun q hq => (Live_store_iff h b q f).1 hq, ?_, ?_⟩
  · intro q hq hn
    exact absurd ((Live_store_iff h b q f).2 hq) hn
  · intro q hqb hq
    rw [deref_store_ne h b q f hqb]
    exact ⟨SameData.of_eq hq (deref_store_ne h b q f hqb), Or.inl rfl, Or.inl rfl⟩

/-- The heap after a `free` that finds its block, against the heap before. -/
theorem free_frame_of_inv {a : THCCachingAllocator} {ch : Nat → Chain} (hinv : Inv a ch)
    (hip : Hip) {p b : Nat} (hp : p ≠ 0) (hl : a.allocated_blocks.lookup p = some b) :
    FreeFrame a.heap (free a hip p).alloc.heap b (deref a.heap b).prev (deref a.heap b).next := by
  obtain ⟨a1, a2, ch1, ch2, hinv0, hd0, ha1, hinv1, hd1, ha2, hinv2, hd2, hfree, _⟩ :=
    free_run hinv hip hp hl
  have hb0 : Live a.heap b := hd0.live
  -- the first merge
  have hf1 : FreeFrame a.heap a1.heap b (deref a.heap b).prev (deref a.heap b).next ∧
      (deref a1.heap b).next = (deref a.heap b).next := by
    rcases merge_prev_cases hinv0 hd0 with ⟨heq, _⟩ | ⟨s, hs1, hs2, hs3, hs4, _, heq, hcells, _⟩
    · have : a1 = table_erase a p := ha1.trans heq
      rw [this]
      exact ⟨FreeFrame.same hb0 _ _, rfl⟩
    · have hh : a1.heap = deleteBlock (merge_heap a.heap b s) s := by
        rw [ha1]
        have := congrArg THCCachingAllocator.heap heq
        rw [setPool_heap] at this
        exact this
      rw [hh]
      have hs1b : (deref a.heap b).prev = some s := hs1
      rw [hs1b]
      have hnx : (deref (deleteBlock (merge_heap a.heap b s) s) b).next =
          (deref a.heap b).next := by
        have hdst := hcells.dst
        have hth : (table_erase a p).heap = a.heap := rfl
        rw [hth] at hdst
        rw [hdst]
      exact ⟨FreeFrame.of_prev hcells hb0 hs4 hs2 _, hnx⟩
  -- the second merge
  have hf2 : FreeFrame a1.heap a2.heap b (deref a.heap b).prev (deref a.heap b).next := by
    rcases merge_next_cases hinv1 hd1 with ⟨heq, _⟩ | ⟨s, hs1, hs2, hs3, hs4, _, heq, hcells, _⟩
    · have : a2 = a1 := ha2.trans heq
      rw [this]
      exact FreeFrame.same hd1.live _ _
    · have hh : a2.heap = deleteBlock (merge_heap a1.heap b s) s := by
        rw [ha2]
        have := congrArg THCCachingAllocator.heap heq
        rw [setPool_heap] at this
        exact this
      rw [hh, ← hf1.2, hs1]
      exact FreeFrame.of_next hcells hd1.live hs4 hs2 _
  have hf3 : FreeFrame a2.heap (free a hip p).alloc.heap b (deref a.heap b).prev
      (deref a.heap b).next := by
    rw [hfree]
    show FreeFrame a2.heap (release a2 _ b).heap b _ _
    rw [release_heap]
    exact FreeFrame.of_store hd2.live _ _ _
  exact (hf1.1.trans_frame hf2).trans_frame hf3

theorem free_frame_of_reachable (a : THCCachingAllocator) (hip : Hip) (hr : Reachable a hip)
    (p b : Nat) (hp : p ≠ 0) (hl : a.allocated_blocks.lookup p = some b) :
    (free a hip p).err = hipSuccess ∧
    (free a hip p).alloc.allocated_blocks = a.allocated_blocks.filter (fun kv => kv.1 ≠ p) ∧
    (∀ q, Live a.heap q → ¬ Live (free a hip p).alloc.heap q →
      (deref a.heap q).allocated = false ∧
        ((deref a.heap b).prev = some q ∨ (deref a.heap b).next = some q)) ∧
    (∀ q, q ≠ b → Live a.heap q → (deref a.heap q).allocated = true →
      SameData a.heap (free a hip p).alloc.heap q ∧
      ((deref (free a hip p).alloc.heap q).prev = (deref a.heap q).prev ∨
        (deref (free a hip p).alloc.heap q).prev = some b) ∧
      ((deref (free a hip p).alloc.heap q).next = (deref a.heap q).next ∨
        (deref (free a hip p).alloc.heap q).next = some b)) ∧
    (∀ kv ∈ a.allocated_blocks, kv.1 ≠ p →
      kv ∈ (free a hip p).alloc.allocated_blocks ∧ kv.2 ≠ b ∧
      Live a.heap kv.2 ∧ (deref a.heap kv.2).allocated = true) := by
  obtain ⟨ch, hinv, _⟩ := hr.good
  obtain ⟨f1, f2, f3, f4⟩ := free_frame_of_inv hinv hip hp hl
  obtain ⟨e1, _, e3⟩ := free_of_allocated hip hp hl
  refine ⟨e1, e3, f3, ?_, ?_⟩
  · intro q hqb hq hal
    have hq2 : Live (free a hip p).alloc.heap q := by
      by_contra hc
      have := (f3 q hq hc).1
      rw [hal] at this
      cases this
    exact f4 q hqb hq2
  · intro kv hkv hne
    obtain ⟨m1, m2, m3⟩ := hinv.table_mem kv hkv
    refine ⟨?_, ?_, m1, m2⟩
    · rw [e3]
      exact List.mem_filter.2 ⟨hkv, by simpa using hne⟩
    · intro hc
      have hb := hinv.table_mem (p, b) (mem_of_lookup hl)
      apply hne
      rw [← m3, hc]
      exact hb.2.2

theorem freedA_reachable : Reachable freedA.alloc freedA.hip :=
  Reachable.free 4096 (Reachable.malloc 512 7 (Reachable.malloc 512 7
    (Reachable.malloc 512 7 (Reachable.init hipTwo rfl) (by decide)) (by decide)) (by decide))

/-- C26: in a reachable state, a `free(p)` of an address `p` that the allocated table maps
to the block `b` succeeds and erases the entry of `p` only.  A block that is gone afterwards
(merged into `b` and deleted) was free and was the sibling before or after `b`, so a
sibling that is allocated is never merged.  Every other block that was allocated is still
there with its address, size, device, stream and allocated flag (`SameData`), and each of
its two links is either what it was or points to `b`.  Every table entry other than that
of `p` stays in the table, and its block is such a block. -/
theorem free_leaves_allocated (a : THCCachingAllocator) (hip : Hip) (hr : Reachable a hip)
    (p b : Nat) (hp : p ≠ 0) (hl : a.allocated_blocks.lookup p = some b) :
    (free a hip p).err = hipSuccess ∧
    (free a hip p).alloc.allocated_blocks = a.allocated_blocks.filter (fun kv => kv.1 ≠ p) ∧
    (∀ q, Live a.heap q → ¬ Live (free a hip p).alloc.heap q →
      (deref a.heap q).allocated = false ∧
        ((deref a.heap b).prev = some q ∨ (deref a.heap b).next = some q)) ∧
    (∀ q, q ≠ b → Live a.heap q → (deref a.heap q).allocated = true →
      SameData a.heap (free a hip p).alloc.heap q ∧
      ((deref (free a hip p).alloc.heap q).prev = (deref a.heap q).prev ∨
        (deref (free a hip p).alloc.heap q).prev = some b) ∧
      ((deref (free a hip p).alloc.heap q).next = (deref a.heap q).next ∨
        (deref (free a hip p).alloc.heap q).next = some b)) ∧
    (∀ kv ∈ a.allocated_blocks, kv.1 ≠ p →
      kv ∈ (free a hip p).alloc.allocated_blocks ∧ kv.2 ≠ b ∧
      Live a.heap kv.2 ∧ (deref a.heap kv.2).allocated = true) :=
  free_frame_of_reachable a hip hr p b hp hl

theorem free_leaves_allocated_witness :
    freedA.alloc.heap =
      [some ⟨0, 7, 1047040, 5632, false, some 3, none⟩,
        some ⟨0, 7, 512, 4096, false, none, some 2⟩,
        some ⟨0, 7, 512, 4608, true, some 1, some 3⟩,
        some ⟨0, 7, 512, 5120, true, some 2, some 0⟩] ∧
    (free freedA.alloc freedA.hip 4608).alloc.heap =
      [some ⟨0, 7, 1047040, 5632, false, some 3, none⟩, none,
        some ⟨0, 7, 1024, 4096, false, none, some 3⟩,
        some ⟨0, 7, 512, 5120, true, some 2, some 0⟩] ∧
    (free freedA.alloc freedA.hip 4608).alloc.allocated_blocks = [(5120, 3)] ∧
    SameData freedA.alloc.heap (free freedA.alloc freedA.hip 4608).alloc.heap 3 :=
  ⟨by decide, by decide, by decide,
    ((free_leaves_allocated freedA.alloc freedA.hip freedA_reachable 4608 2 (by decide)
      (by decide)).2.2.2.1 3 (by decide) (by decide) (by decide)).1⟩

/-! ## Sizes, size classes and the blocks of the pools in reachable states -/

theorem round_size_aligned (size : Nat) : Aligned (round_size size) := by
  unfold round_size Aligned
  split
  · exact ⟨dvd_refl _, fun h => absurd h (by decide)⟩
  · split
    · rename_i h1 h2
      have hm := Nat.mod_lt (size - 1) (show 0 < kRoundSmall by decide)
      have hd := Nat.div_add_mod (size - 1) kRoundSmall
      have hv : size + (kRoundSmall - 1 - (size - 1) % kRoundSmall) =
          kRoundSmall * ((size - 1) / kRoundSmall + 1) := by
        simp only [kRoundSmall] at hm hd h1 ⊢
        omega
      have hlt : size + (kRoundSmall - 1 - (size - 1) % kRoundSmall) < SIZE_T := by
        simp only [kRoundSmall, kSmallAlloc, SIZE_T] at hm h2 ⊢
        omega
      rw [Nat.mod_eq_of_lt hlt]
      refine ⟨⟨_, hv⟩, ?_⟩
      intro hk
      exfalso
      simp only [kRoundSmall, kSmallAlloc] at hm hd h1 h2 hk hv
      omega
    · have hm := Nat.mod_lt (size - 1) (show 0 < kRoundLarge by decide)
      have hd := Nat.div_add_mod (size - 1) kRoundLarge
      rename_i h1 h2
      have hv : size + (kRoundLarge - 1 - (size - 1) % kRoundLarge) =
          kRoundLarge * ((size - 1) / kRoundLarge + 1) := by
        simp only [kRoundLarge, kSmallAlloc] at hm hd h2 ⊢
        omega
      have hL : kRoundLarge ∣ (size + (kRoundLarge - 1 - (size - 1) % kRoundLarge)) % SIZE_T :=
        (Nat.dvd_mod_iff (by decide : kRoundLarge ∣ SIZE_T)).2 ⟨_, hv⟩
      exact ⟨dvd_trans (by decide : kRoundSmall ∣ kRoundLarge) hL, fun _ => hL⟩

theorem alloc_size_aligned {r : Nat} (h : Aligned r) : Aligned (alloc_size r) := by
  unfold alloc_size
  split
  · exact ⟨by decide, fun hk => absurd hk (by decide)⟩
  · exact h

theorem Tidy.congr_tidy {a a2 : THCCachingAllocator} (ht : Tidy a) (hh : a2.heap = a.heap)
    (htab : a2.allocated_blocks = a.allocated_blocks) : Tidy a2 := by
  refine ⟨?_, ?_, ?_⟩
  · rw [hh]
    exact ht.aligned
  · rw [hh]
    exact ht.pos
  · rw [hh, htab]
    exact ht.zero_next

theorem getPool_malloc_record (sm : Bool) (a : THCCachingAllocator) (hip : Hip) (blk : Nat) :
    getPool sm (malloc_record a hip blk).alloc = getPool sm a := by
  cases sm <;> rfl

theorem malloc_record_table (a : THCCachingAllocator) (hip : Hip) (blk : Nat) :
    (malloc_record a hip blk).alloc.allocated_blocks =
      ((deref (store a.heap blk (fun b => { b with allocated := true })) blk).ptr, blk) ::
        a.allocated_blocks.filter
          (fun kv => kv.1 ≠ (deref (store a.heap blk (fun b => { b with allocated := true }))
            blk).ptr) := rfl

/-- The state after `malloc_split` split the block `B`. -/
theorem malloc_split_state_split (a : THCCachingAllocator) (hip : Hip) {B : Nat} (d : Int)
    (st r : Nat) (hl : Live a.heap B)
    (hsp : sub_size_t (deref a.heap B).size r ≥ split_threshold r) :
    (malloc_split a hip B d st r).alloc.heap =
      store (malloc_split_heap a.heap B d st r) (newPtr a.heap)
        (fun b => { b with allocated := true }) ∧
    (malloc_split a hip B d st r).alloc.allocated_blocks =
      ((deref a.heap B).ptr, newPtr a.heap) ::
        a.allocated_blocks.filter (fun kv => kv.1 ≠ (deref a.heap B).ptr) ∧
    (∀ sm2, getPool sm2 (malloc_split a hip B d st r).alloc =
      if sm2 = decide (r ≤ kSmallAlloc) then
        set_insert (malloc_split_heap a.heap B d st r) B (getPool (decide (r ≤ kSmallAlloc)) a)
      else getPool sm2 a) := by
  have hp : (deref (store (malloc_split_heap a.heap B d st r) (newPtr a.heap)
      (fun b => { b with allocated := true })) (newPtr a.heap)).ptr = (deref a.heap B).ptr := by
    rw [deref_store_proj Block.ptr]
    · exact malloc_split_heap_new_ptr _ _ _ _ _ (Nat.ne_of_gt hl.lt)
    · intro b
      rfl
  rw [malloc_split_of_split hsp]
  refine ⟨?_, ?_, ?_⟩
  · rw [malloc_record_heap, setPool_heap]
  · rw [malloc_record_table, setPool_heap, setPool_allocated_blocks]
    show (_, _) :: _ = _
    rw [hp]
  · intro sm2
    rw [getPool_malloc_record, getPool_setPool, getPool_heap]
    split
    · rfl
    · exact getPool_heap _ _ _

/-- The state after `malloc_split` handed out the block `B` whole. -/
theorem malloc_split_state_whole (a : THCCachingAllocator) (hip : Hip) {B : Nat} (d : Int)
    (st r : Nat)
    (hsp : ¬ sub_size_t (deref a.heap B).size r ≥ split_threshold r) :
    (malloc_split a hip B d st r).alloc.heap =
      store a.heap B (fun b => { b with allocated := true }) ∧
    (malloc_split a hip B d st r).alloc.allocated_blocks =
      ((deref a.heap B).ptr, B) ::
        a.allocated_blocks.filter (fun kv => kv.1 ≠ (deref a.heap B).ptr) ∧
    (∀ sm2, getPool sm2 (malloc_split a hip B d st r).alloc = getPool sm2 a) := by
  have hp : (deref (store a.heap B (fun b => { b with allocated := true })) B).ptr =
      (deref a.heap B).ptr := by
    rw [deref_store_proj Block.ptr]
    intro b
    rfl
  rw [malloc_split_of_whole hsp]
  refine ⟨malloc_record_heap _ _ _, ?_, fun sm2 => getPool_malloc_record _ _ _ _⟩
  rw [malloc_record_table, hp]

/-- The split decision of `malloc` keeps the facts `Tidy`. -/
theorem Tidy.malloc_split_tidy {a : THCCachingAllocator} {ch : Nat → Chain} (hinv : Inv a ch)
    (ht : Tidy a) (hip : Hip) {B : Nat} (d : Int) (st : Nat) {r : Nat}
    (hl : Live a.heap B) (hfree : (deref a.heap B).allocated = false)
    (hle : r ≤ (deref a.heap B).size) (hlt : (deref a.heap B).size < SIZE_T)
    (har : Aligned r)
    (hclass : decide ((deref a.heap B).size ≤ kSmallAlloc) = decide (r ≤ kSmallAlloc)) :
    Tidy (malloc_split a hip B d st r).alloc := by
  have hself : (deref a.heap B).prev ≠ some B := by
    intro hc
    have hadj := (hinv.chain.prev_ok hl hc).2.1
    rcases hadj.2.2.2 with h | h <;> rw [hfree] at h <;> cases h
  have hsub := sub_size_t_of_le hle hlt
  have hz : ∀ kv ∈ a.allocated_blocks, kv.1 ≠ (deref a.heap B).ptr →
      (deref a.heap kv.2).size = 0 →
      kv.2 ≠ B ∧ (deref a.heap B).prev ≠ some kv.2 ∧
      ∃ n, (deref a.heap kv.2).next = some n ∧ (deref a.heap n).allocated = false ∧ n ≠ B ∧
        Live a.heap n := by
    intro kv hkv hne hs0
    obtain ⟨m1, m2, m3⟩ := hinv.table_mem kv hkv
    have hzB : kv.2 ≠ B := by
      intro hc
      rw [hc, hfree] at m2
      cases m2
    have hprev : (deref a.heap B).prev ≠ some kv.2 := by
      intro hc
      have hadj := (hinv.chain.prev_ok hl hc).2.1
      have h3 := hadj.2.2.1
      rw [hs0, m3] at h3
      exact hne (by omega)
    obtain ⟨n, hn1, hn2⟩ := ht.zero_next kv hkv hs0
    have hnk := hinv.chain.next_ok m1 hn1
    refine ⟨hzB, hprev, n, hn1, hn2, ?_, hnk.1⟩
    intro hc
    rw [hc] at hnk
    exact hprev hnk.2.1.2.1
  have htabB : ∀ kv ∈ a.allocated_blocks, kv.2 ≠ B := by
    intro kv hkv hc
    have m2 := (hinv.table_mem kv hkv).2.1
    rw [hc, hfree] at m2
    cases m2
  by_cases hsp : sub_size_t (deref a.heap B).size r ≥ split_threshold r
  · obtain ⟨hh, htab, _⟩ := malloc_split_state_split a hip d st r hl hsp
    have hcells := malloc_split_heap_cells a.heap B d st r hl hself
    rw [← hh] at hcells
    have hN := not_Live_newPtr a.heap
    refine ⟨?_, ?_, ?_⟩
    · intro x hx
      rcases (hcells.live x).1 hx with hxN | hx0
      · rw [hxN, hcells.new]
        exact har
      · by_cases hxB : x = B
        · rw [hxB, hcells.rem]
          show Aligned (sub_size_t (deref a.heap B).size r)
          rw [hsub]
          obtain ⟨a1, a2⟩ := ht.aligned B hl
          refine ⟨Nat.dvd_sub' a1 har.1, ?_⟩
          intro hk
          have hBk : kSmallAlloc < (deref a.heap B).size := by omega
          have hrk : kSmallAlloc < r := by
            by_contra hc
            have h1 : decide (r ≤ kSmallAlloc) = true := decide_eq_true (by omega)
            rw [h1] at hclass
            have h2 : (deref a.heap B).size ≤ kSmallAlloc := of_decide_eq_true hclass
            omega
          exact Nat.dvd_sub' (a2 hBk) (har.2 hrk)
        · have he := (hcells.same_data hN hx0 hxB).2.2.2.1
          rw [he]
          exact ht.aligned x hx0
    · intro x hx hf
      rcases (hcells.live x).1 hx with hxN | hx0
      · rw [hxN, hcells.new] at hf
        cases hf
      · by_cases hxB : x = B
        · rw [hxB, hcells.rem]
          show 0 < sub_size_t (deref a.heap B).size r
          have := split_threshold_pos r
          omega
        · obtain ⟨_, _, _, e3, _, e5⟩ := hcells.same_data hN hx0 hxB
          rw [e3]
          rw [e5] at hf
          exact ht.pos x hx0 hf
    · intro kv hkv hs0
      rw [htab] at hkv
      rcases List.mem_cons.1 hkv with hk | hk
      · rw [hk]
        refine ⟨B, ?_, ?_⟩
        · show (deref _ (newPtr a.heap)).next = some B
          rw [hcells.new]
        · rw [hcells.rem]
          exact hfree
      · obtain ⟨hk1, hk2⟩ := List.mem_filter.1 hk
        have hne : kv.1 ≠ (deref a.heap B).ptr := by simpa using hk2
        have hzl := (hinv.table_mem kv hk1).1
        have hzN : kv.2 ≠ newPtr a.heap := fun hc => hN (hc ▸ hzl)
        have hsd := hcells.same_data hN hzl (htabB kv hk1)
        rw [hsd.2.2.2.1] at hs0
        obtain ⟨hzB, hprev, n, hn1, hn2, hnB, hnl⟩ := hz kv hk1 hne hs0
        have hcell := hcells.other kv.2 hzN hzB hprev
        refine ⟨n, by rw [hcell]; exact hn1, ?_⟩
        have hsn := hcells.same_data hN hnl hnB
        rw [hsn.2.2.2.2.2]
        exact hn2
  · obtain ⟨hh, htab, _⟩ := malloc_split_state_whole a hip d st r hsp
    have hd : ∀ x, x ≠ B →
        deref (THC.malloc_split a hip B d st r).alloc.heap x = deref a.heap x := by
      intro x hx
      rw [hh]
      exact deref_store_ne _ _ _ _ hx
    have hB : deref (THC.malloc_split a hip B d st r).alloc.heap B =
        { deref a.heap B with allocated := true } := by
      rw [hh]
      exact deref_store_self hl _
    have hlive : ∀ x, Live (THC.malloc_split a hip B d st r).alloc.heap x ↔ Live a.heap x := by
      intro x
      rw [hh]
      exact Live_store_iff _ _ _ _
    refine ⟨?_, ?_, ?_⟩
    · intro x hx
      by_cases hxB : x = B
      · rw [hxB, hB]
        exact ht.aligned B hl
      · rw [hd x hxB]
        exact ht.aligned x ((hlive x).1 hx)
    · intro x hx hf
      by_cases hxB : x = B
      · rw [hxB, hB] at hf
        cases hf
      · rw [hd x hxB] at hf ⊢
        exact ht.pos x ((hlive x).1 hx) hf
    · intro kv hkv hs0
      rw [htab] at hkv
      rcases List.mem_cons.1 hkv with hk | hk
      · rw [hk, hB] at hs0
        have hpos := ht.pos B hl hfree
        have hs1 : (deref a.heap B).size = 0 := hs0
        omega
      · obtain ⟨hk1, hk2⟩ := List.mem_filter.1 hk
        have hne : kv.1 ≠ (deref a.heap B).ptr := by simpa using hk2
        rw [hd kv.2 (htabB kv hk1)] at hs0 ⊢
        obtain ⟨hzB, hprev, n, hn1, hn2, hnB, hnl⟩ := hz kv hk1 hne hs0
        exact ⟨n, hn1, by rw [hd n hnB]; exact hn2⟩

/-- A block of a pool is not allocated; a block of the table is. -/
theorem Inv.pool_free {a : THCCachingAllocator} {ch : Nat → Chain} (hinv : Inv a ch) {x : Nat}
    (hx : x ∈ a.large_blocks ∨ x ∈ a.small_blocks) :
    Live a.heap x ∧ (deref a.heap x).allocated = false := by
  rcases hx with hx | hx
  · have := (hinv.pool true).mem x hx
    exact ⟨this.1, this.2.1⟩
  · have := (hinv.pool false).mem x hx
    exact ⟨this.1, this.2.1⟩

/-- What a sweep leaves of the heap: a block that was live and has a sibling, or is allocated,
or is outside `done`, has its cell unchanged; no cell comes to life. -/
theorem Swept.cells {a : THCCachingAllocator} {ch : Nat → Chain} (hinv : Inv a ch) {hip : Hip}
    {done tail : List Nat} {r : Outcome} (hsw : Swept a hip done tail r)
    (hsub : ∀ x ∈ done, x ∈ a.large_blocks ∨ x ∈ a.small_blocks) :
    (∀ x, Live r.alloc.heap x → Live a.heap x ∧ deref r.alloc.heap x = deref a.heap x) ∧
    (∀ x, Live a.heap x →
      ((deref a.heap x).allocated = true ∨ ¬ (deref a.heap x).root ∨ x ∉ done) →
      Live r.alloc.heap x ∧ deref r.alloc.heap x = deref a.heap x) := by
  refine ⟨?_, ?_⟩
  · intro x hx
    by_cases hr : x ∈ roots a.heap done
    · obtain ⟨b, hb⟩ := hx
      rw [hsw.gone x hr] at hb
      cases hb
    · exact ⟨(Live_congr (hsw.cell x hr)).1 hx, deref_congr (hsw.cell x hr)⟩
  · intro x hx hcase
    have hr : x ∉ roots a.heap done := by
      intro hc
      obtain ⟨h1, h2⟩ := mem_roots.1 hc
      rcases hcase with h | h | h
      · rw [(hinv.pool_free (hsub x h1)).2] at h
        cases h
      · exact h h2
      · exact h h1
    exact ⟨(Live_congr (hsw.cell x hr)).2 hx, deref_congr (hsw.cell x hr)⟩

/-- A sweep of the pools (`emptyCache`, `free_cached_blocks`) keeps the facts `Tidy`. -/
theorem Tidy.sweep_tidy {a : THCCachingAllocator} {ch : Nat → Chain} (hinv : Inv a ch)
    (ht : Tidy a) {hip : Hip} {done tail : List Nat} {r : Outcome}
    (hsw : Swept a hip done tail r)
    (hsub : ∀ x ∈ done, x ∈ a.large_blocks ∨ x ∈ a.small_blocks) : Tidy r.alloc := by
  obtain ⟨hc1, hc2⟩ := hsw.cells hinv hsub
  refine ⟨?_, ?_, ?_⟩
  · intro x hx
    obtain ⟨h1, h2⟩ := hc1 x hx
    rw [h2]
    exact ht.aligned x h1
  · intro x hx hf
    obtain ⟨h1, h2⟩ := hc1 x hx
    rw [h2] at hf ⊢
    exact ht.pos x h1 hf
  · intro kv hkv hs0
    rw [hsw.table] at hkv
    obtain ⟨m1, m2, _⟩ := hinv.table_mem kv hkv
    obtain ⟨_, hz⟩ := hc2 kv.2 m1 (Or.inl m2)
    rw [hz] at hs0 ⊢
    obtain ⟨n, hn1, hn2⟩ := ht.zero_next kv hkv hs0
    have hnk := hinv.chain.next_ok m1 hn1
    have hnr : ¬ (deref a.heap n).root := by
      intro hc
      have := hnk.2.1.2.1
      rw [hc.1] at this
      cases this
    obtain ⟨_, hn⟩ := hc2 n hnk.1 (Or.inr (Or.inl hnr))
    exact ⟨n, hn1, by rw [hn]; exact hn2⟩

theorem Tidy.detach_tidy {a : THCCachingAllocator} (ht : Tidy a) {p b : Nat}
    (hl : a.allocated_blocks.lookup p = some b) : TidyD (table_erase a p) b := by
  refine ⟨ht.aligned, ht.pos, ?_, ?_⟩
  · intro kv hkv hs0
    obtain ⟨n, h1, h2⟩ := ht.zero_next kv (List.mem_filter.1 hkv).1 hs0
    exact ⟨n, h1, Or.inl h2⟩
  · intro hs0
    exact ht.zero_next (p, b) (mem_of_lookup hl) hs0

/-- The sum of the sizes of two blocks of one chain is aligned. -/
theorem Aligned.add_of_chain {h : Heap} {c : Chain} (hc : ChainOK h c) {x y : Nat}
    (hx : x ∈ c.blocks) (hy : y ∈ c.blocks) (hax : Aligned (deref h x).size)
    (hay : Aligned (deref h y).size)
    (hle : (deref h x).size + (deref h y).size ≤ c.total) :
    Aligned ((deref h x).size + (deref h y).size) := by
  refine ⟨Nat.dvd_add hax.1 hay.1, ?_⟩
  intro hk
  have hkt : kSmallAlloc < c.total := by omega
  exact Nat.dvd_add (hax.2 ((hc.each x hx).2.2.2 hkt)) (hay.2 ((hc.each y hy).2.2.2 hkt))

/-- The first merge of `free` keeps the facts `TidyD`. -/
theorem TidyD.merge_prev_tidy {a : THCCachingAllocator} {ch : Nat → Chain} {b : Nat} {sm : Bool}
    (hinv : Inv a ch) (hd : Detached a ch b sm) (ht : TidyD a b) :
    TidyD (merge_step a sm b (deref a.heap b).prev) b := by
  rcases merge_prev_cases hinv hd with ⟨heq, _⟩ |
    ⟨s, hs1, hs2, hs3, hs4, hs5, heq, hcells, hsum, htot⟩
  · rw [heq]
    exact ht
  · rw [heq]
    obtain ⟨hbmem, hcok, _⟩ := hinv.chain b hd.live
    have hsz : (deref (deleteBlock (merge_heap a.heap b s) s) b).size =
        (deref a.heap b).size + (deref a.heap s).size := by
      rw [hcells.dst]
      exact add_size_t_of_lt (by omega)
    have hspos := ht.pos s hs3 hs2
    refine ⟨?_, ?_, ?_, ?_⟩
    · intro x hx
      rw [setPool_heap] at hx ⊢
      obtain ⟨hxs, hx0⟩ := (hcells.live x).1 hx
      by_cases hxb : x = b
      · rw [hxb, hsz]
        exact Aligned.add_of_chain hcok hbmem hs5 (ht.aligned b hd.live) (ht.aligned s hs3)
          (by omega)
      · rw [(hcells.same_prev hx0 hxb hxs).2.2.2.1]
        exact ht.aligned x hx0
    · intro x hx hf
      rw [setPool_heap] at hx hf ⊢
      obtain ⟨hxs, hx0⟩ := (hcells.live x).1 hx
      by_cases hxb : x = b
      · rw [hxb, hcells.dst, hd.alloc] at hf
        cases hf
      · obtain ⟨_, _, _, e3, _, e5⟩ := hcells.same_prev hx0 hxb hxs
        rw [e3]
        rw [e5] at hf
        exact ht.pos x hx0 hf
    · intro kv hkv hs0
      rw [setPool_allocated_blocks] at hkv
      rw [setPool_heap] at hs0 ⊢
      obtain ⟨m1, m2, _⟩ := hinv.table_mem kv hkv
      have hzb : kv.2 ≠ b := hd.notable kv hkv
      have hzs : kv.2 ≠ s := by
        intro hc
        rw [hc, hs2] at m2
        cases m2
      rw [(hcells.same_prev m1 hzb hzs).2.2.2.1] at hs0
      obtain ⟨n, hn1, hn2⟩ := ht.zero_next kv hkv hs0
      by_cases hp : (deref a.heap s).prev = some kv.2
      · refine ⟨b, ?_, Or.inr rfl⟩
        rw [hcells.before kv.2 hp m1]
      · rw [hcells.other kv.2 hzb hzs hp]
        refine ⟨n, hn1, ?_⟩
        rcases hn2 with hn2 | hn2
        · left
          have hnk := hinv.chain.next_ok m1 hn1
          have hns : n ≠ s := by
            intro hc
            rw [hc] at hnk
            exact hp hnk.2.1.2.1
          have hnb : n ≠ b := by
            intro hc
            rw [hc, hd.alloc] at hn2
            cases hn2
          rw [(hcells.same_prev hnk.1 hnb hns).2.2.2.2.2]
          exact hn2
        · exact Or.inr hn2
    · intro hs0
      rw [setPool_heap, hsz] at hs0
      omega

/-- The second merge of `free` keeps the facts `TidyD`, and after it the block has a
positive size. -/
theorem TidyD.merge_next_tidy {a : THCCachingAllocator} {ch : Nat → Chain} {b : Nat} {sm : Bool}
    (hinv : Inv a ch) (hd : Detached a ch b sm) (ht : TidyD a b) :
    TidyD (merge_step a sm b (deref a.heap b).next) b ∧
    0 < (deref (merge_step a sm b (deref a.heap b).next).heap b).size := by
  rcases merge_next_cases hinv hd with ⟨heq, hal⟩ |
    ⟨s, hs1, hs2, hs3, hs4, hs5, heq, hcells, hsum, htot⟩
  · rw [heq]
    refine ⟨ht, ?_⟩
    by_contra hc
    obtain ⟨n, hn1, hn2⟩ := ht.self_next (by omega)
    rw [hal n hn1] at hn2
    cases hn2
  · rw [heq]
    obtain ⟨hbmem, hcok, _⟩ := hinv.chain b hd.live
    have hsz : (deref (deleteBlock (merge_heap a.heap b s) s) b).size =
        (deref a.heap b).size + (deref a.heap s).size := by
      rw [hcells.dst]
      exact add_size_t_of_lt (by omega)
    have hspos := ht.pos s hs3 hs2
    have hadj := (hinv.chain.next_ok hd.live hs1).2.1
    refine ⟨⟨?_, ?_, ?_, ?_⟩, ?_⟩
    · intro x hx
      rw [setPool_heap] at hx ⊢
      obtain ⟨hxs, hx0⟩ := (hcells.live x).1 hx
      by_cases hxb : x = b
      · rw [hxb, hsz]
        exact Aligned.add_of_chain hcok hbmem hs5 (ht.aligned b hd.live) (ht.aligned s hs3)
          (by omega)
      · rw [(hcells.same_next hx0 hxb hxs).2.2.2.1]
        exact ht.aligned x hx0
    · intro x hx hf
      rw [setPool_heap] at hx hf ⊢
      obtain ⟨hxs, hx0⟩ := (hcells.live x).1 hx
      by_cases hxb : x = b
      · rw [hxb, hcells.dst, hd.alloc] at hf
        cases hf
      · obtain ⟨_, _, _, e3, _, e5⟩ := hcells.same_next hx0 hxb hxs
        rw [e3]
        rw [e5] at hf
        exact ht.pos x hx0 hf
    · intro kv hkv hs0
      rw [setPool_allocated_blocks] at hkv
      rw [setPool_heap] at hs0 ⊢
      obtain ⟨m1, m2, _⟩ := hinv.table_mem kv hkv
      have hzb : kv.2 ≠ b := hd.notable kv hkv
      have hzs : kv.2 ≠ s := by
        intro hc
        rw [hc, hs2] at m2
        cases m2
      rw [(hcells.same_next m1 hzb hzs).2.2.2.1] at hs0
      obtain ⟨n, hn1, hn2⟩ := ht.zero_next kv hkv hs0
      have hnx : (deref (deleteBlock (merge_heap a.heap b s) s) kv.2).next = some n := by
        by_cases hp : (deref a.heap s).next = some kv.2
        · rw [hcells.after kv.2 hp m1]
          exact hn1
        · rw [hcells.other kv.2 hzb hzs hp]
          exact hn1
      refine ⟨n, hnx, ?_⟩
      rcases hn2 with hn2 | hn2
      · left
        have hnk := hinv.chain.next_ok m1 hn1
        have hns : n ≠ s := by
          intro hc
          rw [hc] at hnk
          have h1 := hnk.2.1.2.1
          rw [hadj.2.1] at h1
          exact hzb (Option.some.inj h1).symm
        have hnb : n ≠ b := by
          intro hc
          rw [hc, hd.alloc] at hn2
          cases hn2
        rw [(hcells.same_next hnk.1 hnb hns).2.2.2.2.2]
        exact hn2
      · exact Or.inr hn2
    · intro hs0
      rw [setPool_heap, hsz] at hs0
      omega
    · rw [setPool_heap, hsz]
      omega

/-- The end of `free` turns the facts `TidyD` into the facts `Tidy`. -/
theorem TidyD.release_tidy {a : THCCachingAllocator} {ch : Nat → Chain} {b : Nat} {sm : Bool}
    (hd : Detached a ch b sm) (ht : TidyD a b)
    (hpos : 0 < (deref a.heap b).size) : Tidy (THC.release a sm b) := by
  have hdr : ∀ x, x ≠ b → deref (THC.release a sm b).heap x = deref a.heap x := by
    intro x hx
    rw [release_heap]
    exact deref_store_ne _ _ _ _ hx
  have hB : deref (THC.release a sm b).heap b = { deref a.heap b with allocated := false } := by
    rw [release_heap]
    exact deref_store_self hd.live _
  have hlive : ∀ x, Live (THC.release a sm b).heap x ↔ Live a.heap x := by
    intro x
    rw [release_heap]
    exact Live_store_iff _ _ _ _
  refine ⟨?_, ?_, ?_⟩
  · intro x hx
    by_cases hxb : x = b
    · rw [hxb, hB]
      exact ht.aligned b hd.live
    · rw [hdr x hxb]
      exact ht.aligned x ((hlive x).1 hx)
  · intro x hx hf
    by_cases hxb : x = b
    · rw [hxb, hB]
      exact hpos
    · rw [hdr x hxb] at hf ⊢
      exact ht.pos x ((hlive x).1 hx) hf
  · intro kv hkv hs0
    rw [release_table] at hkv
    have hzb : kv.2 ≠ b := hd.notable kv hkv
    rw [hdr kv.2 hzb] at hs0 ⊢
    obtain ⟨n, hn1, hn2⟩ := ht.zero_next kv hkv hs0
    refine ⟨n, hn1, ?_⟩
    by_cases hnb : n = b
    · rw [hnb, hB]
    · rw [hdr n hnb]
      rcases hn2 with hn2 | hn2
      · exact hn2
      · exact absurd hn2 hnb

/-- The method `free` keeps the facts `Tidy`. -/
theorem Tidy.free_tidy {a : THCCachingAllocator} {ch : Nat → Chain} (hinv : Inv a ch) (ht : Tidy a)
    (hip : Hip) (p : Nat) : Tidy (THC.free a hip p).alloc := by
  by_cases hp : p = 0
  · rw [hp, free_zero]
    exact ht
  · cases hl : a.allocated_blocks.lookup p with
    | none =>
      rw [free_of_not_allocated hp hl]
      exact ht
    | some b =>
      obtain ⟨a1, a2, ch1, ch2, hinv0, hd0, ha1, hinv1, hd1, ha2, hinv2, hd2, hfree, _⟩ :=
        free_run hinv hip hp hl
      have t0 := ht.detach_tidy hl
      have t1 := t0.merge_prev_tidy hinv0 hd0
      have hh0 : (table_erase a p).heap = a.heap := rfl
      rw [hh0, ← ha1] at t1
      have t2 := t1.merge_next_tidy hinv1 hd1
      rw [← ha2] at t2
      rw [hfree]
      exact t2.1.release_tidy hd2 t2.2

theorem Inv.pools_apart_inv {a : THCCachingAllocator} {ch : Nat → Chain} (hinv : Inv a ch) :
    PoolsApart a := by
  have hl := hinv.pool true
  have hs := hinv.pool false
  rw [getPool_true] at hl
  rw [getPool_false] at hs
  refine ⟨hl.sorted.nodup, hs.sorted.nodup, ?_, fun x hx => (hl.mem x hx).1.lt,
    fun x hx => (hs.mem x hx).1.lt⟩
  intro x hx hx2
  have := @Inv.pool_class a ch hinv true false x hx hx2
  cases this

theorem device_range_subset (h : Heap) (d : Int) (l : List Nat) :
    ∀ x ∈ device_range h d l, x ∈ l := by
  intro x hx
  unfold device_range lower_bound at hx
  exact (List.dropWhile_sublist _).subset ((List.take_sublist _ _).subset hx)

/-- The sweep of `free_cached_blocks`, with the blocks it went over taken from the pools. -/
theorem free_cached_blocks_sweep {a : THCCachingAllocator} {ch : Nat → Chain} (hinv : Inv a ch)
    (hip : Hip) (d : Int) :
    ∃ done tail, Swept a hip done tail (free_cached_blocks a hip d) ∧
      ∀ x ∈ done, x ∈ a.large_blocks ∨ x ∈ a.small_blocks := by
  obtain ⟨done, tail, hdt, hsw⟩ := free_cached_blocks_swept a hip d hinv.pools_apart_inv
  refine ⟨done, tail, hsw, ?_⟩
  intro x hx
  have : x ∈ done ++ tail := List.mem_append.2 (Or.inl hx)
  rw [← hdt] at this
  rcases List.mem_append.1 this with h | h
  · exact Or.inl (device_range_subset _ _ _ x h)
  · exact Or.inr (device_range_subset _ _ _ x h)

/-- The sweep of `emptyCache`, with the blocks it went over taken from the pools. -/
theorem emptyCache_sweep {a : THCCachingAllocator} {ch : Nat → Chain} (hinv : Inv a ch)
    (hip : Hip) :
    ∃ done tail, Swept a hip done tail (emptyCache a hip) ∧
      ∀ x ∈ done, x ∈ a.large_blocks ∨ x ∈ a.small_blocks := by
  obtain ⟨done, tail, hdt, hsw⟩ := emptyCache_swept a hip hinv.pools_apart_inv
  refine ⟨done, tail, hsw, ?_⟩
  intro x hx
  have : x ∈ done ++ tail := List.mem_append.2 (Or.inl hx)
  rw [← hdt] at this
  exact List.mem_append.1 this

/-- The allocator that `hip_malloc_retry` leaves is the one it was given or the one its
sweep left. -/
theorem hip_malloc_retry_alloc (a : THCCachingAllocator) (hip : Hip) (d : Int) (n : Nat) :
    (hip_malloc_retry a hip d n).alloc = a ∨
    (hip_malloc_retry a hip d n).alloc =
      (free_cached_blocks a (hipGetLastError (hipMalloc hip n).2.2) d).alloc := by
  unfold hip_malloc_retry
  dsimp only
  split
  · split
    · exact Or.inr rfl
    · split
      · exact Or.inr rfl
      · exact Or.inr rfl
  · exact Or.inl rfl

theorem Tidy.retry_tidy {a : THCCachingAllocator} {ch : Nat → Chain} (hinv : Inv a ch)
    (ht : Tidy a) (hip : Hip) (d : Int) (n : Nat) : Tidy (hip_malloc_retry a hip d n).alloc := by
  rcases hip_malloc_retry_alloc a hip d n with h | h
  · rw [h]
    exact ht
  · rw [h]
    obtain ⟨done, tail, hsw, hsub⟩ :=
      free_cached_blocks_sweep hinv (hipGetLastError (hipMalloc hip n).2.2) d
    exact ht.sweep_tidy hinv hsw hsub

/-- A new block with no sibling, of an aligned and positive size, keeps the facts `Tidy`. -/
theorem Tidy.new_block {a : THCCachingAllocator} {ch : Nat → Chain} (hinv : Inv a ch)
    (ht : Tidy a) (R : Block) (hR : Aligned R.size) (hpos : 0 < R.size) :
    Tidy { a with heap := newBlock a.heap R } := by
  have hold : ∀ x, Live a.heap x → deref (newBlock a.heap R) x = deref a.heap x := by
    intro x hx
    rw [deref_newBlock, if_neg]
    intro hc
    exact not_Live_newPtr a.heap (hc ▸ hx)
  refine ⟨?_, ?_, ?_⟩
  · intro x hx
    show Aligned (deref (newBlock a.heap R) x).size
    rcases (Live_newBlock_iff a.heap R x).1 hx with h | h
    · rw [h, deref_newBlock, if_pos rfl]
      exact hR
    · rw [hold x h]
      exact ht.aligned x h
  · intro x hx hf
    show 0 < (deref (newBlock a.heap R) x).size
    rcases (Live_newBlock_iff a.heap R x).1 hx with h | h
    · rw [h, deref_newBlock, if_pos rfl]
      exact hpos
    · have hf2 : (deref (newBlock a.heap R) x).allocated = false := hf
      rw [hold x h] at hf2 ⊢
      exact ht.pos x h hf2
  · intro kv hkv hs0
    have hkv2 : kv ∈ a.allocated_blocks := hkv
    have hs1 : (deref (newBlock a.heap R) kv.2).size = 0 := hs0
    have hzl := (hinv.table_mem kv hkv2).1
    rw [hold kv.2 hzl] at hs1
    obtain ⟨n, hn1, hn2⟩ := ht.zero_next kv hkv2 hs1
    have hnl := (hinv.chain.next_ok hzl hn1).1
    refine ⟨n, ?_, ?_⟩
    · show (deref (newBlock a.heap R) kv.2).next = some n
      rw [hold kv.2 hzl]
      exact hn1
    · show (deref (newBlock a.heap R) n).allocated = false
      rw [hold n hnl]
      exact hn2

/-- The method `malloc` keeps the facts `Tidy`. -/
theorem Tidy.malloc_tidy {a : THCCachingAllocator} {hip : Hip} {ch : Nat → Chain}
    (hg : GoodWith a hip ch) (ht : Tidy a) (size st : Nat) :
    Tidy (THC.malloc a hip size st).alloc := by
  have hinv := hg.1
  by_cases hdev : hip.device.1 = hipSuccess
  swap
  · rw [malloc_of_device_err hdev]
    exact ht
  rw [malloc_of_device_ok hdev]
  cases hhit : malloc_hit a hip.device.2 st (round_size size) with
  | some e =>
    rw [malloc_rounded_of_hit hhit]
    have hmem := (hinv.pool _).mem e (malloc_hit_mem hhit)
    obtain ⟨_, hcok, _⟩ := hinv.chain e hmem.1
    have hinv2 : Inv (setPool (decide (round_size size ≤ kSmallAlloc)) a
        (erase_at (getPool (decide (round_size size ≤ kSmallAlloc)) a)
          (lower_bound a.heap (Block.ctor hip.device.2 st (round_size size) 0)
            (getPool (decide (round_size size ≤ kSmallAlloc)) a)))) ch := by
      refine hinv.shrink (setPool_heap _ _ _) ?_ ?_
      · intro sm
        rw [getPool_setPool]
        split
        · rename_i h
          rw [h]
          exact erase_at_sublist _ _ (lower_bound_suffix _ _ _)
        · exact List.Sublist.refl _
      · rw [setPool_allocated_blocks]
    refine Tidy.malloc_split_tidy hinv2
      (ht.congr_tidy (setPool_heap _ _ _) (setPool_allocated_blocks _ _ _)) _ _ _ ?_ ?_ ?_ ?_
      (round_size_aligned size) ?_
    · rw [setPool_heap]
      exact hmem.1
    · rw [setPool_heap]
      exact hmem.2.1
    · rw [setPool_heap]
      exact malloc_hit_size hhit
    · rw [setPool_heap]
      exact lt_of_le_of_lt (hcok.size_le (hinv.chain e hmem.1).1) hcok.total_lt
    · rw [setPool_heap]
      exact hmem.2.2
  | none =>
    rw [malloc_rounded_of_miss hhit]
    have hgd : GoodWith a (hipGetDevice hip).2.2 ch :=
      hg.recall (hipSane_getDevice _ _ _) (hipLive_getDevice _ _ _)
        (hipFreesValid_getDevice _ _ _)
    obtain ⟨hfail, hok⟩ := hgd.retry hip.device.2 (alloc_size (round_size size))
    have htr := ht.retry_tidy hinv (hipGetDevice hip).2.2 hip.device.2
      (alloc_size (round_size size))
    by_cases herr : (hip_malloc_retry a (hipGetDevice hip).2.2 hip.device.2
        (alloc_size (round_size size))).err = hipSuccess
    · rw [malloc_miss_of_ok herr]
      obtain ⟨p, calls0, hp, _, hinv1, _⟩ := hok herr
      rw [hp]
      generalize hip_malloc_retry a (hipGetDevice hip).2.2 hip.device.2
        (alloc_size (round_size size)) = r at htr hinv1
      have hinv2 := hinv1.new_chain hip.device.2 st (alloc_size (round_size size)) p
        (alloc_size_ge _) (alloc_size_lt (round_size_lt _))
      have hcell : deref (newBlock r.alloc.heap
          (Block.ctor hip.device.2 st (alloc_size (round_size size)) p))
          (newPtr r.alloc.heap) =
          Block.ctor hip.device.2 st (alloc_size (round_size size)) p := deref_newBlock_self _ _
      have hge := alloc_size_ge (round_size size)
      have ht2 := htr.new_block hinv1
        (Block.ctor hip.device.2 st (alloc_size (round_size size)) p)
        (alloc_size_aligned (round_size_aligned size))
        (show 0 < alloc_size (round_size size) from
          lt_of_lt_of_le (by decide) hge)
      refine Tidy.malloc_split_tidy hinv2 ht2 _ _ _
        ((Live_newBlock_iff _ _ _).2 (Or.inl rfl)) ?_ ?_ ?_ (round_size_aligned size) ?_
      · show (deref (newBlock _ _) _).allocated = false
        rw [hcell]
        rfl
      · show _ ≤ (deref (newBlock _ _) _).size
        rw [hcell]
        exact le_alloc_size _
      · show (deref (newBlock _ _) _).size < SIZE_T
        rw [hcell]
        exact alloc_size_lt (round_size_lt _)
      · show decide ((deref (newBlock _ _) _).size ≤ kSmallAlloc) = _
        rw [hcell]
        exact alloc_size_class _
    · rw [malloc_miss_of_err herr]
      exact htr

/-- The facts `Tidy` hold in every reachable state. -/
theorem Reachable.tidy {a : THCCachingAllocator} {hip : Hip} (hr : Reachable a hip) :
    Tidy a := by
  induction hr with
  | init hip hcalls =>
    refine ⟨?_, ?_, ?_⟩
    · intro x hx
      obtain ⟨b, hb⟩ := hx
      cases hb
    · intro x hx
      obtain ⟨b, hb⟩ := hx
      cases hb
    · intro kv hkv
      cases hkv
  | answers device mallocs frees _ ih => exact ih
  | malloc size stream hr0 _ ih =>
    obtain ⟨ch, hg⟩ := hr0.good
    exact ih.malloc_tidy hg size stream
  | free ptr hr0 ih =>
    obtain ⟨ch, hg⟩ := hr0.good
    exact ih.free_tidy hg.1 _ ptr
  | emptyCache hr0 ih =>
    obtain ⟨ch, hg⟩ := hr0.good
    obtain ⟨done, tail, hsw, hsub⟩ := emptyCache_sweep hg.1 _
    exact ih.sweep_tidy hg.1 hsw hsub

theorem mem_pair_split {α : Type} {l : List α} {x y : α} (hx : x ∈ l) (hy : y ∈ l)
    (hxy : x ≠ y) :
    (∃ A B C, l = A ++ x :: (B ++ y :: C)) ∨ (∃ A B C, l = A ++ y :: (B ++ x :: C)) := by
  obtain ⟨A, R, hl⟩ := List.append_of_mem hx
  rw [hl] at hy
  rcases List.mem_append.1 hy with h | h
  · obtain ⟨A2, B2, hA⟩ := List.append_of_mem h
    right
    refine ⟨A2, B2, R, ?_⟩
    rw [hl, hA, List.append_assoc, List.cons_append]
  · rcases List.mem_cons.1 h with h | h
    · exact absurd h.symm hxy
    · obtain ⟨B, C, hR⟩ := List.append_of_mem h
      left
      exact ⟨A, B, C, by rw [hl, hR]⟩

/-- With a runtime that behaved, two distinct live blocks at one address are a block of 0
bytes and a block that starts where it ends. -/
theorem GoodWith.no_twin {a : THCCachingAllocator} {hip : Hip} {ch : Nat → Chain}
    (hg : GoodWith a hip ch) (hs : hipSane hip.calls = true) : NoTwin a.heap := by
  obtain ⟨hinv, hgeo⟩ := hg
  obtain ⟨hgeom, _⟩ := hgeo hs
  intro x y hx hy hxy hp
  obtain ⟨hxm, hxc, _⟩ := hinv.chain x hx
  obtain ⟨hym, hyc, _⟩ := hinv.chain y hy
  by_cases hc : ch x = ch y
  · rw [← hc] at hym
    rcases mem_pair_split hxm hym hxy with ⟨A, B, C, hl⟩ | ⟨A, B, C, hl⟩
    · have := hxc.apart hl
      left
      omega
    · have := hxc.apart hl
      right
      omega
  · have h1 := hxc.ptr_ge hxm
    have h2 := hxc.end_le hxm
    have h3 := hyc.ptr_ge hym
    have h4 := hyc.end_le hym
    rcases hgeom.apart x y hx hy hc with h5 | h5
    · left
      omega
    · right
      omega

theorem NoTwin.of_flag {h : Heap} {p : Nat} {v : Bool}
    (hnt : NoTwin (store h p (fun b => { b with allocated := v }))) : NoTwin h := by
  intro x y hx hy hxy hp
  have hx2 := (Live_store_iff h p x (fun b => { b with allocated := v })).2 hx
  have hy2 := (Live_store_iff h p y (fun b => { b with allocated := v })).2 hy
  have e1 := deref_store_proj Block.ptr h p x (fun b => { b with allocated := v }) (fun _ => rfl)
  have e2 := deref_store_proj Block.ptr h p y (fun b => { b with allocated := v }) (fun _ => rfl)
  have e3 := deref_store_proj Block.size h p x (fun b => { b with allocated := v })
    (fun _ => rfl)
  have e4 := deref_store_proj Block.size h p y (fun b => { b with allocated := v })
    (fun _ => rfl)
  have := hnt x y hx2 hy2 hxy (by rw [e1, e2]; exact hp)
  rw [e3, e4] at this
  exact this

/-- With no twins a block of positive size is never dropped by `insert`. -/
theorem set_insert_mem_of_no_twin {h : Heap} {x : Nat} {l : List Nat} (hnt : NoTwin h)
    (hx : Live h x) (hpos : 0 < (deref h x).size) (hl : ∀ e ∈ l, Live h e ∧ e ≠ x) :
    x ∈ set_insert h x l := by
  rcases set_insert_mem_or h x l with h1 | ⟨e, he, h1, h2⟩
  · exact h1
  · exfalso
    have hk := BlockComparator_eq_key h1 h2
    unfold Block.key at hk
    simp only [Prod.mk.injEq] at hk
    obtain ⟨_, _, hsize, hptr⟩ := hk
    rcases hnt e x (hl e he).1 hx (hl e he).2 hptr with h3 | h3 <;> omega

/-- In an ordered set, `erase(src)` by key removes the block `src` and nothing else. -/
theorem erase_key_of_sorted {h : Heap} {pre post : List Nat} {s : Nat}
    (hs : Sorted h (pre ++ s :: post)) : erase_key h s (pre ++ s :: post) = pre ++ post := by
  unfold Sorted at hs
  have hpre : ∀ e ∈ pre, BlockComparator (deref h e) (deref h s) = true := by
    intro e he
    exact (List.pairwise_append.1 hs).2.2 e he s (List.mem_cons_self _ _)
  have hlb : lower_bound h (deref h s) (pre ++ s :: post) = s :: post := by
    unfold lower_bound
    exact dropWhile_append_stop _ pre s post hpre (BlockComparator_irrefl _)
  unfold erase_key
  rw [hlb]
  dsimp only
  rw [if_neg (by simp [BlockComparator_irrefl]), erase_at_append]
  rfl

theorem mem_erase_key_of_ne {h : Heap} {fb : List Nat} {s x : Nat} (hs : Sorted h fb)
    (hmem : s ∈ fb) (hx : x ∈ fb) (hxs : x ≠ s) : x ∈ erase_key h s fb := by
  obtain ⟨pre, post, hfb⟩ := List.append_of_mem hmem
  subst hfb
  rw [erase_key_of_sorted hs]
  rcases List.mem_append.1 hx with h1 | h1
  · exact List.mem_append.2 (Or.inl h1)
  · rcases List.mem_cons.1 h1 with h2 | h2
    · exact absurd h2 hxs
    · exact List.mem_append.2 (Or.inr h2)

theorem malloc_rounded_of_erase {a : THCCachingAllocator} {hip : Hip} {device : Int}
    {stream size e : Nat} (h : malloc_hit a device stream size = some e) :
    malloc_rounded a hip device stream size =
      malloc_split (malloc_erase a device stream size) hip e device stream size :=
  malloc_rounded_of_hit h

/-- The state in which `malloc` splits the block `e` it found in the pool: `e` is in no
pool, every other block is in the pool where it was, heap and table are as before. -/
theorem Inv.hit_state {a : THCCachingAllocator} {ch : Nat → Chain} (hinv : Inv a ch) {d : Int}
    {st r e : Nat} (hhit : malloc_hit a d st r = some e) :
    Inv (malloc_erase a d st r) ch ∧ (malloc_erase a d st r).heap = a.heap ∧
    (malloc_erase a d st r).allocated_blocks = a.allocated_blocks ∧
    (∀ sm2, e ∉ getPool sm2 (malloc_erase a d st r)) ∧
    (∀ sm2 x, x ∈ getPool sm2 a → x ≠ e → x ∈ getPool sm2 (malloc_erase a d st r)) ∧
    (∀ sm2 x, x ∈ getPool sm2 (malloc_erase a d st r) → x ∈ getPool sm2 a) ∧
    Live a.heap e ∧ (deref a.heap e).allocated = false ∧
    decide ((deref a.heap e).size ≤ kSmallAlloc) = decide (r ≤ kSmallAlloc) ∧
    r ≤ (deref a.heap e).size ∧ (deref a.heap e).size < SIZE_T ∧
    (deref a.heap e).device = d ∧ (deref a.heap e).stream = st := by
  have hmem := malloc_hit_mem hhit
  obtain ⟨post, hlb⟩ := malloc_hit_lower_bound hhit
  have hown := malloc_hit_owner hhit
  have hsize := malloc_hit_size hhit
  obtain ⟨pre, hpre⟩ := lower_bound_suffix a.heap (Block.ctor d st r 0)
    (getPool (decide (r ≤ kSmallAlloc)) a)
  have hpool := hinv.pool (decide (r ≤ kSmallAlloc))
  have hnd := hpool.sorted.nodup
  have herase : erase_at (getPool (decide (r ≤ kSmallAlloc)) a)
      (lower_bound a.heap (Block.ctor d st r 0) (getPool (decide (r ≤ kSmallAlloc)) a)) =
      pre ++ post := by
    rw [hlb] at hpre ⊢
    rw [← hpre, erase_at_append]
    rfl
  rw [hlb] at hpre
  have hsubl : (pre ++ post).Sublist (getPool (decide (r ≤ kSmallAlloc)) a) := by
    rw [← hpre]
    exact List.Sublist.append_left (List.sublist_cons_self _ _) _
  have hblk := hpool.mem e hmem
  obtain ⟨_, hcok, _⟩ := hinv.chain e hblk.1
  have hst : malloc_erase a d st r = setPool (decide (r ≤ kSmallAlloc)) a (pre ++ post) := by
    unfold malloc_erase
    rw [herase]
  rw [hst]
  refine ⟨?_, setPool_heap _ _ _, setPool_allocated_blocks _ _ _, ?_, ?_, ?_, hblk.1, hblk.2.1,
    hblk.2.2, hsize, lt_of_le_of_lt (hcok.size_le (hinv.chain e hblk.1).1) hcok.total_lt,
    hown.1, hown.2⟩
  · apply hinv.shrink (setPool_heap _ _ _)
    · intro sm2
      rw [getPool_setPool]
      split
      · rename_i h
        rw [h]
        exact hsubl
      · exact List.Sublist.refl _
    · rw [setPool_allocated_blocks]
  · intro sm2
    rw [getPool_setPool]
    split
    · rw [← hpre] at hnd
      intro hc
      have h1 := List.nodup_append.1 hnd
      rcases List.mem_append.1 hc with h2 | h2
      · exact h1.2.2 h2 (List.mem_cons_self _ _)
      · exact (List.nodup_cons.1 h1.2.1).1 h2
    · rename_i hne
      intro hc
      exact hne (hinv.pool_class hc hmem)
  · intro sm2 x hx hxe
    rw [getPool_setPool]
    split
    · rename_i h
      rw [h, ← hpre] at hx
      rcases List.mem_append.1 hx with h1 | h1
      · exact List.mem_append.2 (Or.inl h1)
      · rcases List.mem_cons.1 h1 with h2 | h2
        · exact absurd h2 hxe
        · exact List.mem_append.2 (Or.inr h2)
    · exact hx
  · intro sm2 x hx
    rw [getPool_setPool] at hx
    split at hx
    · rename_i h
      rw [h]
      exact hsubl.subset hx
    · exact hx

theorem Inv.prev_keys {a : THCCachingAllocator} {ch : Nat → Chain} {b s : Nat} {sm : Bool}
    (hinv : Inv a ch) (hd : Detached a ch b sm) (hprev : (deref a.heap b).prev = some s) :
    ∀ e, e ≠ b → (deref (merge_heap a.heap b s) e).key = (deref a.heap e).key := by
  obtain ⟨hbmem, hcok, hclosed⟩ := hinv.chain b hd.live
  obtain ⟨pre1, post, hb1⟩ := List.append_of_mem hbmem
  have hp1 := hcok.prev_eq hb1
  rw [hprev] at hp1
  obtain ⟨pre, hpre⟩ := List.getLast?_eq_some_iff.1 hp1.symm
  have hb : (ch b).blocks = pre ++ s :: b :: post := by
    rw [hb1, hpre, List.append_assoc, List.singleton_append]
  have hnd := hcok.nodup
  rw [hb] at hnd
  have hnd1 := List.nodup_append.1 hnd
  have hsmem : s ∈ (ch b).blocks := by rw [hb]; simp
  have hsl : Live a.heap s := (hcok.each s hsmem).1
  have hsb : s ≠ b := by
    intro hc
    subst hc
    exact (List.nodup_cons.1 hnd1.2.1).1 (List.mem_cons_self _ _)
  have hsprev := hcok.prev_eq hb
  have hsd : (deref a.heap s).prev ≠ some b := by
    rw [hsprev]
    intro hc
    exact hnd1.2.2 (List.mem_of_mem_getLast? hc) (by simp)
  have hss : (deref a.heap s).prev ≠ some s := by
    rw [hsprev]
    intro hc
    exact hnd1.2.2 (List.mem_of_mem_getLast? hc) (by simp)
  exact merge_heap_prev_key hd.live hsl (Ne.symm hsb) hprev hsd hss

theorem Inv.next_keys {a : THCCachingAllocator} {ch : Nat → Chain} {b s : Nat} {sm : Bool}
    (hinv : Inv a ch) (hd : Detached a ch b sm) (hnext : (deref a.heap b).next = some s) :
    ∀ e, e ≠ b → (deref (merge_heap a.heap b s) e).key = (deref a.heap e).key := by
  obtain ⟨hbmem, hcok, hclosed⟩ := hinv.chain b hd.live
  obtain ⟨pre, post1, hb1⟩ := List.append_of_mem hbmem
  have hn1 := hcok.next_eq hb1
  rw [hnext] at hn1
  obtain ⟨post, hpost⟩ : ∃ post, post1 = s :: post := by
    cases post1 with
    | nil => cases hn1
    | cons y l =>
      have : y = s := by simpa using hn1.symm
      exact ⟨l, by rw [this]⟩
  have hb : (ch b).blocks = pre ++ b :: s :: post := by rw [hb1, hpost]
  have hnd := hcok.nodup
  rw [hb] at hnd
  have hnd1 := List.nodup_append.1 hnd
  have hsmem : s ∈ (ch b).blocks := by rw [hb]; simp
  have hsl : Live a.heap s := (hcok.each s hsmem).1
  have hsb : s ≠ b := by
    intro hc
    subst hc
    exact (List.nodup_cons.1 hnd1.2.1).1 (List.mem_cons_self _ _)
  have hbprev := hcok.prev_eq hb
  have hb2 : (ch b).blocks = (pre ++ [b]) ++ s :: post := by
    rw [hb, List.append_assoc, List.singleton_append]
  have hsnext := hcok.next_eq hb2
  have hnd4 : (s :: post).Nodup := (List.nodup_cons.1 hnd1.2.1).2
  have hbp : (deref a.heap b).prev ≠ some s := by
    rw [hbprev]
    intro hc
    exact hnd1.2.2 (List.mem_of_mem_getLast? hc) (by simp)
  have hsd : (deref a.heap s).next ≠ some b := by
    rw [hsnext]
    intro hc
    exact (List.nodup_cons.1 hnd1.2.1).1 (List.mem_cons_of_mem _ (List.mem_of_mem_head? hc))
  have hss : (deref a.heap s).next ≠ some s := by
    rw [hsnext]
    intro hc
    exact (List.nodup_cons.1 hnd4).1 (List.mem_of_mem_head? hc)
  exact merge_heap_next_key hd.live hsl (Ne.symm hsb) hbp hsd hss

/-- A merge of `free` loses no block. -/
theorem Complete.merge_generic {a : THCCachingAllocator} {ch : Nat → Chain} {b s : Nat}
    {sm : Bool} {hm h2 : Heap} (hinv : Inv a ch) (hd : Detached a ch b sm) (hc : Complete a)
    (hs3 : Live a.heap s) (hs2 : (deref a.heap s).allocated = false)
    (hs5 : s ∈ (ch b).blocks)
    (hlive : ∀ q, Live h2 q ↔ q ≠ s ∧ Live a.heap q)
    (hsame : ∀ x, Live a.heap x → x ≠ b → x ≠ s → SameData a.heap h2 x)
    (hballoc : (deref h2 b).allocated = true)
    (hkey : ∀ e, e ≠ b → (deref hm e).key = (deref a.heap e).key) :
    Complete (setPool sm { a with heap := h2 } (erase_key hm s (getPool sm a))) := by
  obtain ⟨_, hcok, _⟩ := hinv.chain b hd.live
  have hsb : s ≠ b := by
    intro hc2
    rw [hc2, hd.alloc] at hs2
    cases hs2
  have hscls : decide ((deref a.heap s).size ≤ kSmallAlloc) = sm := by
    rw [hcok.class_eq hs5]
    exact hd.cls
  have hspool : s ∈ getPool sm a := by
    have := hc s hs3 hs2
    rw [hscls] at this
    exact this
  have hek : erase_key hm s (getPool sm a) = erase_key a.heap s (getPool sm a) := by
    refine erase_key_congr s _ (hkey s hsb) ?_
    intro e he
    refine hkey e ?_
    intro heb
    have := ((hinv.pool sm).mem e he).2.1
    rw [heb, hd.alloc] at this
    cases this
  intro x hx hf
  rw [setPool_heap] at hx hf ⊢
  have hx2 : Live h2 x := hx
  have hf2 : (deref h2 x).allocated = false := hf
  show x ∈ getPool (decide ((deref h2 x).size ≤ kSmallAlloc)) _
  obtain ⟨hxs, hx0⟩ := (hlive x).1 hx2
  have hxb : x ≠ b := by
    intro hc2
    rw [hc2, hballoc] at hf2
    cases hf2
  obtain ⟨_, _, _, e3, _, e5⟩ := hsame x hx0 hxb hxs
  rw [e5] at hf2
  rw [e3]
  have hmem := hc x hx0 hf2
  rw [getPool_setPool, getPool_heap]
  split
  · rename_i h
    rw [h] at hmem
    rw [hek]
    exact mem_erase_key_of_ne (hinv.pool sm).sorted hspool hmem hxs
  · exact hmem

theorem Complete.merge_prev_complete {a : THCCachingAllocator} {ch : Nat → Chain} {b : Nat}
    {sm : Bool} (hinv : Inv a ch) (hd : Detached a ch b sm) (hc : Complete a) :
    Complete (merge_step a sm b (deref a.heap b).prev) := by
  rcases merge_prev_cases hinv hd with ⟨heq, _⟩ |
    ⟨s, hs1, hs2, hs3, hs4, hs5, heq, hcells, hsum, htot⟩
  · rw [heq]
    exact hc
  · rw [heq]
    refine Complete.merge_generic hinv hd hc hs3 hs2 hs5 hcells.live
      (fun x hx hxb hxs => hcells.same_prev hx hxb hxs) ?_ (hinv.prev_keys hd hs1)
    rw [hcells.dst]
    exact hd.alloc

theorem Complete.merge_next_complete {a : THCCachingAllocator} {ch : Nat → Chain} {b : Nat}
    {sm : Bool} (hinv : Inv a ch) (hd : Detached a ch b sm) (hc : Complete a) :
    Complete (merge_step a sm b (deref a.heap b).next) := by
  rcases merge_next_cases hinv hd with ⟨heq, _⟩ |
    ⟨s, hs1, hs2, hs3, hs4, hs5, heq, hcells, hsum, htot⟩
  · rw [heq]
    exact hc
  · rw [heq]
    refine Complete.merge_generic hinv hd hc hs3 hs2 hs5 hcells.live
      (fun x hx hxb hxs => hcells.same_next hx hxb hxs) ?_ (hinv.next_keys hd hs1)
    rw [hcells.dst]
    exact hd.alloc

/-- The end of `free` loses no block: the block released has a positive size and no twin, so
`insert` does not drop it. -/
theorem Complete.release_complete {a : THCCachingAllocator} {ch : Nat → Chain} {b : Nat}
    {sm : Bool} (hinv : Inv a ch) (hd : Detached a ch b sm) (hc : Complete a)
    (hpos : 0 < (deref a.heap b).size) (hnt : NoTwin (THC.release a sm b).heap) :
    Complete (THC.release a sm b) := by
  obtain ⟨hbm, hcok, _⟩ := hinv.chain b hd.live
  have hdr : ∀ x, x ≠ b →
      deref (store a.heap b (fun blk => { blk with allocated := false })) x = deref a.heap x := by
    intro x hx
    exact deref_store_ne _ _ _ _ hx
  have hB : deref (store a.heap b (fun blk => { blk with allocated := false })) b =
      { deref a.heap b with allocated := false } := deref_store_self hd.live _
  rw [release_heap] at hnt
  intro x hx hf
  rw [release_heap] at hx hf ⊢
  have hx0 : Live a.heap x := (Live_store_iff _ _ _ _).1 hx
  rw [release_pool]
  by_cases hxb : x = b
  · rw [hxb, hB]
    have hcls : decide ((deref a.heap b).size ≤ kSmallAlloc) = sm := by
      rw [hcok.class_eq hbm]
      exact hd.cls
    show b ∈ if decide ((deref a.heap b).size ≤ kSmallAlloc) = sm then _ else _
    rw [if_pos hcls]
    refine set_insert_mem_of_no_twin hnt ((Live_store_iff _ _ _ _).2 hd.live) ?_ ?_
    · rw [hB]
      exact hpos
    · intro e he
      obtain ⟨h1, h2, _⟩ := (hinv.pool sm).mem e he
      refine ⟨(Live_store_iff _ _ _ _).2 h1, ?_⟩
      intro heb
      rw [heb, hd.alloc] at h2
      cases h2
  · rw [hdr x hxb] at hf ⊢
    have hmem := hc x hx0 hf
    split
    · rename_i h
      rw [h] at hmem
      exact mem_of_mem_set_insert_old hmem
    · exact hmem

/-- A sweep of the pools loses no block. -/
theorem Complete.sweep_complete {a : THCCachingAllocator} {ch : Nat → Chain} (hinv : Inv a ch)
    (hc : Complete a) {hip : Hip} {done tail : List Nat} {r : Outcome}
    (hsw : Swept a hip done tail r)
    (hsub : ∀ x ∈ done, x ∈ a.large_blocks ∨ x ∈ a.small_blocks) : Complete r.alloc := by
  obtain ⟨hc1, _⟩ := hsw.cells hinv hsub
  intro x hx hf
  obtain ⟨h1, h2⟩ := hc1 x hx
  rw [h2] at hf ⊢
  have hmem := hc x h1 hf
  have hnr : x ∉ roots a.heap done := by
    intro hr
    obtain ⟨b, hb⟩ := hx
    rw [hsw.gone x hr] at hb
    cases hb
  generalize decide ((deref a.heap x).size ≤ kSmallAlloc) = c at hmem ⊢
  cases c
  · rw [getPool_false] at hmem ⊢
    rw [hsw.small]
    exact List.mem_filter.2 ⟨hmem, by simpa using hnr⟩
  · rw [getPool_true] at hmem ⊢
    rw [hsw.large]
    exact List.mem_filter.2 ⟨hmem, by simpa using hnr⟩

/-- The size class of the remainder of a split is that of the request. -/
theorem remainder_class {b r : Nat} (hle : r ≤ b)
    (hclass : decide (b ≤ kSmallAlloc) = decide (r ≤ kSmallAlloc))
    (hsp : b - r ≥ split_threshold r) :
    decide (b - r ≤ kSmallAlloc) = decide (r ≤ kSmallAlloc) := by
  by_cases hr : r ≤ kSmallAlloc
  · have h1 : decide (r ≤ kSmallAlloc) = true := decide_eq_true hr
    rw [h1] at hclass ⊢
    have h2 : b ≤ kSmallAlloc := of_decide_eq_true hclass
    exact decide_eq_true (by omega)
  · have h1 : decide (r ≤ kSmallAlloc) = false := decide_eq_false hr
    rw [h1]
    rw [split_threshold_of_large hr] at hsp
    exact decide_eq_false (by omega)

/-- The split decision of `malloc` loses no block: the remainder has a positive size and no
twin, so `insert` does not drop it. -/
theorem Complete.malloc_split_complete {a : THCCachingAllocator} {ch : Nat → Chain}
    (hinv : Inv a ch) (hip : Hip) {B : Nat} (d : Int) (st : Nat) {r : Nat}
    (hexc : ∀ x, x ≠ B → Live a.heap x → (deref a.heap x).allocated = false →
      x ∈ getPool (decide ((deref a.heap x).size ≤ kSmallAlloc)) a)
    (hl : Live a.heap B) (hfree : (deref a.heap B).allocated = false)
    (hle : r ≤ (deref a.heap B).size) (hlt : (deref a.heap B).size < SIZE_T)
    (hclass : decide ((deref a.heap B).size ≤ kSmallAlloc) = decide (r ≤ kSmallAlloc))
    (hBpool : ∀ sm, B ∉ getPool sm a)
    (hnt : NoTwin (THC.malloc_split a hip B d st r).alloc.heap) :
    Complete (THC.malloc_split a hip B d st r).alloc := by
  have hself : (deref a.heap B).prev ≠ some B := by
    intro hc
    have hadj := (hinv.chain.prev_ok hl hc).2.1
    rcases hadj.2.2.2 with h | h <;> rw [hfree] at h <;> cases h
  have hsub := sub_size_t_of_le hle hlt
  by_cases hsp : sub_size_t (deref a.heap B).size r ≥ split_threshold r
  · obtain ⟨hh, htab, hpools⟩ := malloc_split_state_split a hip d st r hl hsp
    have hcells := malloc_split_heap_cells a.heap B d st r hl hself
    rw [hh] at hnt
    have hnt2 := hnt.of_flag
    rw [← hh] at hcells
    have hN := not_Live_newPtr a.heap
    have hBN : B ≠ newPtr a.heap := fun hc => hN (hc ▸ hl)
    have hmB : deref (malloc_split_heap a.heap B d st r) B =
        deref (THC.malloc_split a hip B d st r).alloc.heap B := by
      rw [hh, deref_store_ne _ _ _ _ hBN]
    have hmlive : ∀ q, Live (malloc_split_heap a.heap B d st r) q ↔
        Live (THC.malloc_split a hip B d st r).alloc.heap q := by
      intro q
      rw [hh]
      exact (Live_store_iff _ _ _ _).symm
    intro x hx hf
    rcases (hcells.live x).1 hx with hxN | hx0
    · rw [hxN, hcells.new] at hf
      cases hf
    · by_cases hxB : x = B
      · rw [hxB, hcells.rem]
        show B ∈ getPool (decide (sub_size_t (deref a.heap B).size r ≤ kSmallAlloc)) _
        rw [hsub] at hsp ⊢
        rw [remainder_class hle hclass hsp, hpools, if_pos rfl]
        refine set_insert_mem_of_no_twin hnt2 ((hmlive B).2 ((hcells.live B).2 (Or.inr hl)))
          ?_ ?_
        · rw [hmB, hcells.rem]
          show 0 < sub_size_t (deref a.heap B).size r
          rw [sub_size_t_of_le hle hlt]
          have := split_threshold_pos r
          omega
        · intro e he
          have hel := ((hinv.pool _).mem e he).1
          exact ⟨(hmlive e).2 ((hcells.live e).2 (Or.inr hel)),
            fun hc => hBpool _ (hc ▸ he)⟩
      · obtain ⟨_, _, _, e3, _, e5⟩ := hcells.same_data hN hx0 hxB
        rw [e5] at hf
        rw [e3]
        have hmem := hexc x hxB hx0 hf
        rw [hpools]
        split
        · rename_i h
          rw [h] at hmem
          exact mem_of_mem_set_insert_old hmem
        · exact hmem
  · obtain ⟨hh, htab, hpools⟩ := malloc_split_state_whole a hip d st r hsp
    intro x hx hf
    rw [hpools]
    rw [hh] at hx hf ⊢
    have hx0 : Live a.heap x := (Live_store_iff _ _ _ _).1 hx
    have hxB : x ≠ B := by
      intro hc
      rw [hc, deref_store_self hl] at hf
      cases hf
    rw [deref_store_ne _ _ _ _ hxB] at hf ⊢
    exact hexc x hxB hx0 hf

/-- The method `malloc` loses no block when its result has no twins. -/
theorem Complete.malloc_complete {a : THCCachingAllocator} {hip : Hip} {ch : Nat → Chain}
    (hg : GoodWith a hip ch) (hc : Complete a) (size st : Nat)
    (hnt : NoTwin (THC.malloc a hip size st).alloc.heap) :
    Complete (THC.malloc a hip size st).alloc := by
  have hinv := hg.1
  by_cases hdev : hip.device.1 = hipSuccess
  swap
  · rw [malloc_of_device_err hdev]
    exact hc
  rw [malloc_of_device_ok hdev] at hnt ⊢
  cases hhit : malloc_hit a hip.device.2 st (round_size size) with
  | some e =>
    rw [malloc_rounded_of_erase hhit] at hnt ⊢
    obtain ⟨hinv2, hh, _, hnotin, hkeep, _, hel, hef, hecls, hele, helt, _, _⟩ :=
      hinv.hit_state hhit
    refine Complete.malloc_split_complete hinv2 _ _ _ ?_ ?_ ?_ ?_ ?_ ?_ hnotin hnt
    · intro x hxe hx hf
      rw [hh] at hx hf ⊢
      exact hkeep _ x (hc x hx hf) hxe
    · rw [hh]
      exact hel
    · rw [hh]
      exact hef
    · rw [hh]
      exact hele
    · rw [hh]
      exact helt
    · rw [hh]
      exact hecls
  | none =>
    rw [malloc_rounded_of_miss hhit] at hnt ⊢
    have hgd : GoodWith a (hipGetDevice hip).2.2 ch :=
      hg.recall (hipSane_getDevice _ _ _) (hipLive_getDevice _ _ _)
        (hipFreesValid_getDevice _ _ _)
    obtain ⟨hfail, hok⟩ := hgd.retry hip.device.2 (alloc_size (round_size size))
    have hcr : Complete (hip_malloc_retry a (hipGetDevice hip).2.2 hip.device.2
        (alloc_size (round_size size))).alloc := by
      rcases hip_malloc_retry_alloc a (hipGetDevice hip).2.2 hip.device.2
        (alloc_size (round_size size)) with h | h
      · rw [h]
        exact hc
      · rw [h]
        obtain ⟨done, tail, hsw, hsub⟩ := free_cached_blocks_sweep hinv
          (hipGetLastError (hipMalloc (hipGetDevice hip).2.2
            (alloc_size (round_size size))).2.2) hip.device.2
        exact hc.sweep_complete hinv hsw hsub
    by_cases herr : (hip_malloc_retry a (hipGetDevice hip).2.2 hip.device.2
        (alloc_size (round_size size))).err = hipSuccess
    · rw [malloc_miss_of_ok herr] at hnt ⊢
      obtain ⟨p, calls0, hp, _, hinv1, _⟩ := hok herr
      rw [hp] at hnt ⊢
      generalize hip_malloc_retry a (hipGetDevice hip).2.2 hip.device.2
        (alloc_size (round_size size)) = r at hcr hinv1 hnt
      have hinv2 := hinv1.new_chain hip.device.2 st (alloc_size (round_size size)) p
        (alloc_size_ge _) (alloc_size_lt (round_size_lt _))
      have hcell : deref (newBlock r.alloc.heap
          (Block.ctor hip.device.2 st (alloc_size (round_size size)) p))
          (newPtr r.alloc.heap) =
          Block.ctor hip.device.2 st (alloc_size (round_size size)) p := deref_newBlock_self _ _
      have hN := not_Live_newPtr r.alloc.heap
      refine Complete.malloc_split_complete hinv2 _ _ _ ?_
        ((Live_newBlock_iff _ _ _).2 (Or.inl rfl)) ?_ ?_ ?_ ?_ ?_ hnt
      · intro x hxN hx hf
        have hx2 : Live (newBlock r.alloc.heap _) x := hx
        have hf2 : (deref (newBlock r.alloc.heap
          (Block.ctor hip.device.2 st (alloc_size (round_size size)) p)) x).allocated = false :=
          hf
        show x ∈ getPool (decide ((deref (newBlock r.alloc.heap _) x).size ≤ kSmallAlloc)) _
        rcases (Live_newBlock_iff _ _ _).1 hx2 with h | h
        · exact absurd h hxN
        · rw [deref_newBlock, if_neg hxN] at hf2 ⊢
          rw [getPool_heap]
          exact hcr x h hf2
      · show (deref (newBlock _ _) _).allocated = false
        rw [hcell]
        rfl
      · show _ ≤ (deref (newBlock _ _) _).size
        rw [hcell]
        exact le_alloc_size _
      · show (deref (newBlock _ _) _).size < SIZE_T
        rw [hcell]
        exact alloc_size_lt (round_size_lt _)
      · show decide ((deref (newBlock _ _) _).size ≤ kSmallAlloc) = _
        rw [hcell]
        exact alloc_size_class _
      · intro sm hcm
        rw [getPool_heap] at hcm
        exact hN ((hinv1.pool sm).mem _ hcm).1
    · rw [malloc_miss_of_err herr]
      exact hcr

/-- The method `free` loses no block when its result has no twins. -/
theorem Complete.free_complete {a : THCCachingAllocator} {ch : Nat → Chain} (hinv : Inv a ch)
    (ht : Tidy a) (hc : Complete a) (hip : Hip) (p : Nat)
    (hnt : NoTwin (THC.free a hip p).alloc.heap) : Complete (THC.free a hip p).alloc := by
  by_cases hp : p = 0
  · rw [hp, free_zero]
    exact hc
  · cases hl : a.allocated_blocks.lookup p with
    | none =>
      rw [free_of_not_allocated hp hl]
      exact hc
    | some b =>
      obtain ⟨a1, a2, ch1, ch2, hinv0, hd0, ha1, hinv1, hd1, ha2, hinv2, hd2, hfree, _⟩ :=
        free_run hinv hip hp hl
      have t0 := ht.detach_tidy hl
      have t1 := t0.merge_prev_tidy hinv0 hd0
      have hh0 : (table_erase a p).heap = a.heap := rfl
      rw [hh0, ← ha1] at t1
      have t2 := t1.merge_next_tidy hinv1 hd1
      rw [← ha2] at t2
      have c0 : Complete (table_erase a p) := hc
      have c1 := c0.merge_prev_complete hinv0 hd0
      rw [hh0, ← ha1] at c1
      have c2 := c1.merge_next_complete hinv1 hd1
      rw [← ha2] at c2
      rw [hfree] at hnt ⊢
      exact c2.release_complete hinv2 hd2 t2.2 hnt

theorem Swept.calls_grow {a : THCCachingAllocator} {hip : Hip} {done tail : List Nat}
    {r : Outcome} (hsw : Swept a hip done tail r) : ∃ new, r.hip.calls = new ++ hip.calls := by
  by_cases herr : r.err = hipSuccess
  · exact ⟨_, (hsw.ok herr).2⟩
  · obtain ⟨b, rest, _, _, h, _⟩ := hsw.failed herr
    exact ⟨HipCall.free (deref a.heap b).ptr r.err :: freed_calls a.heap done, by
      rw [h, List.cons_append]⟩

/-- With a runtime that behaved no block is lost: in every reachable state every live block
that is not allocated is in the pool of its size class. -/
theorem Reachable.complete {a : THCCachingAllocator} {hip : Hip} (hr : Reachable a hip) :
    hipSane hip.calls = true → Complete a := by
  induction hr with
  | init hip hcalls =>
    intro _ x hx
    obtain ⟨b, hb⟩ := hx
    cases hb
  | answers device mallocs frees _ ih => exact ih
  | malloc size stream hr0 hsz ih =>
    intro hs
    obtain ⟨new, hnew, _⟩ := malloc_failed_calls _ _ size stream
    rw [hnew] at hs
    have hs0 := hipSane_append hs
    rw [← hnew] at hs
    obtain ⟨ch, hg⟩ := hr0.good
    obtain ⟨ch2, hg2⟩ := (Reachable.malloc size stream hr0 hsz).good
    exact (ih hs0).malloc_complete hg size stream (hg2.no_twin hs)
  | free ptr hr0 ih =>
    intro hs
    have hs0 := hs
    rw [free_hip] at hs0
    obtain ⟨ch, hg⟩ := hr0.good
    obtain ⟨ch2, hg2⟩ := (Reachable.free ptr hr0).good
    exact (ih hs0).free_complete hg.1 hr0.tidy _ ptr (hg2.no_twin hs)
  | emptyCache hr0 ih =>
    intro hs
    obtain ⟨ch, hg⟩ := hr0.good
    obtain ⟨done, tail, hsw, hsub⟩ := emptyCache_sweep hg.1 _
    obtain ⟨new, hnew⟩ := hsw.calls_grow
    rw [hnew] at hs
    exact (ih (hipSane_append hs)).sweep_complete hg.1 hsw hsub

theorem ReturnedBlock.imp {r : MallocOutcome} {P Q : Block → Prop} (h : ReturnedBlock r P)
    (hpq : ∀ b, P b → Q b) : ReturnedBlock r Q := by
  obtain ⟨p, blk, h1, h2, h3⟩ := h
  exact ⟨p, blk, h1, h2, hpq _ h3⟩

/-- The block that a successful `malloc` hands out in a reachable state has an aligned
size. -/
theorem malloc_returned_aligned {a : THCCachingAllocator} {hip : Hip} (hr : Reachable a hip)
    (size st : Nat) (hok : (malloc a hip size st).err = hipSuccess) :
    ReturnedBlock (malloc a hip size st) (fun b => Aligned b.size) := by
  obtain ⟨p, blk, h1, h2, _⟩ := malloc_returned_facts hr size st hok
  obtain ⟨ch, hg⟩ := hr.good
  obtain ⟨ch2, hg2⟩ := hr.good.after_malloc size st
  have hl := (hg2.1.table_mem (p, blk) (mem_of_lookup h2)).1
  exact ⟨p, blk, h1, h2, (hr.tidy.malloc_tidy hg size st).aligned blk hl⟩

theorem malloc_exact_of_reachable {a : THCCachingAllocator} {hip : Hip} (hr : Reachable a hip)
    (size st : Nat) (hok : (malloc a hip size st).err = hipSuccess) :
    ReturnedBlock (malloc a hip size st)
      (fun b => (round_size size ≤ 1048576 → b.size = round_size size) ∧
        (1048576 < round_size size →
          round_size size ≤ b.size ∧ b.size ≤ round_size size + 1048576)) := by
  refine ((malloc_returned_facts hr size st hok).both
    (malloc_returned_aligned hr size st hok)).imp ?_
  rintro b ⟨⟨_, ⟨h1, h2⟩, _⟩, hal⟩
  have har := round_size_aligned size
  refine ⟨?_, ?_⟩
  · intro hs
    rw [split_threshold_of_small hs] at h2
    obtain ⟨k1, hk1⟩ : 512 ∣ b.size := hal.1
    obtain ⟨k2, hk2⟩ : 512 ∣ round_size size := har.1
    have h3 : b.size < round_size size + 512 := h2
    omega
  · intro hs
    rw [split_threshold_of_large (Nat.not_le.2 hs)] at h2
    have h3 : b.size < round_size size + (1048576 + 1) := h2
    exact ⟨h1, by omega⟩

/-- C30: in every reachable state every live block of the small class (at most 1048576
bytes) has a size that is a multiple of 512 and every live block of the large class a size
that is a multiple of 131072.  Consequently the block that a successful `malloc` of the
small class hands out has exactly `round_size(size)` bytes, and the block that a successful
`malloc` of the large class hands out has at least `round_size(size)` bytes and at most
1048576 bytes more. -/
theorem sizes_aligned (a : THCCachingAllocator) (hip : Hip) (hr : Reachable a hip) :
    (∀ x, Live a.heap x →
      ((deref a.heap x).size ≤ 1048576 → 512 ∣ (deref a.heap x).size) ∧
      (1048576 < (deref a.heap x).size → 131072 ∣ (deref a.heap x).size)) ∧
    (∀ size st, (malloc a hip size st).err = hipSuccess →
      ReturnedBlock (malloc a hip size st)
        (fun b => (round_size size ≤ 1048576 → b.size = round_size size) ∧
          (1048576 < round_size size →
            round_size size ≤ b.size ∧ b.size ≤ round_size size + 1048576))) :=
  ⟨fun x hx => ⟨fun _ => (hr.tidy.aligned x hx).1, (hr.tidy.aligned x hx).2⟩,
    fun size st hok => malloc_exact_of_reachable hr size st hok⟩

theorem sizes_aligned_witness :
    (deref afterFirst.alloc.heap 0).size = 1048064 ∧
    512 ∣ (deref afterFirst.alloc.heap 0).size ∧
    ReturnedBlock (malloc afterFirst.alloc afterFirst.hip 100 7)
      (fun b => (round_size 100 ≤ 1048576 → b.size = round_size 100) ∧
        (1048576 < round_size 100 →
          round_size 100 ≤ b.size ∧ b.size ≤ round_size 100 + 1048576)) :=
  ⟨by decide,
    ((sizes_aligned afterFirst.alloc afterFirst.hip afterFirst_reachable).1 0
      (by decide)).1 (by decide),
    (sizes_aligned afterFirst.alloc afterFirst.hip afterFirst_reachable).2 100 7 (by decide)⟩

theorem free_eq_release {a : THCCachingAllocator} (hip : Hip) {p b : Nat} (hp : p ≠ 0)
    (hl : a.allocated_blocks.lookup p = some b) :
    free a hip p =
      ⟨hipSuccess,
        release (free_merged a p b) (decide ((deref a.heap b).size ≤ kSmallAlloc)) b, hip⟩ :=
  free_steps hip hp hl

/-- The state of `free` before the release: the invariant holds, the block has kept its size
class and has a positive size. -/
theorem free_survivor {a : THCCachingAllocator} {ch : Nat → Chain} (hinv : Inv a ch)
    (ht : Tidy a) (hip : Hip) {p b : Nat} (hp : p ≠ 0)
    (hl : a.allocated_blocks.lookup p = some b) :
    ∃ ch2, Inv (free_merged a p b) ch2 ∧
      Detached (free_merged a p b) ch2 b (decide ((deref a.heap b).size ≤ kSmallAlloc)) ∧
      decide ((deref (free_merged a p b).heap b).size ≤ kSmallAlloc) =
        decide ((deref a.heap b).size ≤ kSmallAlloc) ∧
      0 < (deref (free_merged a p b).heap b).size ∧
      Inv (release (free_merged a p b) (decide ((deref a.heap b).size ≤ kSmallAlloc)) b) ch2 := by
  obtain ⟨a1, a2, ch1, ch2, hinv0, hd0, ha1, hinv1, hd1, ha2, hinv2, hd2, hfree, hinv3, _⟩ :=
    free_run hinv hip hp hl
  have t0 := ht.detach_tidy hl
  have t1 := t0.merge_prev_tidy hinv0 hd0
  have hh0 : (table_erase a p).heap = a.heap := rfl
  rw [hh0, ← ha1] at t1
  have t2 := t1.merge_next_tidy hinv1 hd1
  rw [← ha2] at t2
  have hfm : free_merged a p b = a2 := by
    rw [ha2, ha1]
    rfl
  rw [hfm]
  obtain ⟨hbm, hcok, _⟩ := hinv2.chain b hd2.live
  refine ⟨ch2, hinv2, hd2, ?_, t2.2, hinv3⟩
  rw [hcok.class_eq hbm]
  exact hd2.cls

theorem free_pool_of_reachable (a : THCCachingAllocator) (hip : Hip) (hr : Reachable a hip)
    (p b : Nat) (hp : p ≠ 0) (hl : a.allocated_blocks.lookup p = some b) :
    (free a hip p).err = hipSuccess ∧
    Live (free a hip p).alloc.heap b ∧ (deref (free a hip p).alloc.heap b).allocated = false ∧
    (deref (free a hip p).alloc.heap b).size = (deref (free_merged a p b).heap b).size ∧
    decide ((deref (free a hip p).alloc.heap b).size ≤ kSmallAlloc) =
      decide ((deref a.heap b).size ≤ kSmallAlloc) ∧
    (free a hip p).alloc =
      release (free_merged a p b)
        (decide ((deref (free a hip p).alloc.heap b).size ≤ kSmallAlloc)) b ∧
    getPool (decide ((deref (free a hip p).alloc.heap b).size ≤ kSmallAlloc))
        (free a hip p).alloc =
      set_insert (free a hip p).alloc.heap b
        (getPool (decide ((deref (free a hip p).alloc.heap b).size ≤ kSmallAlloc))
          (free_merged a p b)) ∧
    (∀ sm2, sm2 ≠ decide ((deref (free a hip p).alloc.heap b).size ≤ kSmallAlloc) →
      getPool sm2 (free a hip p).alloc = getPool sm2 (free_merged a p b)) ∧
    (hipSane hip.calls = true →
      b ∈ getPool (decide ((deref (free a hip p).alloc.heap b).size ≤ kSmallAlloc))
        (free a hip p).alloc ∧
      ∃ e, malloc_hit (free a hip p).alloc (deref (free a hip p).alloc.heap b).device
        (deref (free a hip p).alloc.heap b).stream
        (deref (free a hip p).alloc.heap b).size = some e) := by
  obtain ⟨ch, hg⟩ := hr.good
  obtain ⟨ch2, hinv2, hd2, hcls, hpos, hinv3⟩ := free_survivor hg.1 hr.tidy hip hp hl
  have hfree : free a hip p = _ := free_eq_release hip hp hl
  have hheap : (free a hip p).alloc.heap =
      store (free_merged a p b).heap b (fun blk => { blk with allocated := false }) := by
    rw [hfree]
    exact release_heap _ _ _
  have hB : deref (free a hip p).alloc.heap b =
      { deref (free_merged a p b).heap b with allocated := false } := by
    rw [hheap]
    exact deref_store_self hd2.live _
  have hsz : (deref (free a hip p).alloc.heap b).size =
      (deref (free_merged a p b).heap b).size := by
    rw [hB]
  have hlive : Live (free a hip p).alloc.heap b := by
    rw [hheap]
    exact (Live_store_iff _ _ _ _).2 hd2.live
  have hcls2 : decide ((deref (free a hip p).alloc.heap b).size ≤ kSmallAlloc) =
      decide ((deref a.heap b).size ≤ kSmallAlloc) := by
    rw [hsz]
    exact hcls
  refine ⟨by rw [hfree], hlive, by rw [hB], hsz, hcls2, ?_, ?_, ?_, ?_⟩
  · rw [hcls2, hfree]
  · rw [hcls2]
    rw [hfree]
    show getPool _ (release _ _ _) = set_insert (release _ _ _).heap _ _
    rw [release_pool, if_pos rfl, release_heap]
  · intro sm2 hne
    rw [hcls2] at hne
    rw [hfree]
    show getPool _ (release _ _ _) = _
    rw [release_pool, if_neg hne]
  · intro hs
    have hr2 : Reachable (free a hip p).alloc (free a hip p).hip := Reachable.free p hr
    have hs2 : hipSane (free a hip p).hip.calls = true := by
      rw [free_hip]
      exact hs
    have hmem := hr2.complete hs2 b hlive (by rw [hB])
    refine ⟨hmem, ?_⟩
    obtain ⟨ch3, hg3⟩ := hr2.good
    exact malloc_hit_of_cached (hg3.1.pool _).sorted ⟨b, hmem, rfl, rfl, le_refl _⟩

/-- C24: in a reachable state, a `free(p)` that finds its block `b` in the allocated table
succeeds and ends with `b` live and not allocated.  The pool flag that the code computes
from the size of `b` before the merges is the flag of the size of `b` after them, so the
end of `free` is the release of `b` into the pool `getPool` selects for the new size: that
pool becomes `insert(b)` of what it was after the merges, the other pool is not touched.
When the record of the runtime is sane, `b` is a member of that pool afterwards, and a
`malloc` lookup for the device and stream of `b` with the new size as rounded size, which
searches that same pool, finds a block. -/
theorem free_pool_by_new_size (a : THCCachingAllocator) (hip : Hip) (hr : Reachable a hip)
    (p b : Nat) (hp : p ≠ 0) (hl : a.allocated_blocks.lookup p = some b) :
    (free a hip p).err = hipSuccess ∧
    Live (free a hip p).alloc.heap b ∧ (deref (free a hip p).alloc.heap b).allocated = false ∧
    (deref (free a hip p).alloc.heap b).size = (deref (free_merged a p b).heap b).size ∧
    decide ((deref (free a hip p).alloc.heap b).size ≤ kSmallAlloc) =
      decide ((deref a.heap b).size ≤ kSmallAlloc) ∧
    (free a hip p).alloc =
      release (free_merged a p b)
        (decide ((deref (free a hip p).alloc.heap b).size ≤ kSmallAlloc)) b ∧
    getPool (decide ((deref (free a hip p).alloc.heap b).size ≤ kSmallAlloc))
        (free a hip p).alloc =
      set_insert (free a hip p).alloc.heap b
        (getPool (decide ((deref (free a hip p).alloc.heap b).size ≤ kSmallAlloc))
          (free_merged a p b)) ∧
    (∀ sm2, sm2 ≠ decide ((deref (free a hip p).alloc.heap b).size ≤ kSmallAlloc) →
      getPool sm2 (free a hip p).alloc = getPool sm2 (free_merged a p b)) ∧
    (hipSane hip.calls = true →
      b ∈ getPool (decide ((deref (free a hip p).alloc.heap b).size ≤ kSmallAlloc))
        (free a hip p).alloc ∧
      ∃ e, malloc_hit (free a hip p).alloc (deref (free a hip p).alloc.heap b).device
        (deref (free a hip p).alloc.heap b).stream
        (deref (free a hip p).alloc.heap b).size = some e) :=
  free_pool_of_reachable a hip hr p b hp hl

theorem free_pool_by_new_size_witness :
    (deref freedA.alloc.heap 2).size = 512 ∧
    (deref (free freedA.alloc freedA.hip 4608).alloc.heap 2).size = 1024 ∧
    (free freedA.alloc freedA.hip 4608).alloc.large_blocks = [2, 0] ∧
    (free freedA.alloc freedA.hip 4608).alloc =
      release (free_merged freedA.alloc 4608 2)
        (decide ((deref (free freedA.alloc freedA.hip 4608).alloc.heap 2).size ≤
          kSmallAlloc)) 2 :=
  ⟨by decide, by decide, by decide,
    (free_pool_by_new_size freedA.alloc freedA.hip freedA_reachable 4608 2 (by decide)
      (by decide)).2.2.2.2.2.1⟩

/-- All blocks of a sibling chain have the same size class. -/
theorem sibling_chain_class {h : Heap} {ch : Nat → Chain} (hinv : Chained h ch)
    {xs : List Nat} (hs : IsSiblingChain h xs) :
    ∀ x ∈ xs, ∀ y ∈ xs,
      decide ((deref h x).size ≤ kSmallAlloc) = decide ((deref h y).size ≤ kSmallAlloc) := by
  cases xs with
  | nil =>
    intro x hx
    cases hx
  | cons x0 t =>
    have hl0 := hs.1 x0 (List.mem_cons_self _ _)
    have hb := hinv.sibling_chain hs
    obtain ⟨_, hcok, _⟩ := hinv x0 hl0
    intro x hx y hy
    rw [← hb] at hx hy
    rw [hcok.class_eq hx, hcok.class_eq hy]

/-- What the first merge of `free` does to the set of live blocks. -/
theorem merge_prev_live {a : THCCachingAllocator} {ch : Nat → Chain} {b : Nat} {sm : Bool}
    (hinv : Inv a ch) (hd : Detached a ch b sm) :
    (∀ q, Live (merge_step a sm b (deref a.heap b).prev).heap q → Live a.heap q) ∧
    (∀ s, (deref a.heap b).prev = some s → (deref a.heap s).allocated = false →
      ¬ Live (merge_step a sm b (deref a.heap b).prev).heap s) ∧
    (∀ q, q ≠ b → Live (merge_step a sm b (deref a.heap b).prev).heap q →
      (deref (merge_step a sm b (deref a.heap b).prev).heap q).allocated =
        (deref a.heap q).allocated) ∧
    (deref (merge_step a sm b (deref a.heap b).prev).heap b).next = (deref a.heap b).next := by
  rcases merge_prev_cases hinv hd with ⟨heq, hal⟩ |
    ⟨s, hs1, hs2, hs3, hs4, hs5, heq, hcells, hsum, htot⟩
  · rw [heq]
    refine ⟨fun _ hq => hq, ?_, fun _ _ _ => rfl, rfl⟩
    intro s h1 h2
    rw [hal s h1] at h2
    cases h2
  · rw [heq, setPool_heap]
    refine ⟨fun q hq => ((hcells.live q).1 hq).2, ?_, ?_, ?_⟩
    · intro s2 h1 _ hc
      rw [hs1] at h1
      cases h1
      exact ((hcells.live s).1 hc).1 rfl
    · intro q hqb hq
      obtain ⟨hqs, hq0⟩ := (hcells.live q).1 hq
      exact (hcells.same_prev hq0 hqb hqs).2.2.2.2.2
    · rw [hcells.dst]

/-- What the second merge of `free` does to the set of live blocks. -/
theorem merge_next_live {a : THCCachingAllocator} {ch : Nat → Chain} {b : Nat} {sm : Bool}
    (hinv : Inv a ch) (hd : Detached a ch b sm) :
    (∀ q, Live (merge_step a sm b (deref a.heap b).next).heap q → Live a.heap q) ∧
    (∀ s, (deref a.heap b).next = some s → (deref a.heap s).allocated = false →
      ¬ Live (merge_step a sm b (deref a.heap b).next).heap s) := by
  rcases merge_next_cases hinv hd with ⟨heq, hal⟩ |
    ⟨s, hs1, hs2, hs3, hs4, hs5, heq, hcells, hsum, htot⟩
  · rw [heq]
    refine ⟨fun _ hq => hq, ?_⟩
    intro s h1 h2
    rw [hal s h1] at h2
    cases h2
  · rw [heq, setPool_heap]
    refine ⟨fun q hq => ((hcells.live q).1 hq).2, ?_⟩
    intro s2 h1 _ hc
    rw [hs1] at h1
    cases h1
    exact ((hcells.live s).1 hc).1 rfl

/-- A free sibling of the block that `free` works on is gone afterwards. -/
theorem free_sibling_gone {a : THCCachingAllocator} {ch : Nat → Chain} (hinv : Inv a ch)
    (hip : Hip) {p b s : Nat} (hp : p ≠ 0) (hl : a.allocated_blocks.lookup p = some b)
    (hsib : (deref a.heap b).prev = some s ∨ (deref a.heap b).next = some s)
    (hsf : (deref a.heap s).allocated = false) : ¬ Live (free a hip p).alloc.heap s := by
  obtain ⟨a1, a2, ch1, ch2, hinv0, hd0, ha1, hinv1, hd1, ha2, hinv2, hd2, hfree, _⟩ :=
    free_run hinv hip hp hl
  obtain ⟨p1, p2, p3, p4⟩ := merge_prev_live hinv0 hd0
  have hh0 : (table_erase a p).heap = a.heap := rfl
  rw [hh0, ← ha1] at p1 p2 p3 p4
  obtain ⟨n1, n2⟩ := merge_next_live hinv1 hd1
  rw [← ha2] at n1 n2
  have hsb : s ≠ b := by
    intro hc
    have := hd0.alloc
    rw [hh0, ← hc, hsf] at this
    cases this
  rw [hfree]
  show ¬ Live (release a2 _ b).heap s
  rw [release_heap]
  intro hc
  have hc2 : Live a2.heap s := (Live_store_iff _ _ _ _).1 hc
  have hc1 := n1 s hc2
  rcases hsib with h | h
  · exact p2 s h hsf hc1
  · refine n2 s (by rw [p4]; exact h) ?_ hc2
    rw [p3 s hsb hc1]
    exact hsf

theorem class_of_reachable (a : THCCachingAllocator) (hip : Hip) (hr : Reachable a hip) :
    (∀ xs, IsSiblingChain a.heap xs → ∀ x ∈ xs, ∀ y ∈ xs,
      ((deref a.heap x).size ≤ 1048576 ↔ (deref a.heap y).size ≤ 1048576)) ∧
    (∀ sm, ∀ x ∈ getPool sm a, ∀ y ∈ getPool sm a,
      ((deref a.heap x).size ≤ 1048576 ↔ (deref a.heap y).size ≤ 1048576)) ∧
    (∀ p b, p ≠ 0 → a.allocated_blocks.lookup p = some b →
      (∀ sm, ∀ x ∈ getPool sm (free a hip p).alloc,
        Live (free a hip p).alloc.heap x ∧
          (deref (free a hip p).alloc.heap x).allocated = false) ∧
      ∀ s, ((deref a.heap b).prev = some s ∨ (deref a.heap b).next = some s) →
        (deref a.heap s).allocated = false →
        ¬ Live (free a hip p).alloc.heap s ∧
        (∀ sm, s ∉ getPool sm (free a hip p).alloc) ∧
        ((deref a.heap s).size ≤ 1048576 ↔ (deref a.heap b).size ≤ 1048576) ∧
        (hipSane hip.calls = true →
          s ∈ getPool (decide ((deref a.heap b).size ≤ kSmallAlloc)) a)) := by
  obtain ⟨ch, hg⟩ := hr.good
  have hinv := hg.1
  refine ⟨?_, ?_, ?_⟩
  · intro xs hxs x hx y hy
    have := sibling_chain_class hinv.chain hxs x hx y hy
    exact decide_eq_decide.1 this
  · intro sm x hx y hy
    have h1 := ((hinv.pool sm).mem x hx).2.2
    have h2 := ((hinv.pool sm).mem y hy).2.2
    exact decide_eq_decide.1 (h1.trans h2.symm)
  · intro p b hp hl
    have hr2 : Reachable (free a hip p).alloc (free a hip p).hip := Reachable.free p hr
    obtain ⟨ch2, hg2⟩ := hr2.good
    have hpm : ∀ sm, ∀ x ∈ getPool sm (free a hip p).alloc,
        Live (free a hip p).alloc.heap x ∧
          (deref (free a hip p).alloc.heap x).allocated = false := by
      intro sm x hx
      have := (hg2.1.pool sm).mem x hx
      exact ⟨this.1, this.2.1⟩
    refine ⟨hpm, ?_⟩
    intro s hsib hsf
    have hbl : Live a.heap b := (hinv.table_mem (p, b) (mem_of_lookup hl)).1
    have hgone := free_sibling_gone hinv hip hp hl hsib hsf
    obtain ⟨hbm, hcok, _⟩ := hinv.chain b hbl
    have hsm : s ∈ (ch b).blocks := by
      rcases hsib with h | h
      · exact hinv.chain.prev_mem hbl h
      · exact hinv.chain.next_mem hbl h
    have hsl : Live a.heap s := (hcok.each s hsm).1
    have hcls : decide ((deref a.heap s).size ≤ kSmallAlloc) =
        decide ((deref a.heap b).size ≤ kSmallAlloc) := by
      rw [hcok.class_eq hsm, hcok.class_eq hbm]
    refine ⟨hgone, fun sm hc => hgone (hpm sm s hc).1, decide_eq_decide.1 hcls, ?_⟩
    intro hs
    have := hr.complete hs s hsl hsf
    rw [hcls] at this
    exact this

/-- C29: in every reachable state all blocks of one sibling chain are of the same size
class (all at most 1048576 bytes, or all above), and no pool holds both a block of at most
1048576 bytes and a larger one.  Consequently, for a `free(p)` that finds its block `b`: a
sibling `s` of `b` that is not allocated, which is the sibling that gets merged, has the
size class of `b`, is gone afterwards and is in no pool afterwards; every block of a pool
afterwards is live and not allocated, so no pool is left holding a deleted block; and when
the record of the runtime is sane, `s` was a member of the very pool that `free` selects
from the size of `b`, so the erase by key in `try_merge_blocks` removes it. -/
theorem class_uniform (a : THCCachingAllocator) (hip : Hip) (hr : Reachable a hip) :
    (∀ xs, IsSiblingChain a.heap xs → ∀ x ∈ xs, ∀ y ∈ xs,
      ((deref a.heap x).size ≤ 1048576 ↔ (deref a.heap y).size ≤ 1048576)) ∧
    (∀ sm, ∀ x ∈ getPool sm a, ∀ y ∈ getPool sm a,
      ((deref a.heap x).size ≤ 1048576 ↔ (deref a.heap y).size ≤ 1048576)) ∧
    (∀ p b, p ≠ 0 → a.allocated_blocks.lookup p = some b →
      (∀ sm, ∀ x ∈ getPool sm (free a hip p).alloc,
        Live (free a hip p).alloc.heap x ∧
          (deref (free a hip p).alloc.heap x).allocated = false) ∧
      ∀ s, ((deref a.heap b).prev = some s ∨ (deref a.heap b).next = some s) →
        (deref a.heap s).allocated = false →
        ¬ Live (free a hip p).alloc.heap s ∧
        (∀ sm, s ∉ getPool sm (free a hip p).alloc) ∧
        ((deref a.heap s).size ≤ 1048576 ↔ (deref a.heap b).size ≤ 1048576) ∧
        (hipSane hip.calls = true →
          s ∈ getPool (decide ((deref a.heap b).size ≤ kSmallAlloc)) a)) :=
  class_of_reachable a hip hr

theorem class_uniform_witness :
    (deref freedA.alloc.heap 2).prev = some 1 ∧
    1 ∈ getPool (decide ((deref freedA.alloc.heap 2).size ≤ kSmallAlloc)) freedA.alloc ∧
    ¬ Live (free freedA.alloc freedA.hip 4608).alloc.heap 1 ∧
    (free freedA.alloc freedA.hip 4608).alloc.large_blocks = [2, 0] :=
  ⟨by decide,
    (((class_uniform freedA.alloc freedA.hip freedA_reachable).2.2 4608 2 (by decide)
      (by decide)).2 1 (Or.inl (by decide)) (by decide)).2.2.2 (by decide),
    (((class_uniform freedA.alloc freedA.hip freedA_reachable).2.2 4608 2 (by decide)
      (by decide)).2 1 (Or.inl (by decide)) (by decide)).1,
    by decide⟩

/-- The comparator is the lexicographic order on device, stream, size and address. -/
theorem BlockComparator_lex (x y : Block) :
    BlockComparator x y = true ↔
      (x.device < y.device ∨ (x.device = y.device ∧
        (x.stream < y.stream ∨ (x.stream = y.stream ∧
          (x.size < y.size ∨ (x.size = y.size ∧ x.ptr < y.ptr)))))) := by
  unfold BlockComparator
  split_ifs with h1 h2 h3 <;> simp only [decide_eq_true_eq] <;> constructor <;> intro h <;> omega

/-- The comparator is total: two blocks are ordered one way or the other, or have the same
device, stream, size and address. -/
theorem BlockComparator_total (x y : Block) :
    BlockComparator x y = true ∨ BlockComparator y x = true ∨ x.key = y.key := by
  cases h1 : BlockComparator x y with
  | true => exact Or.inl rfl
  | false =>
    cases h2 : BlockComparator y x with
    | true => exact Or.inr (Or.inl rfl)
    | false => exact Or.inr (Or.inr (BlockComparator_eq_key h1 h2))

/-- Two distinct members of an ordered set are not equivalent. -/
theorem Sorted.distinct {h : Heap} {l : List Nat} (hs : Sorted h l) {x y : Nat} (hx : x ∈ l)
    (hy : y ∈ l) (hxy : x ≠ y) :
    BlockComparator (deref h x) (deref h y) = true ∨
      BlockComparator (deref h y) (deref h x) = true := by
  unfold Sorted at hs
  rcases mem_pair_split hx hy hxy with ⟨A, B, C, hl⟩ | ⟨A, B, C, hl⟩
  · left
    rw [hl] at hs
    have h1 := (List.pairwise_append.1 hs).2.1
    exact (List.pairwise_cons.1 h1).1 y (by simp)
  · right
    rw [hl] at hs
    have h1 := (List.pairwise_append.1 hs).2.1
    exact (List.pairwise_cons.1 h1).1 x (by simp)

theorem malloc_split_live {a : THCCachingAllocator} (hip : Hip) {B : Nat} (d : Int)
    (st r : Nat) (hl : Live a.heap B) (hself : (deref a.heap B).prev ≠ some B) :
    (∀ x, Live (malloc_split a hip B d st r).alloc.heap x → x = newPtr a.heap ∨ Live a.heap x) ∧
    (∀ x, x ≠ B → Live a.heap x → SameData a.heap (malloc_split a hip B d st r).alloc.heap x) := by
  by_cases hsp : sub_size_t (deref a.heap B).size r ≥ split_threshold r
  · obtain ⟨hh, _, _⟩ := malloc_split_state_split a hip d st r hl hsp
    have hcells := malloc_split_heap_cells a.heap B d st r hl hself
    rw [← hh] at hcells
    exact ⟨fun x hx => (hcells.live x).1 hx,
      fun x hxB hx => hcells.same_data (not_Live_newPtr a.heap) hx hxB⟩
  · obtain ⟨hh, _, _⟩ := malloc_split_state_whole a hip d st r hsp
    rw [hh]
    refine ⟨fun x hx => Or.inr ((Live_store_iff _ _ _ _).1 hx), ?_⟩
    intro x hxB hx
    exact SameData.of_eq ((Live_store_iff _ _ _ _).2 hx) (deref_store_ne _ _ _ _ hxB)

theorem Inv.prev_ne_self {a : THCCachingAllocator} {ch : Nat → Chain} (hinv : Inv a ch)
    {B : Nat} (hl : Live a.heap B) : (deref a.heap B).prev ≠ some B := by
  intro hc
  obtain ⟨hmem, hcok, _⟩ := hinv.chain B hl
  obtain ⟨pre, post, hb⟩ := List.append_of_mem hmem
  have h1 := hcok.prev_eq hb
  rw [hc] at h1
  have hnd := hcok.nodup
  rw [hb] at hnd
  exact (List.nodup_append.1 hnd).2.2 (List.mem_of_mem_getLast? h1.symm)
    (List.mem_cons_self _ _)

theorem free_cached_blocks_length (a : THCCachingAllocator) (hip : Hip) (d : Int) :
    (free_cached_blocks a hip d).alloc.heap.length = a.heap.length := by
  unfold free_cached_blocks
  dsimp only
  split
  · show (free_blocks a.heap hip a.large_blocks _ _).heap.length = _
    exact free_blocks_length _ _ _ _ _
  · show (free_blocks _ _ a.small_blocks _ _).heap.length = _
    rw [free_blocks_length, free_blocks_length]

/-- The heap that `hip_malloc_retry` leaves: no cell is added, and a block that is still
live has its cell unchanged. -/
theorem hip_malloc_retry_cells {a : THCCachingAllocator} {ch : Nat → Chain} (hinv : Inv a ch)
    (hip : Hip) (d : Int) (n : Nat) :
    (hip_malloc_retry a hip d n).alloc.heap.length = a.heap.length ∧
    ∀ x, Live (hip_malloc_retry a hip d n).alloc.heap x →
      Live a.heap x ∧ deref (hip_malloc_retry a hip d n).alloc.heap x = deref a.heap x := by
  rcases hip_malloc_retry_alloc a hip d n with h | h
  · rw [h]
    exact ⟨rfl, fun x hx => ⟨hx, rfl⟩⟩
  · rw [h]
    obtain ⟨done, tail, hsw, hsub⟩ :=
      free_cached_blocks_sweep hinv (hipGetLastError (hipMalloc hip n).2.2) d
    exact ⟨free_cached_blocks_length _ _ _, (hsw.cells hinv hsub).1⟩

/-- A `malloc` changes the device, stream, size and address of no block of a pool other
than the block it takes out of the pool. -/
theorem malloc_pool_keys {a : THCCachingAllocator} {hip : Hip} {ch : Nat → Chain}
    (hg : GoodWith a hip ch) (size st : Nat) :
    ∀ x, Live a.heap x → Live (malloc a hip size st).alloc.heap x →
      malloc_hit a hip.device.2 st (round_size size) ≠ some x →
      (deref (malloc a hip size st).alloc.heap x).key = (deref a.heap x).key := by
  have hinv := hg.1
  intro x hx0 hx hne
  by_cases hdev : hip.device.1 = hipSuccess
  swap
  · rw [malloc_of_device_err hdev]
  rw [malloc_of_device_ok hdev] at hx ⊢
  cases hhit : malloc_hit a hip.device.2 st (round_size size) with
  | some e =>
    rw [malloc_rounded_of_erase hhit] at hx ⊢
    obtain ⟨hinv2, hh, _, _, _, _, hel, _⟩ := hinv.hit_state hhit
    have hxe : x ≠ e := by
      intro hc
      rw [hhit, hc] at hne
      exact hne rfl
    have hl2 : Live (malloc_erase a hip.device.2 st (round_size size)).heap e := by
      rw [hh]
      exact hel
    have hx2 : Live (malloc_erase a hip.device.2 st (round_size size)).heap x := by
      rw [hh]
      exact hx0
    have := ((malloc_split_live (hipGetDevice hip).2.2 hip.device.2 st (round_size size) hl2
      (hinv2.prev_ne_self hl2)).2 x hxe hx2).key
    rw [hh] at this
    exact this
  | none =>
    rw [malloc_rounded_of_miss hhit] at hx ⊢
    have hgd : GoodWith a (hipGetDevice hip).2.2 ch :=
      hg.recall (hipSane_getDevice _ _ _) (hipLive_getDevice _ _ _)
        (hipFreesValid_getDevice _ _ _)
    obtain ⟨hfail, hok⟩ := hgd.retry hip.device.2 (alloc_size (round_size size))
    obtain ⟨hlen, hcells⟩ := hip_malloc_retry_cells hinv (hipGetDevice hip).2.2 hip.device.2
      (alloc_size (round_size size))
    by_cases herr : (hip_malloc_retry a (hipGetDevice hip).2.2 hip.device.2
        (alloc_size (round_size size))).err = hipSuccess
    · rw [malloc_miss_of_ok herr] at hx ⊢
      obtain ⟨p, calls0, hp, _, hinv1, _⟩ := hok herr
      rw [hp] at hx ⊢
      generalize hip_malloc_retry a (hipGetDevice hip).2.2 hip.device.2
        (alloc_size (round_size size)) = r at hinv1 hx hlen hcells
      have hinv2 := hinv1.new_chain hip.device.2 st (alloc_size (round_size size)) p
        (alloc_size_ge _) (alloc_size_lt (round_size_lt _))
      have hBl : Live (newBlock r.alloc.heap
          (Block.ctor hip.device.2 st (alloc_size (round_size size)) p))
          (newPtr r.alloc.heap) := (Live_newBlock_iff _ _ _).2 (Or.inl rfl)
      obtain ⟨m1, m2⟩ := malloc_split_live r.hip hip.device.2 st (round_size size)
        (show Live (THCCachingAllocator.mk (newBlock r.alloc.heap
          (Block.ctor hip.device.2 st (alloc_size (round_size size)) p)) r.alloc.large_blocks
          r.alloc.small_blocks r.alloc.allocated_blocks).heap (newPtr r.alloc.heap) from hBl)
        (hinv2.prev_ne_self hBl)
      have hxlt : x < r.alloc.heap.length := by
        rw [hlen]
        exact hx0.lt
      have hxB : x ≠ newPtr r.alloc.heap := by
        unfold newPtr
        omega
      have hx2 : Live (newBlock r.alloc.heap
          (Block.ctor hip.device.2 st (alloc_size (round_size size)) p)) x := by
        rcases m1 x hx with h | h
        · exfalso
          have h2 : x = (newBlock r.alloc.heap
            (Block.ctor hip.device.2 st (alloc_size (round_size size)) p)).length := h
          rw [newBlock_length] at h2
          omega
        · exact h
      have hx1 : Live r.alloc.heap x := by
        rcases (Live_newBlock_iff _ _ _).1 hx2 with h | h
        · exact absurd h hxB
        · exact h
      refine Eq.trans (m2 x hxB hx2).key ?_
      show (deref (newBlock r.alloc.heap _) x).key = _
      rw [deref_newBlock, if_neg hxB, (hcells x hx1).2]
    · rw [malloc_miss_of_err herr] at hx ⊢
      exact congrArg Block.key (hcells x hx).2

/-- A `free` changes the device, stream, size and address of no block of a pool. -/
theorem free_pool_keys {a : THCCachingAllocator} {ch : Nat → Chain} (hinv : Inv a ch)
    (hip : Hip) (p : Nat) :
    ∀ x, (x ∈ a.large_blocks ∨ x ∈ a.small_blocks) → Live (free a hip p).alloc.heap x →
      (deref (free a hip p).alloc.heap x).key = (deref a.heap x).key := by
  intro x hx hlx
  by_cases hp : p = 0
  · rw [hp, free_zero]
  · cases hl : a.allocated_blocks.lookup p with
    | none => rw [free_of_not_allocated hp hl]
    | some b =>
      obtain ⟨_, _, _, f4⟩ := free_frame_of_inv hinv hip hp hl
      have hxb : x ≠ b := by
        intro hc
        have h1 := (hinv.pool_free hx).2
        have h2 := (hinv.table_mem (p, b) (mem_of_lookup hl)).2.1
        rw [hc] at h1
        rw [h1] at h2
        cases h2
      exact (f4 x hxb hlx).1.key

/-- An `emptyCache` changes no block that it leaves in the heap. -/
theorem emptyCache_pool_keys {a : THCCachingAllocator} {ch : Nat → Chain} (hinv : Inv a ch)
    (hip : Hip) :
    ∀ x, Live (emptyCache a hip).alloc.heap x →
      (deref (emptyCache a hip).alloc.heap x).key = (deref a.heap x).key := by
  intro x hx
  obtain ⟨done, tail, hsw, hsub⟩ := emptyCache_sweep hinv hip
  rw [((hsw.cells hinv hsub).1 x hx).2]

/-- With a runtime that behaved a `malloc` loses no block. -/
theorem malloc_complete_of_reachable {a : THCCachingAllocator} {hip : Hip}
    (hr : Reachable a hip) (size st : Nat)
    (hs : hipSane (malloc a hip size st).hip.calls = true) :
    Complete (malloc a hip size st).alloc := by
  obtain ⟨new, hnew, _⟩ := malloc_failed_calls a hip size st
  have hs0 : hipSane hip.calls = true := by
    rw [hnew] at hs
    exact hipSane_append hs
  obtain ⟨ch, hg⟩ := hr.good
  obtain ⟨ch2, hg2⟩ := hr.good.after_malloc size st
  exact (hr.complete hs0).malloc_complete hg size st (hg2.no_twin hs)

/-- With a runtime that behaved the remainder of a split is in the pool that was searched. -/
theorem malloc_remainder_kept {a : THCCachingAllocator} {hip : Hip} (hr : Reachable a hip)
    (size st : Nat) (hs : hipSane (malloc a hip size st).hip.calls = true) (p N B : Nat)
    (hp : (malloc a hip size st).devPtr = some p)
    (hN : (malloc a hip size st).alloc.allocated_blocks.lookup p = some N)
    (hB : (deref (malloc a hip size st).alloc.heap N).next = some B)
    (hBf : (deref (malloc a hip size st).alloc.heap B).allocated = false) :
    B ∈ getPool (decide (round_size size ≤ kSmallAlloc)) (malloc a hip size st).alloc := by
  have hc := malloc_complete_of_reachable hr size st hs
  obtain ⟨ch2, hg2⟩ := hr.good.after_malloc size st
  have hNl := (hg2.1.table_mem (p, N) (mem_of_lookup hN)).1
  have hBl := (hg2.1.chain.next_ok hNl hB).1
  have hmem := hc B hBl hBf
  have hok : (malloc a hip size st).err = hipSuccess := by
    by_contra herr
    by_cases hdev : hip.device.1 = hipSuccess
    · rw [malloc_of_device_ok hdev] at hp herr
      cases hhit : malloc_hit a hip.device.2 st (round_size size) with
      | some e =>
        rw [malloc_rounded_of_hit hhit] at herr
        exact herr (malloc_split_err _ _ _ _ _ _)
      | none =>
        rw [malloc_rounded_of_miss hhit] at hp herr
        by_cases he : (hip_malloc_retry a (hipGetDevice hip).2.2 hip.device.2
            (alloc_size (round_size size))).err = hipSuccess
        · rw [malloc_miss_of_ok he] at herr
          exact herr (malloc_split_err _ _ _ _ _ _)
        · rw [malloc_miss_of_err he] at hp
          cases hp
    · rw [malloc_of_device_err hdev] at hp
      cases hp
  obtain ⟨p2, N2, h1, h2, _, _, hcls⟩ := malloc_returned_facts hr size st hok
  rw [hp] at h1
  cases h1
  rw [hN] at h2
  cases h2
  obtain ⟨hNm, hcok, _⟩ := hg2.1.chain N hNl
  have hBm := hg2.1.chain.next_mem hNl hB
  rw [hcok.class_eq hBm, ← hcok.class_eq hNm, hcls] at hmem
  exact hmem

theorem pools_of_reachable (a : THCCachingAllocator) (hip : Hip) (hr : Reachable a hip) :
    (∀ sm, (getPool sm a).Pairwise
      (fun x y => BlockComparator (deref a.heap x) (deref a.heap y) = true)) ∧
    (∀ sm, ∀ x ∈ getPool sm a, ∀ y ∈ getPool sm a, x ≠ y →
      BlockComparator (deref a.heap x) (deref a.heap y) = true ∨
        BlockComparator (deref a.heap y) (deref a.heap x) = true) ∧
    (∀ size st x, (x ∈ a.large_blocks ∨ x ∈ a.small_blocks) →
      Live (malloc a hip size st).alloc.heap x →
      malloc_hit a hip.device.2 st (round_size size) ≠ some x →
      (deref (malloc a hip size st).alloc.heap x).key = (deref a.heap x).key) ∧
    (∀ size st e, hip.device.1 = hipSuccess →
      malloc_hit a hip.device.2 st (round_size size) = some e →
      malloc a hip size st =
        malloc_split (malloc_erase a hip.device.2 st (round_size size)) (hipGetDevice hip).2.2 e
          hip.device.2 st (round_size size) ∧
      ∀ sm, e ∉ getPool sm (malloc_erase a hip.device.2 st (round_size size))) ∧
    (∀ p x, (x ∈ a.large_blocks ∨ x ∈ a.small_blocks) → Live (free a hip p).alloc.heap x →
      (deref (free a hip p).alloc.heap x).key = (deref a.heap x).key) ∧
    (∀ x, (x ∈ a.large_blocks ∨ x ∈ a.small_blocks) → Live (emptyCache a hip).alloc.heap x →
      (deref (emptyCache a hip).alloc.heap x).key = (deref a.heap x).key) ∧
    (hipSane hip.calls = true → ∀ x, Live a.heap x → (deref a.heap x).allocated = false →
      x ∈ getPool (decide ((deref a.heap x).size ≤ kSmallAlloc)) a) ∧
    (∀ size st, hipSane (malloc a hip size st).hip.calls = true → ∀ p N B,
      (malloc a hip size st).devPtr = some p →
      (malloc a hip size st).alloc.allocated_blocks.lookup p = some N →
      (deref (malloc a hip size st).alloc.heap N).next = some B →
      (deref (malloc a hip size st).alloc.heap B).allocated = false →
      B ∈ getPool (decide (round_size size ≤ kSmallAlloc)) (malloc a hip size st).alloc) ∧
    (∀ p b, p ≠ 0 → a.allocated_blocks.lookup p = some b → hipSane hip.calls = true →
      b ∈ getPool (decide ((deref (free a hip p).alloc.heap b).size ≤ kSmallAlloc))
        (free a hip p).alloc) := by
  obtain ⟨ch, hg⟩ := hr.good
  have hinv := hg.1
  refine ⟨fun sm => (hinv.pool sm).sorted, fun sm x hx y hy hxy =>
    (hinv.pool sm).sorted.distinct hx hy hxy, ?_, ?_, fun p => free_pool_keys hinv hip p,
    fun x _ hx => emptyCache_pool_keys hinv hip x hx, fun hs => hr.complete hs,
    fun size st hs p N B => malloc_remainder_kept hr size st hs p N B, ?_⟩
  · intro size st x hx hlx hne
    exact malloc_pool_keys hg size st x (hinv.pool_free hx).1 hlx hne
  · intro size st e hdev hhit
    refine ⟨?_, (hinv.hit_state hhit).2.2.2.1⟩
    rw [malloc_of_device_ok hdev, malloc_rounded_of_erase hhit]
  · intro p b hp hl hs
    exact ((free_pool_of_reachable a hip hr p b hp hl).2.2.2.2.2.2.2.2 hs).1

/-- C27: `BlockComparator` is a strict total order, the lexicographic order on device,
stream (as an unsigned integer), size and address: irreflexive, transitive, and two blocks
are ordered one way or the other unless they agree in all four fields.  In every reachable
state the iteration of each pool is strictly increasing under it, so no two distinct blocks
of a pool are equivalent.  No operation changes one of the four fields of a block while it
is in a pool: `malloc` changes them for no pool block other than the block of its hit,
which it erases from the pool before `malloc_split` works on it; `free` and `emptyCache`
change them for no pool block that they leave in the heap.  And when the record of the
runtime is sane no insertion drops a block: every live block that is not allocated is in
the pool of its size class, in particular the remainder that `malloc` inserts after a split
(the free block after the block handed out) and the block that `free` releases. -/
theorem comparator_orders_pools :
    (∀ x y : Block, BlockComparator x y = true ↔
      (x.device < y.device ∨ (x.device = y.device ∧
        (x.stream < y.stream ∨ (x.stream = y.stream ∧
          (x.size < y.size ∨ (x.size = y.size ∧ x.ptr < y.ptr))))))) ∧
    (∀ x : Block, BlockComparator x x = false) ∧
    (∀ x y z : Block, BlockComparator x y = true → BlockComparator y z = true →
      BlockComparator x z = true) ∧
    (∀ x y : Block, BlockComparator x y = true ∨ BlockComparator y x = true ∨
      x.key = y.key) ∧
    (∀ (a : THCCachingAllocator) (hip : Hip), Reachable a hip →
      (∀ sm, (getPool sm a).Pairwise
        (fun x y => BlockComparator (deref a.heap x) (deref a.heap y) = true)) ∧
      (∀ sm, ∀ x ∈ getPool sm a, ∀ y ∈ getPool sm a, x ≠ y →
        BlockComparator (deref a.heap x) (deref a.heap y) = true ∨
          BlockComparator (deref a.heap y) (deref a.heap x) = true) ∧
      (∀ size st x, (x ∈ a.large_blocks ∨ x ∈ a.small_blocks) →
        Live (malloc a hip size st).alloc.heap x →
        malloc_hit a hip.device.2 st (round_size size) ≠ some x →
        (deref (malloc a hip size st).alloc.heap x).key = (deref a.heap x).key) ∧
      (∀ size st e, hip.device.1 = hipSuccess →
        malloc_hit a hip.device.2 st (round_size size) = some e →
        malloc a hip size st =
          malloc_split (malloc_erase a hip.device.2 st (round_size size))
            (hipGetDevice hip).2.2 e hip.device.2 st (round_size size) ∧
        ∀ sm, e ∉ getPool sm (malloc_erase a hip.device.2 st (round_size size))) ∧
      (∀ p x, (x ∈ a.large_blocks ∨ x ∈ a.small_blocks) → Live (free a hip p).alloc.heap x →
        (deref (free a hip p).alloc.heap x).key = (deref a.heap x).key) ∧
      (∀ x, (x ∈ a.large_blocks ∨ x ∈ a.small_blocks) →
        Live (emptyCache a hip).alloc.heap x →
        (deref (emptyCache a hip).alloc.heap x).key = (deref a.heap x).key) ∧
      (hipSane hip.calls = true → ∀ x, Live a.heap x → (deref a.heap x).allocated = false →
        x ∈ getPool (decide ((deref a.heap x).size ≤ kSmallAlloc)) a) ∧
      (∀ size st, hipSane (malloc a hip size st).hip.calls = true → ∀ p N B,
        (malloc a hip size st).devPtr = some p →
        (malloc a hip size st).alloc.allocated_blocks.lookup p = some N →
        (deref (malloc a hip size st).alloc.heap N).next = some B →
        (deref (malloc a hip size st).alloc.heap B).allocated = false →
        B ∈ getPool (decide (round_size size ≤ kSmallAlloc)) (malloc a hip size st).alloc) ∧
      (∀ p b, p ≠ 0 → a.allocated_blocks.lookup p = some b → hipSane hip.calls = true →
        b ∈ getPool (decide ((deref (free a hip p).alloc.heap b).size ≤ kSmallAlloc))
          (free a hip p).alloc)) :=
  ⟨BlockComparator_lex, BlockComparator_irrefl, fun _ _ _ => BlockComparator_trans,
    BlockComparator_total, pools_of_reachable⟩

theorem comparator_orders_pools_witness :
    freedA.alloc.large_blocks = [1, 0] ∧
    (getPool true freedA.alloc).Pairwise
      (fun x y => BlockComparator (deref freedA.alloc.heap x) (deref freedA.alloc.heap y) =
        true) ∧
    2 ∈ getPool (decide ((deref (free freedA.alloc freedA.hip 4608).alloc.heap 2).size ≤
        kSmallAlloc)) (free freedA.alloc freedA.hip 4608).alloc ∧
    (BlockComparator ⟨0, 7, 512, 4096, false, none, none⟩
      ⟨0, 7, 512, 4608, true, none, none⟩ = true ∨
      BlockComparator ⟨0, 7, 512, 4608, true, none, none⟩
        ⟨0, 7, 512, 4096, false, none, none⟩ = true) :=
  ⟨by decide,
    (comparator_orders_pools.2.2.2.2 freedA.alloc freedA.hip freedA_reachable).1 true,
    (comparator_orders_pools.2.2.2.2 freedA.alloc freedA.hip
      freedA_reachable).2.2.2.2.2.2.2.2 4608 2 (by decide) (by decide) (by decide),
    Or.inl (by decide)⟩

theorem split_threshold_eq (r : Nat) :
    split_threshold r = if r ≤ 1048576 then 512 else 1048577 := rfl

/-- The split decision of `malloc` on the chosen block `B`, for any state. -/
theorem malloc_split_effect (a : THCCachingAllocator) (hip : Hip) (B : Nat) (d : Int)
    (st r : Nat) (hl : Live a.heap B) (hself : (deref a.heap B).prev ≠ some B)
    (hle : r ≤ (deref a.heap B).size) (hlt : (deref a.heap B).size < SIZE_T) :
    (malloc_split a hip B d st r).err = hipSuccess ∧
    (malloc_split a hip B d st r).devPtr = some (deref a.heap B).ptr ∧
    ((deref a.heap B).size - r ≥ split_threshold r →
      (malloc_split a hip B d st r).alloc.allocated_blocks.lookup (deref a.heap B).ptr =
        some (newPtr a.heap) ∧
      deref (malloc_split a hip B d st r).alloc.heap (newPtr a.heap) =
        ⟨d, st, r, (deref a.heap B).ptr, true, (deref a.heap B).prev, some B⟩ ∧
      deref (malloc_split a hip B d st r).alloc.heap B =
        { deref a.heap B with
          prev := some (newPtr a.heap), ptr := (deref a.heap B).ptr + r,
          size := (deref a.heap B).size - r } ∧
      SplitCells a.heap (malloc_split a hip B d st r).alloc.heap B (newPtr a.heap) d st r ∧
      getPool (decide (r ≤ kSmallAlloc)) (malloc_split a hip B d st r).alloc =
        set_insert (malloc_split_heap a.heap B d st r) B (getPool (decide (r ≤ kSmallAlloc)) a) ∧
      (∀ sm2, sm2 ≠ decide (r ≤ kSmallAlloc) →
        getPool sm2 (malloc_split a hip B d st r).alloc = getPool sm2 a)) ∧
    ((deref a.heap B).size - r < split_threshold r →
      (malloc_split a hip B d st r).alloc.allocated_blocks.lookup (deref a.heap B).ptr =
        some B ∧
      (malloc_split a hip B d st r).alloc.heap =
        store a.heap B (fun b => { b with allocated := true }) ∧
      ¬ Live (malloc_split a hip B d st r).alloc.heap (newPtr a.heap) ∧
      (∀ sm2, getPool sm2 (malloc_split a hip B d st r).alloc = getPool sm2 a)) := by
  have hsub := sub_size_t_of_le hle hlt
  refine ⟨malloc_split_err _ _ _ _ _ _, malloc_split_devPtr a hip d st r hl, ?_, ?_⟩
  · intro hsp
    have hsp2 : sub_size_t (deref a.heap B).size r ≥ split_threshold r := by
      rw [hsub]
      exact hsp
    obtain ⟨hh, htab, hpools⟩ := malloc_split_state_split a hip d st r hl hsp2
    have hcells := malloc_split_heap_cells a.heap B d st r hl hself
    rw [← hh] at hcells
    refine ⟨?_, hcells.new, ?_, hcells, ?_, ?_⟩
    · rw [htab]
      exact lookup_cons_self _ _ _
    · rw [hcells.rem, hsub]
    · rw [hpools, if_pos rfl]
    · intro sm2 hne
      rw [hpools, if_neg hne]
  · intro hsp
    have hsp2 : ¬ sub_size_t (deref a.heap B).size r ≥ split_threshold r := by
      rw [hsub]
      omega
    obtain ⟨hh, htab, hpools⟩ := malloc_split_state_whole a hip d st r hsp2
    refine ⟨?_, hh, ?_, hpools⟩
    · rw [htab]
      exact lookup_cons_self _ _ _
    · rw [hh]
      intro hc
      exact not_Live_newPtr a.heap ((Live_store_iff _ _ _ _).1 hc)

/-- A successful `malloc` of a reachable state is the split decision on a chosen block that
is live, not allocated, in no pool, of the size class of the request and at least as large;
and when the record of the runtime is sane and the block is split, the remainder is in the
pool that was searched. -/
theorem malloc_chosen_block (a : THCCachingAllocator) (hip : Hip) (hr : Reachable a hip)
    (size st : Nat) (hok : (malloc a hip size st).err = hipSuccess) :
    ∃ a2 hip2 B, malloc a hip size st =
        malloc_split a2 hip2 B hip.device.2 st (round_size size) ∧
      Live a2.heap B ∧ (deref a2.heap B).prev ≠ some B ∧
      round_size size ≤ (deref a2.heap B).size ∧ (deref a2.heap B).size < SIZE_T ∧
      (deref a2.heap B).allocated = false ∧ (∀ sm, B ∉ getPool sm a2) ∧
      (∀ sm, ∀ x ∈ getPool sm a2, x ∈ getPool sm a) ∧
      (malloc_hit a hip.device.2 st (round_size size) = some B ∨
        (malloc_hit a hip.device.2 st (round_size size) = none ∧ ¬ Live a.heap B ∧
          (deref a2.heap B).root ∧
          (deref a2.heap B).size = alloc_size (round_size size))) ∧
      (hipSane (malloc a hip size st).hip.calls = true →
        (deref a2.heap B).size - round_size size ≥ split_threshold (round_size size) →
        B ∈ getPool (decide (round_size size ≤ kSmallAlloc)) (malloc a hip size st).alloc) := by
  obtain ⟨ch, hg⟩ := hr.good
  have hinv := hg.1
  -- the remainder is in the pool, from what is known of the chosen block
  have hkept : ∀ (a2 : THCCachingAllocator) (hip2 : Hip) (B : Nat),
      malloc a hip size st = malloc_split a2 hip2 B hip.device.2 st (round_size size) →
      Live a2.heap B → (deref a2.heap B).prev ≠ some B →
      round_size size ≤ (deref a2.heap B).size → (deref a2.heap B).size < SIZE_T →
      (deref a2.heap B).allocated = false →
      decide ((deref a2.heap B).size ≤ kSmallAlloc) = decide (round_size size ≤ kSmallAlloc) →
      hipSane (malloc a hip size st).hip.calls = true →
      (deref a2.heap B).size - round_size size ≥ split_threshold (round_size size) →
      B ∈ getPool (decide (round_size size ≤ kSmallAlloc)) (malloc a hip size st).alloc := by
    intro a2 hip2 B heq hl hself hle hlt hfree hclass hs hsp
    have hc := malloc_complete_of_reachable hr size st hs
    obtain ⟨_, _, e3, e5, _, _⟩ :=
      (malloc_split_effect a2 hip2 B hip.device.2 st (round_size size) hl hself hle hlt).2.2.1 hsp
    rw [← heq] at e3 e5
    have hBl : Live (malloc a hip size st).alloc.heap B := (e5.live B).2 (Or.inr hl)
    have hmem := hc B hBl (by rw [e3]; exact hfree)
    rw [e3] at hmem
    have h2 : decide ((deref a2.heap B).size - round_size size ≤ kSmallAlloc) =
        decide (round_size size ≤ kSmallAlloc) := remainder_class hle hclass hsp
    rw [← h2]
    exact hmem
  by_cases hdev : hip.device.1 = hipSuccess
  swap
  · rw [malloc_of_device_err hdev] at hok
    exact absurd hok hdev
  cases hhit : malloc_hit a hip.device.2 st (round_size size) with
  | some e =>
    obtain ⟨hinv2, hh, _, hnotin, _, hsubp, hel, hef, hecls, hele, helt, _, _⟩ :=
      hinv.hit_state hhit
    have heq : malloc a hip size st =
        malloc_split (malloc_erase a hip.device.2 st (round_size size)) (hipGetDevice hip).2.2 e
          hip.device.2 st (round_size size) := by
      rw [malloc_of_device_ok hdev, malloc_rounded_of_erase hhit]
    have hl2 : Live (malloc_erase a hip.device.2 st (round_size size)).heap e := by
      rw [hh]
      exact hel
    refine ⟨_, _, e, heq, hl2, hinv2.prev_ne_self hl2, by rw [hh]; exact hele,
      by rw [hh]; exact helt, by rw [hh]; exact hef, hnotin, hsubp, Or.inl rfl, ?_⟩
    exact hkept _ _ e heq hl2 (hinv2.prev_ne_self hl2) (by rw [hh]; exact hele)
      (by rw [hh]; exact helt) (by rw [hh]; exact hef) (by rw [hh]; exact hecls)
  | none =>
    obtain ⟨p, rest, _, heq⟩ := (malloc_miss_run a hip size st hdev hhit).2 hok
    have hgd : GoodWith a (hipGetDevice hip).2.2 ch :=
      hg.recall (hipSane_getDevice _ _ _) (hipLive_getDevice _ _ _)
        (hipFreesValid_getDevice _ _ _)
    obtain ⟨hfail, hokr⟩ := hgd.retry hip.device.2 (alloc_size (round_size size))
    obtain ⟨hlen, hcells⟩ := hip_malloc_retry_cells hinv (hipGetDevice hip).2.2 hip.device.2
      (alloc_size (round_size size))
    have hpsub : ∀ sm, ∀ x ∈ getPool sm (hip_malloc_retry a (hipGetDevice hip).2.2 hip.device.2
        (alloc_size (round_size size))).alloc, x ∈ getPool sm a := by
      intro sm x hx
      rcases hip_malloc_retry_alloc a (hipGetDevice hip).2.2 hip.device.2
        (alloc_size (round_size size)) with h | h
      · rw [h] at hx
        exact hx
      · rw [h] at hx
        obtain ⟨done, tail, hsw, _⟩ := free_cached_blocks_sweep hinv
          (hipGetLastError (hipMalloc (hipGetDevice hip).2.2
            (alloc_size (round_size size))).2.2) hip.device.2
        cases sm
        · rw [getPool_false, hsw.small] at hx
          exact (List.mem_filter.1 hx).1
        · rw [getPool_true, hsw.large] at hx
          exact (List.mem_filter.1 hx).1
    have herr : (hip_malloc_retry a (hipGetDevice hip).2.2 hip.device.2
        (alloc_size (round_size size))).err = hipSuccess := by
      by_contra hc
      rw [malloc_of_device_ok hdev, malloc_rounded_of_miss hhit, malloc_miss_of_err hc] at hok
      exact hc hok
    obtain ⟨p2, calls0, hp2, _, hinv1, _⟩ := hokr herr
    generalize hip_malloc_retry a (hipGetDevice hip).2.2 hip.device.2
      (alloc_size (round_size size)) = r at heq hinv1 hlen hcells hpsub
    have hinv2 := hinv1.new_chain hip.device.2 st (alloc_size (round_size size)) p
      (alloc_size_ge _) (alloc_size_lt (round_size_lt _))
    have hcell : deref (newBlock r.alloc.heap
        (Block.ctor hip.device.2 st (alloc_size (round_size size)) p))
        (newPtr r.alloc.heap) =
        Block.ctor hip.device.2 st (alloc_size (round_size size)) p := deref_newBlock_self _ _
    have hBl : Live (newBlock r.alloc.heap
        (Block.ctor hip.device.2 st (alloc_size (round_size size)) p))
        (newPtr r.alloc.heap) := (Live_newBlock_iff _ _ _).2 (Or.inl rfl)
    have hself := hinv2.prev_ne_self hBl
    have hnl : ¬ Live a.heap (newPtr r.alloc.heap) := by
      intro hc
      have := hc.lt
      unfold newPtr at this
      omega
    refine ⟨_, _, _, heq, hBl, hself, ?_, ?_, ?_, ?_, ?_, Or.inr ⟨rfl, hnl, ?_, ?_⟩, ?_⟩
    · show _ ≤ (deref (newBlock _ _) _).size
      rw [hcell]
      exact le_alloc_size _
    · show (deref (newBlock _ _) _).size < SIZE_T
      rw [hcell]
      exact alloc_size_lt (round_size_lt _)
    · show (deref (newBlock _ _) _).allocated = false
      rw [hcell]
      rfl
    · intro sm hc
      rw [getPool_heap] at hc
      exact not_Live_newPtr r.alloc.heap ((hinv1.pool sm).mem _ hc).1
    · intro sm x hx
      rw [getPool_heap] at hx
      exact hpsub sm x hx
    · show (deref (newBlock _ _) _).root
      rw [hcell]
      exact ⟨rfl, rfl⟩
    · show (deref (newBlock _ _) _).size = _
      rw [hcell]
      rfl
    · refine hkept _ _ _ heq hBl hself ?_ ?_ ?_ ?_
      · show _ ≤ (deref (newBlock _ _) _).size
        rw [hcell]
        exact le_alloc_size _
      · show (deref (newBlock _ _) _).size < SIZE_T
        rw [hcell]
        exact alloc_size_lt (round_size_lt _)
      · show (deref (newBlock _ _) _).allocated = false
        rw [hcell]
        rfl
      · show decide ((deref (newBlock _ _) _).size ≤ kSmallAlloc) = _
        rw [hcell]
        exact alloc_size_class _

/-- C22: the split decision of `malloc` for the chosen block `B` (size `b`, address `p`) and
the rounded request `r`, with the threshold `T = split_threshold r`, which is 512 when
`r ≤ 1048576` and 1048577 otherwise.  `malloc` succeeds and returns `p`.  If `b - r ≥ T`
the block handed out is a new block of `r` bytes at `p`, marked allocated, entered in the
table under `p`, with `prev` the former `prev` of `B` and `next = B` (and that former `prev`
now points to it, `SplitCells`); `B` is the remainder at `p + r` with `b - r` bytes and
`prev` the new block; `B` is inserted into the pool chosen for `r`, the pool that was
searched, and the other pool is not touched.  If `b - r < T` the table maps `p` to `B`
itself, the only change of the heap is its allocated flag, no block is created and no pool
changes.  A remainder of exactly `T` is split off, a remainder of `T - 1` is not.  Second
part: in a reachable state every successful `malloc` is this decision on a chosen block
that meets the conditions above, is not allocated and in no pool (the block of the hit,
erased from the pool, or the new block of a miss), and when the record of the runtime is
sane and the block is split the remainder is a member of the searched pool afterwards. -/
theorem split_decision :
    (∀ (a : THCCachingAllocator) (hip : Hip) (B : Nat) (d : Int) (st r : Nat),
      Live a.heap B → (deref a.heap B).prev ≠ some B → r ≤ (deref a.heap B).size →
      (deref a.heap B).size < SIZE_T →
      (malloc_split a hip B d st r).err = hipSuccess ∧
      (malloc_split a hip B d st r).devPtr = some (deref a.heap B).ptr ∧
      ((deref a.heap B).size - r ≥ split_threshold r →
        (malloc_split a hip B d st r).alloc.allocated_blocks.lookup (deref a.heap B).ptr =
          some (newPtr a.heap) ∧
        deref (malloc_split a hip B d st r).alloc.heap (newPtr a.heap) =
          ⟨d, st, r, (deref a.heap B).ptr, true, (deref a.heap B).prev, some B⟩ ∧
        deref (malloc_split a hip B d st r).alloc.heap B =
          { deref a.heap B with
            prev := some (newPtr a.heap), ptr := (deref a.heap B).ptr + r,
            size := (deref a.heap B).size - r } ∧
        SplitCells a.heap (malloc_split a hip B d st r).alloc.heap B (newPtr a.heap) d st r ∧
        getPool (decide (r ≤ kSmallAlloc)) (malloc_split a hip B d st r).alloc =
          set_insert (malloc_split_heap a.heap B d st r) B
            (getPool (decide (r ≤ kSmallAlloc)) a) ∧
        (∀ sm2, sm2 ≠ decide (r ≤ kSmallAlloc) →
          getPool sm2 (malloc_split a hip B d st r).alloc = getPool sm2 a)) ∧
      ((deref a.heap B).size - r < split_threshold r →
        (malloc_split a hip B d st r).alloc.allocated_blocks.lookup (deref a.heap B).ptr =
          some B ∧
        (malloc_split a hip B d st r).alloc.heap =
          store a.heap B (fun b => { b with allocated := true }) ∧
        ¬ Live (malloc_split a hip B d st r).alloc.heap (newPtr a.heap) ∧
        (∀ sm2, getPool sm2 (malloc_split a hip B d st r).alloc = getPool sm2 a)) ∧
      ((deref a.heap B).size = r + split_threshold r →
        Live (malloc_split a hip B d st r).alloc.heap (newPtr a.heap) ∧
        (deref (malloc_split a hip B d st r).alloc.heap B).size = split_threshold r) ∧
      ((deref a.heap B).size + 1 = r + split_threshold r →
        ¬ Live (malloc_split a hip B d st r).alloc.heap (newPtr a.heap) ∧
        (malloc_split a hip B d st r).alloc.allocated_blocks.lookup (deref a.heap B).ptr =
          some B)) ∧
    (∀ r, split_threshold r = if r ≤ 1048576 then 512 else 1048577) ∧
    (∀ (a : THCCachingAllocator) (hip : Hip), Reachable a hip → ∀ size st,
      (malloc a hip size st).err = hipSuccess →
      ∃ a2 hip2 B, malloc a hip size st =
          malloc_split a2 hip2 B hip.device.2 st (round_size size) ∧
        Live a2.heap B ∧ (deref a2.heap B).prev ≠ some B ∧
        round_size size ≤ (deref a2.heap B).size ∧ (deref a2.heap B).size < SIZE_T ∧
        (deref a2.heap B).allocated = false ∧ (∀ sm, B ∉ getPool sm a2) ∧
        (∀ sm, ∀ x ∈ getPool sm a2, x ∈ getPool sm a) ∧
        (malloc_hit a hip.device.2 st (round_size size) = some B ∨
          (malloc_hit a hip.device.2 st (round_size size) = none ∧ ¬ Live a.heap B ∧
            (deref a2.heap B).root ∧
            (deref a2.heap B).size = alloc_size (round_size size))) ∧
        (hipSane (malloc a hip size st).hip.calls = true →
          (deref a2.heap B).size - round_size size ≥ split_threshold (round_size size) →
          B ∈ getPool (decide (round_size size ≤ kSmallAlloc))
            (malloc a hip size st).alloc)) :=
  ⟨fun a hip B d st r hl hself hle hlt =>
      ⟨(malloc_split_effect a hip B d st r hl hself hle hlt).1,
        (malloc_split_effect a hip B d st r hl hself hle hlt).2.1,
        (malloc_split_effect a hip B d st r hl hself hle hlt).2.2.1,
        (malloc_split_effect a hip B d st r hl hself hle hlt).2.2.2,
        fun h =>
          ⟨(((malloc_split_effect a hip B d st r hl hself hle hlt).2.2.1
              (by omega)).2.2.2.1.live _).2 (Or.inl rfl),
            by
              rw [((malloc_split_effect a hip B d st r hl hself hle hlt).2.2.1
                (by omega)).2.2.1]
              show (deref a.heap B).size - r = split_threshold r
              omega⟩,
        fun h =>
          ⟨((malloc_split_effect a hip B d st r hl hself hle hlt).2.2.2 (by omega)).2.2.1,
            ((malloc_split_effect a hip B d st r hl hself hle hlt).2.2.2 (by omega)).1⟩⟩,
    split_threshold_eq, malloc_chosen_block⟩

theorem split_decision_witness :
    deref (malloc_split freshRoot hipTwo 0 0 7 512).alloc.heap 1 =
      ⟨0, 7, 512, 4096, true, none, some 0⟩ ∧
    deref (malloc_split freshRoot hipTwo 0 0 7 512).alloc.heap 0 =
      ⟨0, 7, 1048064, 4608, false, some 1, none⟩ ∧
    (malloc_split freshRoot hipTwo 0 0 7 512).alloc.large_blocks = [0] ∧
    (malloc_split freshRoot hipTwo 0 0 7 512).alloc.allocated_blocks = [(4096, 1)] :=
  ⟨((split_decision.1 freshRoot hipTwo 0 0 7 512 (by decide) (by decide) (by decide)
      (by decide)).2.2.1 (by decide)).2.1,
    ((split_decision.1 freshRoot hipTwo 0 0 7 512 (by decide) (by decide) (by decide)
      (by decide)).2.2.1 (by decide)).2.2.1,
    by decide, by decide⟩

/-! ## Rounding twice, failing allocations, a hit followed by its free -/

/-- A multiple of 512 between 512 and 1048576 (excluded) is its own rounding. -/
theorem round_size_of_small_multiple (r : Nat) (hd : r % 512 = 0) (h1 : 512 ≤ r)
    (h2 : r < 1048576) : round_size r = r := by
  unfold round_size
  simp only [kRoundSmall, kSmallAlloc, kRoundLarge, SIZE_T] at *
  rw [if_neg (by omega), if_pos h2]
  omega

/-- A multiple of 131072 from 1048576 on is its own rounding. -/
theorem round_size_of_large_multiple (r : Nat) (hd : r % 131072 = 0) (h1 : 1048576 ≤ r)
    (h2 : r < SIZE_T) : round_size r = r := by
  unfold round_size
  simp only [kRoundSmall, kSmallAlloc, kRoundLarge, SIZE_T] at *
  rw [if_neg (by omega), if_neg (by omega)]
  omega

/-- The rounded size in closed form, when the rounding does not wrap. -/
theorem round_size_cases (s : Nat) (hs : s + 131071 < SIZE_T) :
    (s < 512 ∧ round_size s = 512) ∨
    (512 ≤ s ∧ s < 1048576 ∧ round_size s % 512 = 0 ∧ s ≤ round_size s ∧
      round_size s ≤ 1048576) ∨
    (1048576 ≤ s ∧ round_size s % 131072 = 0 ∧ s ≤ round_size s ∧ round_size s < SIZE_T ∧
      round_size s < s + 131072) := by
  unfold round_size
  simp only [kRoundSmall, kSmallAlloc, kRoundLarge, SIZE_T] at *
  by_cases h1 : s < 512
  · left
    exact ⟨h1, if_pos h1⟩
  · by_cases h2 : s < 1048576
    · right; left
      rw [if_neg h1, if_pos h2]
      omega
    · right; right
      rw [if_neg h1, if_neg h2]
      omega

theorem round_size_fixed (s : Nat) (hs : s + 131071 < SIZE_T) :
    round_size (round_size s) = round_size s ∧
    (round_size s ≤ 1048576 ↔ s ≤ 1048576) := by
  rcases round_size_cases s hs with ⟨h1, h2⟩ | ⟨h1, h2, h3, h4, h5⟩ | ⟨h1, h2, h3, h4, h7⟩
  · rw [h2]
    refine ⟨round_size_of_small_multiple 512 rfl (Nat.le_refl _) (by omega), ?_⟩
    constructor <;> intro _ <;> omega
  · refine ⟨?_, by constructor <;> intro _ <;> omega⟩
    by_cases h6 : round_size s < 1048576
    · exact round_size_of_small_multiple _ h3 (by omega) h6
    · exact round_size_of_large_multiple _ (by omega) (by omega) (round_size_lt _)
  · refine ⟨round_size_of_large_multiple _ h2 (by omega) h4, ?_⟩
    constructor <;> intro _ <;> omega

/-- C33: `round_size` is idempotent and keeps the size class: for every size `s` with
`s + 131071` representable in `size_t`, rounding the rounded size changes nothing, and the
rounded size is at most `kSmallAlloc` (1048576) exactly when `s` is. -/
theorem round_size_idempotent (s : Nat) (hs : s + 131071 < SIZE_T) :
    round_size (round_size s) = round_size s ∧
    (round_size s ≤ kSmallAlloc ↔ s ≤ kSmallAlloc) :=
  round_size_fixed s hs

theorem round_size_idempotent_witness :
    1048577 + 131071 < SIZE_T ∧
    (round_size (round_size 1048577) = round_size 1048577 ∧
      (round_size 1048577 ≤ kSmallAlloc ↔ 1048577 ≤ kSmallAlloc)) :=
  ⟨by decide, round_size_idempotent 1048577 (by decide)⟩

/-- A failing `hip_malloc_retry`: the first `hipMalloc` failed, the state is the one that
`free_cached_blocks` left, and the record is the one of `free_cached_blocks`, with at most
the second `hipMalloc` on top. -/
theorem hip_malloc_retry_failed (a : THCCachingAllocator) (hip : Hip) (d : Int) (n : Nat)
    (h : (hip_malloc_retry a hip d n).err ≠ hipSuccess) :
    (hipMalloc hip n).1 ≠ hipSuccess ∧
    (hip_malloc_retry a hip d n).devPtr = none ∧
    (hip_malloc_retry a hip d n).alloc =
      (free_cached_blocks a (hipGetLastError (hipMalloc hip n).2.2) d).alloc ∧
    ∃ top, (hip_malloc_retry a hip d n).hip.calls =
      top ++ (free_cached_blocks a (hipGetLastError (hipMalloc hip n).2.2) d).hip.calls := by
  unfold hip_malloc_retry at h ⊢
  dsimp only at h ⊢
  by_cases h1 : (hipMalloc hip n).1 ≠ hipSuccess
  · rw [if_pos h1] at h ⊢
    refine ⟨h1, ?_⟩
    by_cases h2 : (free_cached_blocks a (hipGetLastError (hipMalloc hip n).2.2) d).err ≠
        hipSuccess
    · rw [if_pos h2]
      exact ⟨rfl, rfl, [], rfl⟩
    · rw [if_neg h2] at h ⊢
      by_cases h3 : (hipMalloc (free_cached_blocks a (hipGetLastError (hipMalloc hip n).2.2)
          d).hip n).1 ≠ hipSuccess
      · rw [if_pos h3]
        exact ⟨rfl, rfl, [HipCall.malloc n _ _], hipMalloc_calls _ _⟩
      · rw [if_neg h3] at h
        exact absurd rfl h
  · rw [if_neg h1] at h
    exact absurd rfl h

theorem mem_freed_calls {h : Heap} {l : List Nat} {x : Nat} (hx : x ∈ roots h l) :
    HipCall.free (deref h x).ptr hipSuccess ∈ freed_calls h l := by
  unfold freed_calls
  rw [List.mem_reverse]
  exact List.mem_map.2 ⟨x, hx, rfl⟩

/-- What a failing `malloc` leaves behind, in a reachable state: the pool was missed (a hit
never fails), no address is written, the table is unchanged, and the blocks `gone` that left
the pools are unsplit free blocks of the current device, each passed to a `hipFree` that
succeeded, after a failing `hipMalloc`; the pools lose only them and every other cell of the
heap is as before. -/
theorem malloc_failure_effect (a : THCCachingAllocator) (hip : Hip) (hr : Reachable a hip)
    (size st : Nat) (herr : (malloc a hip size st).err ≠ hipSuccess) :
    (hip.device.1 = hipSuccess → malloc_hit a hip.device.2 st (round_size size) = none) ∧
    (malloc a hip size st).devPtr = none ∧
    (malloc a hip size st).alloc.allocated_blocks = a.allocated_blocks ∧
    ∃ gone new,
      (malloc a hip size st).hip.calls = new ++ hip.calls ∧
      (gone ≠ [] → hip.device.1 = hipSuccess ∧
        (hipMalloc (hipGetDevice hip).2.2 (alloc_size (round_size size))).1 ≠ hipSuccess) ∧
      (∀ x ∈ gone, (x ∈ a.large_blocks ∨ x ∈ a.small_blocks) ∧
        (deref a.heap x).device = hip.device.2 ∧ (deref a.heap x).root ∧
        (deref a.heap x).allocated = false ∧
        HipCall.free (deref a.heap x).ptr hipSuccess ∈ new ∧
        (malloc a hip size st).alloc.heap[x]? = some none) ∧
      (malloc a hip size st).alloc.large_blocks =
        a.large_blocks.filter (fun x => decide (x ∉ gone)) ∧
      (malloc a hip size st).alloc.small_blocks =
        a.small_blocks.filter (fun x => decide (x ∉ gone)) ∧
      (∀ q, q ∉ gone → (malloc a hip size st).alloc.heap[q]? = a.heap[q]?) := by
  by_cases hdev : hip.device.1 = hipSuccess
  · have hhit : malloc_hit a hip.device.2 st (round_size size) = none := by
      cases hh : malloc_hit a hip.device.2 st (round_size size) with
      | none => rfl
      | some e => exact absurd (malloc_of_hit hdev hh).1 herr
    have hm : malloc a hip size st =
        malloc_miss a (hipGetDevice hip).2.2 hip.device.2 st (round_size size) := by
      rw [malloc_of_device_ok hdev, malloc_rounded_of_miss hhit]
    have hre : (hip_malloc_retry a (hipGetDevice hip).2.2 hip.device.2
        (alloc_size (round_size size))).err ≠ hipSuccess := by
      intro hok
      apply herr
      rw [hm, malloc_miss_of_ok hok]
      exact malloc_split_err _ _ _ _ _ _
    have hm2 : malloc_miss a (hipGetDevice hip).2.2 hip.device.2 st (round_size size) = _ :=
      malloc_miss_of_err hre
    obtain ⟨h1, h2, h3, top, h4⟩ := hip_malloc_retry_failed _ _ _ _ hre
    obtain ⟨done, tail, hdt, hsw⟩ := swept_of_reachable a hip
      (hipGetLastError (hipMalloc (hipGetDevice hip).2.2 (alloc_size (round_size size))).2.2)
      hr _ _ (Or.inr ⟨hip.device.2, rfl, rfl⟩)
    have hald : (malloc a hip size st).alloc = (free_cached_blocks a
        (hipGetLastError (hipMalloc (hipGetDevice hip).2.2
          (alloc_size (round_size size))).2.2) hip.device.2).alloc := by
      rw [hm, hm2]
      exact h3
    have hcalls : (malloc a hip size st).hip.calls = top ++ (free_cached_blocks a
        (hipGetLastError (hipMalloc (hipGetDevice hip).2.2
          (alloc_size (round_size size))).2.2) hip.device.2).hip.calls := by
      rw [hm, hm2]
      exact h4
    refine ⟨fun _ => hhit, ?_, ?_, ?_⟩
    · rw [hm, hm2]
    · rw [hald]
      exact hsw.table
    · have hbase : (hipGetLastError (hipMalloc (hipGetDevice hip).2.2
          (alloc_size (round_size size))).2.2).calls =
          [HipCall.getLastError, HipCall.malloc (alloc_size (round_size size))
            (hipMalloc (hipGetDevice hip).2.2 (alloc_size (round_size size))).1
            (hipMalloc (hipGetDevice hip).2.2 (alloc_size (round_size size))).2.1,
            HipCall.getDevice hip.device.1 hip.device.2] ++ hip.calls := by
        show HipCall.getLastError :: (hipMalloc (hipGetDevice hip).2.2
          (alloc_size (round_size size))).2.2.calls = _
        rw [hipMalloc_calls]
        rfl
      have hrec : ∃ mid, (free_cached_blocks a
          (hipGetLastError (hipMalloc (hipGetDevice hip).2.2
            (alloc_size (round_size size))).2.2) hip.device.2).hip.calls =
          mid ++ (hipGetLastError (hipMalloc (hipGetDevice hip).2.2
            (alloc_size (round_size size))).2.2).calls ∧
          ∀ x ∈ roots a.heap done, HipCall.free (deref a.heap x).ptr hipSuccess ∈ mid := by
        by_cases he : (free_cached_blocks a
            (hipGetLastError (hipMalloc (hipGetDevice hip).2.2
              (alloc_size (round_size size))).2.2) hip.device.2).err = hipSuccess
        · exact ⟨_, (hsw.ok he).2, fun x hx => mem_freed_calls hx⟩
        · obtain ⟨b, rest, _, _, hc, _⟩ := hsw.failed he
          refine ⟨HipCall.free (deref a.heap b).ptr (free_cached_blocks a
            (hipGetLastError (hipMalloc (hipGetDevice hip).2.2
              (alloc_size (round_size size))).2.2) hip.device.2).err ::
              freed_calls a.heap done, ?_, ?_⟩
          · rw [hc]
            rfl
          · intro x hx
            exact List.mem_cons_of_mem _ (mem_freed_calls hx)
      obtain ⟨mid, hmid, hfreed⟩ := hrec
      obtain ⟨ch, hinv, _⟩ := hr.good
      refine ⟨roots a.heap done, top ++ mid ++ [HipCall.getLastError,
        HipCall.malloc (alloc_size (round_size size))
          (hipMalloc (hipGetDevice hip).2.2 (alloc_size (round_size size))).1
          (hipMalloc (hipGetDevice hip).2.2 (alloc_size (round_size size))).2.1,
        HipCall.getDevice hip.device.1 hip.device.2], ?_, ?_, ?_, ?_, ?_, ?_⟩
      · rw [hcalls, hmid, hbase]
        simp only [List.append_assoc]
      · intro _
        exact ⟨hdev, h1⟩
      · intro x hx
        have hxd : x ∈ done := (List.mem_filter.1 hx).1
        have hroot : (deref a.heap x).root := of_decide_eq_true (List.mem_filter.1 hx).2
        have hxr : x ∈ device_range a.heap hip.device.2 a.large_blocks ++
            device_range a.heap hip.device.2 a.small_blocks := by
          rw [hdt]
          exact List.mem_append_left _ hxd
        have hpool : (x ∈ a.large_blocks ∨ x ∈ a.small_blocks) ∧
            (deref a.heap x).device = hip.device.2 := by
          rcases List.mem_append.1 hxr with hl | hs
          · have := (mem_device_range hr.pools_ordered.large_sorted _ _).1 hl
            exact ⟨Or.inl this.1, this.2⟩
          · have := (mem_device_range hr.pools_ordered.small_sorted _ _).1 hs
            exact ⟨Or.inr this.1, this.2⟩
        refine ⟨hpool.1, hpool.2, hroot, (hinv.pool_free hpool.1).2, ?_, ?_⟩
        · exact List.mem_append_left _ (List.mem_append_right _ (hfreed x hx))
        · rw [hald]
          exact hsw.gone x hx
      · rw [hald]
        exact hsw.large
      · rw [hald]
        exact hsw.small
      · intro q hq
        rw [hald]
        exact hsw.cell q hq
  · have hm : malloc a hip size st = _ := malloc_of_device_err hdev
    refine ⟨fun h => absurd h hdev, by rw [hm], by rw [hm], [],
      [HipCall.getDevice hip.device.1 hip.device.2], ?_, fun h => absurd rfl h, ?_, ?_, ?_, ?_⟩
    · rw [hm]
      rfl
    · intro x hx
      exact absurd hx (List.not_mem_nil _)
    · rw [hm]
      simp
    · rw [hm]
      simp
    · intro q _
      rw [hm]

/-- Two states with the same heap, pools and table are the same state. -/
theorem alloc_ext {a b : THCCachingAllocator} (hh : a.heap = b.heap)
    (hp : ∀ sm, getPool sm a = getPool sm b)
    (ht : a.allocated_blocks = b.allocated_blocks) : a = b := by
  have h1 := hp true
  have h2 := hp false
  cases a
  cases b
  simp only [getPool_true, getPool_false] at h1 h2
  simp only at hh ht
  subst hh ht h1 h2
  rfl

theorem BlockComparator_asymm {x y : Block} (h : BlockComparator x y = true) :
    BlockComparator y x = false := by
  cases hc : BlockComparator y x with
  | false => rfl
  | true =>
    have := BlockComparator_trans h hc
    rw [BlockComparator_irrefl] at this
    exact absurd this (by decide)

/-- Where `insert` has put `x`, the rest of the set is the set before. -/
theorem set_insert_split (h : Heap) (x : Nat) :
    ∀ (l A B : List Nat), set_insert h x l = A ++ x :: B → x ∉ l → A ++ B = l := by
  intro l
  induction l with
  | nil =>
    intro A B he _
    unfold set_insert at he
    cases A with
    | nil =>
      simp only [List.nil_append, List.cons.injEq, true_and] at he
      rw [← he]
      rfl
    | cons y A2 =>
      simp only [List.cons_append, List.cons.injEq] at he
      have := congrArg List.length he.2
      simp at this
      omega
  | cons y ys ih =>
    intro A B he hx
    have hxy : x ≠ y := fun hc => hx (by rw [hc]; exact List.mem_cons_self _ _)
    have hxys : x ∉ ys := fun hc => hx (List.mem_cons_of_mem _ hc)
    unfold set_insert at he
    split at he
    · cases A with
      | nil =>
        simp only [List.nil_append, List.cons.injEq] at he
        exact absurd he.1.symm hxy
      | cons z A2 =>
        simp only [List.cons_append, List.cons.injEq] at he
        rw [List.cons_append, ← he.1, ih A2 B he.2 hxys]
    · split at he
      · cases A with
        | nil =>
          simp only [List.nil_append, List.cons.injEq, true_and] at he
          rw [← he]
          rfl
        | cons z A2 =>
          simp only [List.cons_append, List.cons.injEq] at he
          have : x ∈ y :: ys := by
            rw [he.2]
            simp
          exact absurd this hx
      · have : x ∈ y :: ys := by
          rw [he]
          simp
        exact absurd this hx

/-- Erasing by key a block that `insert` has just put into the set gives the set before. -/
theorem erase_key_set_insert {h : Heap} {x : Nat} {l : List Nat}
    (hs : Sorted h (set_insert h x l)) (hx : x ∈ set_insert h x l) (hnot : x ∉ l) :
    erase_key h x (set_insert h x l) = l := by
  obtain ⟨A, B, hAB⟩ := List.append_of_mem hx
  rw [hAB] at hs ⊢
  rw [erase_key_of_sorted hs]
  exact set_insert_split h x l A B hAB hnot

/-- The `insert` of a block whose key lies between two parts of the set puts it there. -/
theorem set_insert_mid (h : Heap) (x : Nat) (post : List Nat)
    (hpost : ∀ y ∈ post, BlockComparator (deref h x) (deref h y) = true) :
    ∀ pre : List Nat, (∀ y ∈ pre, BlockComparator (deref h y) (deref h x) = true) →
      set_insert h x (pre ++ post) = pre ++ x :: post := by
  intro pre
  induction pre with
  | nil =>
    intro _
    cases post with
    | nil => rfl
    | cons y ys =>
      have hxy := hpost y (List.mem_cons_self _ _)
      show set_insert h x (y :: ys) = x :: y :: ys
      unfold set_insert
      rw [if_neg (by rw [BlockComparator_asymm hxy]; decide), if_pos hxy]
  | cons y ys ih =>
    intro hpre
    show set_insert h x (y :: (ys ++ post)) = y :: (ys ++ x :: post)
    unfold set_insert
    rw [if_pos (hpre y (List.mem_cons_self _ _)),
      ih (fun z hz => hpre z (List.mem_cons_of_mem _ hz))]

/-- A table with no entry under `p` loses nothing when the entries under `p` are removed. -/
theorem filter_of_lookup_none (p : Nat) :
    ∀ l : List (Nat × Nat), List.lookup p l = none → l.filter (fun kv => kv.1 ≠ p) = l := by
  intro l
  induction l with
  | nil => intro _; rfl
  | cons kv rest ih =>
    intro hl
    obtain ⟨k, v⟩ := kv
    by_cases hk : p = k
    · subst hk
      rw [lookup_cons_self] at hl
      exact absurd hl (by simp)
    · have hl2 : List.lookup p rest = none := by
        rw [List.lookup_cons] at hl
        have : (p == k) = false := by simpa using hk
        rw [this] at hl
        exact hl
      rw [List.filter_cons_of_pos (by simpa using fun hc : k = p => hk hc.symm), ih hl2]

/-- Setting and clearing the in-use flag of a free block gives the heap back. -/
theorem store_flag_restore {h : Heap} {e : Nat} (hl : Live h e)
    (hf : (deref h e).allocated = false) :
    store (store h e (fun b => { b with allocated := true })) e
      (fun b => { b with allocated := false }) = h := by
  obtain ⟨b, hb⟩ := hl
  have hd : deref h e = b := deref_of_live hb
  rw [hd] at hf
  apply List.ext_getElem?
  intro i
  rw [store_getElem, store_getElem]
  by_cases hi : i = e
  · subst hi
    simp only [hb, if_true, Option.map_some']
    congr 2
    cases b
    simp only at hf
    subst hf
    rfl
  · simp only [hi, if_false]

/-- The pool searched by a hit, around the block found. -/
theorem malloc_hit_pools {a : THCCachingAllocator} {d : Int} {st r e : Nat}
    (hhit : malloc_hit a d st r = some e) :
    ∃ pre post, getPool (decide (r ≤ kSmallAlloc)) a = pre ++ e :: post ∧
      ∀ sm2, getPool sm2 (malloc_erase a d st r) =
        if sm2 = decide (r ≤ kSmallAlloc) then pre ++ post else getPool sm2 a := by
  obtain ⟨post, hlb⟩ := malloc_hit_lower_bound hhit
  obtain ⟨pre, hpre⟩ := lower_bound_suffix a.heap (Block.ctor d st r 0)
    (getPool (decide (r ≤ kSmallAlloc)) a)
  rw [hlb] at hpre
  refine ⟨pre, post, hpre.symm, ?_⟩
  intro sm2
  unfold malloc_erase
  rw [getPool_setPool, hlb]
  split
  · have := erase_at_append pre (e :: post)
    rw [hpre] at this
    exact this
  · rfl

/-- In a reachable state with a sane record of the runtime no live block is at address 0. -/
theorem ptr_ne_zero_of_reachable {a : THCCachingAllocator} {hip : Hip} (hr : Reachable a hip)
    (hs : hipSane hip.calls = true) {x : Nat} (hx : Live a.heap x) :
    (deref a.heap x).ptr ≠ 0 := by
  obtain ⟨ch, hinv, hgeo⟩ := hr.good
  obtain ⟨hmem, hok, _⟩ := hinv.chain x hx
  have h1 := hok.ptr_ge hmem
  have h2 := (hgeo hs).1.base_ne x hx
  omega

/-- A pool hit that takes the whole block, followed by the `free` of the address handed out,
gives the state back, when the table had no entry under that address. -/
theorem hit_free_whole {a : THCCachingAllocator} {hip : Hip} (hr : Reachable a hip)
    (hs : hipSane hip.calls = true) {size st e : Nat}
    (hdev : hip.device.1 = hipSuccess)
    (hhit : malloc_hit a hip.device.2 st (round_size size) = some e)
    (hnone : a.allocated_blocks.lookup (deref a.heap e).ptr = none)
    (hw : (deref a.heap e).size - round_size size < split_threshold (round_size size)) :
    (free (malloc a hip size st).alloc (malloc a hip size st).hip (deref a.heap e).ptr).alloc
      = a := by
  obtain ⟨ch, hinv, hgeo⟩ := hr.good
  obtain ⟨_, hheapE, htabE, _, _, _, hle, hfree, hcls, hrle, hlt, _, _⟩ := hinv.hit_state hhit
  obtain ⟨pre, post, hpool, hpoolE⟩ := malloc_hit_pools hhit
  have hp0 := ptr_ne_zero_of_reachable hr hs hle
  have hm : malloc a hip size st =
      malloc_split (malloc_erase a hip.device.2 st (round_size size)) (hipGetDevice hip).2.2 e
        hip.device.2 st (round_size size) := by
    rw [malloc_of_device_ok hdev]
    exact malloc_rounded_of_erase hhit
  have hsp : ¬ sub_size_t (deref (malloc_erase a hip.device.2 st (round_size size)).heap e).size
      (round_size size) ≥ split_threshold (round_size size) := by
    rw [hheapE, sub_size_t_of_le hrle hlt]
    omega
  obtain ⟨hh, htab, hpools⟩ := malloc_split_state_whole _ (hipGetDevice hip).2.2
    hip.device.2 st (round_size size) hsp
  rw [← hm, hheapE] at hh
  rw [← hm, hheapE, htabE] at htab
  rw [filter_of_lookup_none _ _ hnone] at htab
  have hpools2 : ∀ sm2, getPool sm2 (malloc a hip size st).alloc =
      if sm2 = decide (round_size size ≤ kSmallAlloc) then pre ++ post else getPool sm2 a := by
    intro sm2
    rw [hm, hpools, hpoolE]
  have hlook : (malloc a hip size st).alloc.allocated_blocks.lookup (deref a.heap e).ptr =
      some e := by
    rw [htab]
    exact lookup_cons_self _ _ _
  have hsize : (deref (malloc a hip size st).alloc.heap e).size = (deref a.heap e).size := by
    rw [hh, deref_store_proj Block.size]
    intro b
    rfl
  have hprev : (deref (malloc a hip size st).alloc.heap e).prev = (deref a.heap e).prev := by
    rw [hh, deref_store_proj Block.prev]
    intro b
    rfl
  have hnext : (deref (malloc a hip size st).alloc.heap e).next = (deref a.heap e).next := by
    rw [hh, deref_store_proj Block.next]
    intro b
    rfl
  obtain ⟨_, hnp, hnn⟩ := hr.free_neighbours e (by
    have : e ∈ getPool (decide (round_size size ≤ kSmallAlloc)) a := by
      rw [hpool]
      simp
    unfold getPool at this
    split at this
    · exact Or.inl this
    · exact Or.inr this)
  have hself : (deref a.heap e).prev ≠ some e := hinv.prev_ne_self hle
  have hflag : ∀ s, s ≠ e → (deref a.heap s).allocated = true →
      (deref (table_erase (malloc a hip size st).alloc (deref a.heap e).ptr).heap s).allocated
        = true := by
    intro s hse hsa
    show (deref (malloc a hip size st).alloc.heap s).allocated = true
    rw [hh, deref_store_ne _ _ _ _ hse]
    exact hsa
  have hne_of_alloc : ∀ s, (deref a.heap s).allocated = true → s ≠ e := by
    intro s hsa hc
    rw [hc, hfree] at hsa
    exact absurd hsa (by decide)
  have hstep1 : merge_step (table_erase (malloc a hip size st).alloc (deref a.heap e).ptr)
      (decide ((deref (malloc a hip size st).alloc.heap e).size ≤ kSmallAlloc)) e
      (deref (malloc a hip size st).alloc.heap e).prev =
      table_erase (malloc a hip size st).alloc (deref a.heap e).ptr := by
    rw [hprev]
    cases hpe : (deref a.heap e).prev with
    | none => exact merge_step_none _ _ _
    | some s =>
      obtain ⟨pb, hpb, hpa⟩ := hnp s hpe
      have hsa : (deref a.heap s).allocated = true := by
        rw [deref_of_live hpb]
        exact hpa
      exact merge_step_allocated _ _ (hflag s (hne_of_alloc s hsa) hsa)
  have hstep2 : merge_step (table_erase (malloc a hip size st).alloc (deref a.heap e).ptr)
      (decide ((deref (malloc a hip size st).alloc.heap e).size ≤ kSmallAlloc)) e
      (deref (table_erase (malloc a hip size st).alloc (deref a.heap e).ptr).heap e).next =
      table_erase (malloc a hip size st).alloc (deref a.heap e).ptr := by
    have : (deref (table_erase (malloc a hip size st).alloc (deref a.heap e).ptr).heap e).next
        = (deref a.heap e).next := hnext
    rw [this]
    cases hpe : (deref a.heap e).next with
    | none => exact merge_step_none _ _ _
    | some s =>
      obtain ⟨pb, hpb, hpa⟩ := hnn s hpe
      have hsa : (deref a.heap s).allocated = true := by
        rw [deref_of_live hpb]
        exact hpa
      exact merge_step_allocated _ _ (hflag s (hne_of_alloc s hsa) hsa)
  rw [free_steps _ hp0 hlook, hstep1, hstep2]
  show release (table_erase (malloc a hip size st).alloc (deref a.heap e).ptr)
    (decide ((deref (malloc a hip size st).alloc.heap e).size ≤ kSmallAlloc)) e = a
  rw [hsize, hcls]
  have hheap : store (table_erase (malloc a hip size st).alloc (deref a.heap e).ptr).heap e
      (fun blk => { blk with allocated := false }) = a.heap := by
    show store (malloc a hip size st).alloc.heap e _ = a.heap
    rw [hh]
    exact store_flag_restore hle hfree
  apply alloc_ext
  · rw [release_heap, hheap]
  · intro sm2
    rw [release_pool, hheap]
    have hT : ∀ s, getPool s (table_erase (malloc a hip size st).alloc (deref a.heap e).ptr) =
        getPool s (malloc a hip size st).alloc := fun s => getPool_table _ _ _
    rw [hT, hT, hpools2, hpools2]
    by_cases hsm : sm2 = decide (round_size size ≤ kSmallAlloc)
    · rw [if_pos hsm, if_pos rfl, hsm, hpool]
      have hsorted : Sorted a.heap (pre ++ e :: post) := by
        rw [← hpool]
        exact (hinv.pool _).sorted
      have hpw := List.pairwise_append.1 hsorted
      exact set_insert_mid a.heap e post
        (fun y hy => List.rel_of_pairwise_cons hpw.2.1 hy) pre
        (fun y hy => hpw.2.2 y hy e (List.mem_cons_self _ _))
    · rw [if_neg hsm, if_neg hsm]
  · rw [release_table]
    show (malloc a hip size st).alloc.allocated_blocks.filter _ = a.allocated_blocks
    rw [htab, List.filter_cons_of_neg (by simp)]
    exact filter_of_lookup_none _ _ hnone

theorem Block.eq_of_fields {x y : Block} (h1 : x.device = y.device) (h2 : x.stream = y.stream)
    (h3 : x.size = y.size) (h4 : x.ptr = y.ptr) (h5 : x.allocated = y.allocated)
    (h6 : x.prev = y.prev) (h7 : x.next = y.next) : x = y := by
  cases x
  cases y
  simp only at h1 h2 h3 h4 h5 h6 h7
  subst h1 h2 h3 h4 h5 h6 h7
  rfl

/-- The `free` of a block `N` that was just split off a free block `e` (read in the heap `h`
before the split) whose other siblings are allocated: `N` absorbs the remainder `e` and is
inserted with the size, address and links that `e` had, `e` is deleted, the entry of `N`
leaves the table, and only the links of the two siblings of `e` change otherwise. -/
theorem free_after_split {h : Heap} {M : THCCachingAllocator} (hip : Hip) {e N : Nat}
    {d : Int} {st r : Nat} {tab : List (Nat × Nat)} {l : List Nat}
    (hle : Live h e) (hfree : (deref h e).allocated = false) (hN : ¬ Live h N)
    (hcells : SplitCells h M.heap e N d st r)
    (hrle : r ≤ (deref h e).size) (hlt : (deref h e).size < SIZE_T)
    (hp0 : (deref h e).ptr ≠ 0)
    (htab : M.allocated_blocks = ((deref h e).ptr, N) :: tab)
    (hnone : tab.lookup (deref h e).ptr = none)
    (hself : (deref h e).prev ≠ some e)
    (hprev : ∀ s, (deref h e).prev = some s → Live h s ∧ (deref h s).allocated = true)
    (hnext : ∀ s, (deref h e).next = some s → Live h s ∧ (deref h s).allocated = true)
    (hpool : getPool (decide (r ≤ kSmallAlloc)) M = set_insert M.heap e l)
    (hsorted : Sorted M.heap (set_insert M.heap e l))
    (hmem : e ∈ set_insert M.heap e l) (hnot : e ∉ l) (hlN : N ∉ l) :
    (free M hip (deref h e).ptr).alloc.allocated_blocks = tab ∧
    (∀ sm2, getPool sm2 (free M hip (deref h e).ptr).alloc =
      if sm2 = decide (r ≤ kSmallAlloc) then
        set_insert (free M hip (deref h e).ptr).alloc.heap N l
      else getPool sm2 M) ∧
    deref (free M hip (deref h e).ptr).alloc.heap N =
      ⟨d, st, (deref h e).size, (deref h e).ptr, false, (deref h e).prev, (deref h e).next⟩ ∧
    ¬ Live (free M hip (deref h e).ptr).alloc.heap e ∧
    (∀ q, q ≠ e → q ≠ N → (deref h e).prev ≠ some q → (deref h e).next ≠ some q →
      deref (free M hip (deref h e).ptr).alloc.heap q = deref h q) := by
  have hNe : N ≠ e := fun hc => hN (hc ▸ hle)
  have hLN : Live M.heap N := (hcells.live _).2 (Or.inl rfl)
  have hLe : Live M.heap e := (hcells.live _).2 (Or.inr hle)
  have hlook : M.allocated_blocks.lookup (deref h e).ptr = some N := by
    rw [htab]
    exact lookup_cons_self _ _ _
  have hNprev : (deref M.heap N).prev = (deref h e).prev := by rw [hcells.new]
  have hNnext : (deref M.heap N).next = some e := by rw [hcells.new]
  have hNsize : (deref M.heap N).size = r := by rw [hcells.new]
  have heflag : (deref M.heap e).allocated = false := by
    rw [hcells.rem]
    exact hfree
  have henext : (deref M.heap e).next = (deref h e).next := by rw [hcells.rem]
  have hesize : (deref M.heap e).size = (deref h e).size - r := by
    rw [hcells.rem]
    exact sub_size_t_of_le hrle hlt
  -- the first merge does nothing
  have hstep1 : merge_step (table_erase M (deref h e).ptr)
      (decide ((deref M.heap N).size ≤ kSmallAlloc)) N (deref M.heap N).prev =
      table_erase M (deref h e).ptr := by
    rw [hNprev]
    cases hpe : (deref h e).prev with
    | none => exact merge_step_none _ _ _
    | some s =>
      obtain ⟨hls, hsa⟩ := hprev s hpe
      apply merge_step_allocated
      show (deref M.heap s).allocated = true
      rw [hcells.before s hpe hls]
      exact hsa
  -- the second merge absorbs the remainder
  have hnext_ne_N : (deref M.heap e).next ≠ some N := by
    rw [henext]
    intro hc
    exact hN (hnext N hc).1
  have hnext_ne_e : (deref M.heap e).next ≠ some e := by
    rw [henext]
    intro hc
    have := (hnext e hc).2
    rw [hfree] at this
    exact absurd this (by decide)
  have hmc : MergeNextCells M.heap (deleteBlock (merge_heap M.heap N e) e) N e :=
    merge_next_cells hLN hLe hNe (by rw [hNprev]; exact hself) hnext_ne_N hnext_ne_e
  have hstep2 : merge_step (table_erase M (deref h e).ptr)
      (decide ((deref M.heap N).size ≤ kSmallAlloc)) N
      (deref (table_erase M (deref h e).ptr).heap N).next =
      setPool (decide ((deref M.heap N).size ≤ kSmallAlloc))
        { table_erase M (deref h e).ptr with
          heap := deleteBlock (merge_heap M.heap N e) e }
        (erase_key (merge_heap M.heap N e) e
          (getPool (decide ((deref M.heap N).size ≤ kSmallAlloc))
            (table_erase M (deref h e).ptr))) := by
    have : (deref (table_erase M (deref h e).ptr).heap N).next = some e := hNnext
    rw [this]
    exact merge_step_free _ _ heflag
  have hfr : (free M hip (deref h e).ptr).alloc =
      release (setPool (decide (r ≤ kSmallAlloc))
        { table_erase M (deref h e).ptr with
          heap := deleteBlock (merge_heap M.heap N e) e }
        (erase_key (merge_heap M.heap N e) e
          (getPool (decide (r ≤ kSmallAlloc)) (table_erase M (deref h e).ptr))))
        (decide (r ≤ kSmallAlloc)) N := by
    rw [free_steps hip hp0 hlook, hstep1, hstep2, hNsize]
  -- the pool that was searched, after the erase
  have hT : ∀ s, getPool s (table_erase M (deref h e).ptr) = getPool s M :=
    fun s => getPool_table _ _ _
  have hmemN : ∀ y ∈ set_insert M.heap e l, y ≠ N := by
    intro y hy hc
    rcases mem_set_insert hy with h1 | h1
    · exact hNe (hc.symm.trans h1)
    · exact hlN (hc ▸ h1)
  have herase : erase_key (merge_heap M.heap N e) e (set_insert M.heap e l) = l := by
    rw [erase_key_congr e _
      (merge_heap_next_key hLN hLe hNe (by rw [hNprev]; exact hself) hnext_ne_N hnext_ne_e
        e hNe.symm)
      (fun y hy => merge_heap_next_key hLN hLe hNe (by rw [hNprev]; exact hself) hnext_ne_N
        hnext_ne_e y (hmemN y hy))]
    exact erase_key_set_insert hsorted hmem hnot
  have hheapF : (free M hip (deref h e).ptr).alloc.heap =
      store (deleteBlock (merge_heap M.heap N e) e) N
        (fun blk => { blk with allocated := false }) := by
    rw [hfr, release_heap, setPool_heap]
  have hLN2 : Live (deleteBlock (merge_heap M.heap N e) e) N := (hmc.live N).2 ⟨hNe, hLN⟩
  refine ⟨?_, ?_, ?_, ?_, ?_⟩
  · rw [hfr, release_table, setPool_allocated_blocks]
    show M.allocated_blocks.filter _ = tab
    rw [htab, List.filter_cons_of_neg (by simp)]
    exact filter_of_lookup_none _ _ hnone
  · intro sm2
    rw [hheapF, hfr, release_pool, setPool_heap, getPool_setPool, if_pos rfl, hT, hpool, herase]
    by_cases hsm : sm2 = decide (r ≤ kSmallAlloc)
    · rw [if_pos hsm, if_pos hsm]
    · rw [if_neg hsm, if_neg hsm, getPool_setPool, if_neg hsm, getPool_heap, hT]
  · rw [hheapF, deref_store_self hLN2, hmc.dst, hcells.new, hcells.rem]
    have hsz : add_size_t r (sub_size_t (deref h e).size r) = (deref h e).size := by
      rw [sub_size_t_of_le hrle hlt, add_size_t_of_lt (by omega)]
      omega
    simp only [hsz]
  · rw [hheapF, Live_store_iff]
    intro hc
    exact ((hmc.live e).1 hc).1 rfl
  · intro q hqe hqN hqp hqn
    rw [hheapF, deref_store_ne _ _ _ _ hqN, hmc.other q hqN hqe (by rw [henext]; exact hqn)]
    exact hcells.other q hqN hqe hqp

/-- A pool hit that splits the block, followed by the `free` of the address handed out: the
new block takes the place of the hit block `e` in the pool with the cell that `e` had, `e`
is deleted, the table is as before, and every block that is not a sibling of `e` keeps its
cell. -/
theorem hit_free_split {a : THCCachingAllocator} {hip : Hip} (hr : Reachable a hip)
    (hs : hipSane hip.calls = true) {size st e : Nat} (hsz : size < SIZE_T)
    (hdev : hip.device.1 = hipSuccess)
    (hhit : malloc_hit a hip.device.2 st (round_size size) = some e)
    (hnone : a.allocated_blocks.lookup (deref a.heap e).ptr = none)
    (hw : (deref a.heap e).size - round_size size ≥ split_threshold (round_size size)) :
    (free (malloc a hip size st).alloc (malloc a hip size st).hip
      (deref a.heap e).ptr).alloc.allocated_blocks = a.allocated_blocks ∧
    (∃ pre post, getPool (decide (round_size size ≤ kSmallAlloc)) a = pre ++ e :: post ∧
      ∀ sm2, getPool sm2 (free (malloc a hip size st).alloc (malloc a hip size st).hip
        (deref a.heap e).ptr).alloc =
          if sm2 = decide (round_size size ≤ kSmallAlloc) then pre ++ newPtr a.heap :: post
          else getPool sm2 a) ∧
    deref (free (malloc a hip size st).alloc (malloc a hip size st).hip
      (deref a.heap e).ptr).alloc.heap (newPtr a.heap) = deref a.heap e ∧
    ¬ Live (free (malloc a hip size st).alloc (malloc a hip size st).hip
      (deref a.heap e).ptr).alloc.heap e ∧
    (∀ q, q ≠ e → q ≠ newPtr a.heap → (deref a.heap e).prev ≠ some q →
      (deref a.heap e).next ≠ some q →
      deref (free (malloc a hip size st).alloc (malloc a hip size st).hip
        (deref a.heap e).ptr).alloc.heap q = deref a.heap q) := by
  obtain ⟨ch, hinv, hgeo⟩ := hr.good
  obtain ⟨_, hheapE, htabE, _, _, _, hle, hfree, hcls, hrle, hlt, hdv, hstr⟩ :=
    hinv.hit_state hhit
  obtain ⟨pre, post, hpool, hpoolE⟩ := malloc_hit_pools hhit
  have hsorted : Sorted a.heap (pre ++ e :: post) := by
    rw [← hpool]
    exact (hinv.pool _).sorted
  have hnd := hsorted.nodup
  have hpw := List.pairwise_append.1 hsorted
  have hp0 := ptr_ne_zero_of_reachable hr hs hle
  have hself : (deref a.heap e).prev ≠ some e := hinv.prev_ne_self hle
  have hN : ¬ Live a.heap (newPtr a.heap) := not_Live_newPtr a.heap
  have hm : malloc a hip size st =
      malloc_split (malloc_erase a hip.device.2 st (round_size size)) (hipGetDevice hip).2.2 e
        hip.device.2 st (round_size size) := by
    rw [malloc_of_device_ok hdev]
    exact malloc_rounded_of_erase hhit
  -- the state after the hit
  have heff := (malloc_split_effect (malloc_erase a hip.device.2 st (round_size size))
    (hipGetDevice hip).2.2 e hip.device.2 st (round_size size) (by rw [hheapE]; exact hle)
    (by rw [hheapE]; exact hself) (by rw [hheapE]; exact hrle)
    (by rw [hheapE]; exact hlt)).2.2.1 (by rw [hheapE]; exact hw)
  rw [← hm, hheapE] at heff
  obtain ⟨hlook, hnew, hrem, hcells, hpool1, hother⟩ := heff
  have hstate := malloc_split_state_split (malloc_erase a hip.device.2 st (round_size size))
    (hipGetDevice hip).2.2 hip.device.2 st (round_size size)
    (by rw [hheapE]; exact hle)
    (by rw [hheapE, sub_size_t_of_le hrle hlt]; exact hw)
  rw [← hm, hheapE, htabE] at hstate
  obtain ⟨hheapM, htabM, _⟩ := hstate
  rw [filter_of_lookup_none _ _ hnone] at htabM
  have hpoolmem : ∀ sm2, ∀ y ∈ getPool sm2 a,
      Live a.heap y ∧ (deref a.heap y).allocated = false := by
    intro sm2 y hy
    have := (hinv.pool sm2).mem y hy
    exact ⟨this.1, this.2.1⟩
  have hein : e ∈ getPool (decide (round_size size ≤ kSmallAlloc)) a := by
    rw [hpool]
    simp
  have hsub : ∀ y ∈ pre ++ post, y ∈ getPool (decide (round_size size ≤ kSmallAlloc)) a := by
    intro y hy
    rw [hpool]
    rcases List.mem_append.1 hy with h1 | h1
    · exact List.mem_append_left _ h1
    · exact List.mem_append_right _ (List.mem_cons_of_mem _ h1)
  have hnot : e ∉ pre ++ post := by
    intro hc
    rcases List.mem_append.1 hc with h1 | h1
    · exact (List.nodup_append.1 hnd).2.2 h1 (List.mem_cons_self _ _)
    · exact (List.nodup_cons.1 (List.nodup_append.1 hnd).2.1).1 h1
  have hlN : newPtr a.heap ∉ pre ++ post := fun hc => hN (hpoolmem _ _ (hsub _ hc)).1
  obtain ⟨_, hnp, hnn⟩ := hr.free_neighbours e (by
    unfold getPool at hein
    split at hein
    · exact Or.inl hein
    · exact Or.inr hein)
  have hprev : ∀ s, (deref a.heap e).prev = some s →
      Live a.heap s ∧ (deref a.heap s).allocated = true := by
    intro s hs
    obtain ⟨pb, hpb, hpa⟩ := hnp s hs
    exact ⟨⟨pb, hpb⟩, by rw [deref_of_live hpb]; exact hpa⟩
  have hnext : ∀ s, (deref a.heap e).next = some s →
      Live a.heap s ∧ (deref a.heap s).allocated = true := by
    intro s hs
    obtain ⟨pb, hpb, hpa⟩ := hnn s hs
    exact ⟨⟨pb, hpb⟩, by rw [deref_of_live hpb]; exact hpa⟩
  have hpoolM : getPool (decide (round_size size ≤ kSmallAlloc)) (malloc a hip size st).alloc =
      set_insert (malloc a hip size st).alloc.heap e (pre ++ post) := by
    rw [hpool1, hpoolE, if_pos rfl, hheapM]
    symm
    apply set_insert_congr
    intro y hy
    have hyN : y ≠ newPtr a.heap := by
      intro hc
      rcases List.mem_cons.1 hy with h1 | h1
      · exact hN (hc ▸ h1 ▸ hle)
      · exact hlN (hc ▸ h1)
    exact deref_store_ne _ _ _ _ hyN
  have hrun := malloc_hit_run hdev hle hhit
  have hsM : hipSane (malloc a hip size st).hip.calls = true := by
    rw [hrun.2.1]
    exact hs
  have hrM : Reachable (malloc a hip size st).alloc (malloc a hip size st).hip :=
    Reachable.malloc size st hr hsz
  obtain ⟨chM, hinvM, _⟩ := hrM.good
  have hsortedM : Sorted (malloc a hip size st).alloc.heap
      (set_insert (malloc a hip size st).alloc.heap e (pre ++ post)) := by
    rw [← hpoolM]
    exact (hinvM.pool _).sorted
  have hmemM : e ∈ set_insert (malloc a hip size st).alloc.heap e (pre ++ post) := by
    rw [← hpoolM]
    exact malloc_remainder_kept hr size st hsM _ _ e hrun.2.2 hlook (by rw [hnew])
      (by rw [hrem]; exact hfree)
  obtain ⟨f1, f2, f3, f4, f5⟩ := free_after_split (malloc a hip size st).hip hle hfree hN
    hcells hrle hlt hp0 htabM hnone hself hprev hnext hpoolM hsortedM hmemM hnot hlN
  have hcellN : deref (free (malloc a hip size st).alloc (malloc a hip size st).hip
      (deref a.heap e).ptr).alloc.heap (newPtr a.heap) = deref a.heap e := by
    rw [f3]
    exact Block.eq_of_fields hdv.symm hstr.symm rfl rfl hfree.symm rfl rfl
  have hcell : ∀ sm2, ∀ y ∈ getPool sm2 a, y ≠ e →
      deref (free (malloc a hip size st).alloc (malloc a hip size st).hip
        (deref a.heap e).ptr).alloc.heap y = deref a.heap y := by
    intro sm2 y hy hye
    obtain ⟨hly, hfy⟩ := hpoolmem sm2 y hy
    refine f5 y hye (fun hc => hN (hc ▸ hly)) ?_ ?_
    · intro hc
      have := (hprev y hc).2
      rw [hfy] at this
      exact absurd this (by decide)
    · intro hc
      have := (hnext y hc).2
      rw [hfy] at this
      exact absurd this (by decide)
  refine ⟨f1, ⟨pre, post, hpool, ?_⟩, hcellN, f4, f5⟩
  intro sm2
  rw [f2]
  by_cases hsm : sm2 = decide (round_size size ≤ kSmallAlloc)
  · rw [if_pos hsm, if_pos hsm]
    have hne_pre : ∀ y ∈ pre, y ≠ e := fun y hy hc =>
      hnot (hc ▸ List.mem_append_left _ hy)
    have hne_post : ∀ y ∈ post, y ≠ e := fun y hy hc =>
      hnot (hc ▸ List.mem_append_right _ hy)
    apply set_insert_mid
    · intro y hy
      rw [hcellN, hcell _ y (hsub y (List.mem_append_right _ hy)) (hne_post y hy)]
      exact List.rel_of_pairwise_cons hpw.2.1 hy
    · intro y hy
      rw [hcellN, hcell _ y (hsub y (List.mem_append_left _ hy)) (hne_pre y hy)]
      exact hpw.2.2 y hy e (List.mem_cons_self _ _)
  · rw [if_neg hsm, if_neg hsm, hother sm2 hsm, hpoolE, if_neg hsm]

/-- In a reachable state with a sane record of the runtime, a table entry at the address of
a cached block belongs to a block of 0 bytes. -/
theorem table_twin_zero {a : THCCachingAllocator} {hip : Hip} (hr : Reachable a hip)
    (hs : hipSane hip.calls = true) {e z : Nat}
    (he : e ∈ a.large_blocks ∨ e ∈ a.small_blocks)
    (hz : a.allocated_blocks.lookup (deref a.heap e).ptr = some z) :
    (deref a.heap z).size = 0 := by
  obtain ⟨ch, hg⟩ := hr.good
  have hnt := hg.no_twin hs
  obtain ⟨hle, hfree⟩ := hg.1.pool_free he
  obtain ⟨hlz, hza, hzp⟩ := hg.1.table_mem _ (mem_of_lookup hz)
  have hne : z ≠ e := by
    intro hc
    rw [hc, hfree] at hza
    exact absurd hza (by decide)
  rcases hnt z e hlz hle hne hzp with h1 | h1
  · exact h1
  · have := hr.tidy.pos e hle hfree
    omega

/-- A pool hit followed by the `free` of the address handed out, in a reachable state with
a sane record of the runtime and no table entry at the address of the hit block: both calls
succeed, no primitive allocator call is made, the table is the one before, and each pool
holds blocks with the cells of the blocks it held before, in the same order; a hit that
took the whole block gives the very same state back. -/
theorem hit_free_restores {a : THCCachingAllocator} {hip : Hip} (hr : Reachable a hip)
    (hs : hipSane hip.calls = true) {size st e : Nat} (hsz : size < SIZE_T)
    (hdev : hip.device.1 = hipSuccess)
    (hhit : malloc_hit a hip.device.2 st (round_size size) = some e)
    (hnone : a.allocated_blocks.lookup (deref a.heap e).ptr = none) :
    (malloc a hip size st).err = hipSuccess ∧
    (malloc a hip size st).devPtr = some (deref a.heap e).ptr ∧
    (free (malloc a hip size st).alloc (malloc a hip size st).hip
      (deref a.heap e).ptr).err = hipSuccess ∧
    (free (malloc a hip size st).alloc (malloc a hip size st).hip
      (deref a.heap e).ptr).hip.calls = HipCall.getDevice hipSuccess hip.device.2 :: hip.calls ∧
    (free (malloc a hip size st).alloc (malloc a hip size st).hip
      (deref a.heap e).ptr).alloc.allocated_blocks = a.allocated_blocks ∧
    (∀ sm, (getPool sm (free (malloc a hip size st).alloc (malloc a hip size st).hip
        (deref a.heap e).ptr).alloc).map
        (deref (free (malloc a hip size st).alloc (malloc a hip size st).hip
          (deref a.heap e).ptr).alloc.heap) =
      (getPool sm a).map (deref a.heap)) ∧
    (∀ sm, pool_descr (free (malloc a hip size st).alloc (malloc a hip size st).hip
        (deref a.heap e).ptr).alloc sm = pool_descr a sm) ∧
    ((deref a.heap e).size - round_size size < split_threshold (round_size size) →
      (free (malloc a hip size st).alloc (malloc a hip size st).hip
        (deref a.heap e).ptr).alloc = a) := by
  obtain ⟨ch, hinv, hgeo⟩ := hr.good
  obtain ⟨_, _, _, _, _, _, hle, hfree, _, _, _, _, _⟩ := hinv.hit_state hhit
  have hrun := malloc_hit_run hdev hle hhit
  have hp0 := ptr_ne_zero_of_reachable hr hs hle
  obtain ⟨p, blk, hp, hlk, _⟩ := malloc_returned_facts hr size st hrun.1
  rw [hrun.2.2] at hp
  have hpe : p = (deref a.heap e).ptr := (Option.some.inj hp).symm
  rw [hpe] at hlk
  have hfo := free_of_allocated (malloc a hip size st).hip hp0 hlk
  have hmaps : (∀ sm, (getPool sm (free (malloc a hip size st).alloc (malloc a hip size st).hip
        (deref a.heap e).ptr).alloc).map
        (deref (free (malloc a hip size st).alloc (malloc a hip size st).hip
          (deref a.heap e).ptr).alloc.heap) = (getPool sm a).map (deref a.heap)) ∧
      (free (malloc a hip size st).alloc (malloc a hip size st).hip
        (deref a.heap e).ptr).alloc.allocated_blocks = a.allocated_blocks := by
    by_cases hw : (deref a.heap e).size - round_size size < split_threshold (round_size size)
    · rw [hit_free_whole hr hs hdev hhit hnone hw]
      exact ⟨fun _ => rfl, rfl⟩
    · obtain ⟨f1, ⟨pre, post, hpool, f2⟩, f3, _, f5⟩ :=
        hit_free_split hr hs hsz hdev hhit hnone (Nat.not_lt.1 hw)
      refine ⟨?_, f1⟩
      have hsorted : Sorted a.heap (pre ++ e :: post) := by
        rw [← hpool]
        exact (hinv.pool _).sorted
      have hnd := hsorted.nodup
      obtain ⟨_, hnp, hnn⟩ := hr.free_neighbours e (by
        have hein : e ∈ getPool (decide (round_size size ≤ kSmallAlloc)) a := by
          rw [hpool]
          simp
        unfold getPool at hein
        split at hein
        · exact Or.inl hein
        · exact Or.inr hein)
      have hcell : ∀ sm2, ∀ y ∈ getPool sm2 a, y ≠ e →
          deref (free (malloc a hip size st).alloc (malloc a hip size st).hip
            (deref a.heap e).ptr).alloc.heap y = deref a.heap y := by
        intro sm2 y hy hye
        have hm := (hinv.pool sm2).mem y hy
        refine f5 y hye (fun hc => not_Live_newPtr a.heap (hc ▸ hm.1)) ?_ ?_
        · intro hc
          obtain ⟨pb, hpb, hpa⟩ := hnp y hc
          have := hm.2.1
          rw [deref_of_live hpb, hpa] at this
          exact absurd this (by decide)
        · intro hc
          obtain ⟨pb, hpb, hpa⟩ := hnn y hc
          have := hm.2.1
          rw [deref_of_live hpb, hpa] at this
          exact absurd this (by decide)
      intro sm
      rw [f2]
      by_cases hsm : sm = decide (round_size size ≤ kSmallAlloc)
      · rw [if_pos hsm, hsm, hpool, List.map_append, List.map_append, List.map_cons,
          List.map_cons, f3]
        have h1 : ∀ y ∈ pre, y ∈ getPool (decide (round_size size ≤ kSmallAlloc)) a ∧ y ≠ e := by
          intro y hy
          refine ⟨by rw [hpool]; exact List.mem_append_left _ hy, fun hc => ?_⟩
          exact (List.nodup_append.1 hnd).2.2 (hc ▸ hy) (List.mem_cons_self _ _)
        have h2 : ∀ y ∈ post, y ∈ getPool (decide (round_size size ≤ kSmallAlloc)) a ∧ y ≠ e := by
          intro y hy
          refine ⟨by rw [hpool]; exact List.mem_append_right _ (List.mem_cons_of_mem _ hy),
            fun hc => ?_⟩
          exact (List.nodup_cons.1 (List.nodup_append.1 hnd).2.1).1 (hc ▸ hy)
        rw [List.map_congr_left (fun y hy => hcell _ y (h1 y hy).1 (h1 y hy).2),
          List.map_congr_left (fun y hy => hcell _ y (h2 y hy).1 (h2 y hy).2)]
      · rw [if_neg hsm]
        apply List.map_congr_left
        intro y hy
        refine hcell sm y hy (fun hc => hsm ?_)
        have hein : e ∈ getPool (decide (round_size size ≤ kSmallAlloc)) a := by
          rw [hpool]
          simp
        exact hinv.pool_class (hc ▸ hy) hein
  refine ⟨hrun.1, hrun.2.2, hfo.1, ?_, hmaps.2, hmaps.1, ?_, ?_⟩
  · rw [hfo.2.1]
    exact hrun.2.1
  · intro sm
    unfold pool_descr
    have := congrArg (List.map Block.descr) (hmaps.1 sm)
    rw [List.map_map, List.map_map] at this
    exact this
  · intro hw
    exact hit_free_whole hr hs hdev hhit hnone hw

/-- C31: on the code.  First part, the failing run: in the state after `malloc(200)` and
`malloc(SIZE_MAX)` on stream 7 of the fresh allocator (reachable, one `hipMalloc`, which
behaved) the table holds the keys 4608 and 4096, the key 4608 for the block of 0 bytes that
the wrapped `round_size` handed out, and the pool holds the free block at 4608.  The
`malloc(200)` that follows is a pool hit on that block, returns 4608 and overwrites the
table entry; the `free(4608)` after it succeeds and leaves the pools with the descriptions
they had, but the table with the key 4096 only.  Second part, what holds: in every reachable
state with a sane runtime record, for a `malloc` that hits the block `e` of the pool while
the table has no entry at the address of `e`, the `malloc` succeeds and returns that
address, the `free` of it succeeds, no primitive allocation or free is called, the table is
the one before the `malloc`, both pools hold the same descriptions (device, stream, size,
address, has-prev, has-next) in the same order, split or not, and a hit that was not split
gives the very same state back.  Third part: a table entry at the address of a cached block
can only belong to a block of 0 bytes. -/
theorem hit_then_free_restores :
    (Reachable zeroSecond.alloc zeroSecond.hip ∧
      hipSane zeroSecond.hip.calls = true ∧
      round_size 18446744073709551615 = 0 ∧
      zeroSecond.alloc.allocated_blocks = [(4608, 2), (4096, 1)] ∧
      (deref zeroSecond.alloc.heap 2).size = 0 ∧
      zeroSecond.alloc.large_blocks = [0] ∧ zeroSecond.alloc.small_blocks = [] ∧
      zeroSecond.hip.device = (hipSuccess, 0) ∧
      malloc_hit zeroSecond.alloc 0 7 (round_size 200) = some 0 ∧
      zeroThird.err = hipSuccess ∧ zeroThird.devPtr = some 4608 ∧
      zeroThirdFreed.err = hipSuccess ∧
      zeroThirdFreed.alloc.allocated_blocks.map Prod.fst = [4096] ∧
      zeroSecond.alloc.allocated_blocks.map Prod.fst = [4608, 4096] ∧
      (∀ sm, pool_descr zeroThirdFreed.alloc sm = pool_descr zeroSecond.alloc sm)) ∧
    (∀ (a : THCCachingAllocator) (hip : Hip), Reachable a hip → hipSane hip.calls = true →
      ∀ (size st e : Nat), size < SIZE_T → hip.device.1 = hipSuccess →
        malloc_hit a hip.device.2 st (round_size size) = some e →
        a.allocated_blocks.lookup (deref a.heap e).ptr = none →
        (malloc a hip size st).err = hipSuccess ∧
        (malloc a hip size st).devPtr = some (deref a.heap e).ptr ∧
        (free (malloc a hip size st).alloc (malloc a hip size st).hip
          (deref a.heap e).ptr).err = hipSuccess ∧
        (free (malloc a hip size st).alloc (malloc a hip size st).hip
          (deref a.heap e).ptr).hip.calls =
            HipCall.getDevice hipSuccess hip.device.2 :: hip.calls ∧
        (free (malloc a hip size st).alloc (malloc a hip size st).hip
          (deref a.heap e).ptr).alloc.allocated_blocks = a.allocated_blocks ∧
        (∀ sm, pool_descr (free (malloc a hip size st).alloc (malloc a hip size st).hip
          (deref a.heap e).ptr).alloc sm = pool_descr a sm) ∧
        ((deref a.heap e).size - round_size size < split_threshold (round_size size) →
          (free (malloc a hip size st).alloc (malloc a hip size st).hip
            (deref a.heap e).ptr).alloc = a)) ∧
    (∀ (a : THCCachingAllocator) (hip : Hip), Reachable a hip → hipSane hip.calls = true →
      ∀ (st r e z : Nat), malloc_hit a hip.device.2 st r = some e →
        a.allocated_blocks.lookup (deref a.heap e).ptr = some z →
        (deref a.heap z).size = 0) :=
  ⟨⟨Reachable.malloc 18446744073709551615 7 afterFirst_reachable (by decide), by decide,
      by decide, by decide, by decide, by decide, by decide, by decide, by decide, by decide,
      by decide, by decide, by decide, by decide, fun sm => by cases sm <;> decide⟩,
    fun _ _ hr hs _ _ _ hsz hdev hhit hnone =>
      let ⟨h1, h2, h3, h4, h5, _, h7, h8⟩ := hit_free_restores hr hs hsz hdev hhit hnone
      ⟨h1, h2, h3, h4, h5, h7, h8⟩,
    fun _ _ hr hs _ _ _ _ hhit hz =>
      table_twin_zero hr hs (by
        have := malloc_hit_mem hhit
        unfold getPool at this
        split at this
        · exact Or.inl this
        · exact Or.inr this) hz⟩

theorem hit_then_free_restores_witness :
    (free (malloc afterFirst.alloc afterFirst.hip 200 7).alloc
      (malloc afterFirst.alloc afterFirst.hip 200 7).hip
      (deref afterFirst.alloc.heap 0).ptr).alloc.allocated_blocks =
        afterFirst.alloc.allocated_blocks ∧
    (∀ sm, pool_descr (free (malloc afterFirst.alloc afterFirst.hip 200 7).alloc
      (malloc afterFirst.alloc afterFirst.hip 200 7).hip
      (deref afterFirst.alloc.heap 0).ptr).alloc sm = pool_descr afterFirst.alloc sm) :=
  let ⟨_, _, _, _, h5, h6, _⟩ := hit_then_free_restores.2.1 afterFirst.alloc afterFirst.hip
    afterFirst_reachable (by decide) 200 7 0 (by decide) (by decide) (by decide) (by decide)
  ⟨h5, h6⟩

/-- C32: in every reachable state, a `malloc` that returns a status other than success
missed the pool (a hit never fails) and wrote no address; the allocated table is unchanged;
and there is a list `gone` of blocks such that both pools are the pools before without the
blocks of `gone`, every other cell of the heap is as before, and each block of `gone` was a
free block of a pool, of the current device, with no sibling, passed to a `hipFree` that
succeeded among the new calls of the record, after the first `hipMalloc` had failed, and is
deleted. -/
theorem malloc_failure_state (a : THCCachingAllocator) (hip : Hip) (hr : Reachable a hip)
    (size st : Nat) (herr : (malloc a hip size st).err ≠ hipSuccess) :
    (hip.device.1 = hipSuccess → malloc_hit a hip.device.2 st (round_size size) = none) ∧
    (malloc a hip size st).devPtr = none ∧
    (malloc a hip size st).alloc.allocated_blocks = a.allocated_blocks ∧
    ∃ gone new,
      (malloc a hip size st).hip.calls = new ++ hip.calls ∧
      (gone ≠ [] → hip.device.1 = hipSuccess ∧
        (hipMalloc (hipGetDevice hip).2.2 (alloc_size (round_size size))).1 ≠ hipSuccess) ∧
      (∀ x ∈ gone, (x ∈ a.large_blocks ∨ x ∈ a.small_blocks) ∧
        (deref a.heap x).device = hip.device.2 ∧ (deref a.heap x).root ∧
        (deref a.heap x).allocated = false ∧
        HipCall.free (deref a.heap x).ptr hipSuccess ∈ new ∧
        (malloc a hip size st).alloc.heap[x]? = some none) ∧
      (malloc a hip size st).alloc.large_blocks =
        a.large_blocks.filter (fun x => decide (x ∉ gone)) ∧
      (malloc a hip size st).alloc.small_blocks =
        a.small_blocks.filter (fun x => decide (x ∉ gone)) ∧
      (∀ q, q ∉ gone → (malloc a hip size st).alloc.heap[q]? = a.heap[q]?) :=
  malloc_failure_effect a hip hr size st herr

theorem malloc_failure_state_witness :
    (malloc twoRoots.alloc hipDry 2097152 7).err ≠ hipSuccess ∧
    (malloc twoRoots.alloc hipDry 2097152 7).devPtr = none ∧
    (malloc twoRoots.alloc hipDry 2097152 7).alloc.allocated_blocks =
      twoRoots.alloc.allocated_blocks :=
  let ⟨_, h2, h3, _⟩ := malloc_failure_state twoRoots.alloc hipDry
    (Reachable.answers (hipSuccess, 0) [] [] twoRoots_reachable) 2097152 7 (by decide)
  ⟨by decide, h2, h3⟩

end THC
